import Mathlib

/-!
# libevmjit (aionr fastvm): basic-block splitter, gas meter, local stack

A verification development over a shallow embedding of

* `Compiler::createBasicBlocks`, the loop of `Compiler::compileBasicBlock` (jump
  table, gas meter, terminators, the arithmetic and stack cases) and
  `Compiler::resolveJumps` (Compiler.cpp),
* `GasMeter` (GasMeter.cpp) together with the body of the emitted `gas.check`,
* `LocalStack` (BasicBlock.cpp) together with the body of the emitted
  `stack.prepare`.

Code iterators are byte offsets from `_codeBegin`; the bytecode is a list of
bytes.  The helper functions that the C++ emits as LLVM IR are kept as IR (a
list of basic blocks of instructions) and given meaning by a small interpreter.
-/

namespace evmjit

/-! ## Instruction set -/

/-- Modelled from the spec: the header `Instruction.h` (the `Instruction`
enumeration and the macros `ANY_PUSH`, `BASE_DUP`, `EXT_DUP`, `BASE_SWAP`,
`EXT_SWAP`) is not among the sources.  An instruction is its one-byte tag; the
tags are the EVM encoding that the spec's examples use (`00` STOP, `01` ADD,
`52` MSTORE, `56` JUMP, `57` JUMPI, `5B` JUMPDEST, `60` PUSH1, `F3` RETURN). -/
abbrev Instruction := Nat

namespace Instruction

abbrev STOP : Instruction := 0x00
abbrev ADD : Instruction := 0x01
abbrev MUL : Instruction := 0x02
abbrev SUB : Instruction := 0x03
abbrev DIV : Instruction := 0x04
abbrev SDIV : Instruction := 0x05
abbrev MOD : Instruction := 0x06
abbrev SMOD : Instruction := 0x07
abbrev ADDMOD : Instruction := 0x08
abbrev MULMOD : Instruction := 0x09
abbrev EXP : Instruction := 0x0a
abbrev SIGNEXTEND : Instruction := 0x0b
abbrev LT : Instruction := 0x10
abbrev GT : Instruction := 0x11
abbrev SLT : Instruction := 0x12
abbrev SGT : Instruction := 0x13
abbrev EQ : Instruction := 0x14
abbrev ISZERO : Instruction := 0x15
abbrev AND : Instruction := 0x16
abbrev OR : Instruction := 0x17
abbrev XOR : Instruction := 0x18
abbrev NOT : Instruction := 0x19
abbrev BYTE : Instruction := 0x1a
abbrev SHA3 : Instruction := 0x20
abbrev ADDRESS : Instruction := 0x30
abbrev BALANCE : Instruction := 0x31
abbrev ORIGIN : Instruction := 0x32
abbrev CALLER : Instruction := 0x33
abbrev CALLVALUE : Instruction := 0x34
abbrev CALLDATALOAD : Instruction := 0x35
abbrev CALLDATASIZE : Instruction := 0x36
abbrev CALLDATACOPY : Instruction := 0x37
abbrev CODESIZE : Instruction := 0x38
abbrev CODECOPY : Instruction := 0x39
abbrev GASPRICE : Instruction := 0x3a
abbrev EXTCODESIZE : Instruction := 0x3b
abbrev EXTCODECOPY : Instruction := 0x3c
abbrev RETURNDATASIZE : Instruction := 0x3d
abbrev RETURNDATACOPY : Instruction := 0x3e
abbrev BLOCKHASH : Instruction := 0x40
abbrev COINBASE : Instruction := 0x41
abbrev TIMESTAMP : Instruction := 0x42
abbrev NUMBER : Instruction := 0x43
abbrev DIFFICULTY : Instruction := 0x44
abbrev GASLIMIT : Instruction := 0x45
abbrev POP : Instruction := 0x50
abbrev MLOAD : Instruction := 0x51
abbrev MSTORE : Instruction := 0x52
abbrev MSTORE8 : Instruction := 0x53
abbrev SLOAD : Instruction := 0x54
abbrev SSTORE : Instruction := 0x55
abbrev JUMP : Instruction := 0x56
abbrev JUMPI : Instruction := 0x57
abbrev PC : Instruction := 0x58
abbrev MSIZE : Instruction := 0x59
abbrev GAS : Instruction := 0x5a
abbrev JUMPDEST : Instruction := 0x5b
abbrev PUSH1 : Instruction := 0x60
abbrev PUSH32 : Instruction := 0x7f
abbrev DUP1 : Instruction := 0x80
abbrev DUP16 : Instruction := 0x8f
abbrev SWAP1 : Instruction := 0x90
abbrev SWAP16 : Instruction := 0x9f
abbrev LOG0 : Instruction := 0xa0
abbrev LOG4 : Instruction := 0xa4
abbrev DUP17 : Instruction := 0xb0
abbrev DUP32 : Instruction := 0xbf
abbrev SWAP17 : Instruction := 0xc0
abbrev SWAP32 : Instruction := 0xcf
abbrev CREATE : Instruction := 0xf0
abbrev CALL : Instruction := 0xf1
abbrev CALLCODE : Instruction := 0xf2
abbrev RETURN : Instruction := 0xf3
abbrev DELEGATECALL : Instruction := 0xf4
abbrev STATICCALL : Instruction := 0xfa
abbrev REVERT : Instruction := 0xfd
abbrev SELFDESTRUCT : Instruction := 0xff

/-- The case labels `ANY_PUSH` (`PUSH1 .. PUSH32`). -/
def isAnyPush (inst : Instruction) : Bool := decide (PUSH1 ≤ inst ∧ inst ≤ PUSH32)

/-- The case labels `BASE_DUP` (`DUP1 .. DUP16`). -/
def isBaseDup (inst : Instruction) : Bool := decide (DUP1 ≤ inst ∧ inst ≤ DUP16)

/-- The case labels `EXT_DUP` (`DUP17 .. DUP32`). -/
def isExtDup (inst : Instruction) : Bool := decide (DUP17 ≤ inst ∧ inst ≤ DUP32)

/-- The case labels `BASE_SWAP` (`SWAP1 .. SWAP16`). -/
def isBaseSwap (inst : Instruction) : Bool := decide (SWAP1 ≤ inst ∧ inst ≤ SWAP16)

/-- The case labels `EXT_SWAP` (`SWAP17 .. SWAP32`). -/
def isExtSwap (inst : Instruction) : Bool := decide (SWAP17 ≤ inst ∧ inst ≤ SWAP32)

/-- The case labels `LOG0 .. LOG4`. -/
def isLog (inst : Instruction) : Bool := decide (LOG0 ≤ inst ∧ inst ≤ LOG4)

end Instruction

open Instruction

/-! ## Bytecode and basic blocks -/

/-- The byte range `[_codeBegin, _codeEnd)`. -/
abbrev Bytecode := List UInt8

/-- The byte `*it` for the iterator at offset `it` from `_codeBegin`
(read as `size_t` / `Instruction`). -/
def byteAt (code : Bytecode) (it : Nat) : Nat := (code.getD it 0).toNat

/-- The class `BasicBlock` (BasicBlock.cpp, constructor): index of the first
instruction, and the iterators `m_begin`, `m_end` as offsets from `_codeBegin`.
The LLVM block created by the constructor is named `"." + firstInstrIdx`. -/
structure BasicBlock where
  m_firstInstrIdx : Nat
  m_begin : Nat
  m_end : Nat
  deriving DecidableEq, Repr

/-- The lambda `skipPushDataAndGetNext` of `Compiler::createBasicBlocks`:
skips push data and finds the next iterator (can be the end). -/
def skipPushDataAndGetNext (code : Bytecode) (curr : Nat) : Nat :=
  let offset : Nat :=
    if PUSH1 ≤ byteAt code curr ∧ byteAt code curr ≤ PUSH32 then
      1 + min (byteAt code curr - PUSH1 + 1) ((code.length - curr) - 1)
    else 1
  curr + offset

/-- The `switch` of `Compiler::createBasicBlocks`, first group of labels: the
instructions after which `isDead` is set. -/
def setsDead (inst : Instruction) : Bool :=
  inst == JUMP || inst == RETURN || inst == REVERT || inst == STOP || inst == SELFDESTRUCT

/-- The variables of the `for` loop of `Compiler::createBasicBlocks`: the cursor
`curr`, the begin of the current block, `isDead` and the vector `blocks`. -/
structure SplitState where
  curr : Nat
  begin : Nat
  isDead : Bool
  blocks : List BasicBlock
  deriving DecidableEq, Repr

/-- One iteration of the `for` loop of `Compiler::createBasicBlocks` (the body,
followed by `curr = next`). -/
def createBasicBlocksBody (code : Bytecode) (s : SplitState) : SplitState :=
  let next := skipPushDataAndGetNext code s.curr
  if s.isDead && byteAt code s.curr != JUMPDEST then
    -- `continue`
    { s with curr := next }
  else
    -- `isDead = false; begin = curr;` when the block was dead
    let begin := if s.isDead then s.curr else s.begin
    let isDead := setsDead (byteAt code s.curr)
    let isEnd := isDead || byteAt code s.curr == JUMPI
      || (next == code.length || byteAt code next == JUMPDEST)
    if isEnd then
      { curr := next, begin := next, isDead := isDead,
        blocks := s.blocks ++ [{ m_firstInstrIdx := begin, m_begin := begin, m_end := next }] }
    else
      { curr := next, begin := begin, isDead := isDead, blocks := s.blocks }

/-- The `for` loop of `Compiler::createBasicBlocks`, one iteration per unit of
fuel, until `curr == _codeEnd`. -/
def createBasicBlocksLoop (code : Bytecode) : Nat → SplitState → SplitState
  | 0, s => s
  | fuel + 1, s =>
    if s.curr = code.length then s
    else createBasicBlocksLoop code fuel (createBasicBlocksBody code s)

/-- The function `Compiler::createBasicBlocks`.  Every iteration advances `curr`
by at least one byte, so `code.length` iterations reach `_codeEnd`
(`createBasicBlocksLoop_inv`, `createBasicBlocksLoop_fuel`). -/
def createBasicBlocks (code : Bytecode) : List BasicBlock :=
  (createBasicBlocksLoop code code.length
    { curr := 0, begin := 0, isDead := false, blocks := [] }).blocks

/-! ## Revisions and the jump table built by `compileBasicBlock` -/

/-- Modelled from the spec: the enumeration `evm_revision` (header `evm.h`, not
among the sources), a closed enumeration with the total order
`FRONTIER < HOMESTEAD < TANGERINE_WHISTLE < SPURIOUS_DRAGON < BYZANTIUM < AION < AION_V1`. -/
inductive evm_revision where
  | EVM_FRONTIER
  | EVM_HOMESTEAD
  | EVM_TANGERINE_WHISTLE
  | EVM_SPURIOUS_DRAGON
  | EVM_BYZANTIUM
  | EVM_AION
  | EVM_AION_V1
  deriving DecidableEq, Repr

open evm_revision

/-- The integer value of a revision. -/
def evm_revision.toNat : evm_revision → Nat
  | EVM_FRONTIER => 0
  | EVM_HOMESTEAD => 1
  | EVM_TANGERINE_WHISTLE => 2
  | EVM_SPURIOUS_DRAGON => 3
  | EVM_BYZANTIUM => 4
  | EVM_AION => 5
  | EVM_AION_V1 => 6

instance : LE evm_revision := ⟨fun a b => a.toNat ≤ b.toNat⟩

instance : LT evm_revision := ⟨fun a b => a.toNat < b.toNat⟩

instance (a b : evm_revision) : Decidable (a ≤ b) :=
  inferInstanceAs (Decidable (a.toNat ≤ b.toNat))

instance (a b : evm_revision) : Decidable (a < b) :=
  inferInstanceAs (Decidable (a.toNat < b.toNat))

/-- The LLVM basic blocks of the main function (`llvm::BasicBlock*`): `Entry`,
the block `"." + firstInstrIdx` of each `BasicBlock`, `Stop`, `JumpTable`,
`Abort`. -/
inductive BlockHandle where
  | entry
  | code (firstInstrIdx : Nat)
  | stop
  | jumpTable
  | abort
  deriving DecidableEq, Repr

/-- The accessor `BasicBlock::llvm()`: the LLVM block made by the constructor. -/
def BasicBlock.llvm (b : BasicBlock) : BlockHandle := BlockHandle.code b.m_firstInstrIdx

/-- The cases of the `switch` that ends `m_jumpTableBB`, in the order of the
`addCase` calls: case value (`Constant::get(firstInstrIdx)`) and successor. -/
abbrev JumpTable := List (Nat × BlockHandle)

/-- Modelled from the spec: `readPushData` (header `Instruction.h`, not among the
sources) decodes the immediate of the PUSHn at `curr`, reading the bytes that
lie before `end`, and leaves the iterator on the last byte it read (on the PUSH
itself when there is none). The result is the new iterator. -/
def readPushData (code : Bytecode) (curr «end» : Nat) : Nat :=
  curr + min (byteAt code curr - PUSH1 + 1) («end» - curr - 1)

/-- The single-instruction case labels of the `switch` of
`Compiler::compileBasicBlock`. -/
def compileLabels : List Instruction :=
  [ADD, SUB, MUL, DIV, SDIV, MOD, SMOD, ADDMOD, MULMOD, EXP, NOT, LT, GT, SLT, SGT, EQ, ISZERO,
   AND, OR, XOR, BYTE, SIGNEXTEND, SHA3, POP, MLOAD, MSTORE, MSTORE8, MSIZE, SLOAD, SSTORE,
   JUMP, JUMPI, JUMPDEST, PC, GAS, ADDRESS, CALLER, ORIGIN, COINBASE, GASPRICE, DIFFICULTY,
   GASLIMIT, NUMBER, TIMESTAMP, CALLVALUE, CODESIZE, CALLDATASIZE, RETURNDATASIZE, BLOCKHASH,
   BALANCE, EXTCODESIZE, CALLDATACOPY, RETURNDATACOPY, CODECOPY, EXTCODECOPY, CALLDATALOAD,
   CREATE, CALL, CALLCODE, DELEGATECALL, STATICCALL, RETURN, REVERT, SELFDESTRUCT, STOP]

/-- The instruction reaches the label `invalidInstruction` of
`Compiler::compileBasicBlock`: through `default`, or through one of the
`goto invalidInstruction` guarded by the revision or by `m_staticCall`. -/
def reachesInvalidInstruction (rev : evm_revision) (staticCall : Bool) (inst : Instruction) :
    Bool :=
  if isExtDup inst || isExtSwap inst then decide (rev < EVM_AION_V1)
  else if inst == SSTORE || inst == CREATE || inst == SELFDESTRUCT || isLog inst then staticCall
  else if inst == RETURNDATASIZE || inst == RETURNDATACOPY || inst == STATICCALL
      || inst == REVERT then decide (rev < EVM_BYZANTIUM)
  else if inst == DELEGATECALL then decide (rev < EVM_HOMESTEAD)
  else !(compileLabels.contains inst || isAnyPush inst || isBaseDup inst || isBaseSwap inst)

/-- The `for` loop of `Compiler::compileBasicBlock`, as far as the iterator `it`
and the jump table go (the IR emitted for the instructions, the gas meter and
the local stack are not tracked here). One iteration per unit of fuel; `none`
when the fuel ends before `it == _basicBlock.end()` or the assertion of the
JUMPDEST rule fails. -/
def compileBasicBlockLoop (code : Bytecode) (rev : evm_revision) (staticCall : Bool)
    (bb : BasicBlock) : Nat → Nat → JumpTable → Option JumpTable
  | 0, it, jumpTable => if it = bb.m_end then some jumpTable else none
  | fuel + 1, it, jumpTable =>
    if it = bb.m_end then some jumpTable
    else
      let inst := byteAt code it
      if inst = JUMPDEST then
        -- `assert(it == _basicBlock.begin() && "JUMPDEST must be the first instruction ...")`
        if it = bb.m_begin then
          -- `jumpTable->addCase(Constant::get(_basicBlock.firstInstrIdx()), _basicBlock.llvm())`
          compileBasicBlockLoop code rev staticCall bb fuel (it + 1)
            (jumpTable ++ [(bb.m_firstInstrIdx, bb.llvm)])
        else none
      else if isAnyPush inst then
        -- `readPushData(it, _basicBlock.end())`
        compileBasicBlockLoop code rev staticCall bb fuel (readPushData code it bb.m_end + 1)
          jumpTable
      else if reachesInvalidInstruction rev staticCall inst then
        -- `it = _basicBlock.end() - 1`
        compileBasicBlockLoop code rev staticCall bb fuel ((bb.m_end - 1) + 1) jumpTable
      else
        compileBasicBlockLoop code rev staticCall bb fuel (it + 1) jumpTable

/-- The function `Compiler::compileBasicBlock`, as far as the jump table goes. -/
def compileBasicBlock (code : Bytecode) (rev : evm_revision) (staticCall : Bool)
    (bb : BasicBlock) (jumpTable : JumpTable) : Option JumpTable :=
  compileBasicBlockLoop code rev staticCall bb (bb.m_end - bb.m_begin) bb.m_begin jumpTable

/-- The loop `for (auto& block: blocks) compileBasicBlock(block, ...)` of
`Compiler::compile`. -/
def compileBlocks (code : Bytecode) (rev : evm_revision) (staticCall : Bool) :
    List BasicBlock → JumpTable → Option JumpTable
  | [], jumpTable => some jumpTable
  | bb :: blocks, jumpTable =>
    (compileBasicBlock code rev staticCall bb jumpTable).bind
      (compileBlocks code rev staticCall blocks)

/-- The function `Compiler::compile`, as far as the jump table goes: the switch
is created without cases, then the blocks of `createBasicBlocks` are compiled
in order (`resolveJumps` and `makeGasoutSupportAarch64` add no case). -/
def compile (code : Bytecode) (rev : evm_revision) (staticCall : Bool) : Option JumpTable :=
  compileBlocks code rev staticCall (createBasicBlocks code) []

/-! ## The emitted helper functions: a small IR and its interpreter -/

namespace IR

/-- The value of a 64-bit integer computation, as a signed integer (two's
complement): the representative of `x` modulo `2^64` in `[-2^63, 2^63)`. -/
def wrapI64 (x : Int) : Int := (x + 2 ^ 63) % 2 ^ 64 - 2 ^ 63

/-- A 64-bit integer read as unsigned. -/
def toU64 (x : Int) : Int := x % 2 ^ 64

/-- Operands of the emitted instructions (`llvm::Value*`). -/
inductive Operand where
  | arg (name : String)
  | reg (name : String)
  | int64 (v : Int)
  | int1 (b : Bool)
  | global (name : String)
  deriving DecidableEq, Repr

/-- The instructions that the helpers are made of.  The flags `nuw` and `nsw` of
`add` and `sub` are kept as emitted. -/
inductive Inst where
  | load (dst : String) (ptr : Operand)
  | store (val : Operand) (ptr : Operand)
  | sub (dst : String) (a b : Operand) (nuw nsw : Bool)
  | add (dst : String) (a b : Operand) (nuw nsw : Bool)
  | icmpSGE (dst : String) (a b : Operand)
  | icmpULE (dst : String) (a b : Operand)
  | and (dst : String) (a b : Operand)
  | gep (dst : String) (base idx : Operand)
  deriving DecidableEq, Repr

/-- Block terminators. -/
inductive Terminator where
  | condBr (cond : Operand) (ifTrue ifFalse : String)
  | ret (v : Operand)
  deriving DecidableEq, Repr

/-- An LLVM basic block of a helper. -/
structure Block where
  name : String
  insts : List Inst
  term : Terminator
  deriving DecidableEq, Repr

/-- A helper function (`llvm::Function`): parameter names and blocks, the entry
block first. -/
structure Func where
  name : String
  params : List String
  blocks : List Block
  deriving DecidableEq, Repr

/-- Run-time values: 64-bit integers (signed reading), booleans, pointers to a
64-bit cell, pointers into the stack of words (counted in words), byte pointers,
and the address of an `i1` global. -/
inductive Value where
  | i64 (v : Int)
  | i1 (b : Bool)
  | ptr (addr : Nat)
  | wordPtr (addr : Int)
  | bytePtr (addr : Nat)
  | globalPtr (name : String)
  deriving DecidableEq, Repr

/-- The memory the helpers touch: the 64-bit cells (gas counter, stack size) and
the `i1` globals of the module (`gas_out`).  Pointers are typed, a pointer to a
64-bit cell never addresses a global. -/
structure Memory where
  cells : Nat → Int
  globals : String → Bool

/-- The memory after a store to the 64-bit cell at `a`. -/
def Memory.setCell (mem : Memory) (a : Nat) (x : Int) : Memory :=
  { mem with cells := fun b => if b = a then x else mem.cells b }

/-- The memory after a store to the `i1` global `g`. -/
def Memory.setGlobal (mem : Memory) (g : String) (x : Bool) : Memory :=
  { mem with globals := fun h => if h = g then x else mem.globals h }

/-- The values of the arguments and of the instructions executed so far, the
latest first. -/
abbrev Env := List (String × Value)

/-- The value of an operand. -/
def evalOperand (env : Env) : Operand → Option Value
  | .arg n => env.lookup n
  | .reg n => env.lookup n
  | .int64 v => some (.i64 (wrapI64 v))
  | .int1 b => some (.i1 b)
  | .global n => some (.globalPtr n)

/-- One instruction.  `add` and `sub` compute modulo `2^64`; this is the result
that LLVM defines whenever the `nuw`/`nsw` flags of the instruction hold. -/
def execInst (env : Env) (mem : Memory) : Inst → Option (Env × Memory)
  | .load dst p =>
    match evalOperand env p with
    | some (.ptr a) => some ((dst, .i64 (mem.cells a)) :: env, mem)
    | _ => none
  | .store v p =>
    match evalOperand env v, evalOperand env p with
    | some (.i64 x), some (.ptr a) => some (env, mem.setCell a x)
    | some (.i1 x), some (.globalPtr g) => some (env, mem.setGlobal g x)
    | _, _ => none
  | .sub dst a b _ _ =>
    match evalOperand env a, evalOperand env b with
    | some (.i64 x), some (.i64 y) => some ((dst, .i64 (wrapI64 (x - y))) :: env, mem)
    | _, _ => none
  | .add dst a b _ _ =>
    match evalOperand env a, evalOperand env b with
    | some (.i64 x), some (.i64 y) => some ((dst, .i64 (wrapI64 (x + y))) :: env, mem)
    | _, _ => none
  | .icmpSGE dst a b =>
    match evalOperand env a, evalOperand env b with
    | some (.i64 x), some (.i64 y) => some ((dst, .i1 (decide (y ≤ x))) :: env, mem)
    | _, _ => none
  | .icmpULE dst a b =>
    match evalOperand env a, evalOperand env b with
    | some (.i64 x), some (.i64 y) => some ((dst, .i1 (decide (toU64 x ≤ toU64 y))) :: env, mem)
    | _, _ => none
  | .and dst a b =>
    match evalOperand env a, evalOperand env b with
    | some (.i1 x), some (.i1 y) => some ((dst, .i1 (x && y)) :: env, mem)
    | _, _ => none
  | .gep dst base idx =>
    match evalOperand env base, evalOperand env idx with
    | some (.wordPtr a), some (.i64 i) => some ((dst, .wordPtr (a + i)) :: env, mem)
    | _, _ => none

/-- The instructions of a block, in order. -/
def execInsts : List Inst → Env → Memory → Option (Env × Memory)
  | [], env, mem => some (env, mem)
  | i :: is, env, mem =>
    match execInst env mem i with
    | some (env', mem') => execInsts is env' mem'
    | none => none

/-- Execution from the block named `label` until a `ret`; one block per unit of
fuel. -/
def runBlocks (f : Func) : Nat → String → Env → Memory → Option (Value × Memory)
  | 0, _, _, _ => none
  | fuel + 1, label, env, mem =>
    match f.blocks.find? (fun b => b.name == label) with
    | none => none
    | some b =>
      match execInsts b.insts env mem with
      | none => none
      | some (env', mem') =>
        match b.term with
        | .ret v =>
          match evalOperand env' v with
          | some r => some (r, mem')
          | none => none
        | .condBr c t e =>
          match evalOperand env' c with
          | some (.i1 true) => runBlocks f fuel t env' mem'
          | some (.i1 false) => runBlocks f fuel e env' mem'
          | _ => none

/-- A call of a helper: the returned value and the memory after the call. -/
def call (f : Func) (args : List Value) (mem : Memory) : Option (Value × Memory) :=
  match f.blocks with
  | [] => none
  | entry :: _ =>
    if args.length = f.params.length then
      runBlocks f f.blocks.length entry.name (f.params.zip args) mem
    else none

/-- The names of the blocks that an execution from the block named `label`
enters, in order, until a `ret`; the same traversal as `runBlocks`. -/
def runPath (f : Func) : Nat → String → Env → Memory → Option (List String)
  | 0, _, _, _ => none
  | fuel + 1, label, env, mem =>
    match f.blocks.find? (fun b => b.name == label) with
    | none => none
    | some b =>
      match execInsts b.insts env mem with
      | none => none
      | some (env', mem') =>
        match b.term with
        | .ret v =>
          match evalOperand env' v with
          | some _ => some [label]
          | none => none
        | .condBr c t e =>
          match evalOperand env' c with
          | some (.i1 true) => (runPath f fuel t env' mem').map (label :: ·)
          | some (.i1 false) => (runPath f fuel e env' mem').map (label :: ·)
          | _ => none

/-- The path of a call of a helper: the names of the blocks it executes. -/
def callPath (f : Func) (args : List Value) (mem : Memory) : Option (List String) :=
  match f.blocks with
  | [] => none
  | entry :: _ =>
    if args.length = f.params.length then
      runPath f f.blocks.length entry.name (f.params.zip args) mem
    else none

end IR

open IR

/-! ## GasMeter -/

/-- The module global `gas_out` that `Compiler::compile` creates and hands to
`GasMeter` and `LocalStack` as `m_gasout`. -/
def gas_out : String := "gas_out"

/-- The function `gas.check` that the constructor `GasMeter::GasMeter` emits:
blocks `Check`, `Update`, `OutOfGas`. -/
def gasCheckFunc : IR.Func :=
  { name := "gas.check"
    params := ["gasPtr", "cost", "jmpBuf"]
    blocks :=
      [ { name := "Check"
          insts :=
            [ .load "gas" (.arg "gasPtr"),
              .sub "gasUpdated" (.reg "gas") (.arg "cost") false true,
              .icmpSGE "gasOk" (.reg "gasUpdated") (.int64 0) ]
          term := .condBr (.reg "gasOk") "Update" "OutOfGas" },
        { name := "Update"
          insts := [ .store (.reg "gasUpdated") (.arg "gasPtr") ]
          term := .ret (.int1 false) },
        { name := "OutOfGas"
          insts := [ .store (.int1 true) (.global gas_out) ]
          term := .ret (.int1 true) } ] }

/-- The constants of `JITSchedule` that `GasMeter` and the compiler read (header
`JIT.h`, not among the sources): a parameter of the gas meter.  They are
non-negative compile-time constants. -/
structure JITSchedule where
  stepGas0 : Nat
  stepGas1 : Nat
  stepGas2 : Nat
  stepGas3 : Nat
  stepGas4 : Nat
  stepGas5 : Nat
  stepGas6 : Nat
  sha3Gas : Nat
  sloadGas : Nat
  jumpdestGas : Nat
  logGas : Nat
  logTopicGas : Nat
  callGas : Nat
  createGas : Nat
  valueTransferGas : Nat
  expByteGas : Nat
  sha3WordGas : Nat
  logDataGas : Nat
  sstoreSetGas : Nat
  sstoreResetGas : Nat
  sstoreClearGas : Nat
  deriving DecidableEq, Repr

/-- Modelled from the spec: the values of `JITSchedule` (header `JIT.h`, not
among the sources).  The spec's gas table gives `stepGas6 = 20` (BALANCE,
EXTCODESIZE before TANGERINE_WHISTLE), `sloadGas = 50`, `callGas = 40`,
`createGas = 32000`, `logGas = logTopicGas = 375`, `valueTransferGas = 9000`,
`expByteGas = 10`, `logDataGas = 8`, `sstoreResetGas = 5000`; its first
end-to-end scenario (PUSH1 PUSH1 ADD STOP costs 9) gives
`stepGas2 = 3` and `stepGas0 = 0`; the other tiers, `sha3WordGas = 6`,
`sstoreSetGas = 20000` and `sstoreClearGas = 5000` are the EVM's. -/
def evmSchedule : JITSchedule :=
  { stepGas0 := 0, stepGas1 := 2, stepGas2 := 3, stepGas3 := 5, stepGas4 := 8, stepGas5 := 10,
    stepGas6 := 20, sha3Gas := 30, sloadGas := 50, jumpdestGas := 1, logGas := 375,
    logTopicGas := 375, callGas := 40, createGas := 32000, valueTransferGas := 9000,
    expByteGas := 10, sha3WordGas := 6, logDataGas := 8, sstoreSetGas := 20000,
    sstoreResetGas := 5000, sstoreClearGas := 5000 }

/-- The function `GasMeter::getStepCost`. -/
def getStepCost (sched : JITSchedule) (m_rev : evm_revision) (inst : Instruction) : Int :=
  -- Tier 0
  if [STOP, RETURN, REVERT, SSTORE].contains inst then sched.stepGas0
  -- Tier 1
  else if [ADDRESS, ORIGIN, CALLER, CALLVALUE, CALLDATASIZE, RETURNDATASIZE, CODESIZE, GASPRICE,
      COINBASE, TIMESTAMP, NUMBER, DIFFICULTY, GASLIMIT, POP, PC, MSIZE, GAS].contains inst then
    if m_rev ≥ EVM_AION then 1 else sched.stepGas1
  -- Tier 2
  else if [ADD, SUB, LT, GT, SLT, SGT, EQ, ISZERO, AND, OR, XOR, NOT, BYTE, CALLDATALOAD,
      CALLDATACOPY, RETURNDATACOPY, CODECOPY, MLOAD, MSTORE, MSTORE8].contains inst
      || isAnyPush inst || isBaseDup inst || isBaseSwap inst || isExtDup inst
      || isExtSwap inst then
    if m_rev ≥ EVM_AION then 1 else sched.stepGas2
  -- Tier 3
  else if [MUL, DIV, SDIV, MOD, SMOD, SIGNEXTEND].contains inst then
    if m_rev ≥ EVM_AION then 1 else sched.stepGas3
  -- Tier 4
  else if [ADDMOD, MULMOD, JUMP].contains inst then
    if m_rev ≥ EVM_AION then 1 else sched.stepGas4
  -- Tier 5
  else if [EXP, JUMPI].contains inst then
    if m_rev ≥ EVM_AION then 1 else sched.stepGas5
  -- Tier 6
  else if inst = BALANCE then
    if m_rev ≥ EVM_AION then 1000
    else if m_rev ≥ EVM_TANGERINE_WHISTLE then 400 else sched.stepGas6
  else if [EXTCODESIZE, EXTCODECOPY].contains inst then
    if m_rev ≥ EVM_AION then 1000
    else if m_rev ≥ EVM_TANGERINE_WHISTLE then 700 else sched.stepGas6
  else if inst = BLOCKHASH then sched.stepGas6
  else if inst = SHA3 then sched.sha3Gas
  else if inst = SLOAD then
    if m_rev ≥ EVM_AION then 1000
    else if m_rev ≥ EVM_TANGERINE_WHISTLE then 200 else sched.sloadGas
  else if inst = JUMPDEST then sched.jumpdestGas
  else if isLog inst then
    let numTopics : Int := (inst : Int) - (LOG0 : Int)
    (if m_rev ≥ EVM_AION then 500 else (sched.logGas : Int))
      + numTopics * (if m_rev ≥ EVM_AION then 500 else (sched.logTopicGas : Int))
  else if [CALL, CALLCODE, DELEGATECALL, STATICCALL].contains inst then
    if m_rev ≥ EVM_AION then 1000
    else if m_rev ≥ EVM_TANGERINE_WHISTLE then 700 else sched.callGas
  else if inst = CREATE then
    if m_rev ≥ EVM_AION then 200000 else sched.createGas
  else if inst = SELFDESTRUCT then
    if m_rev ≥ EVM_TANGERINE_WHISTLE then 5000 else sched.stepGas0
  else
    -- For invalid instruction just return 0.
    0

/-- The cost operand of an emitted `gas.check` call: `llvm::UndefValue` in the
placeholder that `count` creates, or the constant `m_builder.getInt64(...)` that
`commitCostBlock` puts in. -/
inductive CostArg where
  | undef
  | int64 (v : Int)
  deriving DecidableEq, Repr

/-- The class `GasMeter`, as far as `count(Instruction)` and `commitCostBlock`
go: the pending placeholder call `m_checkCall` (its position in `ir`, `none` for
`nullptr`), the accumulator `m_blockCost`, and the `gas.check` calls emitted so
far in program order (their cost operands). -/
structure GasMeter where
  m_checkCall : Option Nat
  m_blockCost : Int
  ir : List CostArg
  deriving DecidableEq, Repr

/-- The gas meter after its constructor. -/
def GasMeter.fresh : GasMeter := { m_checkCall := none, m_blockCost := 0, ir := [] }

/-- The method `GasMeter::count(Instruction)`. -/
def GasMeter.count (sched : JITSchedule) (m_rev : evm_revision) (g : GasMeter)
    (inst : Instruction) : GasMeter :=
  let g1 : GasMeter :=
    match g.m_checkCall with
    | none =>
      -- Create gas check call with mocked block cost at begining of current cost-block
      { g with m_checkCall := some g.ir.length, ir := g.ir ++ [CostArg.undef] }
    | some _ => g
  { g1 with m_blockCost := g1.m_blockCost + getStepCost sched m_rev inst }

/-- The method `GasMeter::commitCostBlock`; `none` when the closing
`assert(m_blockCost == 0)` fails. -/
def GasMeter.commitCostBlock (g : GasMeter) : Option GasMeter :=
  match g.m_checkCall with
  | some i =>
    if g.m_blockCost = 0 then
      -- Do not check 0: remove the gas check call, `return`
      some { g with ir := g.ir.eraseIdx i, m_checkCall := none }
    else
      -- Update block cost in gas check call, end cost-block
      some { m_checkCall := none, m_blockCost := 0, ir := g.ir.set i (CostArg.int64 g.m_blockCost) }
  | none => if g.m_blockCost = 0 then some g else none

/-- A call of one of the two methods. -/
inductive GasOp where
  | count (inst : Instruction)
  | commitCostBlock
  deriving DecidableEq, Repr

/-- A sequence of calls of `count(Instruction)` and `commitCostBlock` on a gas
meter; `none` when an assertion fails. -/
def GasMeter.run (sched : JITSchedule) (m_rev : evm_revision) :
    List GasOp → GasMeter → Option GasMeter
  | [], g => some g
  | GasOp.count inst :: ops, g => GasMeter.run sched m_rev ops (g.count sched m_rev inst)
  | GasOp.commitCostBlock :: ops, g =>
    match g.commitCostBlock with
    | some g1 => GasMeter.run sched m_rev ops g1
    | none => none

/-- Execution of the emitted `gas.check` calls of a block in order, each
followed by the poll of `gas_out` that `makeGasoutSupportAarch64` inserts (a
call that returns 1 has set `gas_out`, the poll branches to `Abort`).  The
result is `true` when the block is left for `Abort`, with the memory then. -/
def runGasChecks (gasPtr jmpBuf : Nat) : List CostArg → IR.Memory → Option (Bool × IR.Memory)
  | [], mem => some (false, mem)
  | CostArg.undef :: _, _ => none
  | CostArg.int64 v :: cs, mem =>
    match IR.call gasCheckFunc [.ptr gasPtr, .i64 (wrapI64 v), .bytePtr jmpBuf] mem with
    | some (.i1 false, mem1) => runGasChecks gasPtr jmpBuf cs mem1
    | some (.i1 true, mem1) => some (true, mem1)
    | _ => none

/-! ## LocalStack -/

/-- An IR value of the main function (`llvm::Value*`), as the expression that
computes it.  The local stack holds values of type `Word` (128 bits): a value
that instructions outside this model computed (`value`), the load of the global
stack slot `sp + globalIdx` that `LocalStack::get` emits (`load`), an integer
constant of a given width (`llvm::ConstantInt`), or the result of an
instruction that the compiler built from other values.  `add` and `mul` keep
their `nuw` flag; `ctlz` is the call of the intrinsic `llvm.ctlz` with the
second argument `false` (the result for 0 is defined); `undef` is the constant
`llvm::UndefValue` of a given width, which the constant folder returns for a
division of constants that has no defined result. -/
inductive Word where
  | value (id : Nat)
  | load (globalIdx : Int)
  | const (bits : Nat) (v : Nat)
  | trunc (a : Word) (bits : Nat)
  | zext (a : Word) (bits : Nat)
  | add (a b : Word) (nuw : Bool)
  | sub (a b : Word)
  | mul (a b : Word) (nuw : Bool)
  | udiv (a b : Word)
  | urem (a b : Word)
  | sdiv (a b : Word)
  | srem (a b : Word)
  | and (a b : Word)
  | or (a b : Word)
  | xor (a b : Word)
  | shl (a b : Word)
  | lshr (a b : Word)
  | icmpEQ (a b : Word)
  | icmpNE (a b : Word)
  | icmpULE (a b : Word)
  | icmpUGT (a b : Word)
  | select (c a b : Word)
  | ctlz (a : Word)
  | undef (bits : Nat)
  deriving DecidableEq, Repr

/-- Modelled from the spec: the data members of `LocalStack` (header
`BasicBlock.h`, not among the sources): `local` (top at the back), `input`
(`none` for a null entry), `global_pops`, `min_size`, `max_size`, all empty or 0
at construction. -/
structure LocalStack where
  m_local : List Word
  m_input : List (Option Word)
  m_globalPops : Nat
  m_minSize : Int
  m_maxSize : Int
  deriving DecidableEq, Repr

namespace LocalStack

/-- The local stack after its constructor. -/
def fresh : LocalStack :=
  { m_local := [], m_input := [], m_globalPops := 0, m_minSize := 0, m_maxSize := 0 }

/-- Modelled from the spec: the accessor `size()` (header `BasicBlock.h`),
`current_size = len(local) - global_pops`. -/
def size (s : LocalStack) : Int := (s.m_local.length : Int) - (s.m_globalPops : Int)

/-- The method `LocalStack::push`. -/
def push (s : LocalStack) (value : Word) : LocalStack :=
  let s1 := { s with m_local := s.m_local ++ [value] }
  { s1 with m_maxSize := max s1.m_maxSize s1.size }

/-- The call `m_input.resize(n)` of `std::vector`: truncated or filled up with
null pointers to length `n`. -/
def resize (input : List (Option Word)) (n : Nat) : List (Option Word) :=
  (input ++ List.replicate (n - input.length) none).take n

/-- The method `LocalStack::get`; the second component is the stack after the
call (a first read below the entry top extends `m_input`, emits the load and
lowers `m_minSize`). `none` for an access outside a vector, which the guards
exclude (`get_spec`). -/
def get (s : LocalStack) (index : Nat) : Option (Word × LocalStack) :=
  if index < s.m_local.length then
    -- count from back
    match s.m_local[s.m_local.length - 1 - index]? with
    | some item => some (item, s)
    | none => none
  else
    let idx := index - s.m_local.length + s.m_globalPops
    let input := if idx ≥ s.m_input.length then resize s.m_input (idx + 1) else s.m_input
    match input[idx]? with
    | some (some item) => some (item, { s with m_input := input })
    | some none =>
      -- Fetch an item from global stack
      let globalIdx : Int := -(idx : Int) - 1
      let item := Word.load globalIdx
      some (item, { s with m_input := input.set idx (some item),
                           m_minSize := min s.m_minSize globalIdx })
    | none => none

/-- The method `LocalStack::pop`; `none` when the `assert` fails. -/
def pop (s : LocalStack) : Option (Word × LocalStack) :=
  match s.get 0 with
  | none => none
  | some (item, s1) =>
    if s1.m_local.isEmpty && s1.m_input.isEmpty then none
    else
      let s2 :=
        if s1.m_local.length > 0 then { s1 with m_local := s1.m_local.dropLast }
        else { s1 with m_globalPops := s1.m_globalPops + 1 }
      some (item, { s2 with m_minSize := min s2.m_minSize s2.size })

/-- The method `LocalStack::dup`. -/
def dup (s : LocalStack) (index : Nat) : Option LocalStack :=
  match s.get index with
  | none => none
  | some (val, s1) => some (s1.push val)

/-- The method `LocalStack::set`; `none` when `assert(idx < m_input.size())`
fails. -/
def set (s : LocalStack) (index : Nat) (word : Word) : Option LocalStack :=
  if index < s.m_local.length then
    some { s with m_local := s.m_local.set (s.m_local.length - 1 - index) word }
  else
    let idx := index - s.m_local.length + s.m_globalPops
    if idx < s.m_input.length then some { s with m_input := s.m_input.set idx (some word) }
    else none

/-- The method `LocalStack::swap`; `none` when `assert(_index > 0)` or the
assertion of `set` fails. -/
def swap (s : LocalStack) (index : Nat) : Option LocalStack :=
  if index > 0 then
    match s.get index with
    | none => none
    | some (val, s1) =>
      match s1.get 0 with
      | none => none
      | some (tos, s2) =>
        match s2.set index tos with
        | none => none
        | some s3 => s3.set 0 val
  else none

/-- The three arguments that `LocalStack::finalize` writes into the
`stack.prepare` call: `minSize()`, `maxSize()`, `size()`. -/
def finalizeArgs (s : LocalStack) : Int × Int × Int := (s.m_minSize, s.m_maxSize, s.size)

/-- A call of one of the stack operations that the compiler makes. -/
inductive Op where
  | push (value : Word)
  | pop
  | get (index : Nat)
  | dup (index : Nat)
  | swap (index : Nat)
  deriving DecidableEq, Repr

/-- One operation; `none` when an assertion fails. -/
def step (s : LocalStack) : Op → Option LocalStack
  | Op.push v => some (s.push v)
  | Op.pop => (s.pop).map (fun r => r.2)
  | Op.get i => (s.get i).map (fun r => r.2)
  | Op.dup i => s.dup i
  | Op.swap i => s.swap i

/-- A sequence of operations; `none` when an assertion fails. -/
def run : List Op → LocalStack → Option LocalStack
  | [], s => some s
  | op :: ops, s =>
    match s.step op with
    | some s1 => run ops s1
    | none => none

end LocalStack

/-- Modelled from the spec: the constant `RuntimeManager::stackSizeLimit`
(header `RuntimeManager.h`, not among the sources), the stack limit of 1024
entries. -/
def stackSizeLimit : Int := 1024

/-- The function `stack.prepare` that `LocalStack::getStackPrepareFunc` emits:
blocks `Check`, `Update`, `OutOfStack`. -/
def getStackPrepareFunc : IR.Func :=
  { name := "stack.prepare"
    params := ["base", "size.ptr", "min", "max", "diff", "jmpBuf"]
    blocks :=
      [ { name := "Check"
          insts :=
            [ .load "size" (.arg "size.ptr"),
              .add "size.min" (.reg "size") (.arg "min") false true,
              .add "size.max" (.reg "size") (.arg "max") true true,
              .icmpSGE "ok.min" (.reg "size.min") (.int64 0),
              .icmpULE "ok.max" (.reg "size.max") (.int64 stackSizeLimit),
              .and "ok" (.reg "ok.min") (.reg "ok.max") ]
          term := .condBr (.reg "ok") "Update" "OutOfStack" },
        { name := "Update"
          insts :=
            [ .add "size.next" (.reg "size") (.arg "diff") false true,
              .store (.reg "size.next") (.arg "size.ptr"),
              .gep "sp" (.arg "base") (.reg "size") ]
          term := .ret (.reg "sp") },
        { name := "OutOfStack"
          insts :=
            [ .store (.int1 true) (.global gas_out),
              .add "size.next" (.reg "size") (.arg "diff") false true,
              .store (.reg "size.next") (.arg "size.ptr"),
              .gep "sp" (.arg "base") (.reg "size") ]
          term := .ret (.reg "sp") } ] }

/-! ## The values of the main function: evaluation and the instruction builder -/

/-- A value of an integer type at run time: the width of the type in bits and
the value, read as an unsigned number below `2 ^ bits`. -/
structure BV where
  bits : Nat
  val : Nat
  deriving DecidableEq, Repr

/-- What the value of an expression depends on: the values of the words that
instructions outside this model computed, the words in the slots of the global
stack, and the value that LLVM leaves undefined: the result of a shift by the
width or more, by its operands, and the constant `undef` (at the operands 0, 0).
A division whose result is undefined has no value at all: executing it is
undefined behaviour (see `Word.divop`).  Statements about the compiled code
hold for every environment. -/
structure EvalEnv where
  value : Nat → Nat
  stack : Int → Nat
  undef : Nat → Nat → Nat

namespace Word

/-- The signed (two's complement) reading of a value of `bits` bits. -/
def toSigned (bits x : Nat) : Int :=
  if x < 2 ^ (bits - 1) then (x : Int) else (x : Int) - 2 ^ bits

/-- The value of `bits` bits whose signed reading is congruent to `i`. -/
def ofSigned (bits : Nat) (i : Int) : Nat := (i % 2 ^ bits).toNat

/-- The result of `add`, before the reduction to the width. -/
def addOp (_bits x y : Nat) : Option Nat := some (x + y)

/-- The result of `sub`, before the reduction to the width. -/
def subOp (bits x y : Nat) : Option Nat := some (x + 2 ^ bits - y)

/-- The result of `mul`, before the reduction to the width. -/
def mulOp (_bits x y : Nat) : Option Nat := some (x * y)

/-- The result of `udiv`: none for the divisor 0, where the instruction is
undefined behaviour. -/
def udivOp (_bits x y : Nat) : Option Nat := if y = 0 then none else some (x / y)

/-- The result of `urem`: none for the divisor 0, where the instruction is
undefined behaviour. -/
def uremOp (_bits x y : Nat) : Option Nat := if y = 0 then none else some (x % y)

/-- The result of `sdiv`, the signed quotient rounded towards zero: none for
the divisor 0 and for the least integer divided by -1 (an overflow), where the
instruction is undefined behaviour. -/
def sdivOp (bits x y : Nat) : Option Nat :=
  if y = 0 then none
  else if x = 2 ^ (bits - 1) ∧ y = 2 ^ bits - 1 then none
  else some (ofSigned bits (Int.tdiv (toSigned bits x) (toSigned bits y)))

/-- The result of `srem`, the signed remainder with the sign of the dividend:
none where `sdiv` is, and undefined behaviour there as well. -/
def sremOp (bits x y : Nat) : Option Nat :=
  if y = 0 then none
  else if x = 2 ^ (bits - 1) ∧ y = 2 ^ bits - 1 then none
  else some (ofSigned bits (Int.tmod (toSigned bits x) (toSigned bits y)))

/-- The result of `and`. -/
def andOp (_bits x y : Nat) : Option Nat := some (x &&& y)

/-- The result of `or`. -/
def orOp (_bits x y : Nat) : Option Nat := some (x ||| y)

/-- The result of `xor`. -/
def xorOp (_bits x y : Nat) : Option Nat := some (x ^^^ y)

/-- The result of `shl`, before the reduction to the width: none for a shift by
the width or more, where the instruction returns an undefined value. -/
def shlOp (bits x y : Nat) : Option Nat := if y < bits then some (x <<< y) else none

/-- The result of `lshr`: none for a shift by the width or more, where the
instruction returns an undefined value. -/
def lshrOp (bits x y : Nat) : Option Nat := if y < bits then some (x >>> y) else none

/-- A binary operation other than a division on two values of the same type:
the result of `f` reduced to the width, the value of the environment where `f`
is undefined (the shifts by the width or more: the instruction is executed and
returns an undefined value). -/
def binop (env : EvalEnv) (f : Nat → Nat → Nat → Option Nat) : Option BV → Option BV → Option BV
  | some x, some y =>
    if x.bits = y.bits then
      some ⟨x.bits, (f x.bits x.val y.val).getD (env.undef x.val y.val) % 2 ^ x.bits⟩
    else none
  | _, _ => none

/-- A division (`udiv`, `urem`, `sdiv`, `srem`) of two values of the same type:
the result of `f` reduced to the width.  Where `f` is undefined (the divisor 0,
the signed division of the least integer by -1) the instruction is undefined
behaviour in LLVM, not an instruction with an arbitrary result: the execution
has no value, `none`. -/
def divop (f : Nat → Nat → Nat → Option Nat) : Option BV → Option BV → Option BV
  | some x, some y =>
    if x.bits = y.bits then
      match f x.bits x.val y.val with
      | some v => some ⟨x.bits, v % 2 ^ x.bits⟩
      | none => none
    else none
  | _, _ => none

/-- A comparison of two values of the same type, with a result of type `i1`. -/
def cmpop (f : Nat → Nat → Bool) : Option BV → Option BV → Option BV
  | some x, some y => if x.bits = y.bits then some ⟨1, if f x.val y.val then 1 else 0⟩ else none
  | _, _ => none

/-- The value of an expression; `none` for an instruction whose operand types
do not fit (the builder cannot create it), and for an expression that executes
a division with undefined behaviour: every instruction of the expression is
executed, also the operand of a `select` that is not selected. -/
def eval (env : EvalEnv) : Word → Option BV
  | value id => some ⟨128, env.value id % 2 ^ 128⟩
  | load globalIdx => some ⟨128, env.stack globalIdx % 2 ^ 128⟩
  | const bits v => some ⟨bits, v % 2 ^ bits⟩
  | trunc a bits =>
    match eval env a with
    | some x => if bits ≤ x.bits then some ⟨bits, x.val % 2 ^ bits⟩ else none
    | none => none
  | zext a bits =>
    match eval env a with
    | some x => if x.bits ≤ bits then some ⟨bits, x.val % 2 ^ bits⟩ else none
    | none => none
  | add a b _ => binop env addOp (eval env a) (eval env b)
  | sub a b => binop env subOp (eval env a) (eval env b)
  | mul a b _ => binop env mulOp (eval env a) (eval env b)
  | udiv a b => divop udivOp (eval env a) (eval env b)
  | urem a b => divop uremOp (eval env a) (eval env b)
  | sdiv a b => divop sdivOp (eval env a) (eval env b)
  | srem a b => divop sremOp (eval env a) (eval env b)
  | and a b => binop env andOp (eval env a) (eval env b)
  | or a b => binop env orOp (eval env a) (eval env b)
  | xor a b => binop env xorOp (eval env a) (eval env b)
  | shl a b => binop env shlOp (eval env a) (eval env b)
  | lshr a b => binop env lshrOp (eval env a) (eval env b)
  | icmpEQ a b => cmpop (fun x y => decide (x = y)) (eval env a) (eval env b)
  | icmpNE a b => cmpop (fun x y => decide (x ≠ y)) (eval env a) (eval env b)
  | icmpULE a b => cmpop (fun x y => decide (x ≤ y)) (eval env a) (eval env b)
  | icmpUGT a b => cmpop (fun x y => decide (x > y)) (eval env a) (eval env b)
  | select c a b =>
    match eval env c, eval env a, eval env b with
    | some cv, some x, some y =>
      if cv.bits = 1 ∧ x.bits = y.bits then some (if cv.val = 1 then x else y) else none
    | _, _, _ => none
  | ctlz a =>
    match eval env a with
    | some x => some ⟨x.bits, (x.bits - Nat.size x.val) % 2 ^ x.bits⟩
    | none => none
  | undef bits => some ⟨bits, env.undef 0 0 % 2 ^ bits⟩

/-- The width of the type of a value (`getType()`). -/
def ty : Word → Nat
  | value _ => 128
  | load _ => 128
  | const bits _ => bits
  | trunc _ bits => bits
  | zext _ bits => bits
  | add a _ _ => ty a
  | sub a _ => ty a
  | mul a _ _ => ty a
  | udiv a _ => ty a
  | urem a _ => ty a
  | sdiv a _ => ty a
  | srem a _ => ty a
  | and a _ => ty a
  | or a _ => ty a
  | xor a _ => ty a
  | shl a _ => ty a
  | lshr a _ => ty a
  | icmpEQ _ _ => 1
  | icmpNE _ _ => 1
  | icmpULE _ _ => 1
  | icmpUGT _ _ => 1
  | select _ a _ => ty a
  | ctlz a => ty a
  | undef bits => bits

/-- The type and value of a constant (`llvm::dyn_cast<llvm::ConstantInt>`);
`none` for a value that is not an integer constant. -/
def constOf : Word → Option BV
  | const bits v => some ⟨bits, v % 2 ^ bits⟩
  | _ => none

/-- The type of a constant (`llvm::dyn_cast<llvm::Constant>`): an integer
constant or `undef`; `none` for a value that an instruction computes. -/
def constTy : Word → Option Nat
  | const bits _ => some bits
  | undef bits => some bits
  | _ => none

end Word

/-- Modelled from the spec: `Constant::get(int64_t)` (header `Type.h`, not among
the sources), the constant of type `Word` (128 bits) with the sign-extended
value. -/
def Constant.get (n : Int) : Word := Word.const 128 (n % 2 ^ 128).toNat

/-- Modelled from the spec: `Constant::gasMax` (header `Type.h`, not among the
sources), the constant of type `Gas` (64 bits) with the greatest signed value. -/
def Constant.gasMax : Word := Word.const 64 (2 ^ 63 - 1)

/-! The class `llvm::IRBuilder` with its default constant folder: an instruction
whose operands are all constants is not created, the builder returns the
constant of its value; a cast to the type that the value has returns the value.
Where the value is not defined, the folder returns `undef` for a division
(`X / 0`, `X % 0`, the least integer divided by -1), so no division with
undefined behaviour is emitted for constant operands; for a shift by the width
or more this model keeps the instruction, which has the same undefined value.
The compiler passes an `undef` on to `CreateTrunc` and `CreateSelect` only. -/

namespace IRBuilder

/-- The constant `getInt64(n)`. -/
def getInt64 (n : Int) : Word := Word.const 64 (n % 2 ^ 64).toNat

/-- The folding of a binary instruction `inst` other than a division, with the
operands `a`, `b`. -/
def foldBin (f : Nat → Nat → Nat → Option Nat) (a b inst : Word) : Word :=
  match a.constOf, b.constOf with
  | some x, some y =>
    if x.bits = y.bits then
      match f x.bits x.val y.val with
      | some v => Word.const x.bits (v % 2 ^ x.bits)
      | none => inst
    else inst
  | _, _ => inst

/-- The folding of a division `inst` with the operands `a`, `b`: for integer
constants the constant of the result, `undef` where it is undefined. -/
def foldDiv (f : Nat → Nat → Nat → Option Nat) (a b inst : Word) : Word :=
  match a.constOf, b.constOf with
  | some x, some y =>
    if x.bits = y.bits then
      match f x.bits x.val y.val with
      | some v => Word.const x.bits (v % 2 ^ x.bits)
      | none => Word.undef x.bits
    else inst
  | _, _ => inst

/-- The folding of a comparison `inst` with the operands `a`, `b`. -/
def foldCmp (f : Nat → Nat → Bool) (a b inst : Word) : Word :=
  match a.constOf, b.constOf with
  | some x, some y => if x.bits = y.bits then Word.const 1 (if f x.val y.val then 1 else 0) else inst
  | _, _ => inst

def CreateAdd (a b : Word) : Word := foldBin Word.addOp a b (Word.add a b false)
def CreateNUWAdd (a b : Word) : Word := foldBin Word.addOp a b (Word.add a b true)
def CreateSub (a b : Word) : Word := foldBin Word.subOp a b (Word.sub a b)
def CreateMul (a b : Word) : Word := foldBin Word.mulOp a b (Word.mul a b false)
def CreateNUWMul (a b : Word) : Word := foldBin Word.mulOp a b (Word.mul a b true)
def CreateUDiv (a b : Word) : Word := foldDiv Word.udivOp a b (Word.udiv a b)
def CreateURem (a b : Word) : Word := foldDiv Word.uremOp a b (Word.urem a b)
def CreateSDiv (a b : Word) : Word := foldDiv Word.sdivOp a b (Word.sdiv a b)
def CreateSRem (a b : Word) : Word := foldDiv Word.sremOp a b (Word.srem a b)
def CreateAnd (a b : Word) : Word := foldBin Word.andOp a b (Word.and a b)
def CreateOr (a b : Word) : Word := foldBin Word.orOp a b (Word.or a b)
def CreateXor (a b : Word) : Word := foldBin Word.xorOp a b (Word.xor a b)
def CreateShl (a b : Word) : Word := foldBin Word.shlOp a b (Word.shl a b)
def CreateLShr (a b : Word) : Word := foldBin Word.lshrOp a b (Word.lshr a b)

def CreateICmpEQ (a b : Word) : Word :=
  foldCmp (fun x y => decide (x = y)) a b (Word.icmpEQ a b)
def CreateICmpNE (a b : Word) : Word :=
  foldCmp (fun x y => decide (x ≠ y)) a b (Word.icmpNE a b)
def CreateICmpULE (a b : Word) : Word :=
  foldCmp (fun x y => decide (x ≤ y)) a b (Word.icmpULE a b)
def CreateICmpUGT (a b : Word) : Word :=
  foldCmp (fun x y => decide (x > y)) a b (Word.icmpUGT a b)

/-- The cast `CreateTrunc(a, iN)` with `N = bits`; the cast of `undef` folds to
`undef`. -/
def CreateTrunc (a : Word) (bits : Nat) : Word :=
  if a.ty = bits then a
  else
    match a.constOf with
    | some x => if bits ≤ x.bits then Word.const bits (x.val % 2 ^ bits) else Word.trunc a bits
    | none =>
      match a with
      | Word.undef w => if bits ≤ w then Word.undef bits else Word.trunc a bits
      | _ => Word.trunc a bits

/-- The cast `CreateZExt(a, iN)` with `N = bits`. -/
def CreateZExt (a : Word) (bits : Nat) : Word :=
  if a.ty = bits then a
  else
    match a.constOf with
    | some x => if x.bits ≤ bits then Word.const bits (x.val % 2 ^ bits) else Word.zext a bits
    | none => Word.zext a bits

/-- The instruction `CreateSelect(c, a, b)`: folded when the condition is an
integer constant and both values are constants (integers or `undef`). -/
def CreateSelect (c a b : Word) : Word :=
  match c.constOf, a.constTy, b.constTy with
  | some cv, some x, some y =>
    if cv.bits = 1 ∧ x = y then (if cv.val = 1 then a else b) else Word.select c a b
  | _, _, _ => Word.select c a b

end IRBuilder

open IRBuilder

/-! ## The arithmetic cases of `Compiler::compileBasicBlock` -/

/-- The value that the case `DIV` pushes, from the two values it pops. -/
def divValue (d n : Word) : Word :=
  let divByZero := CreateICmpEQ n (Constant.get 0)
  let n := CreateSelect divByZero (Constant.get 1) n -- protect against hardware signal
  let r := CreateUDiv d n
  CreateSelect divByZero (Constant.get 0) r

/-- The value that the case `SDIV` pushes, from the two values it pops. -/
def sdivValue (d n : Word) : Word :=
  let divByZero := CreateICmpEQ n (Constant.get 0)
  let divByMinusOne := CreateICmpEQ n (Constant.get (-1))
  let n := CreateSelect divByZero (Constant.get 1) n -- protect against hardware signal
  let r := CreateSDiv d n
  let r := CreateSelect divByZero (Constant.get 0) r
  let dNeg := CreateSub (Constant.get 0) d
  CreateSelect divByMinusOne dNeg r

/-- The value that the case `MOD` pushes, from the two values it pops. -/
def modValue (d n : Word) : Word :=
  let divByZero := CreateICmpEQ n (Constant.get 0)
  let n := CreateSelect divByZero (Constant.get 1) n -- protect against hardware signal
  let r := CreateURem d n
  CreateSelect divByZero (Constant.get 0) r

/-- The value that the case `SMOD` pushes, from the two values it pops. -/
def smodValue (d n : Word) : Word :=
  let divByZero := CreateICmpEQ n (Constant.get 0)
  let divByMinusOne := CreateICmpEQ n (Constant.get (-1))
  let n := CreateSelect divByZero (Constant.get 1) n -- protect against hardware signal
  let r := CreateSRem d n
  let r := CreateSelect divByZero (Constant.get 0) r
  CreateSelect divByMinusOne (Constant.get 0) r

/-- The value that the case `ADDMOD` pushes, from the three values it pops. -/
def addmodValue (a b m : Word) : Word :=
  let divByZero := CreateICmpEQ m (Constant.get 0)
  let a := CreateZExt a 256
  let b := CreateZExt b 256
  let m := CreateZExt m 256
  let s := CreateNUWAdd a b
  let s := CreateURem s m
  let s := CreateTrunc s 128
  CreateSelect divByZero (Constant.get 0) s

/-- The value that the case `MULMOD` pushes, from the three values it pops. -/
def mulmodValue (a b m : Word) : Word :=
  let divByZero := CreateICmpEQ m (Constant.get 0)
  let a := CreateZExt a 256
  let b := CreateZExt b 256
  let m := CreateZExt m 256
  let p := CreateNUWMul a b
  let p := CreateURem p m
  let p := CreateTrunc p 128
  CreateSelect divByZero (Constant.get 0) p

/-- The value that the case `SIGNEXTEND` pushes, from the two values it pops. -/
def signextendValue (idx word : Word) : Word :=
  let k16_ := CreateTrunc idx 4
  let k16 := CreateZExt k16_ 64
  let k16x8 := CreateMul k16 (getInt64 8)
  -- test for word >> (k * 8 + 7)
  let bitpos := CreateAdd k16x8 (getInt64 7)
  let bitposEx := CreateZExt bitpos 128
  let bitval := CreateLShr word bitposEx
  let bittest := CreateTrunc bitval 1
  let mask_ := CreateShl (Constant.get 1) bitposEx
  let mask := CreateSub mask_ (Constant.get 1)
  let negmask := CreateXor mask (Word.const 128 (2 ^ 128 - 1))
  let val1 := CreateOr word negmask
  let val0 := CreateAnd word mask
  let kInRange := CreateICmpULE idx (Word.const 128 14)
  CreateSelect kInRange (CreateSelect bittest val1 val0) word

/-- The arithmetic cases of the `switch` of `Compiler::compileBasicBlock`, which
pop their operands, build the result and push it: the local stack after the
case.  `none` for another opcode, or when an assertion of `LocalStack` fails. -/
def compileArith (inst : Instruction) (stack : LocalStack) : Option LocalStack :=
  if inst = ADD then do
    let (lhs, stack) ← stack.pop
    let (rhs, stack) ← stack.pop
    some (stack.push (CreateAdd lhs rhs))
  else if inst = SUB then do
    let (lhs, stack) ← stack.pop
    let (rhs, stack) ← stack.pop
    some (stack.push (CreateSub lhs rhs))
  else if inst = MUL then do
    let (lhs, stack) ← stack.pop
    let (rhs, stack) ← stack.pop
    some (stack.push (CreateMul lhs rhs))
  else if inst = DIV then do
    let (d, stack) ← stack.pop
    let (n, stack) ← stack.pop
    some (stack.push (divValue d n))
  else if inst = SDIV then do
    let (d, stack) ← stack.pop
    let (n, stack) ← stack.pop
    some (stack.push (sdivValue d n))
  else if inst = MOD then do
    let (d, stack) ← stack.pop
    let (n, stack) ← stack.pop
    some (stack.push (modValue d n))
  else if inst = SMOD then do
    let (d, stack) ← stack.pop
    let (n, stack) ← stack.pop
    some (stack.push (smodValue d n))
  else if inst = ADDMOD then do
    let (a, stack) ← stack.pop
    let (b, stack) ← stack.pop
    let (m, stack) ← stack.pop
    some (stack.push (addmodValue a b m))
  else if inst = MULMOD then do
    let (a, stack) ← stack.pop
    let (b, stack) ← stack.pop
    let (m, stack) ← stack.pop
    some (stack.push (mulmodValue a b m))
  else if inst = SIGNEXTEND then do
    let (idx, stack) ← stack.pop
    let (word, stack) ← stack.pop
    some (stack.push (signextendValue idx word))
  else none

/-- The function `Compiler::pushWord256`. -/
def pushWord256 (stack : LocalStack) (word : Word) : LocalStack :=
  let w16_31 := CreateTrunc word 128
  let stack := stack.push w16_31
  let w0_16 := CreateTrunc (CreateLShr word (Word.const word.ty 128)) 128
  stack.push w0_16

/-- The function `Compiler::popWord256`; `none` when the assertion of
`LocalStack::pop` fails. -/
def popWord256 (stack : LocalStack) : Option (Word × LocalStack) := do
  let (hi, stack) ← stack.pop
  let w0_15 := CreateZExt hi 256
  let w0_15 := CreateShl w0_15 (Word.const 256 128)
  let (lo, stack) ← stack.pop
  let w16_32 := CreateZExt lo 256
  some (CreateOr w0_15 w16_32, stack)


/-! ## The dynamic gas checks -/

/-- The method `GasMeter::count(llvm::Value*, ...)`: a cost of type `Word` is
clamped to `gasMax` and truncated to the type `Gas`, then a `gas.check` call
with the cost is emitted; `none` when `assert(_cost->getType() == Type::Gas)`
fails.  The method leaves `m_checkCall` and `m_blockCost` as they are; the
result is the meter and the cost operand of the call. -/
def GasMeter.countValue (g : GasMeter) (cost : Word) : Option (GasMeter × Word) :=
  let cost :=
    if cost.ty = 128 then
      let gasMax128 := CreateZExt Constant.gasMax 128
      let tooHigh := CreateICmpUGT cost gasMax128
      let cost64 := CreateTrunc cost 64
      CreateSelect tooHigh Constant.gasMax cost64
    else cost
  if cost.ty = 64 then some (g, cost) else none

/-- Modelled from the spec: the value that `readPushData` (header
`Instruction.h`, not among the sources) decodes for the PUSHn at `curr`: the
`n` bytes after the opcode, the first the most significant, with 0 for a byte
at or after `end`. -/
def readPushValue (code : Bytecode) (curr «end» : Nat) : Nat :=
  (List.range (byteAt code curr - PUSH1 + 1)).foldl
    (fun value i => value * 256 + (if curr + 1 + i < «end» then byteAt code (curr + 1 + i) else 0))
    0

/-- Modelled from the spec: the return codes of the emitted function (header
`RuntimeManager.h`, not among the sources). -/
inductive ReturnCode where
  | Stop
  | Return
  | Revert
  | OutOfGas
  deriving DecidableEq, Repr

/-- The terminator of the LLVM block of a basic block: a branch (`br`), with the
destination index that the cases JUMP and JUMPI attach as metadata; a
conditional branch (`condBr`), whose second successor is null until
`resolveJumps` sets it; or what `RuntimeManager::exit` emits for a return code
(modelled from the spec: the function returns the code; it is no branch to the
jump table). -/
inductive BlockTerm where
  | br (succ0 : BlockHandle) (destIdx : Option Word)
  | condBr (cond : Word) (succ0 : BlockHandle) (succ1 : Option BlockHandle)
      (destIdx : Option Word)
  | exit (code : ReturnCode)
  deriving DecidableEq, Repr

/-- What `Compiler::compileBasicBlock` builds while it goes through a block: the
local stack, the terminator of the LLVM block (`none` while it has none) and
the cases of the jump table. -/
structure BlockBuild where
  stack : LocalStack
  term : Option BlockTerm
  jumpTable : JumpTable
  deriving DecidableEq, Repr

/-- One iteration of the `for` loop of `Compiler::compileBasicBlock`, as far as
the local stack, the terminator and the jump table go (the gas meter is
followed by `compileGasLoop`): the cases of the arithmetic of
`compileArith`, POP, PUSHn, DUPn, SWAPn, JUMP, JUMPI, JUMPDEST, PC, STOP and the
label `invalidInstruction`.  The result is the iterator before the `++it` of
the loop and the new state.  `none` for another opcode, for an instruction
after the terminator (a block of `createBasicBlocks` has none), or when an
assertion fails. -/
def compileInstruction (code : Bytecode) (m_rev : evm_revision) (m_staticCall : Bool)
    (bb : BasicBlock) (it : Nat) (b : BlockBuild) : Option (Nat × BlockBuild) :=
  let inst := byteAt code it
  if b.term.isSome then none
  else if reachesInvalidInstruction m_rev m_staticCall inst then
    -- `_runtimeManager.exit(ReturnCode::OutOfGas); it = _basicBlock.end() - 1`
    some (bb.m_end - 1, { b with term := some (BlockTerm.exit ReturnCode.OutOfGas) })
  else if [ADD, SUB, MUL, DIV, SDIV, MOD, SMOD, ADDMOD, MULMOD, SIGNEXTEND].contains inst then
    (compileArith inst b.stack).map (fun stack => (it, { b with stack := stack }))
  else if inst = POP then
    (b.stack.pop).map (fun r => (it, { b with stack := r.2 }))
  else if isAnyPush inst then
    let value := readPushValue code it bb.m_end
    let it1 := readPushData code it bb.m_end
    if inst - PUSH1 + 1 > 16 then
      some (it1, { b with stack := pushWord256 b.stack (Word.const 256 value) })
    else
      some (it1, { b with stack := b.stack.push (Word.const 128 value) })
  else if isBaseDup inst then
    (b.stack.dup (inst - DUP1)).map (fun stack => (it, { b with stack := stack }))
  else if isExtDup inst then
    (b.stack.dup (inst - DUP17 + 16)).map (fun stack => (it, { b with stack := stack }))
  else if isBaseSwap inst then
    (b.stack.swap (inst - SWAP1 + 1)).map (fun stack => (it, { b with stack := stack }))
  else if isExtSwap inst then
    (b.stack.swap (inst - SWAP17 + 17)).map (fun stack => (it, { b with stack := stack }))
  else if inst = JUMP then
    -- Create branch instruction, initially to jump table.
    (b.stack.pop).map (fun r =>
      (it, { b with stack := r.2,
                    term := some (BlockTerm.br BlockHandle.jumpTable (some r.1)) }))
  else if inst = JUMPI then
    (b.stack.pop).bind (fun r =>
      (r.2.pop).map (fun c =>
        (it, { b with stack := c.2,
                      term := some (BlockTerm.condBr (CreateICmpNE c.1 (Constant.get 0))
                        BlockHandle.jumpTable none (some r.1)) })))
  else if inst = JUMPDEST then
    -- Add the basic block to the jump table.
    if it = bb.m_begin then
      some (it, { b with jumpTable := b.jumpTable ++ [(bb.m_firstInstrIdx, bb.llvm)] })
    else none
  else if inst = PC then
    let value := Constant.get (Int.ofNat (it - bb.m_begin + bb.m_firstInstrIdx))
    some (it, { b with stack := b.stack.push value })
  else if inst = STOP then
    some (it, { b with term := some (BlockTerm.exit ReturnCode.Stop) })
  else none

/-- The `for` loop of `Compiler::compileBasicBlock` with `compileInstruction` as
its body; one iteration per unit of fuel, `none` when the fuel ends before
`it == _basicBlock.end()`. -/
def compileInstructions (code : Bytecode) (m_rev : evm_revision) (m_staticCall : Bool)
    (bb : BasicBlock) : Nat → Nat → BlockBuild → Option BlockBuild
  | 0, it, b => if it = bb.m_end then some b else none
  | fuel + 1, it, b =>
    if it = bb.m_end then some b
    else
      match compileInstruction code m_rev m_staticCall bb it b with
      | some (it1, b1) => compileInstructions code m_rev m_staticCall bb fuel (it1 + 1) b1
      | none => none

/-- The LLVM block of a basic block when `Compiler::compileBasicBlock` returns:
its handle, the local stack of the block before `finalize` and its terminator
(`none` when the block has none). -/
structure BlockCode where
  llvm : BlockHandle
  stack : LocalStack
  term : Option BlockTerm
  deriving DecidableEq, Repr

/-- The function `Compiler::compileBasicBlock` with the instructions of
`compileInstruction`: a new local stack, the loop over the block. -/
def compileBlockCode (code : Bytecode) (m_rev : evm_revision) (m_staticCall : Bool)
    (bb : BasicBlock) (jumpTable : JumpTable) : Option (BlockCode × JumpTable) :=
  (compileInstructions code m_rev m_staticCall bb (bb.m_end - bb.m_begin) bb.m_begin
      { stack := LocalStack.fresh, term := none, jumpTable := jumpTable }).map
    (fun b => ({ llvm := bb.llvm, stack := b.stack, term := b.term }, b.jumpTable))

/-- The loop of `Compiler::compile` over the blocks. -/
def compileBlockCodes (code : Bytecode) (m_rev : evm_revision) (m_staticCall : Bool) :
    List BasicBlock → JumpTable → Option (List BlockCode × JumpTable)
  | [], jumpTable => some ([], jumpTable)
  | bb :: blocks, jumpTable =>
    match compileBlockCode code m_rev m_staticCall bb jumpTable with
    | some (c, jumpTable1) =>
      (compileBlockCodes code m_rev m_staticCall blocks jumpTable1).map
        (fun r => (c :: r.1, r.2))
    | none => none

/-- The main function as far as the jumps go: the code blocks in order (the
blocks between `Entry` and the four special blocks at the end), the cases of
the switch of the block `JumpTable` (its default is `Abort`) and the incoming
values of its PHI node `target`. -/
structure MainFunction where
  blocks : List BlockCode
  jumpTable : JumpTable
  jumpTableInput : List (Word × BlockHandle)
  deriving DecidableEq, Repr

/-- The function `Compiler::compile` up to the call of `resolveJumps`. -/
def compileMain (code : Bytecode) (m_rev : evm_revision) (m_staticCall : Bool) :
    Option MainFunction :=
  (compileBlockCodes code m_rev m_staticCall (createBasicBlocks code) []).map
    (fun r => { blocks := r.1, jumpTable := r.2, jumpTableInput := [] })

/-- The successor that `jumpTable->findCaseValue(constant).getCaseSuccessor()`
gives for a constant: the successor of the case with this value, the default
destination `Abort` of the switch when no case has it. -/
def findCaseSuccessor (jumpTable : JumpTable) (constant : BV) : BlockHandle :=
  match jumpTable.find? (fun c => constant.bits = 128 && c.1 == constant.val) with
  | some c => c.2
  | none => BlockHandle.abort

/-- The body of the loop of `Compiler::resolveJumps` for the block `b` with the
following block `next`: the block and the incoming values of the PHI node after
it.  `none` when a branch to the jump table has no destination index. -/
def resolveJump (jumpTable : JumpTable) (next : BlockHandle) (b : BlockCode)
    (jumpTableInput : List (Word × BlockHandle)) :
    Option (BlockCode × List (Word × BlockHandle)) :=
  match b.term with
  | none =>
    -- Block may have no terminator if the next instruction is a jump destination.
    some ({ b with term := some (BlockTerm.br next none) }, jumpTableInput)
  | some (BlockTerm.br succ0 md) =>
    if succ0 = BlockHandle.jumpTable then
      match md with
      | none => none
      | some destIdx =>
        match destIdx.constOf with
        | some constant =>
          -- If destination index is a constant do direct jump to the destination block.
          some ({ b with term := some (BlockTerm.br (findCaseSuccessor jumpTable constant) md) },
            jumpTableInput)
        | none => some (b, jumpTableInput ++ [(destIdx, b.llvm)]) -- Fill up PHI node
    else some (b, jumpTableInput)
  | some (BlockTerm.condBr cond succ0 _ md) =>
    if succ0 = BlockHandle.jumpTable then
      match md with
      | none => none
      | some destIdx =>
        match destIdx.constOf with
        | some constant =>
          -- Set next block for conditional jumps
          some ({ b with term := some (BlockTerm.condBr cond
            (findCaseSuccessor jumpTable constant) (some next) md) }, jumpTableInput)
        | none =>
          some ({ b with term := some (BlockTerm.condBr cond succ0 (some next) md) },
            jumpTableInput ++ [(destIdx, b.llvm)])
    else some (b, jumpTableInput)
  | some (BlockTerm.exit _) => some (b, jumpTableInput)

/-- The loop of `Compiler::resolveJumps` over the code blocks; the block after
the last code block is `Stop`. -/
def resolveJumpsLoop (jumpTable : JumpTable) :
    List BlockCode → List (Word × BlockHandle) → Option (List BlockCode × List (Word × BlockHandle))
  | [], jumpTableInput => some ([], jumpTableInput)
  | b :: rest, jumpTableInput =>
    let next := match rest with
      | [] => BlockHandle.stop
      | n :: _ => n.llvm
    match resolveJump jumpTable next b jumpTableInput with
    | some (b1, jumpTableInput1) =>
      (resolveJumpsLoop jumpTable rest jumpTableInput1).map (fun r => (b1 :: r.1, r.2))
    | none => none

/-- The function `Compiler::resolveJumps`, up to the simplification of the PHI
node that ends it (which changes no successor and no case). -/
def resolveJumps (f : MainFunction) : Option MainFunction :=
  (resolveJumpsLoop f.jumpTable f.blocks f.jumpTableInput).map
    (fun r => { f with blocks := r.1, jumpTableInput := r.2 })


/-! ## The dynamic cost points of the gas meter -/

/-- The method `GasMeter::countExp`: the cost is the number of significant
bytes of the exponent times the cost of a byte; the result is that of
`count(llvm::Value*)`, the meter and the cost operand of the emitted
`gas.check`. -/
def GasMeter.countExp (g : GasMeter) (sched : JITSchedule) (m_rev : evm_revision)
    (exponent : Word) : Option (GasMeter × Word) :=
  -- lz - leading zeros; cost = ((128 - lz) + 7) / 8
  let lz128 := Word.ctlz exponent
  let lz := CreateTrunc lz128 64
  let sigBits := CreateSub (getInt64 128) lz
  let sigBytes := CreateUDiv (CreateAdd sigBits (getInt64 7)) (getInt64 8)
  let exponentByteCost : Int :=
    if m_rev ≥ EVM_AION then 1
    else if m_rev ≥ EVM_SPURIOUS_DRAGON then 50 else sched.expByteGas
  g.countValue (CreateNUWMul sigBytes (getInt64 exponentByteCost))

/-- The method `GasMeter::countSStore`; `oldValue` is the value that
`_ext.sload(_index)` returns (class `Ext`, not among the sources).  `none` when
an assertion fails. -/
def GasMeter.countSStore (g : GasMeter) (sched : JITSchedule) (m_rev : evm_revision)
    (oldValue newValue : Word) : Option (GasMeter × Word) :=
  let oldValueIsZero := CreateICmpEQ oldValue (Constant.get 0)
  let newValueIsntZero := CreateICmpNE newValue (Constant.get 0)
  let isInsert := CreateAnd oldValueIsZero newValueIsntZero
  if sched.sstoreResetGas = sched.sstoreClearGas then
    let cost := CreateSelect isInsert (getInt64 sched.sstoreSetGas)
      (getInt64 (if m_rev ≥ EVM_AION then 8000 else sched.sstoreResetGas))
    g.countValue cost
  else none

/-- The method `GasMeter::countLogData`; `none` when an assertion fails. -/
def GasMeter.countLogData (g : GasMeter) (sched : JITSchedule) (m_rev : evm_revision)
    (dataLength : Word) : Option (GasMeter × Word) :=
  -- assert(m_checkCall); assert(m_blockCost > 0); LOGn instruction is already counted
  if g.m_checkCall.isSome ∧ g.m_blockCost > 0 ∧ sched.logDataGas ≠ 1 then
    g.countValue (CreateNUWMul dataLength
      (Constant.get (if m_rev ≥ EVM_AION then 20 else sched.logDataGas)))
  else none

/-- The method `GasMeter::countSha3Data`; `none` when an assertion fails. -/
def GasMeter.countSha3Data (g : GasMeter) (sched : JITSchedule) (dataLength : Word) :
    Option (GasMeter × Word) :=
  -- assert(m_checkCall); assert(m_blockCost > 0); SHA3 instruction is already counted
  if g.m_checkCall.isSome ∧ g.m_blockCost > 0 ∧ sched.sha3WordGas ≠ 1 then
    let dataLength64 := CreateTrunc dataLength 64
    let words64 := CreateUDiv (CreateNUWAdd dataLength64 (getInt64 31)) (getInt64 32)
    let cost64 := CreateNUWMul (getInt64 sched.sha3WordGas) words64
    g.countValue cost64
  else none

/-- The case SSTORE of `Compiler::compileBasicBlock`, after `count(inst)`: the
local stack, the gas meter and the cost operand of the `gas.check` that
`countSStore` emits; `oldValue` is the value that `_ext.sload(index)` returns
for the popped index.  `none` at the label `invalidInstruction` (static mode) or
when an assertion fails. -/
def compileSSTORE (sched : JITSchedule) (m_rev : evm_revision) (m_staticCall : Bool)
    (oldValue : Word → Word) (stack : LocalStack) (g : GasMeter) :
    Option (LocalStack × GasMeter × Word) :=
  if m_staticCall then none
  else
    (stack.pop).bind (fun r1 =>
      (r1.2.pop).bind (fun r2 =>
        -- index = r1.1, value = r2.1
        (g.countSStore sched m_rev (oldValue r1.1) r2.1).map (fun c => (r2.2, c.1, c.2))))

/-- The effect of the case of a valid instruction on the members of the gas
meter, after `count(inst)`: the cases GAS, CREATE and the calls commit the cost
block; the cases SHA3, LOGn and SSTORE reach the assertions of `countSha3Data`,
`countLogData` and `countSStore`, whose `gas.check` changes no member of the
meter; no other case calls a method of the meter that changes a member (the
classes `Memory`, `Ext` and `Arith128` are not among the sources; their calls
go through `count(llvm::Value*)`).  `none` when an assertion fails. -/
def gasCase (sched : JITSchedule) (inst : Instruction) (g : GasMeter) : Option GasMeter :=
  if inst = GAS ∨ inst = CREATE ∨ [CALL, CALLCODE, DELEGATECALL, STATICCALL].contains inst then
    g.commitCostBlock
  else if inst = SHA3 then
    if g.m_checkCall.isSome ∧ g.m_blockCost > 0 ∧ sched.sha3WordGas ≠ 1 then some g else none
  else if isLog inst then
    if g.m_checkCall.isSome ∧ g.m_blockCost > 0 ∧ sched.logDataGas ≠ 1 then some g else none
  else if inst = SSTORE then
    if sched.sstoreResetGas = sched.sstoreClearGas then some g else none
  else some g

/-- The `for` loop of `Compiler::compileBasicBlock`, as far as the gas meter
goes: `count(inst)` for every instruction that the loop visits, then the case
of the instruction.  One iteration per unit of fuel; `none` when the fuel ends
before `it == _basicBlock.end()` or an assertion fails. -/
def compileGasLoop (code : Bytecode) (sched : JITSchedule) (m_rev : evm_revision)
    (m_staticCall : Bool) (bb : BasicBlock) : Nat → Nat → GasMeter → Option GasMeter
  | 0, it, g => if it = bb.m_end then some g else none
  | fuel + 1, it, g =>
    if it = bb.m_end then some g
    else
      let inst := byteAt code it
      let g1 := g.count sched m_rev inst
      if isAnyPush inst then
        compileGasLoop code sched m_rev m_staticCall bb fuel (readPushData code it bb.m_end + 1) g1
      else if reachesInvalidInstruction m_rev m_staticCall inst then
        -- `it = _basicBlock.end() - 1`
        compileGasLoop code sched m_rev m_staticCall bb fuel ((bb.m_end - 1) + 1) g1
      else
        match gasCase sched inst g1 with
        | some g2 => compileGasLoop code sched m_rev m_staticCall bb fuel (it + 1) g2
        | none => none

/-- The function `Compiler::compileBasicBlock`, as far as the gas meter goes:
the loop, then `_gasMeter.commitCostBlock()`. -/
def compileBasicBlockGas (code : Bytecode) (sched : JITSchedule) (m_rev : evm_revision)
    (m_staticCall : Bool) (bb : BasicBlock) (g : GasMeter) : Option GasMeter :=
  (compileGasLoop code sched m_rev m_staticCall bb (bb.m_end - bb.m_begin) bb.m_begin g).bind
    GasMeter.commitCostBlock

/-- The loop of `Compiler::compile` over the blocks, as far as the gas meter
goes. -/
def compileBlocksGas (code : Bytecode) (sched : JITSchedule) (m_rev : evm_revision)
    (m_staticCall : Bool) : List BasicBlock → GasMeter → Option GasMeter
  | [], g => some g
  | bb :: blocks, g =>
    (compileBasicBlockGas code sched m_rev m_staticCall bb g).bind
      (compileBlocksGas code sched m_rev m_staticCall blocks)

/-! ## The write-back of the local stack -/

/-- The loop of `LocalStack::finalize`: `globalIdx` runs up to `size()`,
`inputIt` counts the steps of the reverse iterator from `m_input.rbegin()`,
`localIt` those of the iterator from `m_local.begin()`; the result is the list
of the stores that the loop emits, in order, each with its slot `sp + globalIdx`
and the stored value.  One iteration per unit of fuel; `none` when the fuel
ends before the loop does or an iterator is read at or past its end. -/
def LocalStack.finalizeLoop (s : LocalStack) :
    Nat → Int → Nat → Nat → List (Int × Word) → Option (List (Int × Word))
  | 0, globalIdx, _, _, stores => if globalIdx < s.size then none else some stores
  | fuel + 1, globalIdx, inputIt, localIt, stores =>
    if globalIdx < s.size then
      if globalIdx < -(s.m_globalPops : Int) then
        -- update input items (might contain original value)
        match s.m_input.reverse[inputIt]? with
        | none => none
        | some none => -- some items are skipped
          s.finalizeLoop fuel (globalIdx + 1) (inputIt + 1) localIt stores
        | some (some item) =>
          s.finalizeLoop fuel (globalIdx + 1) (inputIt + 1) localIt (stores ++ [(globalIdx, item)])
      else
        -- store new items
        match s.m_local[localIt]? with
        | none => none
        | some item =>
          s.finalizeLoop fuel (globalIdx + 1) inputIt (localIt + 1) (stores ++ [(globalIdx, item)])
    else some stores

/-- The stores that `LocalStack::finalize` emits, in order (slot and value).
The loop makes `size() + m_input.size()` iterations; the lengths of the two
vectors are fuel enough. -/
def LocalStack.finalizeStores (s : LocalStack) : Option (List (Int × Word)) :=
  s.finalizeLoop (s.m_input.length + s.m_local.length) (-(s.m_input.length : Int)) 0 0 []


/-! ## The terminators of the LLVM block of a basic block -/

/-- A terminator that a case of `Compiler::compileBasicBlock` emits into the
LLVM block: `CreateBr` (JUMP), `CreateCondBr` (JUMPI), or what
`RuntimeManager::exit` emits for a return code (modelled from the spec: the
function returns the code). -/
inductive EmittedTerm where
  | br
  | condBr
  | exit (code : ReturnCode)
  deriving DecidableEq, Repr

/-- The `for` loop of `Compiler::compileBasicBlock`, as far as the terminators of
the LLVM block go: the terminators emitted so far, in order.  The cases JUMP,
JUMPI, RETURN, REVERT, SELFDESTRUCT, STOP and the label `invalidInstruction`
emit one; no other case does (the classes `Memory`, `Ext` and `Arith128`, not
among the sources, emit calls).  One iteration per unit of fuel; `none` when the
fuel ends before `it == _basicBlock.end()` or the assertion of the JUMPDEST case
fails. -/
def compileTermLoop (code : Bytecode) (m_rev : evm_revision) (m_staticCall : Bool)
    (bb : BasicBlock) : Nat → Nat → List EmittedTerm → Option (List EmittedTerm)
  | 0, it, terms => if it = bb.m_end then some terms else none
  | fuel + 1, it, terms =>
    if it = bb.m_end then some terms
    else
      let inst := byteAt code it
      if isAnyPush inst then
        compileTermLoop code m_rev m_staticCall bb fuel (readPushData code it bb.m_end + 1) terms
      else if reachesInvalidInstruction m_rev m_staticCall inst then
        -- `_runtimeManager.exit(ReturnCode::OutOfGas); it = _basicBlock.end() - 1`
        compileTermLoop code m_rev m_staticCall bb fuel ((bb.m_end - 1) + 1)
          (terms ++ [EmittedTerm.exit ReturnCode.OutOfGas])
      else if inst = JUMP then
        compileTermLoop code m_rev m_staticCall bb fuel (it + 1) (terms ++ [EmittedTerm.br])
      else if inst = JUMPI then
        compileTermLoop code m_rev m_staticCall bb fuel (it + 1) (terms ++ [EmittedTerm.condBr])
      else if inst = JUMPDEST then
        -- `assert(it == _basicBlock.begin() && "JUMPDEST must be the first instruction ...")`
        if it = bb.m_begin then compileTermLoop code m_rev m_staticCall bb fuel (it + 1) terms
        else none
      else if inst = RETURN then
        compileTermLoop code m_rev m_staticCall bb fuel (it + 1)
          (terms ++ [EmittedTerm.exit ReturnCode.Return])
      else if inst = REVERT then
        compileTermLoop code m_rev m_staticCall bb fuel (it + 1)
          (terms ++ [EmittedTerm.exit ReturnCode.Revert])
      else if inst = SELFDESTRUCT ∨ inst = STOP then
        compileTermLoop code m_rev m_staticCall bb fuel (it + 1)
          (terms ++ [EmittedTerm.exit ReturnCode.Stop])
      else
        compileTermLoop code m_rev m_staticCall bb fuel (it + 1) terms

/-- The function `Compiler::compileBasicBlock`, as far as the terminators of the
LLVM block go. -/
def compileBasicBlockTerm (code : Bytecode) (m_rev : evm_revision) (m_staticCall : Bool)
    (bb : BasicBlock) : Option (List EmittedTerm) :=
  compileTermLoop code m_rev m_staticCall bb (bb.m_end - bb.m_begin) bb.m_begin []


/-! ## The linear decoding, coverage and dead regions (specification side) -/

/-- The offsets at which the linear decoding started at `curr` decodes an
instruction (the instruction boundaries from `curr` on); one instruction per
unit of fuel. -/
def instrStartsFrom (code : Bytecode) : Nat → Nat → List Nat
  | 0, _ => []
  | fuel + 1, curr =>
    if curr < code.length then
      curr :: instrStartsFrom code fuel (skipPushDataAndGetNext code curr)
    else []

/-- The instruction boundaries of the linear decoding from offset 0. -/
def instrStarts (code : Bytecode) : List Nat := instrStartsFrom code code.length 0

/-- Offset `p` lies in the range `[m_begin, m_end)` of one of the blocks. -/
def covers (blocks : List BasicBlock) (p : Nat) : Bool :=
  blocks.any (fun b => decide (b.m_begin ≤ p) && decide (p < b.m_end))

/-- Offset `p` lies in a dead region: it comes after a JUMP, RETURN, REVERT,
STOP or SELFDESTRUCT instruction (decoded at `t`) and no JUMPDEST is decoded
after `t` up to and including `p`. -/
def inDeadRegion (code : Bytecode) (p : Nat) : Bool :=
  (instrStarts code).any (fun t =>
    setsDead (byteAt code t) && decide (t < p) &&
      (instrStarts code).all (fun q =>
        !(decide (t < q) && decide (q ≤ p) && byteAt code q == JUMPDEST)))

/-- The cursor `curr` is in a dead region when it is reached: some JUMP, RETURN,
REVERT, STOP or SELFDESTRUCT was decoded before `curr` with no JUMPDEST decoded
strictly between the two. -/
def deadBefore (code : Bytecode) (curr : Nat) : Prop :=
  ∃ t ∈ instrStarts code, setsDead (byteAt code t) = true ∧ t < curr ∧
    ∀ q ∈ instrStarts code, t < q → q < curr → byteAt code q ≠ JUMPDEST

/-! ## Invariants and auxiliary notions of the proofs -/

/-- The block whose construction the body starts or continues at `curr`:
`curr` itself when the cursor was in dead code, else `begin`. -/
def blockBegin (s : SplitState) : Nat := if s.isDead then s.curr else s.begin

/-- Shape invariant of the loop of `createBasicBlocks`: the cursor and the begin
of the current block are instruction boundaries, and the blocks emitted so far
are non-empty, ordered, end before `begin`, and start and end at boundaries. -/
structure SplitInv (code : Bytecode) (s : SplitState) : Prop where
  curr_le : s.curr ≤ code.length
  curr_start : s.curr ∈ instrStarts code ∨ s.curr = code.length
  begin_le : s.begin ≤ s.curr
  begin_start : s.isDead = false → (s.begin ∈ instrStarts code ∨ s.begin = code.length)
  live_progress : s.isDead = false → (s.begin = s.curr ∨ s.curr < code.length)
  blk_idx : ∀ b ∈ s.blocks, b.m_firstInstrIdx = b.m_begin
  blk_nonempty : ∀ b ∈ s.blocks, b.m_begin < b.m_end
  blk_end_le : ∀ b ∈ s.blocks, b.m_end ≤ s.begin
  blk_sorted : s.blocks.Pairwise (fun a b => a.m_end ≤ b.m_begin)
  blk_start : ∀ b ∈ s.blocks, b.m_begin ∈ instrStarts code
  blk_end_start : ∀ b ∈ s.blocks, (b.m_end ∈ instrStarts code ∨ b.m_end = code.length)

/-- Consecutive ranges: the next block starts where the previous one ends, or
later when the previous one ends with an instruction that sets `isDead`. -/
def NextRange (code : Bytecode) (a b : BasicBlock) : Prop :=
  a.m_end = b.m_begin ∨ (a.m_end < b.m_begin ∧ setsDead (byteAt code (a.m_end - 1)) = true)

/-- Chaining invariant of the loop of `createBasicBlocks`: the first block
starts at 0, and a block is followed by a gap only when it ends with an
instruction that sets `isDead`. -/
structure SplitChainInv (code : Bytecode) (s : SplitState) : Prop where
  first : (s.blocks = [] ∧ s.begin = 0 ∧ s.isDead = false) ∨
    (∃ b rest, s.blocks = b :: rest ∧ b.m_begin = 0)
  chain : s.blocks.Chain' (NextRange code)
  last_ok : ∀ l ∈ s.blocks.getLast?, (s.isDead = false ∧ l.m_end = s.begin) ∨
    setsDead (byteAt code (l.m_end - 1)) = true

/-- Dead-code invariant of the loop of `createBasicBlocks`: `isDead` says that
the cursor is in a dead region, and the bytes passed so far are covered by a
block exactly when they are not in a dead region. -/
structure SplitDeadInv (code : Bytecode) (s : SplitState) : Prop where
  dead_iff : s.isDead = true ↔ deadBefore code s.curr
  cov : ∀ p, p < blockBegin s → (covers s.blocks p = true ↔ inDeadRegion code p = false)
  live_tail : s.isDead = false → ∀ p, s.begin ≤ p → p < s.curr → inDeadRegion code p = false

/-- A block may start at `x`: `x` is offset 0, or a JUMPDEST, or the byte before
`x` is in a block and the instruction decoded just before `x` does not set
`isDead`. -/
def StartOK (code : Bytecode) (blocks : List BasicBlock) (x : Nat) : Prop :=
  x = 0 ∨ byteAt code x = JUMPDEST ∨
    (covers blocks (x - 1) = true ∧
      ∃ t ∈ instrStarts code, skipPushDataAndGetNext code t = x ∧
        setsDead (byteAt code t) = false)

/-- Block-start invariant of the loop of `createBasicBlocks`. -/
structure SplitStartInv (code : Bytecode) (s : SplitState) : Prop where
  begin_ok : s.isDead = false → StartOK code s.blocks s.begin
  blk_ok : ∀ b ∈ s.blocks, StartOK code s.blocks b.m_begin

/-- JUMPDEST invariant of the loop of `createBasicBlocks`: a decoded JUMPDEST
is never inside a block, and every decoded JUMPDEST starts a block. -/
structure SplitJumpdestInv (code : Bytecode) (s : SplitState) : Prop where
  live_no_jd : s.isDead = false → ∀ q ∈ instrStarts code, s.begin < q → q ≤ s.curr →
    byteAt code q ≠ JUMPDEST
  blk_no_jd : ∀ b ∈ s.blocks, ∀ q ∈ instrStarts code, b.m_begin < q → q < b.m_end →
    byteAt code q ≠ JUMPDEST
  jd_block : ∀ q ∈ instrStarts code, q < s.curr → byteAt code q = JUMPDEST →
    (∃ b ∈ s.blocks, b.m_begin = q) ∨ (s.isDead = false ∧ s.begin = q)

/-- All invariants of the loop of `createBasicBlocks`. -/
structure SplitAll (code : Bytecode) (s : SplitState) : Prop where
  shape : SplitInv code s
  chain : SplitChainInv code s
  dead : SplitDeadInv code s
  start : SplitStartInv code s
  jumpdest : SplitJumpdestInv code s

/-- The ranges of the blocks, taken in order, concatenate to exactly the
bytecode: the first starts at 0, each starts where the previous one ends, the
last ends at `len(B)`. -/
def RangesConcatenate (code : Bytecode) (blocks : List BasicBlock) : Prop :=
  (blocks = [] → code = []) ∧
  (∀ b ∈ blocks.head?, b.m_begin = 0) ∧
  blocks.Chain' (fun a b => a.m_end = b.m_begin) ∧
  (∀ l ∈ blocks.getLast?, l.m_end = code.length)

/-- The facts about a block of `createBasicBlocks` that `compileBasicBlock`
relies on. -/
structure BlockOK (code : Bytecode) (b : BasicBlock) : Prop where
  nonempty : b.m_begin < b.m_end
  end_le : b.m_end ≤ code.length
  begin_start : b.m_begin ∈ instrStarts code
  no_jd : ∀ q ∈ instrStarts code, b.m_begin < q → q < b.m_end → byteAt code q ≠ JUMPDEST
  end_start : b.m_end ∈ instrStarts code ∨ b.m_end = code.length

/-- The case that `compileBasicBlock` adds for a block: one case when the block
starts with JUMPDEST, none otherwise. -/
def blockCases (code : Bytecode) (b : BasicBlock) : JumpTable :=
  if byteAt code b.m_begin = JUMPDEST then [(b.m_firstInstrIdx, b.llvm)] else []

/-- The cases that compiling a list of blocks adds. -/
def blocksCases (code : Bytecode) : List BasicBlock → JumpTable
  | [] => []
  | b :: bs => blockCases code b ++ blocksCases code bs

/-- Invariant of the gas meter: without a pending placeholder the accumulated
block cost is 0. -/
def GasMeter.Inv (g : GasMeter) : Prop := g.m_checkCall = none → g.m_blockCost = 0

/-- The sum of the step costs of the opcodes of a block. -/
def blockCost (sched : JITSchedule) (rev : evm_revision) (ops : List Instruction) : Int :=
  (ops.map (getStepCost sched rev)).sum

/-- The opcodes `op_1 .. op_n` of the instructions of a block, in order: the
bytes of the block without the immediates of the PUSHes (an immediate ends at
the end of the block at the latest). -/
def blockOpcodes (code : Bytecode) (bb : BasicBlock) : Nat → Nat → List Instruction
  | 0, _ => []
  | fuel + 1, it =>
    if bb.m_end ≤ it then []
    else
      byteAt code it ::
        blockOpcodes code bb fuel
          (if isAnyPush (byteAt code it) then readPushData code it bb.m_end + 1 else it + 1)

/-- The static-cost opcodes: the opcodes whose only cost is the step cost of
`getStepCost`, that is the case labels of `Compiler::compileBasicBlock` whose
case emits no `gas.check` of its own (it calls neither `count(llvm::Value*)`
nor `countExp`, `countSStore`, `countSha3Data`, `countLogData`, nor a method of
`Memory` that may grow the memory). -/
def isStaticCost (inst : Instruction) : Bool :=
  [ADD, SUB, MUL, DIV, SDIV, MOD, SMOD, ADDMOD, MULMOD, NOT, LT, GT, SLT, SGT, EQ, ISZERO, AND,
    OR, XOR, BYTE, SIGNEXTEND, POP, MSIZE, SLOAD, JUMP, JUMPI, JUMPDEST, PC, GAS, ADDRESS,
    CALLER, ORIGIN, COINBASE, GASPRICE, DIFFICULTY, GASLIMIT, NUMBER, TIMESTAMP, CALLVALUE,
    CODESIZE, CALLDATASIZE, RETURNDATASIZE, BLOCKHASH, BALANCE, EXTCODESIZE, CALLDATALOAD,
    STOP].contains inst
    || isAnyPush inst || isBaseDup inst || isBaseSwap inst || isExtDup inst || isExtSwap inst

/-- The original statement of C7 for the block `bb` of `code`: compiling the
block on a new gas meter leaves exactly one `gas.check` call, with the sum of
`getStepCost` over the opcodes of the block as its cost. -/
def SingleGasCheck (code : Bytecode) (sched : JITSchedule) (rev : evm_revision)
    (staticCall : Bool) (bb : BasicBlock) : Prop :=
  ∃ g, compileBasicBlockGas code sched rev staticCall bb GasMeter.fresh = some g ∧
    g.ir = [CostArg.int64
      (blockCost sched rev (blockOpcodes code bb (bb.m_end - bb.m_begin) bb.m_begin))]

/-- The size invariant of the local stack:
`min_size <= current_size <= max_size` and `min_size <= 0 <= max_size`. -/
structure LocalStack.Inv (s : LocalStack) : Prop where
  min_le : s.m_minSize ≤ s.size
  le_max : s.size ≤ s.m_maxSize
  min_nonpos : s.m_minSize ≤ 0
  max_nonneg : 0 ≤ s.m_maxSize

/-- The opcodes of the tiers 1 to 5 of the gas schedule: the case labels of the
tiers 1 to 5 of `getStepCost`. -/
def isTier1to5 (inst : Instruction) : Bool :=
  [ADDRESS, ORIGIN, CALLER, CALLVALUE, CALLDATASIZE, RETURNDATASIZE, CODESIZE, GASPRICE,
      COINBASE, TIMESTAMP, NUMBER, DIFFICULTY, GASLIMIT, POP, PC, MSIZE, GAS].contains inst
    || [ADD, SUB, LT, GT, SLT, SGT, EQ, ISZERO, AND, OR, XOR, NOT, BYTE, CALLDATALOAD,
      CALLDATACOPY, RETURNDATACOPY, CODECOPY, MLOAD, MSTORE, MSTORE8].contains inst
    || isAnyPush inst || isBaseDup inst || isBaseSwap inst || isExtDup inst || isExtSwap inst
    || [MUL, DIV, SDIV, MOD, SMOD, SIGNEXTEND].contains inst
    || [ADDMOD, MULMOD, JUMP].contains inst
    || [EXP, JUMPI].contains inst

/-- The opcodes of the gas schedule table: tier 0, the tiers 1 to 5 and the
opcodes that are priced one by one. -/
def inStepCostTable (inst : Instruction) : Bool :=
  [STOP, RETURN, REVERT, SSTORE].contains inst
    || isTier1to5 inst
    || decide (inst = BALANCE)
    || [EXTCODESIZE, EXTCODECOPY].contains inst
    || decide (inst = BLOCKHASH)
    || decide (inst = SHA3)
    || decide (inst = SLOAD)
    || decide (inst = JUMPDEST)
    || isLog inst
    || [CALL, CALLCODE, DELEGATECALL, STATICCALL].contains inst
    || decide (inst = CREATE)
    || decide (inst = SELFDESTRUCT)


/-- Terminator invariant of the loop of `createBasicBlocks`: the instructions
of the block under construction passed so far neither set `isDead` nor are
JUMPI, and in an emitted block such an instruction is the last one. -/
structure SplitTermInv (code : Bytecode) (s : SplitState) : Prop where
  live_no_term : s.isDead = false → ∀ q ∈ instrStarts code, s.begin ≤ q → q < s.curr →
    setsDead (byteAt code q) = false ∧ byteAt code q ≠ JUMPI
  blk_term_last : ∀ b ∈ s.blocks, ∀ q ∈ instrStarts code, b.m_begin ≤ q → q < b.m_end →
    (setsDead (byteAt code q) = true ∨ byteAt code q = JUMPI) →
    skipPushDataAndGetNext code q = b.m_end

/-- The value that `get(index)` returns in the state `s`: the item of `m_local`
counted from the back, or the entry of `m_input` when it is set, or the load of
the slot of the stack of the caller. -/
def LocalStack.peek (s : LocalStack) (index : Nat) : Word :=
  if index < s.m_local.length then
    (s.m_local[s.m_local.length - 1 - index]?).getD (Word.value 0)
  else
    ((s.m_input[index - s.m_local.length + s.m_globalPops]?).join).getD
      (Word.load (-((index - s.m_local.length + s.m_globalPops : Nat) : Int) - 1))

/-- The block after the blocks `rest` in the main function: the first of them,
the block `Stop` when there is none. -/
def nextBlock (rest : List BlockCode) : BlockHandle :=
  match rest with
  | [] => BlockHandle.stop
  | n :: _ => n.llvm


/-! ## The cursor -/

theorem skipPushDataAndGetNext_gt (code : Bytecode) (curr : Nat) :
    curr < skipPushDataAndGetNext code curr := by
  simp only [skipPushDataAndGetNext]
  split <;> omega

theorem skipPushDataAndGetNext_le (code : Bytecode) (curr : Nat) (h : curr < code.length) :
    skipPushDataAndGetNext code curr ≤ code.length := by
  simp only [skipPushDataAndGetNext]
  split <;> omega

theorem skipPushDataAndGetNext_of_not_push (code : Bytecode) (curr : Nat)
    (h : ¬ (PUSH1 ≤ byteAt code curr ∧ byteAt code curr ≤ PUSH32)) :
    skipPushDataAndGetNext code curr = curr + 1 := by
  simp only [skipPushDataAndGetNext]
  rw [if_neg h]

theorem setsDead_not_push {inst : Instruction} (h : setsDead inst = true) :
    ¬ (PUSH1 ≤ inst ∧ inst ≤ PUSH32) := by
  unfold setsDead at h
  simp only [Bool.or_eq_true, beq_iff_eq] at h
  rcases h with (((h | h) | h) | h) | h <;> subst h <;> decide

theorem setsDead_ne_jumpdest {inst : Instruction} (h : setsDead inst = true) :
    inst ≠ JUMPDEST := by
  unfold setsDead at h
  simp only [Bool.or_eq_true, beq_iff_eq] at h
  rcases h with (((h | h) | h) | h) | h <;> subst h <;> decide

theorem createBasicBlocksBody_curr (code : Bytecode) (s : SplitState) :
    (createBasicBlocksBody code s).curr = skipPushDataAndGetNext code s.curr := by
  unfold createBasicBlocksBody
  simp only
  split
  · rfl
  · split <;> rfl

/-- Loop rule: a property of the loop variables that holds initially and is
kept by the body holds when the loop exits, and the loop does exit with
`curr == _codeEnd` within `code.length - curr` iterations. -/
theorem createBasicBlocksLoop_inv (code : Bytecode) (Inv : SplitState → Prop)
    (hstep : ∀ s, s.curr < code.length → Inv s → Inv (createBasicBlocksBody code s)) :
    ∀ (fuel : Nat) (s : SplitState), s.curr ≤ code.length → code.length - s.curr ≤ fuel →
      Inv s →
      Inv (createBasicBlocksLoop code fuel s) ∧
        (createBasicBlocksLoop code fuel s).curr = code.length := by
  intro fuel
  induction fuel with
  | zero =>
    intro s h1 h2 h3
    refine ⟨h3, ?_⟩
    show s.curr = code.length
    omega
  | succ n ih =>
    intro s h1 h2 h3
    unfold createBasicBlocksLoop
    by_cases hc : s.curr = code.length
    · rw [if_pos hc]
      exact ⟨h3, hc⟩
    · rw [if_neg hc]
      have hlt : s.curr < code.length := by omega
      have hgt := skipPushDataAndGetNext_gt code s.curr
      have hle := skipPushDataAndGetNext_le code s.curr hlt
      apply ih
      · rw [createBasicBlocksBody_curr]; exact hle
      · rw [createBasicBlocksBody_curr]; omega
      · exact hstep s hlt h3

/-- Invariant rule for `createBasicBlocks`: the final loop state has
`curr == _codeEnd`, satisfies every invariant of the body, and its `blocks` are
what the function returns. -/
theorem createBasicBlocks_inv (code : Bytecode) (Inv : SplitState → Prop)
    (hinit : Inv { curr := 0, begin := 0, isDead := false, blocks := [] })
    (hstep : ∀ s, s.curr < code.length → Inv s → Inv (createBasicBlocksBody code s)) :
    ∃ s : SplitState, s.curr = code.length ∧ Inv s ∧ createBasicBlocks code = s.blocks := by
  have h := createBasicBlocksLoop_inv code Inv hstep code.length
    { curr := 0, begin := 0, isDead := false, blocks := [] } (Nat.zero_le _) (by simp) hinit
  exact ⟨_, h.2, h.1, rfl⟩

/-- More fuel than `code.length` does not change the result of the loop. -/
theorem createBasicBlocksLoop_fuel (code : Bytecode) :
    ∀ (fuel : Nat) (s : SplitState), s.curr ≤ code.length → code.length - s.curr ≤ fuel →
      createBasicBlocksLoop code (fuel + 1) s = createBasicBlocksLoop code fuel s := by
  intro fuel
  induction fuel with
  | zero =>
    intro s h1 h2
    have hc : s.curr = code.length := by omega
    simp [createBasicBlocksLoop, hc]
  | succ n ih =>
    intro s h1 h2
    rw [createBasicBlocksLoop]
    by_cases hc : s.curr = code.length
    · simp [createBasicBlocksLoop, hc]
    · rw [if_neg hc]
      have hlt : s.curr < code.length := by omega
      have hgt := skipPushDataAndGetNext_gt code s.curr
      have hle := skipPushDataAndGetNext_le code s.curr hlt
      rw [ih]
      · conv_rhs => rw [createBasicBlocksLoop, if_neg hc]
      · rw [createBasicBlocksBody_curr]; exact hle
      · rw [createBasicBlocksBody_curr]; omega

/-! ## Instruction boundaries -/

theorem mem_instrStartsFrom_bounds (code : Bytecode) :
    ∀ (fuel curr q : Nat), q ∈ instrStartsFrom code fuel curr → curr ≤ q ∧ q < code.length := by
  intro fuel
  induction fuel with
  | zero => intro curr q h; simp [instrStartsFrom] at h
  | succ n ih =>
    intro curr q h
    unfold instrStartsFrom at h
    split at h
    · rename_i hlt
      rcases List.mem_cons.mp h with h | h
      · subst h; exact ⟨Nat.le_refl _, hlt⟩
      · have := ih _ _ h
        have := skipPushDataAndGetNext_gt code curr
        omega
    · simp at h

/-- No instruction starts strictly inside another one. -/
theorem instrStartsFrom_skip_le (code : Bytecode) :
    ∀ (fuel curr a q : Nat), a ∈ instrStartsFrom code fuel curr →
      q ∈ instrStartsFrom code fuel curr → a < q → skipPushDataAndGetNext code a ≤ q := by
  intro fuel
  induction fuel with
  | zero => intro curr a q h; simp [instrStartsFrom] at h
  | succ n ih =>
    intro curr a q ha hq hlt
    unfold instrStartsFrom at ha hq
    by_cases hc : curr < code.length
    · rw [if_pos hc] at ha hq
      rcases List.mem_cons.mp ha with ha | ha <;> rcases List.mem_cons.mp hq with hq | hq
      · omega
      · subst ha; exact (mem_instrStartsFrom_bounds code _ _ _ hq).1
      · have := (mem_instrStartsFrom_bounds code _ _ _ ha).1
        have := skipPushDataAndGetNext_gt code curr
        omega
      · exact ih _ _ _ ha hq hlt
    · rw [if_neg hc] at ha
      simp at ha

/-- The instruction after a decoded one is decoded too, unless the code ends. -/
theorem instrStartsFrom_skip_mem (code : Bytecode) :
    ∀ (fuel curr a : Nat), code.length - curr ≤ fuel → a ∈ instrStartsFrom code fuel curr →
      skipPushDataAndGetNext code a < code.length →
      skipPushDataAndGetNext code a ∈ instrStartsFrom code fuel curr := by
  intro fuel
  induction fuel with
  | zero => intro curr a _ h; simp [instrStartsFrom] at h
  | succ n ih =>
    intro curr a hf ha hn
    unfold instrStartsFrom at ha ⊢
    split at ha
    · rename_i hlt
      rw [if_pos hlt]
      have hgt := skipPushDataAndGetNext_gt code curr
      rcases List.mem_cons.mp ha with ha | ha
      · subst ha
        apply List.mem_cons_of_mem
        cases n with
        | zero => omega
        | succ m =>
          unfold instrStartsFrom
          rw [if_pos hn]
          exact List.mem_cons_self _ _
      · exact List.mem_cons_of_mem _ (ih _ _ (by omega) ha hn)
    · simp at ha

/-- Every decoded instruction but the first follows a decoded instruction. -/
theorem instrStartsFrom_pred (code : Bytecode) :
    ∀ (fuel curr q : Nat), q ∈ instrStartsFrom code fuel curr →
      q = curr ∨ ∃ a ∈ instrStartsFrom code fuel curr, skipPushDataAndGetNext code a = q := by
  intro fuel
  induction fuel with
  | zero => intro curr q h; simp [instrStartsFrom] at h
  | succ n ih =>
    intro curr q hq
    unfold instrStartsFrom at hq ⊢
    split at hq
    · rename_i hlt
      rw [if_pos hlt]
      rcases List.mem_cons.mp hq with hq | hq
      · exact Or.inl hq
      · right
        rcases ih _ _ hq with h | ⟨a, ha, h⟩
        · exact ⟨curr, List.mem_cons_self _ _, h.symm⟩
        · exact ⟨a, List.mem_cons_of_mem _ ha, h⟩
    · simp at hq

theorem instrStarts_lt {code : Bytecode} {q : Nat} (h : q ∈ instrStarts code) :
    q < code.length :=
  (mem_instrStartsFrom_bounds code _ _ _ h).2

theorem instrStarts_zero {code : Bytecode} (h : 0 < code.length) : 0 ∈ instrStarts code := by
  unfold instrStarts
  cases hl : code.length with
  | zero => omega
  | succ n =>
    unfold instrStartsFrom
    rw [if_pos (by omega)]
    exact List.mem_cons_self _ _

theorem instrStarts_skip_le {code : Bytecode} {a q : Nat} (ha : a ∈ instrStarts code)
    (hq : q ∈ instrStarts code) (h : a < q) : skipPushDataAndGetNext code a ≤ q :=
  instrStartsFrom_skip_le code _ _ _ _ ha hq h

theorem instrStarts_skip_mem {code : Bytecode} {a : Nat} (ha : a ∈ instrStarts code) :
    skipPushDataAndGetNext code a ∈ instrStarts code ∨
      skipPushDataAndGetNext code a = code.length := by
  have hle := skipPushDataAndGetNext_le code a (instrStarts_lt ha)
  by_cases h : skipPushDataAndGetNext code a < code.length
  · exact Or.inl (instrStartsFrom_skip_mem code _ _ _ (by simp) ha h)
  · right; omega

theorem instrStarts_pred {code : Bytecode} {q : Nat} (hq : q ∈ instrStarts code) :
    q = 0 ∨ ∃ a ∈ instrStarts code, skipPushDataAndGetNext code a = q :=
  instrStartsFrom_pred code _ _ _ hq

/-- The instruction decoded immediately before a boundary is unique. -/
theorem instrStarts_skip_inj {code : Bytecode} {a b : Nat} (ha : a ∈ instrStarts code)
    (hb : b ∈ instrStarts code)
    (h : skipPushDataAndGetNext code a = skipPushDataAndGetNext code b) : a = b := by
  rcases Nat.lt_trichotomy a b with hlt | heq | hgt
  · have := instrStarts_skip_le ha hb hlt
    have := skipPushDataAndGetNext_gt code b
    omega
  · exact heq
  · have := instrStarts_skip_le hb ha hgt
    have := skipPushDataAndGetNext_gt code a
    omega

/-- The three ways through the body of the loop: `continue` in dead code; end
of a block; inside a block. -/
theorem createBasicBlocksBody_cases (code : Bytecode) (s : SplitState) :
    (s.isDead = true ∧ byteAt code s.curr ≠ JUMPDEST ∧
      createBasicBlocksBody code s = { s with curr := skipPushDataAndGetNext code s.curr }) ∨
    ((s.isDead = false ∨ byteAt code s.curr = JUMPDEST) ∧
      (setsDead (byteAt code s.curr) = true ∨ byteAt code s.curr = JUMPI ∨
        skipPushDataAndGetNext code s.curr = code.length ∨
        byteAt code (skipPushDataAndGetNext code s.curr) = JUMPDEST) ∧
      createBasicBlocksBody code s =
        { curr := skipPushDataAndGetNext code s.curr,
          begin := skipPushDataAndGetNext code s.curr,
          isDead := setsDead (byteAt code s.curr),
          blocks := s.blocks ++ [{ m_firstInstrIdx := blockBegin s, m_begin := blockBegin s,
                                   m_end := skipPushDataAndGetNext code s.curr }] }) ∨
    ((s.isDead = false ∨ byteAt code s.curr = JUMPDEST) ∧
      setsDead (byteAt code s.curr) = false ∧ byteAt code s.curr ≠ JUMPI ∧
      skipPushDataAndGetNext code s.curr ≠ code.length ∧
      byteAt code (skipPushDataAndGetNext code s.curr) ≠ JUMPDEST ∧
      createBasicBlocksBody code s =
        { curr := skipPushDataAndGetNext code s.curr, begin := blockBegin s,
          isDead := false, blocks := s.blocks }) := by
  unfold createBasicBlocksBody blockBegin
  by_cases hd : s.isDead = true <;> by_cases hj : byteAt code s.curr = JUMPDEST <;>
    by_cases h1 : setsDead (byteAt code s.curr) = true <;>
    by_cases h2 : byteAt code s.curr = JUMPI <;>
    by_cases h3 : skipPushDataAndGetNext code s.curr = code.length <;>
    by_cases h4 : byteAt code (skipPushDataAndGetNext code s.curr) = JUMPDEST <;>
    simp_all

/-! ## Invariants of the splitting loop -/

theorem SplitInv.shape_init (code : Bytecode) :
    SplitInv code { curr := 0, begin := 0, isDead := false, blocks := [] } := by
  refine ⟨Nat.zero_le _, ?_, Nat.le_refl _, ?_, ?_, ?_, ?_, ?_, ?_, ?_, ?_⟩
  · show 0 ∈ instrStarts code ∨ 0 = code.length
    by_cases h : 0 < code.length
    · exact Or.inl (instrStarts_zero h)
    · right; omega
  · intro _
    show 0 ∈ instrStarts code ∨ 0 = code.length
    by_cases h : 0 < code.length
    · exact Or.inl (instrStarts_zero h)
    · right; omega
  · intro _; exact Or.inl rfl
  · intro b hb; simp at hb
  · intro b hb; simp at hb
  · intro b hb; simp at hb
  · exact List.Pairwise.nil
  · intro b hb; simp at hb
  · intro b hb; simp at hb

theorem SplitInv.curr_mem {code : Bytecode} {s : SplitState} (h : SplitInv code s)
    (hlt : s.curr < code.length) : s.curr ∈ instrStarts code := by
  rcases h.curr_start with h | h
  · exact h
  · omega

theorem SplitInv.blockBegin_le {code : Bytecode} {s : SplitState} (h : SplitInv code s) :
    s.begin ≤ blockBegin s ∧ blockBegin s ≤ s.curr := by
  have := h.begin_le
  unfold blockBegin
  split <;> omega

theorem SplitInv.blockBegin_mem {code : Bytecode} {s : SplitState} (h : SplitInv code s)
    (hlt : s.curr < code.length) : blockBegin s ∈ instrStarts code := by
  unfold blockBegin
  split
  · exact h.curr_mem hlt
  · rename_i hd
    have hd : s.isDead = false := by simpa using hd
    rcases h.begin_start hd with h1 | h1
    · exact h1
    · have := h.begin_le; omega

theorem SplitInv.shape_step (code : Bytecode) (s : SplitState) (hlt : s.curr < code.length)
    (h : SplitInv code s) : SplitInv code (createBasicBlocksBody code s) := by
  have hgt := skipPushDataAndGetNext_gt code s.curr
  have hle := skipPushDataAndGetNext_le code s.curr hlt
  have hnext := instrStarts_skip_mem (h.curr_mem hlt)
  have hbb := h.blockBegin_le
  have hbm := h.blockBegin_mem hlt
  have hbl := h.begin_le
  rcases createBasicBlocksBody_cases code s with ⟨hd, _, he⟩ | ⟨_, _, he⟩ | ⟨_, _, _, h3, _, he⟩ <;>
    rw [he]
  · refine ⟨hle, hnext, ?_, ?_, ?_, h.blk_idx, h.blk_nonempty, h.blk_end_le, h.blk_sorted,
      h.blk_start, h.blk_end_start⟩
    · dsimp only; omega
    · intro hf; simp [hd] at hf
    · intro hf; simp [hd] at hf
  · refine ⟨hle, hnext, Nat.le_refl _, fun _ => hnext, fun _ => Or.inl rfl, ?_, ?_, ?_, ?_, ?_, ?_⟩
    · intro b hb
      rcases List.mem_append.mp hb with hb | hb
      · exact h.blk_idx b hb
      · obtain rfl := List.mem_singleton.mp hb; rfl
    · intro b hb
      rcases List.mem_append.mp hb with hb | hb
      · exact h.blk_nonempty b hb
      · obtain rfl := List.mem_singleton.mp hb; dsimp only; omega
    · intro b hb
      rcases List.mem_append.mp hb with hb | hb
      · have := h.blk_end_le b hb; dsimp only; omega
      · obtain rfl := List.mem_singleton.mp hb; exact Nat.le_refl _
    · rw [List.pairwise_append]
      refine ⟨h.blk_sorted, List.pairwise_singleton _ _, ?_⟩
      intro a ha b hb
      obtain rfl := List.mem_singleton.mp hb
      have := h.blk_end_le a ha
      dsimp only; omega
    · intro b hb
      rcases List.mem_append.mp hb with hb | hb
      · exact h.blk_start b hb
      · obtain rfl := List.mem_singleton.mp hb; exact hbm
    · intro b hb
      rcases List.mem_append.mp hb with hb | hb
      · exact h.blk_end_start b hb
      · obtain rfl := List.mem_singleton.mp hb; exact hnext
  · refine ⟨hle, hnext, ?_, fun _ => Or.inl hbm, ?_, h.blk_idx, h.blk_nonempty, ?_, h.blk_sorted,
      h.blk_start, h.blk_end_start⟩
    · dsimp only; omega
    · intro _; right; dsimp only; omega
    · intro b hb
      have := h.blk_end_le b hb
      dsimp only; omega

theorem SplitChainInv.chain_init (code : Bytecode) :
    SplitChainInv code { curr := 0, begin := 0, isDead := false, blocks := [] } :=
  ⟨Or.inl ⟨rfl, rfl, rfl⟩, List.chain'_nil, by intro l hl; simp at hl⟩

theorem SplitChainInv.chain_step (code : Bytecode) (s : SplitState) (_hlt : s.curr < code.length)
    (hs : SplitInv code s) (h : SplitChainInv code s) :
    SplitChainInv code (createBasicBlocksBody code s) := by
  have hgt := skipPushDataAndGetNext_gt code s.curr
  have hbb := hs.blockBegin_le
  rcases createBasicBlocksBody_cases code s with ⟨hd, _, he⟩ | ⟨hl, _, he⟩ | ⟨hl, _, _, _, _, he⟩ <;>
    rw [he]
  · refine ⟨?_, h.chain, ?_⟩
    · rcases h.first with ⟨_, _, h3⟩ | h1
      · rw [hd] at h3; exact absurd h3 (by decide)
      · exact Or.inr h1
    · intro l hl
      exact h.last_ok l hl
  · refine ⟨?_, ?_, ?_⟩
    · right
      rcases h.first with ⟨h1, h2, h3⟩ | ⟨b, rest, h1, h2⟩
      · refine ⟨{ m_firstInstrIdx := blockBegin s, m_begin := blockBegin s,
                  m_end := skipPushDataAndGetNext code s.curr }, [], ?_, ?_⟩
        · dsimp only; rw [h1]; rfl
        · dsimp only; unfold blockBegin; rw [h3]; exact h2
      · exact ⟨b, rest ++ [_], by dsimp only; rw [h1]; rfl, h2⟩
    · dsimp only
      refine List.Chain'.append h.chain (List.chain'_singleton _) ?_
      intro l hl y hy
      simp only [List.head?_cons, Option.mem_def, Option.some.injEq] at hy
      subst hy
      have hle := hs.blk_end_le l (List.mem_of_getLast?_eq_some hl)
      rcases h.last_ok l hl with ⟨h1, h2⟩ | h1
      · left
        dsimp only
        unfold blockBegin
        rw [h1]
        exact h2
      · by_cases heq : l.m_end = blockBegin s
        · exact Or.inl heq
        · right
          refine ⟨?_, h1⟩
          dsimp only
          omega
    · intro l hl
      dsimp only at hl
      rw [List.getLast?_concat] at hl
      simp only [Option.mem_def, Option.some.injEq] at hl
      subst hl
      dsimp only
      by_cases hsd : setsDead (byteAt code s.curr) = true
      · right
        rw [skipPushDataAndGetNext_of_not_push code s.curr (setsDead_not_push hsd)]
        simpa using hsd
      · left
        exact ⟨by simpa using hsd, rfl⟩
  · refine ⟨?_, h.chain, ?_⟩
    · rcases h.first with ⟨h1, h2, h3⟩ | h1
      · left
        refine ⟨h1, ?_, rfl⟩
        dsimp only; unfold blockBegin; rw [h3]; exact h2
      · exact Or.inr h1
    · intro l hl
      rcases h.last_ok l hl with ⟨h1, h2⟩ | h1
      · left
        refine ⟨rfl, ?_⟩
        dsimp only; unfold blockBegin; rw [h1]; exact h2
      · exact Or.inr h1

theorem covers_iff (blocks : List BasicBlock) (p : Nat) :
    covers blocks p = true ↔ ∃ b ∈ blocks, b.m_begin ≤ p ∧ p < b.m_end := by
  simp [covers]

theorem covers_append_singleton (blocks : List BasicBlock) (b : BasicBlock) (p : Nat) :
    covers (blocks ++ [b]) p = true ↔ covers blocks p = true ∨ (b.m_begin ≤ p ∧ p < b.m_end) := by
  simp [covers]

theorem inDeadRegion_iff (code : Bytecode) (p : Nat) :
    inDeadRegion code p = true ↔
      ∃ t ∈ instrStarts code, setsDead (byteAt code t) = true ∧ t < p ∧
        ∀ q ∈ instrStarts code, t < q → q ≤ p → byteAt code q ≠ JUMPDEST := by
  simp only [inDeadRegion, List.any_eq_true, List.all_eq_true, Bool.and_eq_true,
    decide_eq_true_eq, Bool.not_eq_true', Bool.and_eq_false_imp, beq_eq_false_iff_ne, ne_eq]
  constructor
  · rintro ⟨t, ht, ⟨h1, h2⟩, h3⟩
    exact ⟨t, ht, h1, h2, fun q hq h4 h5 => h3 q hq ⟨h4, h5⟩⟩
  · rintro ⟨t, ht, h1, h2, h3⟩
    exact ⟨t, ht, ⟨h1, h2⟩, fun q hq h4 => h3 q hq h4.1 h4.2⟩

/-- Inside the instruction decoded at `curr`, a byte is dead exactly when the
cursor was in dead code at `curr` and `curr` is no JUMPDEST. -/
theorem inDeadRegion_of_instr {code : Bytecode} {curr p : Nat} (hc : curr ∈ instrStarts code)
    (h1 : curr ≤ p) (h2 : p < skipPushDataAndGetNext code curr) :
    inDeadRegion code p = true ↔ (deadBefore code curr ∧ byteAt code curr ≠ JUMPDEST) := by
  rw [inDeadRegion_iff]
  constructor
  · rintro ⟨t, ht, hsd, htp, hq⟩
    have htc : t < curr := by
      rcases Nat.lt_trichotomy t curr with h | h | h
      · exact h
      · subst h
        have := skipPushDataAndGetNext_of_not_push code t (setsDead_not_push hsd)
        omega
      · have := instrStarts_skip_le hc ht h
        omega
    exact ⟨⟨t, ht, hsd, htc, fun q hq1 hq2 hq3 => hq q hq1 hq2 (by omega)⟩,
      hq curr hc htc h1⟩
  · rintro ⟨⟨t, ht, hsd, htc, hq⟩, hj⟩
    refine ⟨t, ht, hsd, by omega, ?_⟩
    intro q hq1 hq2 hq3
    rcases Nat.lt_trichotomy q curr with h | h | h
    · exact hq q hq1 hq2 h
    · subst h; exact hj
    · have := instrStarts_skip_le hc hq1 h
      omega

/-- The cursor is in dead code after the instruction at `curr` exactly when it
was in dead code at `curr` and `curr` is no JUMPDEST, or the instruction at
`curr` sets `isDead`. -/
theorem deadBefore_skip {code : Bytecode} {curr : Nat} (hc : curr ∈ instrStarts code) :
    deadBefore code (skipPushDataAndGetNext code curr) ↔
      ((deadBefore code curr ∧ byteAt code curr ≠ JUMPDEST) ∨
        setsDead (byteAt code curr) = true) := by
  have hgt := skipPushDataAndGetNext_gt code curr
  constructor
  · rintro ⟨t, ht, hsd, htn, hq⟩
    rcases Nat.lt_trichotomy t curr with h | h | h
    · left
      exact ⟨⟨t, ht, hsd, h, fun q hq1 hq2 hq3 => hq q hq1 hq2 (by omega)⟩, hq curr hc h hgt⟩
    · subst h; exact Or.inr hsd
    · have := instrStarts_skip_le hc ht h
      omega
  · rintro (⟨⟨t, ht, hsd, htc, hq⟩, hj⟩ | hsd)
    · refine ⟨t, ht, hsd, by omega, ?_⟩
      intro q hq1 hq2 hq3
      rcases Nat.lt_trichotomy q curr with h | h | h
      · exact hq q hq1 hq2 h
      · subst h; exact hj
      · have := instrStarts_skip_le hc hq1 h
        omega
    · refine ⟨curr, hc, hsd, hgt, ?_⟩
      intro q hq1 hq2 hq3
      have := instrStarts_skip_le hc hq1 hq2
      omega

theorem SplitDeadInv.dead_init (code : Bytecode) :
    SplitDeadInv code { curr := 0, begin := 0, isDead := false, blocks := [] } := by
  refine ⟨?_, ?_, ?_⟩
  · constructor
    · intro h; exact absurd h (by decide)
    · rintro ⟨t, _, _, h, _⟩
      exact absurd h (Nat.not_lt_zero _)
  · intro p hp
    exact absurd hp (Nat.not_lt_zero _)
  · intro _ p h1 h2
    exact absurd h2 (Nat.not_lt_zero _)

theorem SplitDeadInv.dead_step (code : Bytecode) (s : SplitState) (hlt : s.curr < code.length)
    (hs : SplitInv code s) (h : SplitDeadInv code s) :
    SplitDeadInv code (createBasicBlocksBody code s) := by
  have hgt := skipPushDataAndGetNext_gt code s.curr
  have hc := hs.curr_mem hlt
  have hbb := hs.blockBegin_le
  have hncov : ∀ p, s.begin ≤ p → covers s.blocks p = false := by
    intro p hp
    rw [Bool.eq_false_iff]
    intro hcov
    obtain ⟨b, hb, _, h2⟩ := (covers_iff _ _).mp hcov
    have := hs.blk_end_le b hb
    omega
  have hlive : (s.isDead = false ∨ byteAt code s.curr = JUMPDEST) →
      ¬ (deadBefore code s.curr ∧ byteAt code s.curr ≠ JUMPDEST) := by
    rintro (h1 | h1) ⟨h2, h3⟩
    · rw [h.dead_iff.mpr h2] at h1
      exact absurd h1 (by decide)
    · exact h3 h1
  have htail : (s.isDead = false ∨ byteAt code s.curr = JUMPDEST) →
      ∀ p, blockBegin s ≤ p → p < skipPushDataAndGetNext code s.curr →
        inDeadRegion code p = false := by
    intro hl p hp1 hp2
    by_cases hpc : p < s.curr
    · by_cases hd : s.isDead = true
      · unfold blockBegin at hp1
        rw [if_pos hd] at hp1
        omega
      · have hd : s.isDead = false := by simpa using hd
        unfold blockBegin at hp1
        rw [hd] at hp1
        exact h.live_tail hd p hp1 hpc
    · rw [Bool.eq_false_iff]
      intro hdead
      exact hlive hl ((inDeadRegion_of_instr hc (by omega) hp2).mp hdead)
  rcases createBasicBlocksBody_cases code s with ⟨hd, hj, he⟩ | ⟨hl, _, he⟩ | ⟨hl, hsd, _, _, _, he⟩ <;>
    rw [he]
  · refine ⟨?_, ?_, ?_⟩
    · dsimp only
      rw [deadBefore_skip hc]
      simp only [hd, true_iff]
      exact Or.inl ⟨h.dead_iff.mp hd, hj⟩
    · intro p hp
      have hp : p < skipPushDataAndGetNext code s.curr := by
        unfold blockBegin at hp
        dsimp only at hp
        rw [if_pos hd] at hp
        exact hp
      dsimp only
      by_cases hpc : p < s.curr
      · apply h.cov
        unfold blockBegin
        rw [if_pos hd]
        exact hpc
      · have h1 : inDeadRegion code p = true :=
          (inDeadRegion_of_instr hc (by omega) hp).mpr ⟨h.dead_iff.mp hd, hj⟩
        have h2 := hncov p (by have := hs.begin_le; omega)
        rw [h1, h2]
        decide
    · intro hf
      dsimp only at hf
      rw [hd] at hf
      exact absurd hf (by decide)
  · refine ⟨?_, ?_, ?_⟩
    · dsimp only
      rw [deadBefore_skip hc]
      constructor
      · intro hsd; exact Or.inr hsd
      · rintro (h1 | h1)
        · exact absurd h1 (hlive hl)
        · exact h1
    · intro p hp
      have hp : p < skipPushDataAndGetNext code s.curr := by
        unfold blockBegin at hp
        dsimp only at hp
        split at hp <;> exact hp
      dsimp only
      by_cases hpb : p < blockBegin s
      · rw [← h.cov p hpb, covers_append_singleton]
        dsimp only
        constructor
        · rintro (h1 | h1)
          · exact h1
          · omega
        · intro h1; exact Or.inl h1
      · rw [htail hl p (by omega) hp]
        simp only [iff_true]
        rw [covers_append_singleton]
        right
        dsimp only
        omega
    · intro _ p h1 h2
      dsimp only at h1 h2
      omega
  · refine ⟨?_, ?_, ?_⟩
    · dsimp only
      rw [deadBefore_skip hc]
      constructor
      · intro hf; exact absurd hf (by decide)
      · rintro (h1 | h1)
        · exact absurd h1 (hlive hl)
        · rw [hsd] at h1; exact absurd h1 (by decide)
    · intro p hp
      have hp : p < blockBegin s := hp
      exact h.cov p hp
    · intro _ p h1 h2
      exact htail hl p h1 h2

theorem StartOK.append {code : Bytecode} {blocks : List BasicBlock} {x : Nat}
    (h : StartOK code blocks x) (b : BasicBlock) : StartOK code (blocks ++ [b]) x := by
  rcases h with h | h | ⟨h1, h2⟩
  · exact Or.inl h
  · exact Or.inr (Or.inl h)
  · exact Or.inr (Or.inr ⟨(covers_append_singleton _ _ _).mpr (Or.inl h1), h2⟩)

theorem SplitStartInv.start_init (code : Bytecode) :
    SplitStartInv code { curr := 0, begin := 0, isDead := false, blocks := [] } :=
  ⟨fun _ => Or.inl rfl, by intro b hb; simp at hb⟩

theorem SplitStartInv.start_step (code : Bytecode) (s : SplitState) (hlt : s.curr < code.length)
    (hs : SplitInv code s) (h : SplitStartInv code s) :
    SplitStartInv code (createBasicBlocksBody code s) := by
  have hgt := skipPushDataAndGetNext_gt code s.curr
  have hc := hs.curr_mem hlt
  have hbb := hs.blockBegin_le
  have hstart : (s.isDead = false ∨ byteAt code s.curr = JUMPDEST) →
      StartOK code s.blocks (blockBegin s) := by
    intro hl
    unfold blockBegin
    by_cases hd : s.isDead = true
    · rw [if_pos hd]
      rcases hl with h1 | h1
      · rw [hd] at h1; exact absurd h1 (by decide)
      · exact Or.inr (Or.inl h1)
    · have hd : s.isDead = false := by simpa using hd
      rw [hd]
      exact h.begin_ok hd
  rcases createBasicBlocksBody_cases code s with ⟨hd, _, he⟩ | ⟨hl, _, he⟩ | ⟨hl, _, _, _, _, he⟩ <;>
    rw [he]
  · refine ⟨?_, h.blk_ok⟩
    intro hf
    dsimp only at hf
    rw [hd] at hf
    exact absurd hf (by decide)
  · refine ⟨?_, ?_⟩
    · intro hsd
      dsimp only at hsd ⊢
      right; right
      refine ⟨?_, s.curr, hc, rfl, hsd⟩
      rw [covers_append_singleton]
      right
      dsimp only
      omega
    · intro b hb
      dsimp only at hb ⊢
      rcases List.mem_append.mp hb with hb | hb
      · exact (h.blk_ok b hb).append _
      · obtain rfl := List.mem_singleton.mp hb
        exact (hstart hl).append _
  · exact ⟨fun _ => hstart hl, h.blk_ok⟩

theorem SplitJumpdestInv.jumpdest_init (code : Bytecode) :
    SplitJumpdestInv code { curr := 0, begin := 0, isDead := false, blocks := [] } := by
  refine ⟨?_, ?_, ?_⟩
  · intro _ q _ h1 h2
    dsimp only at h1 h2
    omega
  · intro b hb; simp at hb
  · intro q _ h1
    exact absurd h1 (Nat.not_lt_zero _)

theorem SplitJumpdestInv.jumpdest_step (code : Bytecode) (s : SplitState) (hlt : s.curr < code.length)
    (hs : SplitInv code s) (h : SplitJumpdestInv code s) :
    SplitJumpdestInv code (createBasicBlocksBody code s) := by
  have hgt := skipPushDataAndGetNext_gt code s.curr
  have hc := hs.curr_mem hlt
  have hbb := hs.blockBegin_le
  have hble := hs.begin_le
  -- a decoded instruction before `next` is at or before `curr`
  have hbefore : ∀ q ∈ instrStarts code, q < skipPushDataAndGetNext code s.curr → q ≤ s.curr := by
    intro q hq h1
    by_cases h2 : s.curr < q
    · have := instrStarts_skip_le hc hq h2
      omega
    · omega
  -- no decoded JUMPDEST after the begin of the current block, up to `curr`
  have hinside : (s.isDead = false ∨ byteAt code s.curr = JUMPDEST) →
      ∀ q ∈ instrStarts code, blockBegin s < q → q ≤ s.curr → byteAt code q ≠ JUMPDEST := by
    intro hl q hq h1 h2
    by_cases hd : s.isDead = true
    · unfold blockBegin at h1
      rw [if_pos hd] at h1
      omega
    · have hd : s.isDead = false := by simpa using hd
      unfold blockBegin at h1
      rw [hd] at h1
      exact h.live_no_jd hd q hq h1 h2
  -- a JUMPDEST at `curr` is the begin of the current block
  have hjd : (s.isDead = false ∨ byteAt code s.curr = JUMPDEST) →
      byteAt code s.curr = JUMPDEST → blockBegin s = s.curr := by
    intro hl hj
    by_cases hd : s.isDead = true
    · unfold blockBegin; rw [if_pos hd]
    · have hd : s.isDead = false := by simpa using hd
      by_cases hb : s.begin < s.curr
      · exact absurd hj (h.live_no_jd hd s.curr hc hb (Nat.le_refl _))
      · unfold blockBegin; rw [hd]
        simp only [Bool.false_eq_true, if_false]
        omega
  have hlivebb : s.isDead = false → blockBegin s = s.begin := by
    intro hd; unfold blockBegin; rw [hd]; rfl
  rcases createBasicBlocksBody_cases code s with
    ⟨hd, hj, he⟩ | ⟨hl, _, he⟩ | ⟨hl, _, _, _, h4, he⟩ <;> rw [he]
  · refine ⟨?_, h.blk_no_jd, ?_⟩
    · intro hf
      dsimp only at hf
      rw [hd] at hf
      exact absurd hf (by decide)
    · intro q hq h1 h2
      dsimp only at h1 ⊢
      have hle := hbefore q hq h1
      by_cases hqc : q = s.curr
      · subst hqc; exact absurd h2 hj
      · rcases h.jd_block q hq (by omega) h2 with h3 | ⟨h3, _⟩
        · exact Or.inl h3
        · rw [hd] at h3; exact absurd h3 (by decide)
  · refine ⟨?_, ?_, ?_⟩
    · intro _ q _ h1 h2
      dsimp only at h1 h2
      omega
    · intro b hb q hq h1 h2
      dsimp only at hb
      rcases List.mem_append.mp hb with hb | hb
      · exact h.blk_no_jd b hb q hq h1 h2
      · obtain rfl := List.mem_singleton.mp hb
        dsimp only at h1 h2
        exact hinside hl q hq h1 (hbefore q hq h2)
    · intro q hq h1 h2
      dsimp only at h1 ⊢
      left
      have hle := hbefore q hq h1
      by_cases hqc : q = s.curr
      · subst hqc
        exact ⟨_, List.mem_append.mpr (Or.inr (List.mem_singleton.mpr rfl)), hjd hl h2⟩
      · rcases h.jd_block q hq (by omega) h2 with ⟨b, hb, h3⟩ | ⟨h3, h5⟩
        · exact ⟨b, List.mem_append.mpr (Or.inl hb), h3⟩
        · refine ⟨_, List.mem_append.mpr (Or.inr (List.mem_singleton.mpr rfl)), ?_⟩
          dsimp only
          rw [hlivebb h3]
          exact h5
  · refine ⟨?_, h.blk_no_jd, ?_⟩
    · intro _ q hq h1 h2
      dsimp only at h1 h2
      by_cases hqn : q = skipPushDataAndGetNext code s.curr
      · subst hqn; exact h4
      · exact hinside hl q hq h1 (hbefore q hq (by omega))
    · intro q hq h1 h2
      dsimp only at h1 ⊢
      have hle := hbefore q hq h1
      by_cases hqc : q = s.curr
      · subst hqc
        exact Or.inr ⟨rfl, hjd hl h2⟩
      · rcases h.jd_block q hq (by omega) h2 with h3 | ⟨h3, h5⟩
        · exact Or.inl h3
        · right
          refine ⟨rfl, ?_⟩
          rw [hlivebb h3]
          exact h5

/-- The blocks are exactly those of a final loop state that satisfies the
invariants. -/
theorem createBasicBlocks_final (code : Bytecode) :
    ∃ s : SplitState, s.curr = code.length ∧ SplitAll code s ∧
      createBasicBlocks code = s.blocks :=
  createBasicBlocks_inv code (SplitAll code)
    ⟨SplitInv.shape_init code, SplitChainInv.chain_init code, SplitDeadInv.dead_init code,
      SplitStartInv.start_init code, SplitJumpdestInv.jumpdest_init code⟩
    (fun s hlt h => ⟨SplitInv.shape_step code s hlt h.shape,
      SplitChainInv.chain_step code s hlt h.shape h.chain,
      SplitDeadInv.dead_step code s hlt h.shape h.dead,
      SplitStartInv.start_step code s hlt h.shape h.start,
      SplitJumpdestInv.jumpdest_step code s hlt h.shape h.jumpdest⟩)

/-! ## Ranges of the blocks -/

/-- C1 (as stated) fails on `STOP ADD`: the only block is `[0, 1)`, the byte
after the STOP is dead code and belongs to no block. -/
theorem createBasicBlocks_ranges_counterexample :
    ¬ RangesConcatenate [0x00, 0x01] (createBasicBlocks [0x00, 0x01]) := by
  intro h
  have h1 := h.2.2.2 ⟨0, 0, 1⟩ (by decide)
  exact absurd h1 (by decide)

/-- C1 (amended): the first range starts at offset 0 (for non-empty bytecode),
each range starts where the previous one ends, and the last range ends at
`len(B)`, except that a range may be followed by a gap (or by the end of the
code after a gap) when the byte before the gap is JUMP, RETURN, REVERT, STOP or
SELFDESTRUCT; the ranges never overlap or run past the end. -/
theorem createBasicBlocks_ranges (code : Bytecode) :
    (0 < code.length → ∃ b rest, createBasicBlocks code = b :: rest ∧ b.m_begin = 0) ∧
    (createBasicBlocks code).Chain' (NextRange code) ∧
    (∀ l ∈ (createBasicBlocks code).getLast?,
      l.m_end = code.length ∨
        (l.m_end < code.length ∧ setsDead (byteAt code (l.m_end - 1)) = true)) := by
  obtain ⟨s, hc, ⟨hs, hch, _, _, _⟩, he⟩ := createBasicBlocks_final code
  rw [he]
  refine ⟨?_, hch.chain, ?_⟩
  · intro hpos
    rcases hch.first with ⟨_, h2, h3⟩ | h1
    · rcases hs.live_progress h3 with h4 | h4 <;> omega
    · exact h1
  · intro l hl
    have hle := hs.blk_end_le l (List.mem_of_getLast?_eq_some hl)
    have hbl := hs.begin_le
    rcases hch.last_ok l hl with ⟨h1, h2⟩ | h1
    · left
      rcases hs.live_progress h1 with h4 | h4 <;> omega
    · by_cases heq : l.m_end = code.length
      · exact Or.inl heq
      · right
        exact ⟨by omega, h1⟩

/-- Every block is non-empty, inside the code, and indexed by its begin. -/
theorem createBasicBlocks_block_bounds (code : Bytecode) :
    ∀ b ∈ createBasicBlocks code,
      b.m_begin < b.m_end ∧ b.m_firstInstrIdx = b.m_begin ∧ b.m_end ≤ code.length := by
  obtain ⟨s, hc, ⟨hs, _, _, _, _⟩, he⟩ := createBasicBlocks_final code
  rw [he]
  intro b hb
  have h1 := hs.blk_end_le b hb
  have h2 := hs.begin_le
  exact ⟨hs.blk_nonempty b hb, hs.blk_idx b hb, by omega⟩

/-- The ranges of the blocks are ordered: a block ends at or before the begin of
every later block. -/
theorem createBasicBlocks_sorted (code : Bytecode) :
    (createBasicBlocks code).Pairwise (fun a b => a.m_end ≤ b.m_begin) := by
  obtain ⟨s, _, ⟨hs, _, _, _, _⟩, he⟩ := createBasicBlocks_final code
  rw [he]
  exact hs.blk_sorted

/-- Non-empty ordered ranges indexed by their begin have strictly increasing
indices. -/
theorem firstInstrIdx_increasing (bs : List BasicBlock)
    (hmem : ∀ b ∈ bs, b.m_firstInstrIdx = b.m_begin ∧ b.m_begin < b.m_end)
    (hsorted : bs.Pairwise (fun a b => a.m_end ≤ b.m_begin)) :
    bs.Pairwise (fun a b => a.m_firstInstrIdx < b.m_firstInstrIdx) := by
  induction bs with
  | nil => exact List.Pairwise.nil
  | cons a l ih =>
    rw [List.pairwise_cons] at hsorted ⊢
    refine ⟨?_, ih (fun b hb => hmem b (List.mem_cons_of_mem _ hb)) hsorted.2⟩
    intro b hb
    have h1 := hmem a (List.mem_cons_self _ _)
    have h2 := hmem b (List.mem_cons_of_mem _ hb)
    have h3 := hsorted.1 b hb
    omega

/-- The `firstInstrIdx` values of the blocks are strictly increasing. -/
theorem createBasicBlocks_idx_increasing (code : Bytecode) :
    (createBasicBlocks code).Pairwise (fun a b => a.m_firstInstrIdx < b.m_firstInstrIdx) :=
  firstInstrIdx_increasing _
    (fun b hb => ⟨(createBasicBlocks_block_bounds code b hb).2.1,
      (createBasicBlocks_block_bounds code b hb).1⟩)
    (createBasicBlocks_sorted code)

/-- C2: every block has a non-empty range inside the code, its
`first_instr_idx` is the offset of its begin, the `first_instr_idx` values are
strictly increasing, and every block ends at or before the begin of every later
block. -/
theorem createBasicBlocks_blocks_ordered (code : Bytecode) :
    (∀ b ∈ createBasicBlocks code,
      b.m_begin < b.m_end ∧ b.m_firstInstrIdx = b.m_begin ∧ b.m_end ≤ code.length) ∧
    (createBasicBlocks code).Pairwise (fun a b => a.m_firstInstrIdx < b.m_firstInstrIdx) ∧
    (createBasicBlocks code).Pairwise (fun a b => a.m_end ≤ b.m_begin) := by
  refine ⟨?_, ?_, ?_⟩
  · intro b hb
    exact createBasicBlocks_block_bounds code b hb
  · exact createBasicBlocks_idx_increasing code
  · exact createBasicBlocks_sorted code

/-- C3: a byte offset of the code is covered by no block exactly when it lies
in a dead region, that is after a JUMP, RETURN, REVERT, STOP or SELFDESTRUCT
instruction of the linear decoding and before the next JUMPDEST that the linear
decoding finds (or before the end of the code). -/
theorem createBasicBlocks_partition (code : Bytecode) (p : Nat) (hp : p < code.length) :
    covers (createBasicBlocks code) p = false ↔ inDeadRegion code p = true := by
  obtain ⟨s, hc, ⟨hs, _, hd, _, _⟩, he⟩ := createBasicBlocks_final code
  rw [he]
  have hb : p < blockBegin s := by
    unfold blockBegin
    by_cases hdead : s.isDead = true
    · rw [if_pos hdead]; omega
    · have hdead : s.isDead = false := by simpa using hdead
      rw [hdead]
      rcases hs.live_progress hdead with h | h
      · simp only [Bool.false_eq_true, if_false]; omega
      · omega
  have := hd.cov p hb
  cases h1 : covers s.blocks p <;> cases h2 : inDeadRegion code p <;> simp_all

/-- Witness for C3 on `STOP ADD`, offset 1. -/
theorem createBasicBlocks_partition_witness :
    1 < ([0x00, 0x01] : Bytecode).length ∧
      (covers (createBasicBlocks [0x00, 0x01]) 1 = false ↔
        inDeadRegion [0x00, 0x01] 1 = true) :=
  ⟨by decide, createBasicBlocks_partition [0x00, 0x01] 1 (by decide)⟩

/-- C4: every block starts at an instruction boundary of the linear decoding
from offset 0 (no decoded instruction, so no PUSH immediate, extends over its
first byte); and if the instruction decoded immediately before it is JUMP,
RETURN, REVERT, STOP or SELFDESTRUCT, or the byte before it belongs to no block
(skipped dead code), then its first byte is JUMPDEST. -/
theorem createBasicBlocks_block_start (code : Bytecode) :
    ∀ b ∈ createBasicBlocks code,
      b.m_begin ∈ instrStarts code ∧
      (∀ q ∈ instrStarts code, q < b.m_begin → skipPushDataAndGetNext code q ≤ b.m_begin) ∧
      (∀ t ∈ instrStarts code, skipPushDataAndGetNext code t = b.m_begin →
        setsDead (byteAt code t) = true → byteAt code b.m_begin = JUMPDEST) ∧
      (0 < b.m_begin → covers (createBasicBlocks code) (b.m_begin - 1) = false →
        byteAt code b.m_begin = JUMPDEST) := by
  obtain ⟨s, _, ⟨hs, _, _, hst, _⟩, he⟩ := createBasicBlocks_final code
  rw [he]
  intro b hb
  have hmem := hs.blk_start b hb
  refine ⟨hmem, fun q hq h => instrStarts_skip_le hq hmem h, ?_, ?_⟩
  · intro t ht h1 h2
    rcases hst.blk_ok b hb with h3 | h3 | ⟨_, t', ht', h4, h5⟩
    · have := skipPushDataAndGetNext_gt code t
      omega
    · exact h3
    · have := instrStarts_skip_inj ht ht' (h1.trans h4.symm)
      subst this
      rw [h2] at h5
      exact absurd h5 (by decide)
  · intro h1 h2
    rcases hst.blk_ok b hb with h3 | h3 | ⟨h4, _⟩
    · omega
    · exact h3
    · rw [h2] at h4
      exact absurd h4 (by decide)

/-- Witness for C4 on `JUMP JUMPDEST`, second block. -/
theorem createBasicBlocks_block_start_witness :
    (⟨1, 1, 2⟩ : BasicBlock) ∈ createBasicBlocks [0x56, 0x5b] ∧
      (1 ∈ instrStarts [0x56, 0x5b] ∧
      (∀ q ∈ instrStarts [0x56, 0x5b], q < 1 → skipPushDataAndGetNext [0x56, 0x5b] q ≤ 1) ∧
      (∀ t ∈ instrStarts [0x56, 0x5b], skipPushDataAndGetNext [0x56, 0x5b] t = 1 →
        setsDead (byteAt [0x56, 0x5b] t) = true → byteAt [0x56, 0x5b] 1 = JUMPDEST) ∧
      (0 < 1 → covers (createBasicBlocks [0x56, 0x5b]) (1 - 1) = false →
        byteAt [0x56, 0x5b] 1 = JUMPDEST)) :=
  ⟨by decide, createBasicBlocks_block_start [0x56, 0x5b] ⟨1, 1, 2⟩ (by decide)⟩

/-! ## The jump table -/

/-- Inside a block of `createBasicBlocks`, `readPushData` followed by `++it`
moves the iterator to where `skipPushDataAndGetNext` moves the cursor. -/
theorem readPushData_succ (code : Bytecode) (it e : Nat)
    (hp : isAnyPush (byteAt code it) = true) (h1 : skipPushDataAndGetNext code it ≤ e)
    (h2 : e ≤ code.length) :
    readPushData code it e + 1 = skipPushDataAndGetNext code it := by
  have hp : PUSH1 ≤ byteAt code it ∧ byteAt code it ≤ PUSH32 := by
    simpa [isAnyPush] using hp
  simp only [skipPushDataAndGetNext, if_pos hp] at h1 ⊢
  unfold readPushData
  omega

/-- The next instruction of a block starts inside the block or at its end. -/
theorem BlockOK.skip {code : Bytecode} {b : BasicBlock} (hb : BlockOK code b) {it : Nat}
    (hit : it ∈ instrStarts code) (hlt : it < b.m_end) :
    skipPushDataAndGetNext code it ≤ b.m_end ∧
      (skipPushDataAndGetNext code it ∈ instrStarts code ∨
        skipPushDataAndGetNext code it = b.m_end) := by
  have hle : skipPushDataAndGetNext code it ≤ b.m_end := by
    rcases hb.end_start with h | h
    · exact instrStarts_skip_le hit h hlt
    · rw [h]; exact skipPushDataAndGetNext_le code it (instrStarts_lt hit)
  refine ⟨hle, ?_⟩
  rcases instrStarts_skip_mem hit with h | h
  · exact Or.inl h
  · right
    have := hb.end_le
    omega

/-- After the first instruction of a block the loop of `compileBasicBlock` adds
no case, and it reaches the end of the block. -/
theorem compileBasicBlockLoop_tail (code : Bytecode) (rev : evm_revision) (staticCall : Bool)
    (b : BasicBlock) (hb : BlockOK code b) :
    ∀ (fuel it : Nat) (jt : JumpTable), (it ∈ instrStarts code ∨ it = b.m_end) →
      b.m_begin < it → it ≤ b.m_end → b.m_end - it ≤ fuel →
      compileBasicBlockLoop code rev staticCall b fuel it jt = some jt := by
  intro fuel
  induction fuel with
  | zero =>
    intro it jt _ _ h3 h4
    have : it = b.m_end := by omega
    simp [compileBasicBlockLoop, this]
  | succ n ih =>
    intro it jt h1 h2 h3 h4
    unfold compileBasicBlockLoop
    by_cases he : it = b.m_end
    · rw [if_pos he]
    · rw [if_neg he]
      have hit : it ∈ instrStarts code := by
        rcases h1 with h | h
        · exact h
        · exact absurd h he
      have hlt : it < b.m_end := by omega
      have hjd := hb.no_jd it hit h2 hlt
      have hgt := skipPushDataAndGetNext_gt code it
      obtain ⟨hsk1, hsk2⟩ := hb.skip hit hlt
      dsimp only
      rw [if_neg hjd]
      by_cases hp : isAnyPush (byteAt code it) = true
      · rw [if_pos hp, readPushData_succ code it b.m_end hp hsk1 hb.end_le]
        exact ih _ _ hsk2 (by omega) hsk1 (by omega)
      · rw [if_neg hp]
        have hnp : ¬ (PUSH1 ≤ byteAt code it ∧ byteAt code it ≤ PUSH32) := by
          simpa [isAnyPush] using hp
        have hsk := skipPushDataAndGetNext_of_not_push code it hnp
        split
        · have : b.m_end - 1 + 1 = b.m_end := by omega
          rw [this]
          exact ih _ _ (Or.inr rfl) (by omega) (Nat.le_refl _) (by omega)
        · rw [← hsk]
          exact ih _ _ hsk2 (by omega) hsk1 (by omega)

theorem compileBasicBlock_eq (code : Bytecode) (rev : evm_revision) (staticCall : Bool)
    (b : BasicBlock) (hb : BlockOK code b) (jt : JumpTable) :
    compileBasicBlock code rev staticCall b jt = some (jt ++ blockCases code b) := by
  unfold compileBasicBlock blockCases
  have hne := hb.nonempty
  obtain ⟨n, hn⟩ : ∃ n, b.m_end - b.m_begin = n + 1 := ⟨b.m_end - b.m_begin - 1, by omega⟩
  rw [hn]
  unfold compileBasicBlockLoop
  rw [if_neg (by omega)]
  have hgt := skipPushDataAndGetNext_gt code b.m_begin
  obtain ⟨hsk1, hsk2⟩ := hb.skip hb.begin_start hne
  dsimp only
  by_cases hjd : byteAt code b.m_begin = JUMPDEST
  · rw [if_pos hjd, if_pos hjd, if_pos rfl]
    have hnp : ¬ (PUSH1 ≤ byteAt code b.m_begin ∧ byteAt code b.m_begin ≤ PUSH32) := by
      rw [hjd]; decide
    have hsk := skipPushDataAndGetNext_of_not_push code b.m_begin hnp
    rw [← hsk]
    exact compileBasicBlockLoop_tail code rev staticCall b hb _ _ _ hsk2 (by omega) hsk1 (by omega)
  · rw [if_neg hjd, if_neg hjd, List.append_nil]
    by_cases hp : isAnyPush (byteAt code b.m_begin) = true
    · rw [if_pos hp, readPushData_succ code b.m_begin b.m_end hp hsk1 hb.end_le]
      exact compileBasicBlockLoop_tail code rev staticCall b hb _ _ _ hsk2 (by omega) hsk1
        (by omega)
    · rw [if_neg hp]
      have hnp : ¬ (PUSH1 ≤ byteAt code b.m_begin ∧ byteAt code b.m_begin ≤ PUSH32) := by
        simpa [isAnyPush] using hp
      have hsk := skipPushDataAndGetNext_of_not_push code b.m_begin hnp
      split
      · have : b.m_end - 1 + 1 = b.m_end := by omega
        rw [this]
        exact compileBasicBlockLoop_tail code rev staticCall b hb _ _ _ (Or.inr rfl) (by omega)
          (Nat.le_refl _) (by omega)
      · rw [← hsk]
        exact compileBasicBlockLoop_tail code rev staticCall b hb _ _ _ hsk2 (by omega) hsk1
          (by omega)

theorem compileBlocks_eq (code : Bytecode) (rev : evm_revision) (staticCall : Bool) :
    ∀ (blocks : List BasicBlock) (jt : JumpTable), (∀ b ∈ blocks, BlockOK code b) →
      compileBlocks code rev staticCall blocks jt = some (jt ++ blocksCases code blocks) := by
  intro blocks
  induction blocks with
  | nil => intro jt _; simp [compileBlocks, blocksCases]
  | cons b bs ih =>
    intro jt h
    unfold compileBlocks
    rw [compileBasicBlock_eq code rev staticCall b (h b (List.mem_cons_self _ _)) jt]
    simp only [Option.some_bind]
    rw [ih _ (fun x hx => h x (List.mem_cons_of_mem _ hx))]
    simp [blocksCases, List.append_assoc]

theorem mem_blocksCases {code : Bytecode} {blocks : List BasicBlock} {c : Nat × BlockHandle}
    (h : c ∈ blocksCases code blocks) :
    ∃ b ∈ blocks, byteAt code b.m_begin = JUMPDEST ∧ c = (b.m_firstInstrIdx, b.llvm) := by
  induction blocks with
  | nil => simp [blocksCases] at h
  | cons a l ih =>
    unfold blocksCases at h
    rcases List.mem_append.mp h with h | h
    · unfold blockCases at h
      split at h
      · rename_i hj
        exact ⟨a, List.mem_cons_self _ _, hj, List.mem_singleton.mp h⟩
      · simp at h
    · obtain ⟨b, hb, h1, h2⟩ := ih h
      exact ⟨b, List.mem_cons_of_mem _ hb, h1, h2⟩

/-- With strictly increasing `firstInstrIdx`, the cases whose value is the
`firstInstrIdx` of a block that starts with JUMPDEST are that block's case
alone. -/
theorem blocksCases_filter {code : Bytecode} {blocks : List BasicBlock}
    (hp : blocks.Pairwise (fun a b => a.m_firstInstrIdx < b.m_firstInstrIdx))
    {b : BasicBlock} (hb : b ∈ blocks) (hj : byteAt code b.m_begin = JUMPDEST) :
    (blocksCases code blocks).filter (fun c => c.1 == b.m_firstInstrIdx) =
      [(b.m_firstInstrIdx, b.llvm)] := by
  induction blocks with
  | nil => simp at hb
  | cons a l ih =>
    rw [List.pairwise_cons] at hp
    unfold blocksCases
    rw [List.filter_append]
    have hnil : ∀ (l' : List BasicBlock) (k : Nat), (∀ x ∈ l', k < x.m_firstInstrIdx) →
        (blocksCases code l').filter (fun c => c.1 == k) = [] := by
      intro l' k hk
      rw [List.filter_eq_nil_iff]
      intro c hc
      obtain ⟨x, hx, _, h2⟩ := mem_blocksCases hc
      have := hk x hx
      rw [h2]
      simp only [beq_iff_eq]
      omega
    rcases List.mem_cons.mp hb with h | h
    · subst h
      rw [hnil l _ hp.1]
      simp [blockCases, hj]
    · have hlt := hp.1 b h
      rw [ih hp.2 h]
      have : (blockCases code a).filter (fun c => c.1 == b.m_firstInstrIdx) = [] := by
        rw [List.filter_eq_nil_iff]
        intro c hc
        unfold blockCases at hc
        split at hc
        · rw [List.mem_singleton.mp hc]
          simp only [beq_iff_eq]
          omega
        · simp at hc
      rw [this]
      rfl

theorem createBasicBlocks_blockOK (code : Bytecode) :
    ∀ b ∈ createBasicBlocks code, BlockOK code b := by
  obtain ⟨s, _, ⟨hs, _, _, _, hj⟩, he⟩ := createBasicBlocks_final code
  rw [he]
  intro b hb
  have h1 := hs.blk_end_le b hb
  have h2 := hs.begin_le
  have h3 := hs.curr_le
  exact ⟨hs.blk_nonempty b hb, by omega, hs.blk_start b hb, hj.blk_no_jd b hb,
    hs.blk_end_start b hb⟩

/-- Every JUMPDEST that the linear decoding finds is the first byte of a
block. -/
theorem createBasicBlocks_jumpdest_block (code : Bytecode) :
    ∀ q ∈ instrStarts code, byteAt code q = JUMPDEST →
      ∃ b ∈ createBasicBlocks code, b.m_begin = q := by
  obtain ⟨s, hc, ⟨hs, _, _, _, hj⟩, he⟩ := createBasicBlocks_final code
  rw [he]
  intro q hq hjd
  have hlt := instrStarts_lt hq
  rcases hj.jd_block q hq (by omega) hjd with h | ⟨h1, h2⟩
  · exact h
  · rcases hs.live_progress h1 with h3 | h3 <;> omega

/-- C5: compiling all blocks succeeds, and in the resulting jump-table switch
every valid JUMPDEST offset (a JUMPDEST at an instruction boundary of the linear
decoding) has exactly one case whose value is that offset, with the block whose
`first_instr_idx` is that offset as target; the value of every case is a valid
JUMPDEST offset. -/
theorem compile_jumpTable (code : Bytecode) (rev : evm_revision) (staticCall : Bool) :
    ∃ jt, compile code rev staticCall = some jt ∧
      (∀ off ∈ instrStarts code, byteAt code off = JUMPDEST →
        ∃ b ∈ createBasicBlocks code, b.m_firstInstrIdx = off ∧
          jt.filter (fun c => c.1 == off) = [(off, b.llvm)]) ∧
      (∀ c ∈ jt, c.1 ∈ instrStarts code ∧ byteAt code c.1 = JUMPDEST) := by
  refine ⟨blocksCases code (createBasicBlocks code), ?_, ?_, ?_⟩
  · unfold compile
    rw [compileBlocks_eq code rev staticCall _ _ (createBasicBlocks_blockOK code)]
    rfl
  · intro off hoff hjd
    obtain ⟨b, hb, hbo⟩ := createBasicBlocks_jumpdest_block code off hoff hjd
    have hidx := (createBasicBlocks_block_bounds code b hb).2.1
    refine ⟨b, hb, by omega, ?_⟩
    have := @blocksCases_filter code _ (createBasicBlocks_idx_increasing code) b hb
      (by rw [hbo]; exact hjd)
    rw [hidx, hbo] at this
    exact this
  · intro c hc
    obtain ⟨b, hb, h1, h2⟩ := mem_blocksCases hc
    have hidx := (createBasicBlocks_block_bounds code b hb).2.1
    have hok := createBasicBlocks_blockOK code b hb
    rw [h2]
    dsimp only
    rw [hidx]
    exact ⟨hok.begin_start, h1⟩

/-! ## The helper `gas.check` -/

theorem wrapI64_zero : wrapI64 0 = 0 := by decide

theorem wrapI64_of_range {x : Int} (h1 : -2 ^ 63 ≤ x) (h2 : x < 2 ^ 63) : wrapI64 x = x := by
  unfold wrapI64
  omega

/-- A call of `gas.check` returns, with this result and memory. -/
theorem gasCheck_call (mem : IR.Memory) (gasPtr : Nat) (cost : Int) (jmpBuf : Nat) :
    IR.call gasCheckFunc [.ptr gasPtr, .i64 cost, .bytePtr jmpBuf] mem =
      if 0 ≤ wrapI64 (mem.cells gasPtr - cost) then
        some (.i1 false, mem.setCell gasPtr (wrapI64 (mem.cells gasPtr - cost)))
      else some (.i1 true, mem.setGlobal gas_out true) := by
  by_cases h : 0 ≤ wrapI64 (mem.cells gasPtr - cost)
  · rw [if_pos h]
    simp [IR.call, gasCheckFunc, runBlocks, execInsts, execInst, evalOperand, List.lookup, h,
      wrapI64_zero]
  · rw [if_neg h]
    simp [IR.call, gasCheckFunc, runBlocks, execInsts, execInst, evalOperand, List.lookup, h,
      wrapI64_zero]

/-- A call of `stack.prepare` returns, with this result and memory. -/
theorem stackPrepare_call (mem : IR.Memory) (base : Int) (sizePtr : Nat) (min max diff : Int)
    (jmpBuf : Nat) :
    IR.call getStackPrepareFunc
        [.wordPtr base, .ptr sizePtr, .i64 min, .i64 max, .i64 diff, .bytePtr jmpBuf] mem =
      if 0 ≤ wrapI64 (mem.cells sizePtr + min) ∧
          toU64 (wrapI64 (mem.cells sizePtr + max)) ≤ toU64 (wrapI64 stackSizeLimit) then
        some (.wordPtr (base + mem.cells sizePtr),
          mem.setCell sizePtr (wrapI64 (mem.cells sizePtr + diff)))
      else
        some (.wordPtr (base + mem.cells sizePtr),
          (mem.setGlobal gas_out true).setCell sizePtr (wrapI64 (mem.cells sizePtr + diff))) := by
  by_cases h1 : 0 ≤ wrapI64 (mem.cells sizePtr + min) <;>
    by_cases h2 : toU64 (wrapI64 (mem.cells sizePtr + max)) ≤ toU64 (wrapI64 stackSizeLimit) <;>
    simp [IR.call, getStackPrepareFunc, runBlocks, execInsts, execInst, evalOperand, List.lookup,
      h1, h2, wrapI64_zero, Memory.setCell, Memory.setGlobal]

/-- C6: a call of the emitted `gas.check(gas_ptr, cost)` returns; with `g` the
value at `gas_ptr` and `g - cost` computed in signed 64-bit arithmetic
(`wrapI64`, equal to `g - cost` whenever that does not overflow): if
`g - cost >= 0` it stores `g - cost` to `gas_ptr`, returns 0 and writes nothing
else (`gas_out` included); otherwise it sets `gas_out = 1`, returns 1 and leaves
all cells (the one at `gas_ptr` included) unchanged. -/
theorem gasCheck_spec (mem : IR.Memory) (gasPtr : Nat) (cost : Int) (jmpBuf : Nat) :
    ∃ r mem1, IR.call gasCheckFunc [.ptr gasPtr, .i64 cost, .bytePtr jmpBuf] mem = some (r, mem1) ∧
      (0 ≤ wrapI64 (mem.cells gasPtr - cost) →
        r = .i1 false ∧ mem1.cells gasPtr = wrapI64 (mem.cells gasPtr - cost) ∧
          (∀ a, a ≠ gasPtr → mem1.cells a = mem.cells a) ∧ mem1.globals = mem.globals) ∧
      (wrapI64 (mem.cells gasPtr - cost) < 0 →
        r = .i1 true ∧ mem1.globals gas_out = true ∧ mem1.cells = mem.cells ∧
          (∀ g, g ≠ gas_out → mem1.globals g = mem.globals g)) ∧
      (-2 ^ 63 ≤ mem.cells gasPtr - cost → mem.cells gasPtr - cost < 2 ^ 63 →
        wrapI64 (mem.cells gasPtr - cost) = mem.cells gasPtr - cost) := by
  rw [gasCheck_call]
  by_cases h : 0 ≤ wrapI64 (mem.cells gasPtr - cost)
  · rw [if_pos h]
    refine ⟨_, _, rfl, ?_, ?_, fun h1 h2 => wrapI64_of_range h1 h2⟩
    · intro _
      refine ⟨rfl, ?_, ?_, rfl⟩
      · simp [Memory.setCell]
      · intro a ha
        simp [Memory.setCell, ha]
    · intro h1
      omega
  · rw [if_neg h]
    refine ⟨_, _, rfl, ?_, ?_, fun h1 h2 => wrapI64_of_range h1 h2⟩
    · intro h1
      exact absurd h1 h
    · intro _
      refine ⟨rfl, ?_, rfl, ?_⟩
      · simp [Memory.setGlobal]
      · intro g hg
        simp [Memory.setGlobal, hg]

/-! ## `gas_out` is never reset -/

/-- C9: a call of `gas.check` or of `stack.prepare` made in a state where
`gas_out = 1` returns, whatever the arguments, and `gas_out` is still 1 after
the call. -/
theorem gas_out_sticky (mem : IR.Memory) (h : mem.globals gas_out = true) :
    (∀ (gasPtr : Nat) (cost : Int) (jmpBuf : Nat),
      ∃ r mem1, IR.call gasCheckFunc [.ptr gasPtr, .i64 cost, .bytePtr jmpBuf] mem
          = some (r, mem1) ∧ mem1.globals gas_out = true) ∧
    (∀ (base : Int) (sizePtr : Nat) (min max diff : Int) (jmpBuf : Nat),
      ∃ r mem1, IR.call getStackPrepareFunc
          [.wordPtr base, .ptr sizePtr, .i64 min, .i64 max, .i64 diff, .bytePtr jmpBuf] mem
          = some (r, mem1) ∧ mem1.globals gas_out = true) := by
  constructor
  · intro gasPtr cost jmpBuf
    rw [gasCheck_call]
    split
    · exact ⟨_, _, rfl, h⟩
    · exact ⟨_, _, rfl, by simp [Memory.setGlobal]⟩
  · intro base sizePtr min max diff jmpBuf
    rw [stackPrepare_call]
    split
    · exact ⟨_, _, rfl, h⟩
    · exact ⟨_, _, rfl, by simp [Memory.setGlobal, Memory.setCell]⟩

/-- Witness for C9: a memory whose `gas_out` is set. -/
theorem gas_out_sticky_witness :
    (∀ (gasPtr : Nat) (cost : Int) (jmpBuf : Nat),
      ∃ r mem1, IR.call gasCheckFunc [.ptr gasPtr, .i64 cost, .bytePtr jmpBuf]
          ⟨fun _ => 0, fun _ => true⟩ = some (r, mem1) ∧ mem1.globals gas_out = true) ∧
    (∀ (base : Int) (sizePtr : Nat) (min max diff : Int) (jmpBuf : Nat),
      ∃ r mem1, IR.call getStackPrepareFunc
          [.wordPtr base, .ptr sizePtr, .i64 min, .i64 max, .i64 diff, .bytePtr jmpBuf]
          ⟨fun _ => 0, fun _ => true⟩ = some (r, mem1) ∧ mem1.globals gas_out = true) :=
  gas_out_sticky ⟨fun _ => 0, fun _ => true⟩ rfl

/-! ## The gas meter -/

theorem GasMeter.inv_fresh : GasMeter.fresh.Inv := fun _ => rfl

theorem GasMeter.inv_count (sched : JITSchedule) (rev : evm_revision) (g : GasMeter)
    (inst : Instruction) : (g.count sched rev inst).Inv := by
  intro h
  unfold GasMeter.count at h
  cases hc : g.m_checkCall <;> simp [hc] at h

/-- On a meter that satisfies the invariant `commitCostBlock` passes its
assertion and leaves a meter without placeholder and with cost 0, on which a
further call changes nothing. -/
theorem GasMeter.commit_of_inv (g : GasMeter) (h : g.Inv) :
    ∃ g1, g.commitCostBlock = some g1 ∧ g1.m_checkCall = none ∧ g1.m_blockCost = 0 ∧
      g1.commitCostBlock = some g1 := by
  unfold GasMeter.commitCostBlock
  cases hc : g.m_checkCall with
  | none =>
    have h0 := h hc
    simp only [h0, if_true]
    exact ⟨g, rfl, hc, h0, by simp [hc, h0]⟩
  | some i =>
    dsimp only
    by_cases h0 : g.m_blockCost = 0
    · rw [if_pos h0]
      exact ⟨_, rfl, rfl, h0, by simp [h0]⟩
    · rw [if_neg h0]
      exact ⟨_, rfl, rfl, rfl, by simp⟩

theorem GasMeter.run_of_inv (sched : JITSchedule) (rev : evm_revision) :
    ∀ (ops : List GasOp) (g : GasMeter), g.Inv →
      ∃ g1, GasMeter.run sched rev ops g = some g1 ∧ g1.Inv := by
  intro ops
  induction ops with
  | nil => intro g h; exact ⟨g, rfl, h⟩
  | cons op ops ih =>
    intro g h
    cases op with
    | count inst =>
      unfold GasMeter.run
      exact ih _ (GasMeter.inv_count sched rev g inst)
    | commitCostBlock =>
      obtain ⟨g1, h1, h2, h3, _⟩ := GasMeter.commit_of_inv g h
      unfold GasMeter.run
      rw [h1]
      exact ih g1 (fun _ => h3)

/-- C8: every sequence of `count(opcode)` and `commitCostBlock` calls on a new
gas meter runs without a failed assertion (so `block_cost == 0` holds at the end
of every `commitCostBlock`), the state reached has no accumulated cost unless a
placeholder is pending, and there `commitCostBlock` called twice in a row
changes nothing the second time: placeholder absent, cost 0, IR unchanged. -/
theorem commitCostBlock_idempotent (sched : JITSchedule) (rev : evm_revision)
    (ops : List GasOp) :
    ∃ g, GasMeter.run sched rev ops GasMeter.fresh = some g ∧
      (g.m_checkCall = none → g.m_blockCost = 0) ∧
      ∃ g1, g.commitCostBlock = some g1 ∧ g1.m_checkCall = none ∧ g1.m_blockCost = 0 ∧
        g1.commitCostBlock = some g1 := by
  obtain ⟨g, h1, h2⟩ := GasMeter.run_of_inv sched rev ops GasMeter.fresh GasMeter.inv_fresh
  exact ⟨g, h1, h2, GasMeter.commit_of_inv g h2⟩

/-! ## The gas pre-check of a block -/

theorem ite_nonneg_of {c : Prop} [Decidable c] {a b : Int} (ha : c → 0 ≤ a)
    (hb : ¬ c → 0 ≤ b) : 0 ≤ (if c then a else b) := by
  split
  · exact ha (by assumption)
  · exact hb (by assumption)

theorem getStepCost_nonneg (sched : JITSchedule) (rev : evm_revision) (inst : Instruction) :
    0 ≤ getStepCost sched rev inst := by
  unfold getStepCost
  repeat' first
    | exact Int.natCast_nonneg _
    | refine ite_nonneg_of (fun _ => ?_) (fun _ => ?_)
    | decide
  rename_i h
  have hl : LOG0 ≤ inst := by
    simp only [isLog, decide_eq_true_eq] at h
    exact h.1
  have h0 : (0 : Int) ≤ (inst : Int) - (LOG0 : Int) :=
    Int.sub_nonneg_of_le (Int.ofNat_le.mpr hl)
  exact Int.add_nonneg (ite_nonneg_of (fun _ => by decide) (fun _ => Int.natCast_nonneg _))
    (Int.mul_nonneg h0 (ite_nonneg_of (fun _ => by decide) (fun _ => Int.natCast_nonneg _)))

theorem blockCost_nonneg (sched : JITSchedule) (rev : evm_revision) (ops : List Instruction) :
    0 ≤ blockCost sched rev ops := by
  unfold blockCost
  induction ops with
  | nil => simp
  | cons a l ih =>
    have := getStepCost_nonneg sched rev a
    simp only [List.map_cons, List.sum_cons]
    omega

/-- With a placeholder pending, counting opcodes only adds their costs. -/
theorem GasMeter.foldl_count_pending (sched : JITSchedule) (rev : evm_revision) :
    ∀ (ops : List Instruction) (g : GasMeter) (i : Nat), g.m_checkCall = some i →
      ops.foldl (fun g1 inst => g1.count sched rev inst) g =
        { g with m_blockCost := g.m_blockCost + blockCost sched rev ops } := by
  intro ops
  induction ops with
  | nil => intro g i _; simp [blockCost]
  | cons a l ih =>
    intro g i h
    have hc : g.count sched rev a =
        { g with m_blockCost := g.m_blockCost + getStepCost sched rev a } := by
      simp [GasMeter.count, h]
    rw [List.foldl_cons, hc, ih _ i (by simpa using h)]
    simp [blockCost, Int.add_assoc]

/-- Counting the opcodes of a non-empty block on a committed meter creates the
placeholder and accumulates the block cost. -/
theorem GasMeter.foldl_count (sched : JITSchedule) (rev : evm_revision) (a : Instruction)
    (l : List Instruction) (g : GasMeter) (h1 : g.m_checkCall = none) (h2 : g.m_blockCost = 0) :
    (a :: l).foldl (fun g1 inst => g1.count sched rev inst) g =
      { m_checkCall := some g.ir.length, m_blockCost := blockCost sched rev (a :: l),
        ir := g.ir ++ [CostArg.undef] } := by
  have hc : g.count sched rev a =
      { m_checkCall := some g.ir.length, m_blockCost := getStepCost sched rev a,
        ir := g.ir ++ [CostArg.undef] } := by
    simp [GasMeter.count, h1, h2]
  rw [List.foldl_cons, hc, GasMeter.foldl_count_pending sched rev l _ g.ir.length rfl]
  simp [blockCost]

/-- Counting the opcodes of a block on a committed meter and committing: the
meter is committed again, and one `gas.check` with the sum of the step costs
was added, or none when the sum is 0. -/
theorem GasMeter.foldl_count_commit (sched : JITSchedule) (rev : evm_revision)
    (ops : List Instruction) (g : GasMeter) (h1 : g.m_checkCall = none)
    (h2 : g.m_blockCost = 0) :
    (ops.foldl (fun g1 inst => g1.count sched rev inst) g).commitCostBlock =
      some { m_checkCall := none, m_blockCost := 0,
             ir := g.ir ++
               (if blockCost sched rev ops = 0 then []
                else [CostArg.int64 (blockCost sched rev ops)]) } := by
  cases ops with
  | nil =>
    cases g
    simp_all [GasMeter.commitCostBlock, blockCost]
  | cons a l =>
    rw [GasMeter.foldl_count sched rev a l g h1 h2]
    unfold GasMeter.commitCostBlock
    dsimp only
    by_cases h0 : blockCost sched rev (a :: l) = 0
    · rw [if_pos h0, if_pos h0]
      simp [h0, List.eraseIdx_append_of_length_le]
    · rw [if_neg h0, if_neg h0]
      simp

/-- The case of a static-cost opcode other than GAS leaves the gas meter as it
is. -/
theorem gasCase_static (sched : JITSchedule) (inst : Instruction) (g : GasMeter)
    (h : isStaticCost inst = true) (hg : inst ≠ GAS) : gasCase sched inst g = some g := by
  have h1 : ¬ (inst = GAS ∨ inst = CREATE ∨
      [CALL, CALLCODE, DELEGATECALL, STATICCALL].contains inst) := by
    rintro (h1 | h1 | h1)
    · exact hg h1
    · subst h1
      exact absurd h (by decide)
    · simp at h1
      rcases h1 with h1 | h1 | h1 | h1 <;> subst h1 <;> exact absurd h (by decide)
  have h2 : ¬ inst = SHA3 := by
    intro h2
    subst h2
    exact absurd h (by decide)
  have h3 : ¬ isLog inst = true := by
    intro h3
    simp only [isLog, decide_eq_true_eq] at h3
    obtain ⟨h4, h5⟩ := h3
    have h6 : LOG0 ≤ inst := h4
    have h7 : inst ≤ LOG4 := h5
    interval_cases inst <;> exact absurd h (by decide)
  have h4 : ¬ inst = SSTORE := by
    intro h4
    subst h4
    exact absurd h (by decide)
  unfold gasCase
  rw [if_neg h1, if_neg h2, if_neg h3, if_neg h4]

/-- The loop of `compileBasicBlock` over a block of static-cost opcodes other
than GAS, none of which reaches `invalidInstruction`: the loop ends, and the
gas meter has counted the opcodes of the block in order. -/
theorem compileGasLoop_static (code : Bytecode) (sched : JITSchedule) (rev : evm_revision)
    (staticCall : Bool) (bb : BasicBlock) :
    ∀ (fuel it : Nat) (g : GasMeter), it ≤ bb.m_end → bb.m_end - it ≤ fuel →
      (∀ inst ∈ blockOpcodes code bb fuel it,
        isStaticCost inst = true ∧ inst ≠ GAS ∧
          reachesInvalidInstruction rev staticCall inst = false) →
      compileGasLoop code sched rev staticCall bb fuel it g =
        some ((blockOpcodes code bb fuel it).foldl (fun g1 inst => g1.count sched rev inst) g) := by
  intro fuel
  induction fuel with
  | zero =>
    intro it g hle hfuel _
    have heq : it = bb.m_end := by omega
    simp [compileGasLoop, blockOpcodes, heq]
  | succ fuel ih =>
    intro it g hle hfuel hstat
    by_cases heq : it = bb.m_end
    · simp [compileGasLoop, blockOpcodes, heq]
    · have hlt : it < bb.m_end := by omega
      have hnle : ¬ bb.m_end ≤ it := by omega
      have hops : blockOpcodes code bb (fuel + 1) it =
          byteAt code it ::
            blockOpcodes code bb fuel
              (if isAnyPush (byteAt code it) then readPushData code it bb.m_end + 1
               else it + 1) := by
        simp only [blockOpcodes, if_neg hnle]
      rw [hops] at hstat ⊢
      obtain ⟨hs1, hs2, hs3⟩ := hstat (byteAt code it) (List.mem_cons_self _ _)
      have hrest := fun inst hi => hstat inst (List.mem_cons_of_mem _ hi)
      have hpd : it ≤ readPushData code it bb.m_end ∧
          readPushData code it bb.m_end + 1 ≤ bb.m_end := by
        unfold readPushData
        omega
      unfold compileGasLoop
      rw [if_neg heq]
      dsimp only
      by_cases hpush : isAnyPush (byteAt code it) = true
      · rw [if_pos hpush] at hrest ⊢
        rw [if_pos hpush]
        rw [ih _ _ hpd.2 (by omega) hrest]
        rfl
      · rw [if_neg hpush] at hrest ⊢
        rw [if_neg hpush]
        rw [if_neg (by rw [hs3]; decide), gasCase_static sched _ _ hs1 hs2]
        dsimp only
        rw [ih _ _ (by omega) (by omega) hrest]
        rfl

/-- C7 (as stated) fails in three ways.  The block `00` (STOP) has the cost 0:
`commitCostBlock` removes the placeholder and no `gas.check` is left.  The
block `5A 01` (GAS, ADD) gets two `gas.check` calls, of the costs 2 and 3: the
case GAS commits the cost block.  The block `B0 01` (DUP17, ADD) before the
revision AION_V1 gets one `gas.check` of the cost 3, not of the sum 6: DUP17 is
counted and reaches `invalidInstruction`, which leaves the loop.  All opcodes
of the three blocks are static-cost opcodes. -/
theorem compileStatic_counterexample :
    (createBasicBlocks [0x00] = [{ m_firstInstrIdx := 0, m_begin := 0, m_end := 1 }] ∧
      (∀ inst ∈ blockOpcodes [0x00] { m_firstInstrIdx := 0, m_begin := 0, m_end := 1 } 1 0,
        isStaticCost inst = true) ∧
      compileBasicBlockGas [0x00] evmSchedule EVM_FRONTIER false
          { m_firstInstrIdx := 0, m_begin := 0, m_end := 1 } GasMeter.fresh =
        some { m_checkCall := none, m_blockCost := 0, ir := [] } ∧
      ¬ SingleGasCheck [0x00] evmSchedule EVM_FRONTIER false
          { m_firstInstrIdx := 0, m_begin := 0, m_end := 1 }) ∧
    (createBasicBlocks [0x5a, 0x01] = [{ m_firstInstrIdx := 0, m_begin := 0, m_end := 2 }] ∧
      (∀ inst ∈ blockOpcodes [0x5a, 0x01] { m_firstInstrIdx := 0, m_begin := 0, m_end := 2 } 2 0,
        isStaticCost inst = true) ∧
      blockCost evmSchedule EVM_FRONTIER
          (blockOpcodes [0x5a, 0x01] { m_firstInstrIdx := 0, m_begin := 0, m_end := 2 } 2 0) = 5 ∧
      compileBasicBlockGas [0x5a, 0x01] evmSchedule EVM_FRONTIER false
          { m_firstInstrIdx := 0, m_begin := 0, m_end := 2 } GasMeter.fresh =
        some { m_checkCall := none, m_blockCost := 0,
               ir := [CostArg.int64 2, CostArg.int64 3] } ∧
      ¬ SingleGasCheck [0x5a, 0x01] evmSchedule EVM_FRONTIER false
          { m_firstInstrIdx := 0, m_begin := 0, m_end := 2 }) ∧
    (createBasicBlocks [0xb0, 0x01] = [{ m_firstInstrIdx := 0, m_begin := 0, m_end := 2 }] ∧
      (∀ inst ∈ blockOpcodes [0xb0, 0x01] { m_firstInstrIdx := 0, m_begin := 0, m_end := 2 } 2 0,
        isStaticCost inst = true) ∧
      blockCost evmSchedule EVM_FRONTIER
          (blockOpcodes [0xb0, 0x01] { m_firstInstrIdx := 0, m_begin := 0, m_end := 2 } 2 0) = 6 ∧
      compileBasicBlockGas [0xb0, 0x01] evmSchedule EVM_FRONTIER false
          { m_firstInstrIdx := 0, m_begin := 0, m_end := 2 } GasMeter.fresh =
        some { m_checkCall := none, m_blockCost := 0, ir := [CostArg.int64 3] } ∧
      ¬ SingleGasCheck [0xb0, 0x01] evmSchedule EVM_FRONTIER false
          { m_firstInstrIdx := 0, m_begin := 0, m_end := 2 }) := by
  refine ⟨⟨by decide, by decide, by decide, ?_⟩, ⟨by decide, by decide, by decide, by decide, ?_⟩,
    ⟨by decide, by decide, by decide, by decide, ?_⟩⟩
  · rintro ⟨g, h1, h2⟩
    have h3 : compileBasicBlockGas [0x00] evmSchedule EVM_FRONTIER false
        { m_firstInstrIdx := 0, m_begin := 0, m_end := 1 } GasMeter.fresh =
        some { m_checkCall := none, m_blockCost := 0, ir := [] } := by decide
    rw [h3] at h1
    rw [← Option.some.inj h1] at h2
    exact absurd h2 (by decide)
  · rintro ⟨g, h1, h2⟩
    have h3 : compileBasicBlockGas [0x5a, 0x01] evmSchedule EVM_FRONTIER false
        { m_firstInstrIdx := 0, m_begin := 0, m_end := 2 } GasMeter.fresh =
        some { m_checkCall := none, m_blockCost := 0,
               ir := [CostArg.int64 2, CostArg.int64 3] } := by decide
    rw [h3] at h1
    rw [← Option.some.inj h1] at h2
    exact absurd h2 (by decide)
  · rintro ⟨g, h1, h2⟩
    have h3 : compileBasicBlockGas [0xb0, 0x01] evmSchedule EVM_FRONTIER false
        { m_firstInstrIdx := 0, m_begin := 0, m_end := 2 } GasMeter.fresh =
        some { m_checkCall := none, m_blockCost := 0, ir := [CostArg.int64 3] } := by decide
    rw [h3] at h1
    rw [← Option.some.inj h1] at h2
    exact absurd h2 (by decide)

/-- C7 (amended): for a block of `createBasicBlocks` that consists of
static-cost opcodes `op_1 .. op_n`, none of which is GAS or reaches
`invalidInstruction` in the revision and call mode, compiled by the loop of
`compileBasicBlock` on a committed gas meter, and initial gas `0 <= g < 2^63`
with the block cost (the sum of `getStepCost(op_i)`) below `2^63`: the loop
ends and the meter ends committed; if the block cost is not 0 exactly one `gas.check` is added, with
the block cost as its cost, and if it is 0 none is added; running the added
checks leaves the block for `Abort` exactly when `g` is below the block cost,
with `gas_out = 1` and the gas unchanged, and otherwise leaves gas `g` minus
the block cost and `gas_out` untouched. -/
theorem compileStatic_gas (code : Bytecode) (sched : JITSchedule) (rev : evm_revision)
    (staticCall : Bool) (bb : BasicBlock) (g0 : GasMeter) (hbb : bb ∈ createBasicBlocks code)
    (hstat : ∀ inst ∈ blockOpcodes code bb (bb.m_end - bb.m_begin) bb.m_begin,
      isStaticCost inst = true ∧ inst ≠ GAS ∧
        reachesInvalidInstruction rev staticCall inst = false)
    (h1 : g0.m_checkCall = none) (h2 : g0.m_blockCost = 0)
    (mem : IR.Memory) (gasPtr jmpBuf : Nat) (hg0 : 0 ≤ mem.cells gasPtr)
    (hg1 : mem.cells gasPtr < 2 ^ 63)
    (hc : blockCost sched rev (blockOpcodes code bb (bb.m_end - bb.m_begin) bb.m_begin) <
      2 ^ 63) :
    ∃ g1 cost, compileBasicBlockGas code sched rev staticCall bb g0 = some g1 ∧
      cost = blockCost sched rev (blockOpcodes code bb (bb.m_end - bb.m_begin) bb.m_begin) ∧
      g1.m_checkCall = none ∧ g1.m_blockCost = 0 ∧
      g1.ir = g0.ir ++ (if cost = 0 then [] else [CostArg.int64 cost]) ∧
      ∃ out mem1,
        runGasChecks gasPtr jmpBuf (if cost = 0 then [] else [CostArg.int64 cost]) mem =
          some (out, mem1) ∧
        (out = false ↔ cost ≤ mem.cells gasPtr) ∧
        (cost ≤ mem.cells gasPtr →
          mem1.cells gasPtr = mem.cells gasPtr - cost ∧ mem1.globals = mem.globals) ∧
        (mem.cells gasPtr < cost → mem1.globals gas_out = true ∧ mem1.cells = mem.cells) := by
  have hb : bb.m_begin ≤ bb.m_end := le_of_lt (createBasicBlocks_block_bounds code bb hbb).1
  have hnn := blockCost_nonneg sched rev
    (blockOpcodes code bb (bb.m_end - bb.m_begin) bb.m_begin)
  have hloop := compileGasLoop_static code sched rev staticCall bb (bb.m_end - bb.m_begin)
    bb.m_begin g0 hb (le_refl _) hstat
  have hcomp : compileBasicBlockGas code sched rev staticCall bb g0 =
      some { m_checkCall := none, m_blockCost := 0,
             ir := g0.ir ++
               (if blockCost sched rev
                  (blockOpcodes code bb (bb.m_end - bb.m_begin) bb.m_begin) = 0 then []
                else [CostArg.int64 (blockCost sched rev
                  (blockOpcodes code bb (bb.m_end - bb.m_begin) bb.m_begin))]) } := by
    unfold compileBasicBlockGas
    rw [hloop, Option.some_bind]
    exact GasMeter.foldl_count_commit sched rev _ g0 h1 h2
  refine ⟨_, _, hcomp, rfl, rfl, rfl, rfl, ?_⟩
  generalize blockCost sched rev (blockOpcodes code bb (bb.m_end - bb.m_begin) bb.m_begin) = cost
    at hnn hc
  by_cases h0 : cost = 0
  · rw [if_pos h0]
    refine ⟨false, mem, rfl, ?_, ?_, ?_⟩
    · simp only [true_iff]; omega
    · intro _; exact ⟨by omega, rfl⟩
    · intro h; omega
  · rw [if_neg h0]
    unfold runGasChecks
    rw [wrapI64_of_range (by omega) hc, gasCheck_call,
      wrapI64_of_range (by omega) (by omega)]
    by_cases hle : cost ≤ mem.cells gasPtr
    · rw [if_pos (by omega)]
      refine ⟨false, _, rfl, ?_, ?_, ?_⟩
      · simp only [true_iff]; exact hle
      · intro _; exact ⟨by simp [Memory.setCell], rfl⟩
      · intro h; omega
    · rw [if_neg (by omega)]
      refine ⟨true, _, rfl, ?_, ?_, ?_⟩
      · simp only [Bool.true_eq_false, false_iff]; exact hle
      · intro h; exact absurd h hle
      · intro _; exact ⟨by simp [Memory.setGlobal], rfl⟩

/-- Witness for C7: the bytecode `60 01 60 02 01 00` (PUSH1 1, PUSH1 2, ADD,
STOP), one block of the opcodes PUSH1, PUSH1, ADD, STOP with the cost 9, on a
new meter, with gas 9 at cell 0. -/
theorem compileStatic_gas_witness :
    createBasicBlocks [0x60, 0x01, 0x60, 0x02, 0x01, 0x00] =
      [{ m_firstInstrIdx := 0, m_begin := 0, m_end := 6 }] ∧
    blockOpcodes [0x60, 0x01, 0x60, 0x02, 0x01, 0x00]
      { m_firstInstrIdx := 0, m_begin := 0, m_end := 6 } (6 - 0) 0 = [PUSH1, PUSH1, ADD, STOP] ∧
    ∃ g1 cost,
      compileBasicBlockGas [0x60, 0x01, 0x60, 0x02, 0x01, 0x00] evmSchedule EVM_FRONTIER false
        { m_firstInstrIdx := 0, m_begin := 0, m_end := 6 } GasMeter.fresh = some g1 ∧
      cost = blockCost evmSchedule EVM_FRONTIER
        (blockOpcodes [0x60, 0x01, 0x60, 0x02, 0x01, 0x00]
          { m_firstInstrIdx := 0, m_begin := 0, m_end := 6 } (6 - 0) 0) ∧
      g1.m_checkCall = none ∧ g1.m_blockCost = 0 ∧
      g1.ir = GasMeter.fresh.ir ++ (if cost = 0 then [] else [CostArg.int64 cost]) ∧
      ∃ out mem1,
        runGasChecks 0 0 (if cost = 0 then [] else [CostArg.int64 cost])
          ⟨fun _ => 9, fun _ => false⟩ = some (out, mem1) ∧
        (out = false ↔ cost ≤ 9) ∧
        (cost ≤ 9 → mem1.cells 0 = 9 - cost ∧ mem1.globals = fun _ => false) ∧
        (9 < cost → mem1.globals gas_out = true ∧ mem1.cells = fun _ => 9) :=
  ⟨by decide, by decide,
    compileStatic_gas [0x60, 0x01, 0x60, 0x02, 0x01, 0x00] evmSchedule EVM_FRONTIER false
      { m_firstInstrIdx := 0, m_begin := 0, m_end := 6 } GasMeter.fresh (by decide) (by decide)
      rfl rfl ⟨fun _ => 9, fun _ => false⟩ 0 0 (by decide) (by decide) (by decide)⟩

/-! ## The local stack -/

theorem LocalStack.inv_new : LocalStack.fresh.Inv :=
  ⟨by decide, by decide, by decide, by decide⟩

theorem LocalStack.length_resize (input : List (Option Word)) (n : Nat) :
    (LocalStack.resize input n).length = n := by
  unfold LocalStack.resize
  simp only [List.length_take, List.length_append, List.length_replicate]
  omega

/-- The method `get` returns; it leaves `m_local`, `m_globalPops` and `m_maxSize` alone,
can only lower `m_minSize` and lengthen `m_input`, and the entry of `m_input`
that it read exists afterwards. -/
theorem LocalStack.get_spec (s : LocalStack) (index : Nat) :
    ∃ w s1, s.get index = some (w, s1) ∧ s1.m_local = s.m_local ∧
      s1.m_globalPops = s.m_globalPops ∧ s1.m_maxSize = s.m_maxSize ∧
      s1.m_minSize ≤ s.m_minSize ∧ s.m_input.length ≤ s1.m_input.length ∧
      (s.m_local.length ≤ index →
        index - s.m_local.length + s.m_globalPops < s1.m_input.length) := by
  unfold LocalStack.get
  by_cases h : index < s.m_local.length
  · rw [if_pos h]
    have hlt : s.m_local.length - 1 - index < s.m_local.length := by omega
    rw [List.getElem?_eq_getElem hlt]
    exact ⟨_, s, rfl, rfl, rfl, rfl, Int.le_refl _, Nat.le_refl _, fun h1 => by omega⟩
  · rw [if_neg h]
    dsimp only
    generalize hidx : index - s.m_local.length + s.m_globalPops = idx
    generalize hin : (if idx ≥ s.m_input.length then LocalStack.resize s.m_input (idx + 1)
      else s.m_input) = input
    have hlen : idx < input.length ∧ s.m_input.length ≤ input.length := by
      rw [← hin]
      split
      · rw [LocalStack.length_resize]; omega
      · omega
    rw [List.getElem?_eq_getElem hlen.1]
    cases input[idx] with
    | some item =>
      exact ⟨_, _, rfl, rfl, rfl, rfl, Int.le_refl _, hlen.2, fun _ => hlen.1⟩
    | none =>
      refine ⟨_, _, rfl, rfl, rfl, rfl, ?_, ?_, ?_⟩
      · exact Int.min_le_left _ _
      · simp only [List.length_set]; exact hlen.2
      · intro _; simp only [List.length_set]; exact hlen.1

/-- The method `set` passes its assertion when the entry exists; it changes no length and
no size. -/
theorem LocalStack.set_spec (s : LocalStack) (index : Nat) (w : Word)
    (h : s.m_local.length ≤ index →
      index - s.m_local.length + s.m_globalPops < s.m_input.length) :
    ∃ s1, s.set index w = some s1 ∧ s1.m_local.length = s.m_local.length ∧
      s1.m_globalPops = s.m_globalPops ∧ s1.m_maxSize = s.m_maxSize ∧
      s1.m_minSize = s.m_minSize ∧ s1.m_input.length = s.m_input.length := by
  unfold LocalStack.set
  by_cases h1 : index < s.m_local.length
  · rw [if_pos h1]
    exact ⟨_, rfl, by simp, rfl, rfl, rfl, rfl⟩
  · rw [if_neg h1]
    dsimp only
    rw [if_pos (h (by omega))]
    exact ⟨_, rfl, rfl, rfl, rfl, rfl, by simp⟩

theorem LocalStack.size_eq {s s1 : LocalStack} (h1 : s1.m_local.length = s.m_local.length)
    (h2 : s1.m_globalPops = s.m_globalPops) : s1.size = s.size := by
  unfold LocalStack.size
  rw [h1, h2]

theorem LocalStack.inv_push (s : LocalStack) (v : Word) (h : s.Inv) : (s.push v).Inv := by
  obtain ⟨h1, h2, h3, h4⟩ := h
  unfold LocalStack.size at h1 h2
  refine ⟨?_, ?_, ?_, ?_⟩
  · simp only [LocalStack.push, LocalStack.size, List.length_append, List.length_singleton,
      Nat.cast_add, Nat.cast_one]
    omega
  · simp only [LocalStack.push, LocalStack.size]
    exact le_max_right _ _
  · exact h3
  · simp only [LocalStack.push]
    exact le_max_of_le_left h4

theorem LocalStack.inv_get (s : LocalStack) (index : Nat) (h : s.Inv) :
    ∃ w s1, s.get index = some (w, s1) ∧ s1.Inv := by
  obtain ⟨w, s1, hg, hl, hp, hmax, hmin, _, _⟩ := s.get_spec index
  have hs : s1.size = s.size := LocalStack.size_eq (by rw [hl]) hp
  obtain ⟨h1, h2, h3, h4⟩ := h
  exact ⟨w, s1, hg, ⟨by omega, by omega, by omega, by omega⟩⟩

theorem LocalStack.inv_pop (s : LocalStack) (h : s.Inv) :
    ∃ w s1, s.pop = some (w, s1) ∧ s1.Inv := by
  obtain ⟨w, s1, hg, hl, hp, hmax, hmin, _, hin⟩ := s.get_spec 0
  have hs : s1.size = s.size := LocalStack.size_eq (by rw [hl]) hp
  obtain ⟨h1, h2, h3, h4⟩ := h
  unfold LocalStack.pop
  rw [hg]
  dsimp only
  by_cases hempty : s1.m_local.length > 0
  · have hne : s1.m_local.isEmpty = false := by
      cases hl1 : s1.m_local with
      | nil => rw [hl1] at hempty; simp at hempty
      | cons a l => rfl
    rw [hne]
    simp only [Bool.false_and, Bool.false_eq_true, if_false, if_pos hempty]
    refine ⟨w, _, rfl, ?_, ?_, ?_, ?_⟩ <;>
      simp only [LocalStack.size, List.length_dropLast] <;>
      unfold LocalStack.size at * <;> omega
  · have hin1 : 0 < s1.m_input.length := by
      have := hin (by rw [← hl]; omega)
      omega
    have hne : s1.m_input.isEmpty = false := by
      cases hl1 : s1.m_input with
      | nil => rw [hl1] at hin1; simp at hin1
      | cons a l => rfl
    rw [hne]
    simp only [Bool.and_false, Bool.false_eq_true, if_false, if_neg hempty]
    refine ⟨w, _, rfl, ?_, ?_, ?_, ?_⟩ <;>
      simp only [LocalStack.size] <;>
      unfold LocalStack.size at * <;> omega

theorem LocalStack.inv_dup (s : LocalStack) (index : Nat) (h : s.Inv) :
    ∃ s1, s.dup index = some s1 ∧ s1.Inv := by
  obtain ⟨w, s1, hg, hi⟩ := s.inv_get index h
  unfold LocalStack.dup
  rw [hg]
  exact ⟨_, rfl, s1.inv_push w hi⟩

theorem LocalStack.inv_swap (s : LocalStack) (index : Nat) (hpos : 0 < index) (h : s.Inv) :
    ∃ s1, s.swap index = some s1 ∧ s1.Inv := by
  obtain ⟨val, s1, hg1, hl1, hp1, hmax1, hmin1, _, hin1⟩ := s.get_spec index
  obtain ⟨tos, s2, hg2, hl2, hp2, hmax2, hmin2, hlen2, hin2⟩ := s1.get_spec 0
  have hset1 : s2.m_local.length ≤ index →
      index - s2.m_local.length + s2.m_globalPops < s2.m_input.length := by
    intro hle
    rw [hl2, hp2, hl1, hp1]
    have := hin1 (by rw [← hl1, ← hl2]; exact hle)
    omega
  obtain ⟨s3, hs3, hl3, hp3, hmax3, hmin3, hlen3⟩ := s2.set_spec index tos hset1
  have hset2 : s3.m_local.length ≤ 0 →
      0 - s3.m_local.length + s3.m_globalPops < s3.m_input.length := by
    intro hle
    rw [hl3, hp3, hlen3, hl2, hp2]
    exact hin2 (by rw [← hl2, ← hl3]; exact hle)
  obtain ⟨s4, hs4, hl4, hp4, hmax4, hmin4, _⟩ := s3.set_spec 0 val hset2
  unfold LocalStack.swap
  rw [if_pos hpos, hg1]
  dsimp only
  rw [hg2]
  dsimp only
  rw [hs3]
  dsimp only
  refine ⟨s4, hs4, ?_⟩
  have hs : s4.size = s.size :=
    LocalStack.size_eq (by rw [hl4, hl3, hl2, hl1]) (by rw [hp4, hp3, hp2, hp1])
  obtain ⟨h1, h2, h3, h4⟩ := h
  exact ⟨by omega, by omega, by omega, by omega⟩

theorem LocalStack.inv_step (s : LocalStack) (op : LocalStack.Op)
    (hop : ∀ i, op = LocalStack.Op.swap i → 0 < i) (h : s.Inv) :
    ∃ s1, s.step op = some s1 ∧ s1.Inv := by
  cases op with
  | push v => exact ⟨_, rfl, s.inv_push v h⟩
  | pop =>
    obtain ⟨w, s1, h1, h2⟩ := s.inv_pop h
    exact ⟨s1, by simp [LocalStack.step, h1], h2⟩
  | get i =>
    obtain ⟨w, s1, h1, h2⟩ := s.inv_get i h
    exact ⟨s1, by simp [LocalStack.step, h1], h2⟩
  | dup i => exact s.inv_dup i h
  | swap i => exact s.inv_swap i (hop i rfl) h

theorem LocalStack.inv_run :
    ∀ (ops : List LocalStack.Op) (s : LocalStack),
      (∀ i, LocalStack.Op.swap i ∈ ops → 0 < i) → s.Inv →
      ∃ s1, LocalStack.run ops s = some s1 ∧ s1.Inv := by
  intro ops
  induction ops with
  | nil => intro s _ h; exact ⟨s, rfl, h⟩
  | cons op ops ih =>
    intro s hops h
    obtain ⟨s1, h1, h2⟩ := s.inv_step op
      (fun i hi => hops i (by rw [hi]; exact List.mem_cons_self _ _)) h
    unfold LocalStack.run
    rw [h1]
    exact ih s1 (fun i hi => hops i (List.mem_cons_of_mem _ hi)) h2

/-- C10: for a new local stack and every sequence of `push`, `pop`, `get`, `dup`
and `swap` calls (`swap` with its index above 0, as its assertion demands), no
assertion fails, and after every operation (every prefix of the sequence)
`min_size <= current_size <= max_size` and `min_size <= 0 <= max_size` hold;
hence the triple `(min, max, diff)` that `finalize` writes into `stack.prepare`
has `min <= 0 <= max` and `|diff| <= max(|min|, |max|)`. -/
theorem localStack_sizes (ops : List LocalStack.Op)
    (hops : ∀ i, LocalStack.Op.swap i ∈ ops → 0 < i) (n : Nat) :
    ∃ s, LocalStack.run (ops.take n) LocalStack.fresh = some s ∧
      s.m_minSize ≤ s.size ∧ s.size ≤ s.m_maxSize ∧ s.m_minSize ≤ 0 ∧ 0 ≤ s.m_maxSize ∧
      s.finalizeArgs.1 ≤ 0 ∧ 0 ≤ s.finalizeArgs.2.1 ∧
      |s.finalizeArgs.2.2| ≤ max |s.finalizeArgs.1| |s.finalizeArgs.2.1| := by
  obtain ⟨s, h1, h2, h3, h4, h5⟩ := LocalStack.inv_run (ops.take n) LocalStack.fresh
    (fun i hi => hops i (List.mem_of_mem_take hi)) LocalStack.inv_new
  refine ⟨s, h1, h2, h3, h4, h5, h4, h5, ?_⟩
  show |s.size| ≤ max |s.m_minSize| |s.m_maxSize|
  rw [abs_of_nonpos h4, abs_of_nonneg h5]
  rcases abs_cases s.size with ⟨h6, _⟩ | ⟨h6, _⟩ <;> rw [h6] <;> rw [le_max_iff] <;> omega

/-- Witness for C10: `push, pop, pop, swap 2, dup 5, get 7`, whole sequence. -/
theorem localStack_sizes_witness :
    ∃ s, LocalStack.run
        ([LocalStack.Op.push (Word.value 1), LocalStack.Op.pop, LocalStack.Op.pop,
          LocalStack.Op.swap 2, LocalStack.Op.dup 5, LocalStack.Op.get 7].take 6)
        LocalStack.fresh = some s ∧
      s.m_minSize ≤ s.size ∧ s.size ≤ s.m_maxSize ∧ s.m_minSize ≤ 0 ∧ 0 ≤ s.m_maxSize ∧
      s.finalizeArgs.1 ≤ 0 ∧ 0 ≤ s.finalizeArgs.2.1 ∧
      |s.finalizeArgs.2.2| ≤ max |s.finalizeArgs.1| |s.finalizeArgs.2.1| :=
  localStack_sizes
    [LocalStack.Op.push (Word.value 1), LocalStack.Op.pop, LocalStack.Op.pop,
      LocalStack.Op.swap 2, LocalStack.Op.dup 5, LocalStack.Op.get 7]
    (by intro i hi; simp at hi; omega) 6

/-! ## The helper `stack.prepare` -/

/-- A call of `stack.prepare` runs `Check` and then `Update` or `OutOfStack`. -/
theorem stackPrepare_path (mem : IR.Memory) (base : Int) (sizePtr : Nat) (min max diff : Int)
    (jmpBuf : Nat) :
    IR.callPath getStackPrepareFunc
        [.wordPtr base, .ptr sizePtr, .i64 min, .i64 max, .i64 diff, .bytePtr jmpBuf] mem =
      if 0 ≤ wrapI64 (mem.cells sizePtr + min) ∧
          toU64 (wrapI64 (mem.cells sizePtr + max)) ≤ toU64 (wrapI64 stackSizeLimit) then
        some ["Check", "Update"]
      else some ["Check", "OutOfStack"] := by
  by_cases h1 : 0 ≤ wrapI64 (mem.cells sizePtr + min) <;>
    by_cases h2 : toU64 (wrapI64 (mem.cells sizePtr + max)) ≤ toU64 (wrapI64 stackSizeLimit) <;>
    simp [IR.callPath, getStackPrepareFunc, runPath, execInsts, execInst, evalOperand,
      List.lookup, h1, h2, wrapI64_zero, Memory.setCell, Memory.setGlobal]

theorem ite_eq_of {c : Prop} [Decidable c] {a b x : Int} (h1 : c → a = x) (h2 : ¬c → b = x) :
    (if c then a else b) = x := by
  by_cases h : c
  · rw [if_pos h]; exact h1 h
  · rw [if_neg h]; exact h2 h

/-- From revision AION on, an opcode of the tiers 1 to 5 costs 1. -/
theorem getStepCost_tier1to5 (sched : JITSchedule) (rev : evm_revision) (inst : Instruction)
    (hrev : rev ≥ EVM_AION) (h : isTier1to5 inst = true) : getStepCost sched rev inst = 1 := by
  unfold getStepCost
  refine ite_eq_of (fun hc0 => ?_) (fun _ => ?_)
  · exfalso
    have h1 : inst = STOP ∨ inst = RETURN ∨ inst = REVERT ∨ inst = SSTORE := by
      simpa using hc0
    rcases h1 with rfl | rfl | rfl | rfl <;> exact absurd h (by decide)
  · unfold isTier1to5 at h
    refine ite_eq_of (fun _ => if_pos hrev) (fun h1 => ?_)
    refine ite_eq_of (fun _ => if_pos hrev) (fun h2 => ?_)
    refine ite_eq_of (fun _ => if_pos hrev) (fun h3 => ?_)
    refine ite_eq_of (fun _ => if_pos hrev) (fun h4 => ?_)
    refine ite_eq_of (fun _ => if_pos hrev) (fun h5 => ?_)
    exfalso
    simp only [Bool.or_eq_true] at h h2
    tauto

/-- An opcode outside the table costs 0. -/
theorem getStepCost_default (sched : JITSchedule) (rev : evm_revision) (inst : Instruction)
    (h : inStepCostTable inst = false) : getStepCost sched rev inst = 0 := by
  unfold inStepCostTable isTier1to5 at h
  rw [← Bool.not_eq_true] at h
  simp only [Bool.or_eq_true, not_or, decide_eq_true_eq] at h
  unfold getStepCost
  refine ite_eq_of (fun hc => absurd hc (by tauto)) (fun _ => ?_)
  refine ite_eq_of (fun hc => absurd hc (by tauto)) (fun _ => ?_)
  refine ite_eq_of (fun hc => absurd hc (by simp only [Bool.or_eq_true]; tauto)) (fun _ => ?_)
  refine ite_eq_of (fun hc => absurd hc (by tauto)) (fun _ => ?_)
  refine ite_eq_of (fun hc => absurd hc (by tauto)) (fun _ => ?_)
  refine ite_eq_of (fun hc => absurd hc (by tauto)) (fun _ => ?_)
  refine ite_eq_of (fun hc => absurd hc (by tauto)) (fun _ => ?_)
  refine ite_eq_of (fun hc => absurd hc (by tauto)) (fun _ => ?_)
  refine ite_eq_of (fun hc => absurd hc (by tauto)) (fun _ => ?_)
  refine ite_eq_of (fun hc => absurd hc (by tauto)) (fun _ => ?_)
  refine ite_eq_of (fun hc => absurd hc (by tauto)) (fun _ => ?_)
  refine ite_eq_of (fun hc => absurd hc (by tauto)) (fun _ => ?_)
  refine ite_eq_of (fun hc => absurd hc (by tauto)) (fun _ => ?_)
  refine ite_eq_of (fun hc => absurd hc (by tauto)) (fun _ => ?_)
  refine ite_eq_of (fun hc => absurd hc (by tauto)) (fun _ => ?_)
  refine ite_eq_of (fun hc => absurd hc (by tauto)) (fun _ => ?_)
  rfl

/-- C12: `getStepCost` agrees with the gas schedule table, for every schedule
`sched` and revision.  From revision AION on every opcode of the tiers 1 to 5
costs 1 (POP, PC, ADD, MUL, DIV, ADDMOD, JUMP, EXP, JUMPI and every PUSHn, DUPn,
SWAPn are such opcodes), BALANCE, EXTCODESIZE, EXTCODECOPY, SLOAD and
CALL/CALLCODE/DELEGATECALL/STATICCALL cost 1000, CREATE costs 200000 and LOGn
costs `500 + 500 * n`; from TANGERINE_WHISTLE and below AION, BALANCE costs 400,
EXTCODESIZE/EXTCODECOPY 700, SLOAD 200 and CALL* 700; below TANGERINE_WHISTLE
they cost the schedule constants `stepGas6`, `stepGas6`, `sloadGas`, `callGas`,
which are 20, 20, 50, 40 in `evmSchedule`; an opcode that is not in the table
costs 0. -/
theorem getStepCost_table (sched : JITSchedule) :
    (∀ rev inst, rev ≥ EVM_AION → isTier1to5 inst = true → getStepCost sched rev inst = 1) ∧
    (∀ inst ∈ [POP, PC, ADD, MUL, DIV, ADDMOD, JUMP, EXP, JUMPI], isTier1to5 inst = true) ∧
    (∀ inst, isAnyPush inst = true ∨ isBaseDup inst = true ∨ isExtDup inst = true ∨
        isBaseSwap inst = true ∨ isExtSwap inst = true → isTier1to5 inst = true) ∧
    (∀ rev, rev ≥ EVM_AION →
      getStepCost sched rev BALANCE = 1000 ∧ getStepCost sched rev EXTCODESIZE = 1000 ∧
      getStepCost sched rev EXTCODECOPY = 1000 ∧ getStepCost sched rev SLOAD = 1000 ∧
      getStepCost sched rev CALL = 1000 ∧ getStepCost sched rev CALLCODE = 1000 ∧
      getStepCost sched rev DELEGATECALL = 1000 ∧ getStepCost sched rev STATICCALL = 1000 ∧
      getStepCost sched rev CREATE = 200000) ∧
    (∀ rev (n : Nat), rev ≥ EVM_AION → n ≤ 4 →
      getStepCost sched rev (LOG0 + n) = 500 + 500 * (n : Int)) ∧
    (∀ rev, rev ≥ EVM_TANGERINE_WHISTLE → rev < EVM_AION →
      getStepCost sched rev BALANCE = 400 ∧ getStepCost sched rev EXTCODESIZE = 700 ∧
      getStepCost sched rev EXTCODECOPY = 700 ∧ getStepCost sched rev SLOAD = 200 ∧
      getStepCost sched rev CALL = 700 ∧ getStepCost sched rev CALLCODE = 700 ∧
      getStepCost sched rev DELEGATECALL = 700 ∧ getStepCost sched rev STATICCALL = 700) ∧
    (∀ rev, rev < EVM_TANGERINE_WHISTLE →
      getStepCost sched rev BALANCE = sched.stepGas6 ∧
      getStepCost sched rev EXTCODESIZE = sched.stepGas6 ∧
      getStepCost sched rev EXTCODECOPY = sched.stepGas6 ∧
      getStepCost sched rev SLOAD = sched.sloadGas ∧
      getStepCost sched rev CALL = sched.callGas ∧
      getStepCost sched rev CALLCODE = sched.callGas ∧
      getStepCost sched rev DELEGATECALL = sched.callGas ∧
      getStepCost sched rev STATICCALL = sched.callGas) ∧
    (evmSchedule.stepGas6 = 20 ∧ evmSchedule.sloadGas = 50 ∧ evmSchedule.callGas = 40) ∧
    (∀ rev inst, inStepCostTable inst = false → getStepCost sched rev inst = 0) := by
  refine ⟨fun rev inst => getStepCost_tier1to5 sched rev inst, by decide, ?_, ?_, ?_, ?_, ?_,
    by decide, fun rev inst => getStepCost_default sched rev inst⟩
  · intro inst h
    unfold isTier1to5
    simp only [Bool.or_eq_true]
    tauto
  · intro rev h
    cases rev <;> first
      | exact absurd h (by decide)
      | exact ⟨rfl, rfl, rfl, rfl, rfl, rfl, rfl, rfl, rfl⟩
  · intro rev n h hn
    interval_cases n <;> cases rev <;> first
      | exact absurd h (by decide)
      | rfl
  · intro rev h1 h2
    cases rev <;> first
      | exact absurd h1 (by decide)
      | exact absurd h2 (by decide)
      | exact ⟨rfl, rfl, rfl, rfl, rfl, rfl, rfl, rfl⟩
  · intro rev h
    cases rev <;> first
      | exact absurd h (by decide)
      | exact ⟨rfl, rfl, rfl, rfl, rfl, rfl, rfl, rfl⟩

/-! ## The bytecode `5B 5B 00` -/

/-- C19 (as stated) fails: for the bytecode `5B 5B 00` the splitter does not
return three blocks. -/
theorem createBasicBlocks_jumpdests_counterexample :
    (createBasicBlocks [0x5b, 0x5b, 0x00]).length ≠ 3 := by
  decide

/-- C19 (amended): for the bytecode `5B 5B 00` (JUMPDEST, JUMPDEST, STOP)
`createBasicBlocks` returns two blocks, `[0, 1)` and `[1, 3)`, each opened by
one of the JUMPDESTs (STOP lies in the second block and opens none), and for
every revision and call mode the jump-table switch has exactly the cases 0 and
1, leading to these two blocks. -/
theorem createBasicBlocks_jumpdests :
    createBasicBlocks [0x5b, 0x5b, 0x00] =
        [{ m_firstInstrIdx := 0, m_begin := 0, m_end := 1 },
         { m_firstInstrIdx := 1, m_begin := 1, m_end := 3 }] ∧
    ∀ rev staticCall,
      compile [0x5b, 0x5b, 0x00] rev staticCall =
        some [(0, BlockHandle.code 0), (1, BlockHandle.code 1)] := by
  refine ⟨by decide, ?_⟩
  intro rev staticCall
  cases rev <;> cases staticCall <;> decide

/-! ## The values of the main function -/

theorem Word.constOf_eval (env : EvalEnv) {a : Word} {x : BV} (h : a.constOf = some x) :
    a.eval env = some x := by
  cases a <;> simp [Word.constOf] at h
  subst h
  simp [Word.eval]

theorem Word.binop_lt {env : EvalEnv} {f : Nat → Nat → Nat → Option Nat} {a b : Option BV}
    {x : BV} (h : Word.binop env f a b = some x) : x.val < 2 ^ x.bits := by
  cases a with
  | none => simp [Word.binop] at h
  | some u =>
    cases b with
    | none => simp [Word.binop] at h
    | some v =>
      simp only [Word.binop] at h
      split at h
      · obtain rfl := Option.some.inj h
        exact Nat.mod_lt _ (Nat.two_pow_pos _)
      · exact absurd h (by simp)

theorem Word.binop_bits {env : EvalEnv} {f : Nat → Nat → Nat → Option Nat} {a b : Option BV}
    {x : BV} (h : Word.binop env f a b = some x) : ∃ u, a = some u ∧ u.bits = x.bits := by
  cases a with
  | none => simp [Word.binop] at h
  | some u =>
    cases b with
    | none => simp [Word.binop] at h
    | some v =>
      simp only [Word.binop] at h
      split at h
      · obtain rfl := Option.some.inj h
        exact ⟨u, rfl, rfl⟩
      · exact absurd h (by simp)

theorem Word.divop_lt {f : Nat → Nat → Nat → Option Nat} {a b : Option BV}
    {x : BV} (h : Word.divop f a b = some x) : x.val < 2 ^ x.bits := by
  cases a with
  | none => simp [Word.divop] at h
  | some u =>
    cases b with
    | none => simp [Word.divop] at h
    | some v =>
      simp only [Word.divop] at h
      split at h
      · split at h
        · obtain rfl := Option.some.inj h
          exact Nat.mod_lt _ (Nat.two_pow_pos _)
        · exact absurd h (by simp)
      · exact absurd h (by simp)

theorem Word.divop_bits {f : Nat → Nat → Nat → Option Nat} {a b : Option BV}
    {x : BV} (h : Word.divop f a b = some x) : ∃ u, a = some u ∧ u.bits = x.bits := by
  cases a with
  | none => simp [Word.divop] at h
  | some u =>
    cases b with
    | none => simp [Word.divop] at h
    | some v =>
      simp only [Word.divop] at h
      split at h
      · split at h
        · obtain rfl := Option.some.inj h
          exact ⟨u, rfl, rfl⟩
        · exact absurd h (by simp)
      · exact absurd h (by simp)

theorem Word.cmpop_lt {f : Nat → Nat → Bool} {a b : Option BV} {x : BV}
    (h : Word.cmpop f a b = some x) : x.bits = 1 ∧ x.val < 2 ^ x.bits := by
  cases a with
  | none => simp [Word.cmpop] at h
  | some u =>
    cases b with
    | none => simp [Word.cmpop] at h
    | some v =>
      simp only [Word.cmpop] at h
      split at h
      · obtain rfl := Option.some.inj h
        refine ⟨rfl, ?_⟩
        dsimp only
        split <;> decide
      · exact absurd h (by simp)

/-- The value of an expression is below `2 ^ bits`, and its width is the type of
the expression. -/
theorem Word.eval_spec (env : EvalEnv) (w : Word) :
    ∀ x, w.eval env = some x → x.val < 2 ^ x.bits ∧ w.ty = x.bits := by
  induction w with
  | value id =>
    intro x h
    obtain rfl := Option.some.inj h
    exact ⟨Nat.mod_lt _ (Nat.two_pow_pos _), rfl⟩
  | load i =>
    intro x h
    obtain rfl := Option.some.inj h
    exact ⟨Nat.mod_lt _ (Nat.two_pow_pos _), rfl⟩
  | const bits v =>
    intro x h
    obtain rfl := Option.some.inj h
    exact ⟨Nat.mod_lt _ (Nat.two_pow_pos _), rfl⟩
  | trunc a bits ih =>
    intro x h
    simp only [Word.eval] at h
    cases ha : a.eval env with
    | none => simp [ha] at h
    | some u =>
      simp only [ha] at h
      split at h
      · obtain rfl := Option.some.inj h
        exact ⟨Nat.mod_lt _ (Nat.two_pow_pos _), rfl⟩
      · exact absurd h (by simp)
  | zext a bits ih =>
    intro x h
    simp only [Word.eval] at h
    cases ha : a.eval env with
    | none => simp [ha] at h
    | some u =>
      simp only [ha] at h
      split at h
      · obtain rfl := Option.some.inj h
        exact ⟨Nat.mod_lt _ (Nat.two_pow_pos _), rfl⟩
      · exact absurd h (by simp)
  | add a b _ iha _ | sub a b iha _ | mul a b _ iha _ | and a b iha _ | or a b iha _
  | xor a b iha _ | shl a b iha _ | lshr a b iha _ =>
    intro x h
    simp only [Word.eval] at h
    obtain ⟨u, hu, hb⟩ := Word.binop_bits h
    exact ⟨Word.binop_lt h, by simp only [Word.ty]; rw [← hb]; exact (iha u hu).2⟩
  | udiv a b iha _ | urem a b iha _ | sdiv a b iha _ | srem a b iha _ =>
    intro x h
    simp only [Word.eval] at h
    obtain ⟨u, hu, hb⟩ := Word.divop_bits h
    exact ⟨Word.divop_lt h, by simp only [Word.ty]; rw [← hb]; exact (iha u hu).2⟩
  | icmpEQ a b _ _ | icmpNE a b _ _ | icmpULE a b _ _ | icmpUGT a b _ _ =>
    intro x h
    simp only [Word.eval] at h
    exact ⟨(Word.cmpop_lt h).2, (Word.cmpop_lt h).1.symm⟩
  | select c a b _ iha ihb =>
    intro x h
    simp only [Word.eval] at h
    cases hc : c.eval env with
    | none => simp [hc] at h
    | some cv =>
      cases ha : a.eval env with
      | none => simp [hc, ha] at h
      | some u =>
        cases hb : b.eval env with
        | none => simp [hc, ha, hb] at h
        | some v =>
          simp only [hc, ha, hb] at h
          split at h
          · rename_i hcond
            obtain rfl := Option.some.inj h
            split
            · exact ⟨(iha u ha).1, (iha u ha).2⟩
            · exact ⟨(ihb v hb).1, by simp only [Word.ty]; rw [← hcond.2]; exact (iha u ha).2⟩
          · exact absurd h (by simp)
  | ctlz a ih =>
    intro x h
    simp only [Word.eval] at h
    cases ha : a.eval env with
    | none => simp [ha] at h
    | some u =>
      simp only [ha] at h
      obtain rfl := Option.some.inj h
      exact ⟨Nat.mod_lt _ (Nat.two_pow_pos _), (ih u ha).2⟩
  | undef bits =>
    intro x h
    obtain rfl := Option.some.inj h
    exact ⟨Nat.mod_lt _ (Nat.two_pow_pos _), rfl⟩

theorem Word.eval_lt {env : EvalEnv} {w : Word} {x : BV} (h : w.eval env = some x) :
    x.val < 2 ^ x.bits := (Word.eval_spec env w x h).1

theorem Word.eval_ty {env : EvalEnv} {w : Word} {x : BV} (h : w.eval env = some x) :
    w.ty = x.bits := (Word.eval_spec env w x h).2

/-- Folding a binary instruction does not change its value. -/
theorem IRBuilder.eval_foldBin (env : EvalEnv) (f : Nat → Nat → Nat → Option Nat)
    (a b inst : Word)
    (h : inst.eval env = Word.binop env f (a.eval env) (b.eval env)) :
    (foldBin f a b inst).eval env = Word.binop env f (a.eval env) (b.eval env) := by
  unfold foldBin
  split
  · rename_i x y hx hy
    split
    · rename_i hbits
      split
      · rename_i v hv
        rw [Word.constOf_eval env hx, Word.constOf_eval env hy]
        have hv2 := hv
        rw [hbits] at hv2
        simp [Word.eval, Word.binop, hbits, hv2]
      · exact h
    · exact h
  · exact h

theorem Word.divop_some (f : Nat → Nat → Nat → Option Nat) {w x y v : Nat}
    (h : f w x y = some v) :
    Word.divop f (some ⟨w, x⟩) (some ⟨w, y⟩) = some ⟨w, v % 2 ^ w⟩ := by
  simp [Word.divop, h]

theorem Word.divop_none (f : Nat → Nat → Nat → Option Nat) {w x y : Nat}
    (h : f w x y = none) :
    Word.divop f (some ⟨w, x⟩) (some ⟨w, y⟩) = none := by
  simp [Word.divop, h]

/-- Folding a division whose result is defined does not change its value. -/
theorem IRBuilder.eval_foldDiv (env : EvalEnv) (f : Nat → Nat → Nat → Option Nat)
    (a b inst : Word)
    (h : inst.eval env = Word.divop f (a.eval env) (b.eval env)) {w x y v : Nat}
    (ha : a.eval env = some ⟨w, x⟩) (hb : b.eval env = some ⟨w, y⟩) (hv : f w x y = some v) :
    (foldDiv f a b inst).eval env = some ⟨w, v % 2 ^ w⟩ := by
  have hi : inst.eval env = some ⟨w, v % 2 ^ w⟩ := by
    rw [h, ha, hb, Word.divop_some f hv]
  unfold foldDiv
  split
  · rename_i x1 y1 hx hy
    have hx1 : x1 = ⟨w, x⟩ := Option.some.inj ((Word.constOf_eval env hx).symm.trans ha)
    have hy1 : y1 = ⟨w, y⟩ := Option.some.inj ((Word.constOf_eval env hy).symm.trans hb)
    subst hx1 hy1
    simp only [if_true, hv, Word.eval, Nat.mod_mod]
  · exact hi

/-- A division with an operand that is not an integer constant is not folded:
the instruction is emitted. -/
theorem IRBuilder.foldDiv_inst (f : Nat → Nat → Nat → Option Nat) (a b inst : Word)
    (h : a.constOf = none ∨ b.constOf = none) : foldDiv f a b inst = inst := by
  unfold foldDiv
  split
  · rename_i x y hx hy
    rcases h with h | h
    · rw [h] at hx; exact absurd hx (by simp)
    · rw [h] at hy; exact absurd hy (by simp)
  · rfl

/-- A division of integer constants whose result is not defined folds to
`undef`: no instruction is emitted. -/
theorem IRBuilder.foldDiv_undef (f : Nat → Nat → Nat → Option Nat) (a b inst : Word)
    {w x y : Nat} (ha : a.constOf = some ⟨w, x⟩) (hb : b.constOf = some ⟨w, y⟩)
    (hv : f w x y = none) : foldDiv f a b inst = Word.undef w := by
  unfold foldDiv
  simp only [ha, hb, if_true, hv]

/-- Folding a comparison does not change its value. -/
theorem IRBuilder.eval_foldCmp (env : EvalEnv) (f : Nat → Nat → Bool) (a b inst : Word)
    (h : inst.eval env = Word.cmpop f (a.eval env) (b.eval env)) :
    (foldCmp f a b inst).eval env = Word.cmpop f (a.eval env) (b.eval env) := by
  unfold foldCmp
  split
  · rename_i x y hx hy
    split
    · rename_i hbits
      rw [Word.constOf_eval env hx, Word.constOf_eval env hy]
      simp only [Word.eval, Word.cmpop, hbits, if_true]
      split <;> rfl
    · exact h
  · exact h

theorem IRBuilder.eval_CreateAdd (env : EvalEnv) (a b : Word) :
    (CreateAdd a b).eval env = Word.binop env Word.addOp (a.eval env) (b.eval env) :=
  eval_foldBin env _ a b _ rfl

theorem IRBuilder.eval_CreateNUWAdd (env : EvalEnv) (a b : Word) :
    (CreateNUWAdd a b).eval env = Word.binop env Word.addOp (a.eval env) (b.eval env) :=
  eval_foldBin env _ a b _ rfl

theorem IRBuilder.eval_CreateSub (env : EvalEnv) (a b : Word) :
    (CreateSub a b).eval env = Word.binop env Word.subOp (a.eval env) (b.eval env) :=
  eval_foldBin env _ a b _ rfl

theorem IRBuilder.eval_CreateMul (env : EvalEnv) (a b : Word) :
    (CreateMul a b).eval env = Word.binop env Word.mulOp (a.eval env) (b.eval env) :=
  eval_foldBin env _ a b _ rfl

theorem IRBuilder.eval_CreateNUWMul (env : EvalEnv) (a b : Word) :
    (CreateNUWMul a b).eval env = Word.binop env Word.mulOp (a.eval env) (b.eval env) :=
  eval_foldBin env _ a b _ rfl

theorem IRBuilder.eval_CreateUDiv (env : EvalEnv) {a b : Word} {w x y : Nat}
    (ha : a.eval env = some ⟨w, x⟩) (hb : b.eval env = some ⟨w, y⟩) (hy : y ≠ 0) :
    (CreateUDiv a b).eval env = some ⟨w, x / y % 2 ^ w⟩ :=
  eval_foldDiv env Word.udivOp a b (Word.udiv a b) rfl ha hb
    (by simp only [Word.udivOp, if_neg hy])

theorem IRBuilder.eval_CreateURem (env : EvalEnv) {a b : Word} {w x y : Nat}
    (ha : a.eval env = some ⟨w, x⟩) (hb : b.eval env = some ⟨w, y⟩) (hy : y ≠ 0) :
    (CreateURem a b).eval env = some ⟨w, x % y % 2 ^ w⟩ :=
  eval_foldDiv env Word.uremOp a b (Word.urem a b) rfl ha hb
    (by simp only [Word.uremOp, if_neg hy])

theorem IRBuilder.eval_CreateSDiv (env : EvalEnv) {a b : Word} {w x y v : Nat}
    (ha : a.eval env = some ⟨w, x⟩) (hb : b.eval env = some ⟨w, y⟩)
    (hv : Word.sdivOp w x y = some v) :
    (CreateSDiv a b).eval env = some ⟨w, v % 2 ^ w⟩ :=
  eval_foldDiv env Word.sdivOp a b (Word.sdiv a b) rfl ha hb hv

theorem IRBuilder.eval_CreateSRem (env : EvalEnv) {a b : Word} {w x y v : Nat}
    (ha : a.eval env = some ⟨w, x⟩) (hb : b.eval env = some ⟨w, y⟩)
    (hv : Word.sremOp w x y = some v) :
    (CreateSRem a b).eval env = some ⟨w, v % 2 ^ w⟩ :=
  eval_foldDiv env Word.sremOp a b (Word.srem a b) rfl ha hb hv

theorem IRBuilder.eval_CreateAnd (env : EvalEnv) (a b : Word) :
    (CreateAnd a b).eval env = Word.binop env Word.andOp (a.eval env) (b.eval env) :=
  eval_foldBin env _ a b _ rfl

theorem IRBuilder.eval_CreateOr (env : EvalEnv) (a b : Word) :
    (CreateOr a b).eval env = Word.binop env Word.orOp (a.eval env) (b.eval env) :=
  eval_foldBin env _ a b _ rfl

theorem IRBuilder.eval_CreateXor (env : EvalEnv) (a b : Word) :
    (CreateXor a b).eval env = Word.binop env Word.xorOp (a.eval env) (b.eval env) :=
  eval_foldBin env _ a b _ rfl

theorem IRBuilder.eval_CreateShl (env : EvalEnv) (a b : Word) :
    (CreateShl a b).eval env = Word.binop env Word.shlOp (a.eval env) (b.eval env) :=
  eval_foldBin env _ a b _ rfl

theorem IRBuilder.eval_CreateLShr (env : EvalEnv) (a b : Word) :
    (CreateLShr a b).eval env = Word.binop env Word.lshrOp (a.eval env) (b.eval env) :=
  eval_foldBin env _ a b _ rfl

theorem IRBuilder.eval_CreateICmpEQ (env : EvalEnv) (a b : Word) :
    (CreateICmpEQ a b).eval env =
      Word.cmpop (fun x y => decide (x = y)) (a.eval env) (b.eval env) :=
  eval_foldCmp env _ a b _ rfl

theorem IRBuilder.eval_CreateICmpNE (env : EvalEnv) (a b : Word) :
    (CreateICmpNE a b).eval env =
      Word.cmpop (fun x y => decide (x ≠ y)) (a.eval env) (b.eval env) :=
  eval_foldCmp env _ a b _ rfl

theorem IRBuilder.eval_CreateICmpULE (env : EvalEnv) (a b : Word) :
    (CreateICmpULE a b).eval env =
      Word.cmpop (fun x y => decide (x ≤ y)) (a.eval env) (b.eval env) :=
  eval_foldCmp env _ a b _ rfl

theorem IRBuilder.eval_CreateICmpUGT (env : EvalEnv) (a b : Word) :
    (CreateICmpUGT a b).eval env =
      Word.cmpop (fun x y => decide (x > y)) (a.eval env) (b.eval env) :=
  eval_foldCmp env _ a b _ rfl

/-- The cast `CreateTrunc` has the value of the instruction `trunc`. -/
theorem IRBuilder.eval_CreateTrunc (env : EvalEnv) (a : Word) (bits : Nat) :
    (CreateTrunc a bits).eval env = (Word.trunc a bits).eval env := by
  unfold CreateTrunc
  split
  · rename_i hty
    simp only [Word.eval]
    cases ha : a.eval env with
    | none => rfl
    | some x =>
      have h1 := Word.eval_ty ha
      have h2 := Word.eval_lt ha
      have h3 : x.bits = bits := by rw [← h1]; exact hty
      subst h3
      simp [Nat.mod_eq_of_lt h2]
  · split
    · rename_i x hx
      split
      · rename_i hle
        simp [Word.eval, Word.constOf_eval env hx, hle]
      · rfl
    · split
      · rename_i w
        split
        · rename_i hle
          simp only [Word.eval, hle, if_true]
          rw [Nat.mod_mod_of_dvd _ (pow_dvd_pow 2 hle)]
        · rfl
      · rfl

/-- The cast `CreateZExt` has the value of the instruction `zext`. -/
theorem IRBuilder.eval_CreateZExt (env : EvalEnv) (a : Word) (bits : Nat) :
    (CreateZExt a bits).eval env = (Word.zext a bits).eval env := by
  unfold CreateZExt
  split
  · rename_i hty
    simp only [Word.eval]
    cases ha : a.eval env with
    | none => rfl
    | some x =>
      have h1 := Word.eval_ty ha
      have h2 := Word.eval_lt ha
      have h3 : x.bits = bits := by rw [← h1]; exact hty
      subst h3
      simp [Nat.mod_eq_of_lt h2]
  · split
    · rename_i x hx
      split
      · rename_i hle
        simp [Word.eval, Word.constOf_eval env hx, hle]
      · rfl
    · rfl

/-- A constant has a value of its type. -/
theorem Word.constTy_eval (env : EvalEnv) {a : Word} {n : Nat} (h : a.constTy = some n) :
    ∃ v, a.eval env = some ⟨n, v⟩ := by
  cases a <;> simp [Word.constTy] at h
  · subst h
    exact ⟨_, rfl⟩
  · subst h
    exact ⟨_, rfl⟩

/-- A value that is not a constant is not an integer constant. -/
theorem Word.constOf_of_constTy {a : Word} (h : a.constTy = none) : a.constOf = none := by
  cases a <;> simp [Word.constTy] at h <;> rfl

/-- The builder's `CreateSelect` has the value of the instruction `select`. -/
theorem IRBuilder.eval_CreateSelect (env : EvalEnv) (c a b : Word) :
    (CreateSelect c a b).eval env = (Word.select c a b).eval env := by
  unfold CreateSelect
  split
  · rename_i cv x y hc ha hb
    split
    · rename_i hcond
      obtain ⟨h1, h2⟩ := hcond
      subst h2
      obtain ⟨u, hu⟩ := Word.constTy_eval env ha
      obtain ⟨v, hv⟩ := Word.constTy_eval env hb
      simp only [Word.eval, Word.constOf_eval env hc, hu, hv, h1, and_self, if_true]
      split <;> simp [hu, hv]
    · rfl
  · rfl

/-! ## The arithmetic cases -/

theorem Word.binop_some (env : EvalEnv) (f : Nat → Nat → Nat → Option Nat) (w x y : Nat) :
    Word.binop env f (some ⟨w, x⟩) (some ⟨w, y⟩) =
      some ⟨w, (f w x y).getD (env.undef x y) % 2 ^ w⟩ := by
  simp [Word.binop]

theorem Word.cmpop_some (f : Nat → Nat → Bool) (w x y : Nat) :
    Word.cmpop f (some ⟨w, x⟩) (some ⟨w, y⟩) = some ⟨1, if f x y then 1 else 0⟩ := by
  simp [Word.cmpop]

theorem IRBuilder.eval_select_some (env : EvalEnv) {c a b : Word} {cv w x y : Nat}
    (hc : c.eval env = some ⟨1, cv⟩) (ha : a.eval env = some ⟨w, x⟩)
    (hb : b.eval env = some ⟨w, y⟩) :
    (CreateSelect c a b).eval env = some ⟨w, if cv = 1 then x else y⟩ := by
  rw [eval_CreateSelect]
  simp only [Word.eval, hc, ha, hb, and_self, if_true]
  split <;> rfl

theorem IRBuilder.eval_trunc_some (env : EvalEnv) {a : Word} {w x : Nat} (bits : Nat)
    (ha : a.eval env = some ⟨w, x⟩) (h : bits ≤ w) :
    (CreateTrunc a bits).eval env = some ⟨bits, x % 2 ^ bits⟩ := by
  rw [eval_CreateTrunc]
  simp only [Word.eval, ha, h, if_true]

theorem IRBuilder.eval_zext_some (env : EvalEnv) {a : Word} {w x : Nat} (bits : Nat)
    (ha : a.eval env = some ⟨w, x⟩) (h : w ≤ bits) :
    (CreateZExt a bits).eval env = some ⟨bits, x⟩ := by
  rw [eval_CreateZExt]
  have h1 : x < 2 ^ bits :=
    lt_of_lt_of_le (Word.eval_lt ha) (Nat.pow_le_pow_right (by decide) h)
  simp only [Word.eval, ha, h, if_true, Nat.mod_eq_of_lt h1]

theorem Constant.eval_get_zero (env : EvalEnv) : (Constant.get 0).eval env = some ⟨128, 0⟩ := by
  simp [Constant.get, Word.eval]

theorem Constant.eval_get_one (env : EvalEnv) : (Constant.get 1).eval env = some ⟨128, 1⟩ := by
  simp [Constant.get, Word.eval]

theorem Constant.eval_get_neg_one (env : EvalEnv) :
    (Constant.get (-1)).eval env = some ⟨128, 2 ^ 128 - 1⟩ := by
  simp [Constant.get, Word.eval]

/-- The value of the flag `divByZero` of the division cases. -/
theorem eval_divByZero (env : EvalEnv) {n : Word} {b : Nat} (hn : n.eval env = some ⟨128, b⟩) :
    (CreateICmpEQ n (Constant.get 0)).eval env = some ⟨1, if b = 0 then 1 else 0⟩ := by
  rw [eval_CreateICmpEQ, hn, Constant.eval_get_zero, Word.cmpop_some]
  simp

/-- The value of the flag `divByMinusOne` of the signed division cases. -/
theorem eval_divByMinusOne (env : EvalEnv) {n : Word} {b : Nat}
    (hn : n.eval env = some ⟨128, b⟩) :
    (CreateICmpEQ n (Constant.get (-1))).eval env =
      some ⟨1, if b = 2 ^ 128 - 1 then 1 else 0⟩ := by
  rw [eval_CreateICmpEQ, hn, Constant.eval_get_neg_one, Word.cmpop_some]
  simp

/-- The divisor that the division cases pass to the division instruction is not
0: it is 1 when the popped divisor is 0. -/
theorem eval_divisor (env : EvalEnv) {n : Word} {b : Nat} (hn : n.eval env = some ⟨128, b⟩) :
    (CreateSelect (CreateICmpEQ n (Constant.get 0)) (Constant.get 1) n).eval env =
      some ⟨128, if b = 0 then 1 else b⟩ := by
  rw [eval_select_some env (eval_divByZero env hn) (Constant.eval_get_one env) hn]
  by_cases h : b = 0 <;> simp [h]

theorem divValue_eval (env : EvalEnv) {d n : Word} {a b : Nat}
    (hd : d.eval env = some ⟨128, a⟩) (hn : n.eval env = some ⟨128, b⟩) :
    (divValue d n).eval env = some ⟨128, if b = 0 then 0 else a / b⟩ := by
  have ha : a < 2 ^ 128 := Word.eval_lt hd
  have hr : (CreateUDiv d (CreateSelect (CreateICmpEQ n (Constant.get 0)) (Constant.get 1)
      n)).eval env = some ⟨128, a / (if b = 0 then 1 else b)⟩ := by
    have h1 : a / (if b = 0 then 1 else b) < 2 ^ 128 := lt_of_le_of_lt (Nat.div_le_self _ _) ha
    have h2 : (if b = 0 then 1 else b) ≠ 0 := by split <;> omega
    rw [eval_CreateUDiv env hd (eval_divisor env hn) h2, Nat.mod_eq_of_lt h1]
  unfold divValue
  rw [eval_select_some env (eval_divByZero env hn) (Constant.eval_get_zero env) hr]
  by_cases h : b = 0 <;> simp [h]

theorem modValue_eval (env : EvalEnv) {d n : Word} {a b : Nat}
    (hd : d.eval env = some ⟨128, a⟩) (hn : n.eval env = some ⟨128, b⟩) :
    (modValue d n).eval env = some ⟨128, if b = 0 then 0 else a % b⟩ := by
  have ha : a < 2 ^ 128 := Word.eval_lt hd
  have hr : (CreateURem d (CreateSelect (CreateICmpEQ n (Constant.get 0)) (Constant.get 1)
      n)).eval env = some ⟨128, a % (if b = 0 then 1 else b)⟩ := by
    have h1 : a % (if b = 0 then 1 else b) < 2 ^ 128 := lt_of_le_of_lt (Nat.mod_le _ _) ha
    have h2 : (if b = 0 then 1 else b) ≠ 0 := by split <;> omega
    rw [eval_CreateURem env hd (eval_divisor env hn) h2, Nat.mod_eq_of_lt h1]
  unfold modValue
  rw [eval_select_some env (eval_divByZero env hn) (Constant.eval_get_zero env) hr]
  by_cases h : b = 0 <;> simp [h]

/-- A pop on a stack whose `local` is not empty returns its last value and
removes it; `input` and `global_pops` stay. -/
theorem LocalStack.pop_local (s : LocalStack) (l : List Word) (v : Word)
    (h : s.m_local = l ++ [v]) :
    ∃ t, s.pop = some (v, t) ∧ t.m_local = l ∧ t.m_input = s.m_input ∧
      t.m_globalPops = s.m_globalPops := by
  have h1 : (l ++ [v])[l.length]? = some v := by simp
  simp [LocalStack.pop, LocalStack.get, h, h1]

/-- The pops of a case that takes two operands, on a stack with `x` on top and
`y` below it. -/
theorem LocalStack.pop_pop_push (s : LocalStack) (x y : Word) :
    ∃ t u, ((s.push y).push x).pop = some (x, t) ∧ t.pop = some (y, u) ∧
      u.m_local = s.m_local ∧ u.m_input = s.m_input ∧ u.m_globalPops = s.m_globalPops := by
  obtain ⟨t, ht, h1, h2, h3⟩ := LocalStack.pop_local ((s.push y).push x) (s.m_local ++ [y]) x rfl
  obtain ⟨u, hu, h4, h5, h6⟩ := LocalStack.pop_local t s.m_local y h1
  exact ⟨t, u, ht, hu, h4, by rw [h5, h2]; rfl, by rw [h6, h3]; rfl⟩
/-- The arithmetic cases with two operands pop twice and push the result. -/
theorem compileArith_cases (stack : LocalStack) :
    compileArith DIV stack = (do
      let (d, stack) ← stack.pop
      let (n, stack) ← stack.pop
      some (stack.push (divValue d n))) ∧
    compileArith MOD stack = (do
      let (d, stack) ← stack.pop
      let (n, stack) ← stack.pop
      some (stack.push (modValue d n))) ∧
    compileArith SDIV stack = (do
      let (d, stack) ← stack.pop
      let (n, stack) ← stack.pop
      some (stack.push (sdivValue d n))) ∧
    compileArith SMOD stack = (do
      let (d, stack) ← stack.pop
      let (n, stack) ← stack.pop
      some (stack.push (smodValue d n))) ∧
    compileArith SIGNEXTEND stack = (do
      let (idx, stack) ← stack.pop
      let (word, stack) ← stack.pop
      some (stack.push (signextendValue idx word))) :=
  ⟨rfl, rfl, rfl, rfl, rfl⟩

/-- The arithmetic cases with two operands, on a stack with `x` on top and `y`
below it: both are popped and the result is pushed. -/
theorem compileArith_binary (s : LocalStack) (x y : Word) :
    (∃ t, compileArith DIV ((s.push y).push x) = some t ∧
      t.m_local = s.m_local ++ [divValue x y] ∧ t.m_input = s.m_input ∧
      t.m_globalPops = s.m_globalPops) ∧
    (∃ t, compileArith MOD ((s.push y).push x) = some t ∧
      t.m_local = s.m_local ++ [modValue x y] ∧ t.m_input = s.m_input ∧
      t.m_globalPops = s.m_globalPops) ∧
    (∃ t, compileArith SDIV ((s.push y).push x) = some t ∧
      t.m_local = s.m_local ++ [sdivValue x y] ∧ t.m_input = s.m_input ∧
      t.m_globalPops = s.m_globalPops) ∧
    (∃ t, compileArith SMOD ((s.push y).push x) = some t ∧
      t.m_local = s.m_local ++ [smodValue x y] ∧ t.m_input = s.m_input ∧
      t.m_globalPops = s.m_globalPops) ∧
    (∃ t, compileArith SIGNEXTEND ((s.push y).push x) = some t ∧
      t.m_local = s.m_local ++ [signextendValue x y] ∧ t.m_input = s.m_input ∧
      t.m_globalPops = s.m_globalPops) := by
  obtain ⟨t, u, ht, hu, h1, h2, h3⟩ := LocalStack.pop_pop_push s x y
  obtain ⟨c1, c2, c3, c4, c5⟩ := compileArith_cases ((s.push y).push x)
  have hl : ∀ v, (u.push v).m_local = s.m_local ++ [v] := by
    intro v
    simp only [LocalStack.push, h1]
  refine ⟨⟨u.push (divValue x y), ?_, hl _, h2, h3⟩, ⟨u.push (modValue x y), ?_, hl _, h2, h3⟩,
    ⟨u.push (sdivValue x y), ?_, hl _, h2, h3⟩, ⟨u.push (smodValue x y), ?_, hl _, h2, h3⟩,
    ⟨u.push (signextendValue x y), ?_, hl _, h2, h3⟩⟩
  · rw [c1, ht]; simp only [Option.bind_eq_bind, Option.some_bind, hu]
  · rw [c2, ht]; simp only [Option.bind_eq_bind, Option.some_bind, hu]
  · rw [c3, ht]; simp only [Option.bind_eq_bind, Option.some_bind, hu]
  · rw [c4, ht]; simp only [Option.bind_eq_bind, Option.some_bind, hu]
  · rw [c5, ht]; simp only [Option.bind_eq_bind, Option.some_bind, hu]

/-- C13: on a stack with `a` on top (the dividend `d`) and `b` below it (the
divisor `n`), both words of 128 bits, the cases DIV and MOD pop the two and
push one word; the word pushed by DIV is 0 if `b = 0` and `a / b` (rounded
down) otherwise, the word pushed by MOD is 0 if `b = 0` and `a mod b`
otherwise; and the divisor operand of the `udiv`/`urem` that the cases build is
the select of 1 for `b = 0` and of `b` otherwise, which is never 0. -/
theorem div_mod_spec (env : EvalEnv) (s : LocalStack) (d n : Word) (a b : Nat)
    (hd : d.eval env = some ⟨128, a⟩) (hn : n.eval env = some ⟨128, b⟩) :
    (∃ t, compileArith DIV ((s.push n).push d) = some t ∧
      t.m_local = s.m_local ++ [divValue d n]) ∧
    (∃ t, compileArith MOD ((s.push n).push d) = some t ∧
      t.m_local = s.m_local ++ [modValue d n]) ∧
    (divValue d n).eval env = some ⟨128, if b = 0 then 0 else a / b⟩ ∧
    (modValue d n).eval env = some ⟨128, if b = 0 then 0 else a % b⟩ ∧
    ∃ divisor y,
      divValue d n =
        CreateSelect (CreateICmpEQ n (Constant.get 0)) (Constant.get 0) (CreateUDiv d divisor) ∧
      modValue d n =
        CreateSelect (CreateICmpEQ n (Constant.get 0)) (Constant.get 0) (CreateURem d divisor) ∧
      divisor.eval env = some ⟨128, y⟩ ∧ y ≠ 0 := by
  obtain ⟨⟨t1, h1, h2, _⟩, ⟨t2, h3, h4, _⟩, _⟩ := compileArith_binary s d n
  refine ⟨⟨t1, h1, h2⟩, ⟨t2, h3, h4⟩, divValue_eval env hd hn, modValue_eval env hd hn,
    _, _, rfl, rfl, eval_divisor env hn, ?_⟩
  split <;> omega

/-- Witness for C13: the dividend 100 and the divisor 7. -/
theorem div_mod_spec_witness :
    (Word.value 0).eval ⟨fun i => if i = 0 then 100 else 7, fun _ => 0, fun _ _ => 0⟩ =
      some ⟨128, 100⟩ ∧
    (Word.value 1).eval ⟨fun i => if i = 0 then 100 else 7, fun _ => 0, fun _ _ => 0⟩ =
      some ⟨128, 7⟩ ∧
    (divValue (Word.value 0) (Word.value 1)).eval
        ⟨fun i => if i = 0 then 100 else 7, fun _ => 0, fun _ _ => 0⟩ =
      some ⟨128, if 7 = 0 then 0 else 100 / 7⟩ :=
  ⟨rfl, rfl,
    (div_mod_spec ⟨fun i => if i = 0 then 100 else 7, fun _ => 0, fun _ _ => 0⟩
      LocalStack.fresh (Word.value 0) (Word.value 1) 100 7 rfl rfl).2.2.1⟩
theorem Word.ofSigned_lt (bits : Nat) (i : Int) : Word.ofSigned bits i < 2 ^ bits := by
  unfold Word.ofSigned
  have h1 : (0 : Int) < 2 ^ bits := by positivity
  have h2 := Int.emod_lt_of_pos i h1
  have h3 := Int.emod_nonneg i (ne_of_gt h1)
  zify
  rw [Int.toNat_of_nonneg h3]
  exact_mod_cast h2

/-- A word reads as -1 exactly when all its bits are set. -/
theorem Word.toSigned_eq_neg_one {b : Nat} (hb : b < 2 ^ 128) :
    Word.toSigned 128 b = -1 ↔ b = 2 ^ 128 - 1 := by
  unfold Word.toSigned
  norm_num at hb ⊢
  split <;> omega

/-- A word reads as the least integer exactly when only its top bit is set. -/
theorem Word.toSigned_eq_min {a : Nat} (ha : a < 2 ^ 128) :
    Word.toSigned 128 a = -2 ^ 127 ↔ a = 2 ^ 127 := by
  unfold Word.toSigned
  norm_num at ha ⊢
  split <;> omega

/-- A `select` with an operand that has no value has none: all the operands of
the instruction are executed, also the one that is not selected. -/
theorem IRBuilder.eval_select_none (env : EvalEnv) (c a : Word) {b : Word}
    (hb : b.eval env = none) : (CreateSelect c a b).eval env = none := by
  rw [eval_CreateSelect]
  simp only [Word.eval, hb]
  cases c.eval env <;> cases a.eval env <;> rfl

/-- A `select` of a value that is not a constant is emitted. -/
theorem IRBuilder.CreateSelect_inst (c a : Word) {b : Word} (hb : b.constTy = none) :
    CreateSelect c a b = Word.select c a b := by
  unfold CreateSelect
  split
  · rename_i hb2
    rw [hb] at hb2
    exact absurd hb2 (by simp)
  · rfl

/-- An integer constant is a constant of its type. -/
theorem Word.constTy_of_constOf {a : Word} {x : BV} (h : a.constOf = some x) :
    a.constTy = some x.bits := by
  cases a <;> simp [Word.constOf] at h
  subst h
  rfl

/-- The divisor of the division cases for a constant `n`: the constant 1 for
0, and `n` otherwise. -/
theorem divisor_const {n : Word} {b : Nat} (hn : n.constOf = some ⟨128, b⟩) :
    (CreateSelect (CreateICmpEQ n (Constant.get 0)) (Constant.get 1) n).constOf =
      some ⟨128, if b = 0 then 1 else b⟩ := by
  have hc0 : (Constant.get 0).constOf = some ⟨128, 0⟩ := by simp [Constant.get, Word.constOf]
  have hcmp : CreateICmpEQ n (Constant.get 0) = Word.const 1 (if b = 0 then 1 else 0) := by
    unfold CreateICmpEQ foldCmp
    rw [hn, hc0]
    simp only [if_true, decide_eq_true_eq]
  rw [hcmp]
  cases n with
  | const bits v =>
    have h1 : Constant.get 1 = Word.const 128 1 := by simp [Constant.get]
    simp only [Word.constOf, Option.some.injEq, BV.mk.injEq] at hn
    obtain ⟨rfl, hv⟩ := hn
    rw [h1]
    by_cases h : b = 0
    · rw [if_pos h, if_pos h]
      rfl
    · rw [if_neg h, if_neg h, ← hv]
      rfl
  | _ => simp [Word.constOf] at hn

/-- The divisor of the division cases is not an integer constant when `n` is
not a constant. -/
theorem divisor_inst {n : Word} (hn : n.constTy = none) :
    (CreateSelect (CreateICmpEQ n (Constant.get 0)) (Constant.get 1) n).constOf = none := by
  rw [CreateSelect_inst _ _ hn]
  rfl

/-- The `sdiv` and the `srem` of the least integer by -1 are undefined. -/
theorem Word.sdivOp_min :
    Word.sdivOp 128 (2 ^ 127) (2 ^ 128 - 1) = none ∧
    Word.sremOp 128 (2 ^ 127) (2 ^ 128 - 1) = none := by
  constructor
  · norm_num [Word.sdivOp]
  · norm_num [Word.sremOp]

/-- The values of SDIV and SMOD for operands other than the least integer and
-1. -/
theorem sdivValue_eval (env : EvalEnv) {d n : Word} {a b : Nat}
    (hd : d.eval env = some ⟨128, a⟩) (hn : n.eval env = some ⟨128, b⟩)
    (hdef : ¬(a = 2 ^ 127 ∧ b = 2 ^ 128 - 1)) :
    (sdivValue d n).eval env =
      some ⟨128, if b = 0 then 0
        else if b = 2 ^ 128 - 1 then (2 ^ 128 - a) % 2 ^ 128
        else Word.ofSigned 128 (Int.tdiv (Word.toSigned 128 a) (Word.toSigned 128 b))⟩ := by
  have hv : Word.sdivOp 128 a (if b = 0 then 1 else b) =
      some (Word.ofSigned 128 (Int.tdiv (Word.toSigned 128 a)
        (Word.toSigned 128 (if b = 0 then 1 else b)))) := by
    have h1 : (if b = 0 then 1 else b) ≠ 0 := by split <;> omega
    have h2 : ¬(a = 2 ^ (128 - 1) ∧ (if b = 0 then 1 else b) = 2 ^ 128 - 1) := by
      intro h
      apply hdef
      refine ⟨h.1, ?_⟩
      have h3 := h.2
      split at h3
      · norm_num at h3
      · exact h3
    simp only [Word.sdivOp, if_neg h1, if_neg h2]
  have hr := eval_CreateSDiv env hd (eval_divisor env hn) hv
  rw [Nat.mod_eq_of_lt (Word.ofSigned_lt _ _)] at hr
  have hneg : (CreateSub (Constant.get 0) d).eval env = some ⟨128, (2 ^ 128 - a) % 2 ^ 128⟩ := by
    rw [eval_CreateSub, hd, Constant.eval_get_zero, Word.binop_some]
    simp only [Word.subOp, Option.getD_some, Nat.zero_add]
  unfold sdivValue
  rw [eval_select_some env (eval_divByMinusOne env hn) hneg
    (eval_select_some env (eval_divByZero env hn) (Constant.eval_get_zero env) hr)]
  by_cases h0 : b = 0
  · subst h0
    simp
  · by_cases h1 : b = 2 ^ 128 - 1
    · simp [h0, h1]
    · simp only [h0, h1, if_false, one_ne_zero, zero_ne_one]

theorem smodValue_eval (env : EvalEnv) {d n : Word} {a b : Nat}
    (hd : d.eval env = some ⟨128, a⟩) (hn : n.eval env = some ⟨128, b⟩)
    (hdef : ¬(a = 2 ^ 127 ∧ b = 2 ^ 128 - 1)) :
    (smodValue d n).eval env =
      some ⟨128, if b = 0 ∨ b = 2 ^ 128 - 1 then 0
        else Word.ofSigned 128 (Int.tmod (Word.toSigned 128 a) (Word.toSigned 128 b))⟩ := by
  have hv : Word.sremOp 128 a (if b = 0 then 1 else b) =
      some (Word.ofSigned 128 (Int.tmod (Word.toSigned 128 a)
        (Word.toSigned 128 (if b = 0 then 1 else b)))) := by
    have h1 : (if b = 0 then 1 else b) ≠ 0 := by split <;> omega
    have h2 : ¬(a = 2 ^ (128 - 1) ∧ (if b = 0 then 1 else b) = 2 ^ 128 - 1) := by
      intro h
      apply hdef
      refine ⟨h.1, ?_⟩
      have h3 := h.2
      split at h3
      · norm_num at h3
      · exact h3
    simp only [Word.sremOp, if_neg h1, if_neg h2]
  have hr := eval_CreateSRem env hd (eval_divisor env hn) hv
  rw [Nat.mod_eq_of_lt (Word.ofSigned_lt _ _)] at hr
  unfold smodValue
  rw [eval_select_some env (eval_divByMinusOne env hn) (Constant.eval_get_zero env)
    (eval_select_some env (eval_divByZero env hn) (Constant.eval_get_zero env) hr)]
  by_cases h0 : b = 0
  · subst h0
    simp
  · by_cases h1 : b = 2 ^ 128 - 1
    · simp [h0, h1]
    · simp only [h0, h1, if_false, or_self, one_ne_zero, zero_ne_one]

/-- The least integer divided by -1 with an operand that is not a constant: the
`sdiv` and the `srem` are emitted and executed with these operands, which is
undefined behaviour, so the values of SDIV and SMOD have no value. -/
theorem sdivValue_undefined (env : EvalEnv) {d n : Word}
    (hd : d.eval env = some ⟨128, 2 ^ 127⟩) (hn : n.eval env = some ⟨128, 2 ^ 128 - 1⟩)
    (h : d.constTy = none ∨ n.constTy = none) :
    CreateSDiv d (CreateSelect (CreateICmpEQ n (Constant.get 0)) (Constant.get 1) n) =
      Word.sdiv d (CreateSelect (CreateICmpEQ n (Constant.get 0)) (Constant.get 1) n) ∧
    CreateSRem d (CreateSelect (CreateICmpEQ n (Constant.get 0)) (Constant.get 1) n) =
      Word.srem d (CreateSelect (CreateICmpEQ n (Constant.get 0)) (Constant.get 1) n) ∧
    (Word.sdiv d (CreateSelect (CreateICmpEQ n (Constant.get 0)) (Constant.get 1) n)).eval env =
      none ∧
    (Word.srem d (CreateSelect (CreateICmpEQ n (Constant.get 0)) (Constant.get 1) n)).eval env =
      none ∧
    (sdivValue d n).eval env = none ∧ (smodValue d n).eval env = none := by
  have hc : d.constOf = none ∨
      (CreateSelect (CreateICmpEQ n (Constant.get 0)) (Constant.get 1) n).constOf = none := by
    rcases h with h | h
    · exact Or.inl (Word.constOf_of_constTy h)
    · exact Or.inr (divisor_inst h)
  have h1 : CreateSDiv d (CreateSelect (CreateICmpEQ n (Constant.get 0)) (Constant.get 1) n) =
      Word.sdiv d (CreateSelect (CreateICmpEQ n (Constant.get 0)) (Constant.get 1) n) :=
    foldDiv_inst _ _ _ _ hc
  have h2 : CreateSRem d (CreateSelect (CreateICmpEQ n (Constant.get 0)) (Constant.get 1) n) =
      Word.srem d (CreateSelect (CreateICmpEQ n (Constant.get 0)) (Constant.get 1) n) :=
    foldDiv_inst _ _ _ _ hc
  have hdiv := eval_divisor env hn
  rw [if_neg (by norm_num)] at hdiv
  have h3 : (Word.sdiv d (CreateSelect (CreateICmpEQ n (Constant.get 0)) (Constant.get 1)
      n)).eval env = none := by
    simp only [Word.eval]
    rw [hd, hdiv]
    exact Word.divop_none _ Word.sdivOp_min.1
  have h4 : (Word.srem d (CreateSelect (CreateICmpEQ n (Constant.get 0)) (Constant.get 1)
      n)).eval env = none := by
    simp only [Word.eval]
    rw [hd, hdiv]
    exact Word.divop_none _ Word.sdivOp_min.2
  refine ⟨h1, h2, h3, h4, ?_, ?_⟩
  · unfold sdivValue
    dsimp only
    apply eval_select_none
    apply eval_select_none
    rw [h1]
    exact h3
  · unfold smodValue
    dsimp only
    apply eval_select_none
    apply eval_select_none
    rw [h2]
    exact h4

/-- The least integer divided by -1 with constant operands: the constant folder
replaces the division by `undef`, no division is emitted, and the last select
takes the other value. -/
theorem sdivValue_const (env : EvalEnv) {d n : Word}
    (hd : d.constOf = some ⟨128, 2 ^ 127⟩) (hn : n.constOf = some ⟨128, 2 ^ 128 - 1⟩) :
    (sdivValue d n).eval env = some ⟨128, 2 ^ 127⟩ ∧
    (smodValue d n).eval env = some ⟨128, 0⟩ := by
  have hd1 := Word.constOf_eval env hd
  have hn1 := Word.constOf_eval env hn
  have hdiv := divisor_const hn
  rw [if_neg (by norm_num)] at hdiv
  have h1 : CreateSDiv d (CreateSelect (CreateICmpEQ n (Constant.get 0)) (Constant.get 1) n) =
      Word.undef 128 := foldDiv_undef _ _ _ _ hd hdiv Word.sdivOp_min.1
  have h2 : CreateSRem d (CreateSelect (CreateICmpEQ n (Constant.get 0)) (Constant.get 1) n) =
      Word.undef 128 := foldDiv_undef _ _ _ _ hd hdiv Word.sdivOp_min.2
  have hu : (Word.undef 128).eval env = some ⟨128, env.undef 0 0 % 2 ^ 128⟩ := by
    simp only [Word.eval]
  have hneg : (CreateSub (Constant.get 0) d).eval env = some ⟨128, 2 ^ 127⟩ := by
    rw [eval_CreateSub, hd1, Constant.eval_get_zero, Word.binop_some]
    unfold Word.subOp
    rw [Option.getD_some, Nat.zero_add]
    norm_num
  have hm1 := eval_divByMinusOne env hn1
  rw [if_pos (by norm_num)] at hm1
  have hz := eval_divByZero env hn1
  rw [if_neg (by norm_num)] at hz
  constructor
  · unfold sdivValue
    dsimp only
    rw [h1, eval_select_some env hm1 hneg
      (eval_select_some env hz (Constant.eval_get_zero env) hu)]
    simp only [if_true]
  · unfold smodValue
    dsimp only
    rw [h2, eval_select_some env hm1 (Constant.eval_get_zero env)
      (eval_select_some env hz (Constant.eval_get_zero env) hu)]
    simp only [if_true]

/-- C14: on a stack with the dividend `a` on top (`d`) and the divisor `b`
below it (`n`), both words of 128 bits read in two's complement, the cases SDIV
and SMOD pop the two and push one word.  Unless `a` is the least integer and
`b = -1`, SDIV pushes 0 if `b = 0`, the negation of `a` modulo `2^128` if
`b = -1`, and otherwise the signed quotient rounded towards zero, and SMOD
pushes 0 if `b = 0` or `b = -1`, and otherwise the signed remainder with the
sign of the dividend.  For the least integer and -1 as constants the folder
emits no division, and SDIV pushes the least integer, SMOD 0.  For the least
integer and -1 with an operand that is not a constant the `sdiv` and the `srem`
are emitted with the divisor -1 (only a divisor 0 is replaced) and executed
before the select that would discard their result: undefined behaviour, the
pushed word has no value. -/
theorem sdiv_smod_spec (env : EvalEnv) (s : LocalStack) (d n : Word) (a b : Nat)
    (hd : d.eval env = some ⟨128, a⟩) (hn : n.eval env = some ⟨128, b⟩) :
    (∃ t, compileArith SDIV ((s.push n).push d) = some t ∧
      t.m_local = s.m_local ++ [sdivValue d n]) ∧
    (∃ t, compileArith SMOD ((s.push n).push d) = some t ∧
      t.m_local = s.m_local ++ [smodValue d n]) ∧
    (¬(Word.toSigned 128 a = -2 ^ 127 ∧ Word.toSigned 128 b = -1) →
      (sdivValue d n).eval env =
        some ⟨128, if b = 0 then 0
          else if Word.toSigned 128 b = -1 then (2 ^ 128 - a) % 2 ^ 128
          else Word.ofSigned 128 (Int.tdiv (Word.toSigned 128 a) (Word.toSigned 128 b))⟩ ∧
      (smodValue d n).eval env =
        some ⟨128, if b = 0 ∨ Word.toSigned 128 b = -1 then 0
          else Word.ofSigned 128 (Int.tmod (Word.toSigned 128 a) (Word.toSigned 128 b))⟩) ∧
    (Word.toSigned 128 a = -2 ^ 127 → Word.toSigned 128 b = -1 →
      d.constOf.isSome = true → n.constOf.isSome = true →
      (sdivValue d n).eval env = some ⟨128, 2 ^ 127⟩ ∧
      (smodValue d n).eval env = some ⟨128, 0⟩) ∧
    (Word.toSigned 128 a = -2 ^ 127 → Word.toSigned 128 b = -1 →
      d.constTy = none ∨ n.constTy = none →
      ∃ divisor,
        sdivValue d n =
          CreateSelect (CreateICmpEQ n (Constant.get (-1))) (CreateSub (Constant.get 0) d)
            (CreateSelect (CreateICmpEQ n (Constant.get 0)) (Constant.get 0)
              (Word.sdiv d divisor)) ∧
        smodValue d n =
          CreateSelect (CreateICmpEQ n (Constant.get (-1))) (Constant.get 0)
            (CreateSelect (CreateICmpEQ n (Constant.get 0)) (Constant.get 0)
              (Word.srem d divisor)) ∧
        d.eval env = some ⟨128, 2 ^ 127⟩ ∧ divisor.eval env = some ⟨128, 2 ^ 128 - 1⟩ ∧
        Word.sdivOp 128 (2 ^ 127) (2 ^ 128 - 1) = none ∧
        Word.sremOp 128 (2 ^ 127) (2 ^ 128 - 1) = none ∧
        (Word.sdiv d divisor).eval env = none ∧ (Word.srem d divisor).eval env = none ∧
        (sdivValue d n).eval env = none ∧ (smodValue d n).eval env = none) := by
  have ha : a < 2 ^ 128 := Word.eval_lt hd
  have hb : b < 2 ^ 128 := Word.eval_lt hn
  obtain ⟨_, _, ⟨t1, h1, h2, _⟩, ⟨t2, h3, h4, _⟩, _⟩ := compileArith_binary s d n
  refine ⟨⟨t1, h1, h2⟩, ⟨t2, h3, h4⟩, ?_, ?_, ?_⟩
  · intro hdef
    rw [Word.toSigned_eq_min ha, Word.toSigned_eq_neg_one hb] at hdef
    have hs := sdivValue_eval env hd hn hdef
    have hm := smodValue_eval env hd hn hdef
    simp only [← Word.toSigned_eq_neg_one hb] at hs hm
    exact ⟨hs, hm⟩
  · intro hmin hneg hdc hnc
    rw [Word.toSigned_eq_min ha] at hmin
    rw [Word.toSigned_eq_neg_one hb] at hneg
    subst hmin hneg
    obtain ⟨x, hx⟩ := Option.isSome_iff_exists.mp hdc
    obtain ⟨y, hy⟩ := Option.isSome_iff_exists.mp hnc
    have hx1 : x = ⟨128, 2 ^ 127⟩ := Option.some.inj ((Word.constOf_eval env hx).symm.trans hd)
    have hy1 : y = ⟨128, 2 ^ 128 - 1⟩ :=
      Option.some.inj ((Word.constOf_eval env hy).symm.trans hn)
    subst hx1 hy1
    exact sdivValue_const env hx hy
  · intro hmin hneg hc
    rw [Word.toSigned_eq_min ha] at hmin
    rw [Word.toSigned_eq_neg_one hb] at hneg
    subst hmin hneg
    obtain ⟨e1, e2, e3, e4, e5, e6⟩ := sdivValue_undefined env hd hn hc
    have hdiv := eval_divisor env hn
    rw [if_neg (by norm_num)] at hdiv
    refine ⟨CreateSelect (CreateICmpEQ n (Constant.get 0)) (Constant.get 1) n, ?_, ?_, hd, hdiv,
      Word.sdivOp_min.1, Word.sdivOp_min.2, e3, e4, e5, e6⟩
    · unfold sdivValue
      dsimp only
      rw [e1]
    · unfold smodValue
      dsimp only
      rw [e2]

/-- Witness for C14: the bytecode `6F FF..FF 6F 80 00..00 5B 05 00` (PUSH16 -1,
PUSH16 the least integer, JUMPDEST, SDIV, STOP).  The first block leaves -1 and,
on top, the least integer on the stack; the block of the JUMPDEST loads them
from the global stack (slot `sp - 1` the top, slot `sp - 2` below it), so its
SDIV value is built from values that are not constants; with the slots holding
these two words the emitted `sdiv` is executed on the least integer and -1, and
the values of SDIV and of SMOD have no value. -/
theorem sdiv_smod_spec_witness :
    (compileMain
        [0x6f, 0xff, 0xff, 0xff, 0xff, 0xff, 0xff, 0xff, 0xff, 0xff, 0xff, 0xff, 0xff, 0xff,
          0xff, 0xff, 0xff, 0x6f, 0x80, 0, 0, 0, 0, 0, 0, 0, 0, 0, 0, 0, 0, 0, 0, 0, 0x5b, 0x05,
          0x00] EVM_AION false).map (fun f => f.blocks.map (fun b => b.stack.m_local)) =
      some [[Word.const 128 (2 ^ 128 - 1), Word.const 128 (2 ^ 127)],
        [sdivValue (Word.load (-1)) (Word.load (-2))]] ∧
    (Word.load (-1)).eval
        ⟨fun _ => 0, fun i => if i = -1 then 2 ^ 127 else 2 ^ 128 - 1, fun _ _ => 0⟩ =
      some ⟨128, 2 ^ 127⟩ ∧
    (Word.load (-2)).eval
        ⟨fun _ => 0, fun i => if i = -1 then 2 ^ 127 else 2 ^ 128 - 1, fun _ _ => 0⟩ =
      some ⟨128, 2 ^ 128 - 1⟩ ∧
    (sdivValue (Word.load (-1)) (Word.load (-2))).eval
        ⟨fun _ => 0, fun i => if i = -1 then 2 ^ 127 else 2 ^ 128 - 1, fun _ _ => 0⟩ = none ∧
    (smodValue (Word.load (-1)) (Word.load (-2))).eval
        ⟨fun _ => 0, fun i => if i = -1 then 2 ^ 127 else 2 ^ 128 - 1, fun _ _ => 0⟩ = none :=
  ⟨by rfl, by decide, by decide,
    Exists.elim
      ((sdiv_smod_spec
        ⟨fun _ => 0, fun i => if i = -1 then 2 ^ 127 else 2 ^ 128 - 1, fun _ _ => 0⟩
        LocalStack.fresh (Word.load (-1)) (Word.load (-2)) (2 ^ 127) (2 ^ 128 - 1)
        (by decide) (by decide)).2.2.2.2
        ((Word.toSigned_eq_min (by norm_num)).mpr rfl)
        ((Word.toSigned_eq_neg_one (by norm_num)).mpr rfl) (Or.inl rfl))
      (fun _ h => h.2.2.2.2.2.2.2.2)⟩

/-- The cases ADDMOD and MULMOD pop three times and push the result. -/
theorem compileArith_ternary (s : LocalStack) (a b m : Word) :
    (∃ t, compileArith ADDMOD (((s.push m).push b).push a) = some t ∧
      t.m_local = s.m_local ++ [addmodValue a b m] ∧ t.m_input = s.m_input ∧
      t.m_globalPops = s.m_globalPops) ∧
    (∃ t, compileArith MULMOD (((s.push m).push b).push a) = some t ∧
      t.m_local = s.m_local ++ [mulmodValue a b m] ∧ t.m_input = s.m_input ∧
      t.m_globalPops = s.m_globalPops) := by
  obtain ⟨t, ht, h1, h2, h3⟩ :=
    LocalStack.pop_local (((s.push m).push b).push a) ((s.m_local ++ [m]) ++ [b]) a rfl
  obtain ⟨u, hu, h4, h5, h6⟩ := LocalStack.pop_local t (s.m_local ++ [m]) b h1
  obtain ⟨v, hv, h7, h8, h9⟩ := LocalStack.pop_local u s.m_local m h4
  have c1 : ∀ stack : LocalStack, compileArith ADDMOD stack = (do
      let (a, stack) ← stack.pop
      let (b, stack) ← stack.pop
      let (m, stack) ← stack.pop
      some (stack.push (addmodValue a b m))) := fun _ => rfl
  have c2 : ∀ stack : LocalStack, compileArith MULMOD stack = (do
      let (a, stack) ← stack.pop
      let (b, stack) ← stack.pop
      let (m, stack) ← stack.pop
      some (stack.push (mulmodValue a b m))) := fun _ => rfl
  have hl : ∀ w, (v.push w).m_local = s.m_local ++ [w] := by
    intro w
    simp only [LocalStack.push, h7]
  have hi : v.m_input = s.m_input := by rw [h8, h5, h2]; rfl
  have hg : v.m_globalPops = s.m_globalPops := by rw [h9, h6, h3]; rfl
  refine ⟨⟨v.push (addmodValue a b m), ?_, hl _, hi, hg⟩,
    ⟨v.push (mulmodValue a b m), ?_, hl _, hi, hg⟩⟩
  · rw [c1, ht]; simp only [Option.bind_eq_bind, Option.some_bind, hu, hv]
  · rw [c2, ht]; simp only [Option.bind_eq_bind, Option.some_bind, hu, hv]

/-- The exact sum of two words extended to 256 bits: the `add nuw` of ADDMOD
does not wrap. -/
theorem eval_addmod_sum (env : EvalEnv) {a b : Word} {x y : Nat}
    (ha : a.eval env = some ⟨128, x⟩) (hb : b.eval env = some ⟨128, y⟩) :
    (CreateNUWAdd (CreateZExt a 256) (CreateZExt b 256)).eval env = some ⟨256, x + y⟩ ∧
      x + y < 2 ^ 256 := by
  have hx : x < 2 ^ 128 := Word.eval_lt ha
  have hy : y < 2 ^ 128 := Word.eval_lt hb
  have h1 : x + y < 2 ^ 256 := by
    have : (2 : Nat) ^ 128 + 2 ^ 128 ≤ 2 ^ 256 := by norm_num
    omega
  refine ⟨?_, h1⟩
  rw [eval_CreateNUWAdd, eval_zext_some env 256 ha (by decide),
    eval_zext_some env 256 hb (by decide), Word.binop_some]
  simp only [Word.addOp, Option.getD_some, Nat.mod_eq_of_lt h1]

/-- The exact product of two words extended to 256 bits: the `mul nuw` of
MULMOD does not wrap. -/
theorem eval_mulmod_product (env : EvalEnv) {a b : Word} {x y : Nat}
    (ha : a.eval env = some ⟨128, x⟩) (hb : b.eval env = some ⟨128, y⟩) :
    (CreateNUWMul (CreateZExt a 256) (CreateZExt b 256)).eval env = some ⟨256, x * y⟩ ∧
      x * y < 2 ^ 256 := by
  have hx : x < 2 ^ 128 := Word.eval_lt ha
  have hy : y < 2 ^ 128 := Word.eval_lt hb
  have h1 : x * y < 2 ^ 256 := by
    have h2 : x * y < 2 ^ 128 * 2 ^ 128 := Nat.mul_lt_mul'' hx hy
    have h3 : (2 : Nat) ^ 128 * 2 ^ 128 = 2 ^ 256 := by norm_num
    omega
  refine ⟨?_, h1⟩
  rw [eval_CreateNUWMul, eval_zext_some env 256 ha (by decide),
    eval_zext_some env 256 hb (by decide), Word.binop_some]
  simp only [Word.mulOp, Option.getD_some, Nat.mod_eq_of_lt h1]

/-- A binary instruction with an operand that is not an integer constant is not
folded: the instruction is emitted. -/
theorem IRBuilder.foldBin_inst (f : Nat → Nat → Nat → Option Nat) (a b inst : Word)
    (h : a.constOf = none ∨ b.constOf = none) : foldBin f a b inst = inst := by
  unfold foldBin
  split
  · rename_i x y hx hy
    rcases h with h | h
    · rw [h] at hx; exact absurd hx (by simp)
    · rw [h] at hy; exact absurd hy (by simp)
  · rfl

/-- A binary instruction on integer constants of the same type, with a defined
result, folds to an integer constant of this type. -/
theorem IRBuilder.constOf_foldBin (f : Nat → Nat → Nat → Option Nat) (a b inst : Word)
    {w x y v : Nat} (ha : a.constOf = some ⟨w, x⟩) (hb : b.constOf = some ⟨w, y⟩)
    (hv : f w x y = some v) : ∃ u, (foldBin f a b inst).constOf = some ⟨w, u⟩ := by
  unfold foldBin
  simp only [ha, hb, if_true, hv]
  exact ⟨_, rfl⟩

/-- The extension of a word that is not a constant is emitted. -/
theorem IRBuilder.CreateZExt_inst (env : EvalEnv) {a : Word} {x : Nat}
    (ha : a.eval env = some ⟨128, x⟩) (hc : a.constTy = none) :
    CreateZExt a 256 = Word.zext a 256 := by
  have hty : a.ty = 128 := Word.eval_ty ha
  unfold CreateZExt
  rw [if_neg (by rw [hty]; decide), Word.constOf_of_constTy hc]

/-- The extension of a constant word is an integer constant of 256 bits. -/
theorem IRBuilder.constOf_CreateZExt {a : Word} {x : Nat} (ha : a.constOf = some ⟨128, x⟩) :
    (CreateZExt a 256).constOf = some ⟨256, x % 2 ^ 256⟩ := by
  cases a with
  | const bits u =>
    simp only [Word.constOf, Option.some.injEq, BV.mk.injEq] at ha
    obtain ⟨rfl, hu⟩ := ha
    unfold CreateZExt
    rw [if_neg (by simp only [Word.ty]; decide)]
    simp only [Word.constOf, hu]
    rw [if_pos (by decide)]
    simp only [Word.constOf, Nat.mod_mod]
  | _ => simp [Word.constOf] at ha

/-- A cast of a value that has no value has none. -/
theorem IRBuilder.eval_trunc_none (env : EvalEnv) {a : Word} (bits : Nat)
    (ha : a.eval env = none) : (CreateTrunc a bits).eval env = none := by
  rw [eval_CreateTrunc]
  simp only [Word.eval, ha]

/-- The tail of ADDMOD and MULMOD for a modulus other than 0: the remainder of
the exact value `v` by the modulus, truncated to a word. -/
theorem eval_modTail (env : EvalEnv) {sv m : Word} {v z : Nat}
    (hs : sv.eval env = some ⟨256, v⟩) (hm : m.eval env = some ⟨128, z⟩) (h0 : z ≠ 0) :
    (CreateSelect (CreateICmpEQ m (Constant.get 0)) (Constant.get 0)
        (CreateTrunc (CreateURem sv (CreateZExt m 256)) 128)).eval env = some ⟨128, v % z⟩ ∧
    (CreateURem sv (CreateZExt m 256)).eval env = some ⟨256, v % z⟩ ∧ v % z < 2 ^ 128 := by
  have hz : z < 2 ^ 128 := Word.eval_lt hm
  have h128 : (2 : Nat) ^ 128 < 2 ^ 256 := by norm_num
  have h1 : v % z < z := Nat.mod_lt _ (Nat.pos_of_ne_zero h0)
  have h2 : v % z < 2 ^ 256 := by omega
  have h3 : v % z < 2 ^ 128 := by omega
  have hr : (CreateURem sv (CreateZExt m 256)).eval env = some ⟨256, v % z⟩ := by
    rw [eval_CreateURem env hs (eval_zext_some env 256 hm (by decide)) h0, Nat.mod_eq_of_lt h2]
  refine ⟨?_, hr, h3⟩
  rw [eval_select_some env (eval_divByZero env hm) (Constant.eval_get_zero env)
    (eval_trunc_some env 128 hr (by decide))]
  simp only [h0, if_false, Nat.mod_eq_of_lt h3, one_ne_zero, zero_ne_one]

/-- The tail of ADDMOD and MULMOD for the modulus 0, when the exact value or
the modulus is not a constant: the `urem` is emitted and executed with the
divisor 0, which is undefined behaviour, so the pushed value has no value. -/
theorem modTail_undefined (env : EvalEnv) {sv m : Word} {v : Nat}
    (hs : sv.eval env = some ⟨256, v⟩) (hm : m.eval env = some ⟨128, 0⟩)
    (h : sv.constOf = none ∨ m.constTy = none) :
    CreateURem sv (CreateZExt m 256) = Word.urem sv (CreateZExt m 256) ∧
    (CreateZExt m 256).eval env = some ⟨256, 0⟩ ∧
    (Word.urem sv (CreateZExt m 256)).eval env = none ∧
    (CreateSelect (CreateICmpEQ m (Constant.get 0)) (Constant.get 0)
        (CreateTrunc (CreateURem sv (CreateZExt m 256)) 128)).eval env = none := by
  have hc : sv.constOf = none ∨ (CreateZExt m 256).constOf = none := by
    rcases h with h | h
    · exact Or.inl h
    · rw [CreateZExt_inst env hm h]
      exact Or.inr rfl
  have h1 : CreateURem sv (CreateZExt m 256) = Word.urem sv (CreateZExt m 256) :=
    foldDiv_inst _ _ _ _ hc
  have h2 := eval_zext_some env 256 hm (by decide)
  have h3 : (Word.urem sv (CreateZExt m 256)).eval env = none := by
    simp only [Word.eval]
    rw [hs, h2]
    exact Word.divop_none _ (by simp only [Word.uremOp, if_true])
  refine ⟨h1, h2, h3, ?_⟩
  apply eval_select_none
  apply eval_trunc_none
  rw [h1]
  exact h3

/-- The tail of ADDMOD and MULMOD for the modulus 0, when the exact value and
the modulus are constants: the constant folder replaces the `urem` by `undef`,
no division is emitted, and the select takes 0. -/
theorem modTail_const (env : EvalEnv) {sv m : Word} {v : Nat}
    (hs : sv.constOf = some ⟨256, v⟩) (hm : m.constOf = some ⟨128, 0⟩) :
    (CreateSelect (CreateICmpEQ m (Constant.get 0)) (Constant.get 0)
        (CreateTrunc (CreateURem sv (CreateZExt m 256)) 128)).eval env = some ⟨128, 0⟩ := by
  have hm1 := Word.constOf_eval env hm
  have hz := constOf_CreateZExt hm
  rw [Nat.zero_mod] at hz
  have h1 : CreateURem sv (CreateZExt m 256) = Word.undef 256 :=
    foldDiv_undef _ _ _ _ hs hz (by simp only [Word.uremOp, if_true])
  have h2 : CreateTrunc (Word.undef 256) 128 = Word.undef 128 := rfl
  have hu : (Word.undef 128).eval env = some ⟨128, env.undef 0 0 % 2 ^ 128⟩ := by
    simp only [Word.eval]
  rw [h1, h2, eval_select_some env (eval_divByZero env hm1) (Constant.eval_get_zero env) hu]
  simp only [if_true]

/-- The sum and the product of ADDMOD and MULMOD are integer constants when both
operands are, and are emitted when an operand is not a constant. -/
theorem addmod_sum_const (env : EvalEnv) {a b : Word} {x y : Nat}
    (ha : a.eval env = some ⟨128, x⟩) (hb : b.eval env = some ⟨128, y⟩) :
    (a.constOf.isSome = true → b.constOf.isSome = true →
      (∃ u, (CreateNUWAdd (CreateZExt a 256) (CreateZExt b 256)).constOf = some ⟨256, u⟩) ∧
      ∃ u, (CreateNUWMul (CreateZExt a 256) (CreateZExt b 256)).constOf = some ⟨256, u⟩) ∧
    (a.constTy = none ∨ b.constTy = none →
      (CreateNUWAdd (CreateZExt a 256) (CreateZExt b 256)).constOf = none ∧
      (CreateNUWMul (CreateZExt a 256) (CreateZExt b 256)).constOf = none) := by
  constructor
  · intro hac hbc
    obtain ⟨p, hp⟩ := Option.isSome_iff_exists.mp hac
    obtain ⟨q, hq⟩ := Option.isSome_iff_exists.mp hbc
    have hp1 : p = ⟨128, x⟩ := Option.some.inj ((Word.constOf_eval env hp).symm.trans ha)
    have hq1 : q = ⟨128, y⟩ := Option.some.inj ((Word.constOf_eval env hq).symm.trans hb)
    subst hp1 hq1
    exact ⟨constOf_foldBin Word.addOp _ _ _ (constOf_CreateZExt hp) (constOf_CreateZExt hq) rfl,
      constOf_foldBin Word.mulOp _ _ _ (constOf_CreateZExt hp) (constOf_CreateZExt hq) rfl⟩
  · intro h
    have hc : (CreateZExt a 256).constOf = none ∨ (CreateZExt b 256).constOf = none := by
      rcases h with h | h
      · rw [CreateZExt_inst env ha h]
        exact Or.inl rfl
      · rw [CreateZExt_inst env hb h]
        exact Or.inr rfl
    constructor
    · unfold CreateNUWAdd
      rw [foldBin_inst _ _ _ _ hc]
      rfl
    · unfold CreateNUWMul
      rw [foldBin_inst _ _ _ _ hc]
      rfl

/-- C15: on a stack with the words `a` on top, `b` below it and `m` third, the
cases ADDMOD and MULMOD pop the three and push one word.  The sum and the
product of the operands extended to 256 bits are the exact values, below
`2^256`, so the `nuw` flags of the `add` and the `mul` hold.  For `m /= 0` the
pushed words are `(a + b) mod m` and `(a * b) mod m`, and the remainder is
below `2^128` before it is truncated.  For `m = 0` and three constants the
folder emits no division and 0 is pushed.  For `m = 0` with an operand that is
not a constant the `urem` of 256 bits is emitted with the divisor 0 (the
divisor is not replaced, as the cases DIV and MOD do) and executed before the
select that would discard its result: undefined behaviour, the pushed word has
no value. -/
theorem addmod_mulmod_spec (env : EvalEnv) (s : LocalStack) (a b m : Word) (x y z : Nat)
    (ha : a.eval env = some ⟨128, x⟩) (hb : b.eval env = some ⟨128, y⟩)
    (hm : m.eval env = some ⟨128, z⟩) :
    (∃ t, compileArith ADDMOD (((s.push m).push b).push a) = some t ∧
      t.m_local = s.m_local ++ [addmodValue a b m]) ∧
    (∃ t, compileArith MULMOD (((s.push m).push b).push a) = some t ∧
      t.m_local = s.m_local ++ [mulmodValue a b m]) ∧
    ((CreateNUWAdd (CreateZExt a 256) (CreateZExt b 256)).eval env = some ⟨256, x + y⟩ ∧
      x + y < 2 ^ 256) ∧
    ((CreateNUWMul (CreateZExt a 256) (CreateZExt b 256)).eval env = some ⟨256, x * y⟩ ∧
      x * y < 2 ^ 256) ∧
    (z ≠ 0 →
      (addmodValue a b m).eval env = some ⟨128, (x + y) % z⟩ ∧
      (mulmodValue a b m).eval env = some ⟨128, (x * y) % z⟩ ∧
      (CreateURem (CreateNUWAdd (CreateZExt a 256) (CreateZExt b 256))
        (CreateZExt m 256)).eval env = some ⟨256, (x + y) % z⟩ ∧ (x + y) % z < 2 ^ 128 ∧
      (CreateURem (CreateNUWMul (CreateZExt a 256) (CreateZExt b 256))
        (CreateZExt m 256)).eval env = some ⟨256, (x * y) % z⟩ ∧ (x * y) % z < 2 ^ 128) ∧
    (z = 0 → a.constOf.isSome = true → b.constOf.isSome = true → m.constOf.isSome = true →
      (addmodValue a b m).eval env = some ⟨128, 0⟩ ∧
      (mulmodValue a b m).eval env = some ⟨128, 0⟩) ∧
    (z = 0 → a.constTy = none ∨ b.constTy = none ∨ m.constTy = none →
      addmodValue a b m =
        CreateSelect (CreateICmpEQ m (Constant.get 0)) (Constant.get 0)
          (CreateTrunc (Word.urem (CreateNUWAdd (CreateZExt a 256) (CreateZExt b 256))
            (CreateZExt m 256)) 128) ∧
      mulmodValue a b m =
        CreateSelect (CreateICmpEQ m (Constant.get 0)) (Constant.get 0)
          (CreateTrunc (Word.urem (CreateNUWMul (CreateZExt a 256) (CreateZExt b 256))
            (CreateZExt m 256)) 128) ∧
      (CreateZExt m 256).eval env = some ⟨256, 0⟩ ∧
      Word.uremOp 256 (x + y) 0 = none ∧ Word.uremOp 256 (x * y) 0 = none ∧
      (Word.urem (CreateNUWAdd (CreateZExt a 256) (CreateZExt b 256))
        (CreateZExt m 256)).eval env = none ∧
      (Word.urem (CreateNUWMul (CreateZExt a 256) (CreateZExt b 256))
        (CreateZExt m 256)).eval env = none ∧
      (addmodValue a b m).eval env = none ∧ (mulmodValue a b m).eval env = none) := by
  obtain ⟨⟨t1, h1, h2, _⟩, ⟨t2, h3, h4, _⟩⟩ := compileArith_ternary s a b m
  have hs := eval_addmod_sum env ha hb
  have hp := eval_mulmod_product env ha hb
  obtain ⟨hcc, hci⟩ := addmod_sum_const env ha hb
  refine ⟨⟨t1, h1, h2⟩, ⟨t2, h3, h4⟩, hs, hp, ?_, ?_, ?_⟩
  · intro h0
    obtain ⟨e1, e2, e3⟩ := eval_modTail env hs.1 hm h0
    obtain ⟨e4, e5, e6⟩ := eval_modTail env hp.1 hm h0
    exact ⟨e1, e4, e2, e3, e5, e6⟩
  · intro h0 hac hbc hmc
    subst h0
    obtain ⟨⟨u1, hu1⟩, ⟨u2, hu2⟩⟩ := hcc hac hbc
    obtain ⟨q, hq⟩ := Option.isSome_iff_exists.mp hmc
    have hq1 : q = ⟨128, 0⟩ := Option.some.inj ((Word.constOf_eval env hq).symm.trans hm)
    subst hq1
    exact ⟨modTail_const env hu1 hq, modTail_const env hu2 hq⟩
  · intro h0 hc
    subst h0
    have hc1 : (CreateNUWAdd (CreateZExt a 256) (CreateZExt b 256)).constOf = none ∨
        m.constTy = none := by
      rcases hc with h | h | h
      · exact Or.inl (hci (Or.inl h)).1
      · exact Or.inl (hci (Or.inr h)).1
      · exact Or.inr h
    have hc2 : (CreateNUWMul (CreateZExt a 256) (CreateZExt b 256)).constOf = none ∨
        m.constTy = none := by
      rcases hc with h | h | h
      · exact Or.inl (hci (Or.inl h)).2
      · exact Or.inl (hci (Or.inr h)).2
      · exact Or.inr h
    obtain ⟨e1, e2, e3, e4⟩ := modTail_undefined env hs.1 hm hc1
    obtain ⟨f1, _, f3, f4⟩ := modTail_undefined env hp.1 hm hc2
    refine ⟨?_, ?_, e2, by simp only [Word.uremOp, if_true], by simp only [Word.uremOp, if_true],
      e3, f3, e4, f4⟩
    · unfold addmodValue
      dsimp only
      rw [e1]
    · unfold mulmodValue
      dsimp only
      rw [f1]

/-- Witness for C15: the bytecode `60 00 60 01 60 02 5B 08 00` (PUSH1 0,
PUSH1 1, PUSH1 2, JUMPDEST, ADDMOD, STOP).  The first block leaves 0, 1 and, on
top, 2 on the stack; the block of the JUMPDEST loads them from the global stack
(slot `sp - 1` the top), so its ADDMOD value is built from values that are not
constants; with the slots holding these three words the emitted `urem` is
executed with the divisor 0, and the values of ADDMOD and of MULMOD have no
value. -/
theorem addmod_mulmod_spec_witness :
    (compileMain [0x60, 0x00, 0x60, 0x01, 0x60, 0x02, 0x5b, 0x08, 0x00] EVM_AION false).map
        (fun f => f.blocks.map (fun b => b.stack.m_local)) =
      some [[Word.const 128 0, Word.const 128 1, Word.const 128 2],
        [addmodValue (Word.load (-1)) (Word.load (-2)) (Word.load (-3))]] ∧
    (Word.load (-1)).eval
        ⟨fun _ => 0, fun i => if i = -1 then 2 else if i = -2 then 1 else 0, fun _ _ => 0⟩ =
      some ⟨128, 2⟩ ∧
    (Word.load (-2)).eval
        ⟨fun _ => 0, fun i => if i = -1 then 2 else if i = -2 then 1 else 0, fun _ _ => 0⟩ =
      some ⟨128, 1⟩ ∧
    (Word.load (-3)).eval
        ⟨fun _ => 0, fun i => if i = -1 then 2 else if i = -2 then 1 else 0, fun _ _ => 0⟩ =
      some ⟨128, 0⟩ ∧
    (addmodValue (Word.load (-1)) (Word.load (-2)) (Word.load (-3))).eval
        ⟨fun _ => 0, fun i => if i = -1 then 2 else if i = -2 then 1 else 0, fun _ _ => 0⟩ =
      none ∧
    (mulmodValue (Word.load (-1)) (Word.load (-2)) (Word.load (-3))).eval
        ⟨fun _ => 0, fun i => if i = -1 then 2 else if i = -2 then 1 else 0, fun _ _ => 0⟩ =
      none :=
  ⟨by rfl, by decide, by decide, by decide,
    ((addmod_mulmod_spec
      ⟨fun _ => 0, fun i => if i = -1 then 2 else if i = -2 then 1 else 0, fun _ _ => 0⟩
      LocalStack.fresh (Word.load (-1)) (Word.load (-2)) (Word.load (-3)) 2 1 0
      (by decide) (by decide) (by decide)).2.2.2.2.2.2 rfl (Or.inl rfl)).2.2.2.2.2.2.2⟩

theorem IRBuilder.eval_getInt64_seven (env : EvalEnv) :
    (getInt64 7).eval env = some ⟨64, 7⟩ := by
  simp [getInt64, Word.eval]

theorem IRBuilder.eval_getInt64_eight (env : EvalEnv) :
    (getInt64 8).eval env = some ⟨64, 8⟩ := by
  simp [getInt64, Word.eval]

/-- The bit position `8 * (k mod 16) + 7` that SIGNEXTEND computes from the
index `k`, extended to a word. -/
theorem eval_bitposEx (env : EvalEnv) {idx : Word} {k : Nat}
    (hk : idx.eval env = some ⟨128, k⟩) :
    (CreateZExt (CreateAdd (CreateMul (CreateZExt (CreateTrunc idx 4) 64) (getInt64 8))
      (getInt64 7)) 128).eval env = some ⟨128, 8 * (k % 16) + 7⟩ := by
  have h1 := eval_trunc_some env 4 hk (by decide)
  have h2 := eval_zext_some env 64 h1 (by decide)
  have h3 : (CreateAdd (CreateMul (CreateZExt (CreateTrunc idx 4) 64) (getInt64 8))
      (getInt64 7)).eval env = some ⟨64, 8 * (k % 16) + 7⟩ := by
    rw [eval_CreateAdd, eval_CreateMul, h2, eval_getInt64_eight, eval_getInt64_seven,
      Word.binop_some, Word.binop_some]
    simp only [Word.mulOp, Word.addOp, Option.getD_some]
    congr 2
    omega
  exact eval_zext_some env 128 h3 (by decide)

/-- The values that SIGNEXTEND selects from, for the bit position `p`: the word
with the bits from `p` on set, and the word with the bits from `p` on
cleared. -/
theorem eval_signextend_parts (env : EvalEnv) {word pos : Word} {w p : Nat}
    (hw : word.eval env = some ⟨128, w⟩) (hpos : pos.eval env = some ⟨128, p⟩)
    (hp : p < 128) :
    (CreateSelect (CreateTrunc (CreateLShr word pos) 1)
        (CreateOr word (CreateXor (CreateSub (CreateShl (Constant.get 1) pos) (Constant.get 1))
          (Word.const 128 (2 ^ 128 - 1))))
        (CreateAnd word (CreateSub (CreateShl (Constant.get 1) pos) (Constant.get 1)))).eval env =
      some ⟨128, if (w >>> p) % 2 = 1
        then (w ||| ((2 ^ p - 1) ^^^ (2 ^ 128 - 1)) % 2 ^ 128) % 2 ^ 128
        else (w &&& (2 ^ p - 1)) % 2 ^ 128⟩ := by
  have hwlt : w < 2 ^ 128 := Word.eval_lt hw
  have hpow : 2 ^ p < 2 ^ 128 := Nat.pow_lt_pow_right (by decide) hp
  have hpos1 : 0 < 2 ^ p := Nat.two_pow_pos p
  have hbitval : (CreateLShr word pos).eval env = some ⟨128, w >>> p⟩ := by
    rw [eval_CreateLShr, hw, hpos, Word.binop_some]
    have h1 : w >>> p < 2 ^ 128 := by
      rw [Nat.shiftRight_eq_div_pow]
      exact lt_of_le_of_lt (Nat.div_le_self _ _) hwlt
    simp only [Word.lshrOp, if_pos hp, Option.getD_some, Nat.mod_eq_of_lt h1]
  have hbittest := eval_trunc_some env 1 hbitval (by decide)
  have hmask_ : (CreateShl (Constant.get 1) pos).eval env = some ⟨128, 2 ^ p⟩ := by
    rw [eval_CreateShl, Constant.eval_get_one, hpos, Word.binop_some]
    simp only [Word.shlOp, if_pos hp, Option.getD_some, Nat.one_shiftLeft, Nat.mod_eq_of_lt hpow]
  have hmask : (CreateSub (CreateShl (Constant.get 1) pos) (Constant.get 1)).eval env =
      some ⟨128, 2 ^ p - 1⟩ := by
    rw [eval_CreateSub, hmask_, Constant.eval_get_one, Word.binop_some]
    simp only [Word.subOp, Option.getD_some]
    have h1 : 2 ^ p + 2 ^ 128 - 1 = (2 ^ p - 1) + 2 ^ 128 := by omega
    have h2 : 2 ^ p - 1 < 2 ^ 128 := by omega
    rw [h1, Nat.add_mod_right, Nat.mod_eq_of_lt h2]
  have hall : (Word.const 128 (2 ^ 128 - 1)).eval env = some ⟨128, 2 ^ 128 - 1⟩ := by
    simp [Word.eval]
  have hnegmask : (CreateXor (CreateSub (CreateShl (Constant.get 1) pos) (Constant.get 1))
      (Word.const 128 (2 ^ 128 - 1))).eval env =
      some ⟨128, ((2 ^ p - 1) ^^^ (2 ^ 128 - 1)) % 2 ^ 128⟩ := by
    rw [eval_CreateXor, hmask, hall, Word.binop_some]
    simp only [Word.xorOp, Option.getD_some]
  have hval1 : (CreateOr word (CreateXor (CreateSub (CreateShl (Constant.get 1) pos)
      (Constant.get 1)) (Word.const 128 (2 ^ 128 - 1)))).eval env =
      some ⟨128, (w ||| ((2 ^ p - 1) ^^^ (2 ^ 128 - 1)) % 2 ^ 128) % 2 ^ 128⟩ := by
    rw [eval_CreateOr, hw, hnegmask, Word.binop_some]
    simp only [Word.orOp, Option.getD_some]
  have hval0 : (CreateAnd word (CreateSub (CreateShl (Constant.get 1) pos)
      (Constant.get 1))).eval env = some ⟨128, (w &&& (2 ^ p - 1)) % 2 ^ 128⟩ := by
    rw [eval_CreateAnd, hw, hmask, Word.binop_some]
    simp only [Word.andOp, Option.getD_some]
  rw [eval_select_some env hbittest hval1 hval0]
  simp only [Nat.pow_one]

/-- The bits of the two values that SIGNEXTEND selects from. -/
theorem signextend_bits (w p i : Nat) (hp : p < 128) (hi : i < 128) :
    (if (w >>> p) % 2 = 1
      then (w ||| ((2 ^ p - 1) ^^^ (2 ^ 128 - 1)) % 2 ^ 128) % 2 ^ 128
      else (w &&& (2 ^ p - 1)) % 2 ^ 128).testBit i =
    if i ≤ p then w.testBit i else w.testBit p := by
  have hbit : w.testBit p = decide ((w >>> p) % 2 = 1) := by
    have h := Nat.testBit_shiftRight (i := p) (j := 0) w
    rw [Nat.add_zero] at h
    rw [← h, Nat.testBit_zero]
  by_cases hb : (w >>> p) % 2 = 1
  · rw [if_pos hb]
    have hbt : w.testBit p = true := by rw [hbit]; exact decide_eq_true hb
    simp only [Nat.testBit_mod_two_pow, Nat.testBit_or, Nat.testBit_xor,
      Nat.testBit_two_pow_sub_one, hi, decide_True, Bool.true_and]
    by_cases h1 : i < p
    · simp [h1, Nat.le_of_lt h1]
    · by_cases h2 : i = p
      · subst h2
        simp [hbt]
      · have h3 : ¬ i ≤ p := by omega
        simp [h1, h3, hbt]
  · rw [if_neg hb]
    have hbt : w.testBit p = false := by rw [hbit]; exact decide_eq_false hb
    simp only [Nat.testBit_mod_two_pow, Nat.testBit_and, Nat.testBit_two_pow_sub_one, hi,
      decide_True, Bool.true_and]
    by_cases h1 : i < p
    · simp [h1, Nat.le_of_lt h1]
    · by_cases h2 : i = p
      · subst h2
        simp [hbt]
      · have h3 : ¬ i ≤ p := by omega
        simp [h1, h3, hbt]

/-- C16: on a stack with the index `k` on top (`idx`) and the word `w` below it
(`word`), the case SIGNEXTEND pops the two and pushes one word `r` of 128 bits.
If `k <= 14`, `r` is the sign extension of the low `8 * (k + 1)` bits of `w`:
each bit at or below position `8k + 7` is that of `w`, each bit above it is bit
`8k + 7` of `w`.  If `k > 14`, `r` is `w`. -/
theorem signextend_spec (env : EvalEnv) (s : LocalStack) (idx word : Word) (k w : Nat)
    (hk : idx.eval env = some ⟨128, k⟩) (hw : word.eval env = some ⟨128, w⟩) :
    (∃ t, compileArith SIGNEXTEND ((s.push word).push idx) = some t ∧
      t.m_local = s.m_local ++ [signextendValue idx word]) ∧
    ∃ r, (signextendValue idx word).eval env = some ⟨128, r⟩ ∧ r < 2 ^ 128 ∧
      (k ≤ 14 → ∀ i, i < 128 →
        r.testBit i = if i ≤ 8 * k + 7 then w.testBit i else w.testBit (8 * k + 7)) ∧
      (14 < k → r = w) := by
  have hp : 8 * (k % 16) + 7 < 128 := by omega
  have hk16 : k ≤ 14 → k % 16 = k := by omega
  refine ⟨?_, ?_⟩
  · obtain ⟨t1, h1, h2, _⟩ := (compileArith_binary s idx word).2.2.2.2
    exact ⟨t1, h1, h2⟩
  have hpos := eval_bitposEx env hk
  have hparts := eval_signextend_parts env hw hpos hp
  have hrange : (CreateICmpULE idx (Word.const 128 14)).eval env =
      some ⟨1, if k ≤ 14 then 1 else 0⟩ := by
    have h14 : (Word.const 128 14).eval env = some ⟨128, 14⟩ := by simp [Word.eval]
    rw [eval_CreateICmpULE, hk, h14, Word.cmpop_some]
    simp
  have hres : (signextendValue idx word).eval env = _ := eval_select_some env hrange hparts hw
  refine ⟨_, hres, Word.eval_lt hres, ?_, ?_⟩
  · intro hle i hi
    rw [if_pos (by simp [hle])]
    rw [hk16 hle] at hp ⊢
    exact signextend_bits w (8 * k + 7) i hp hi
  · intro hgt
    rw [if_neg (by simp; omega)]

/-- Witness for C16: the index 0 and the word `0x1280`. -/
theorem signextend_spec_witness :
    (Word.value 0).eval ⟨fun i => if i = 0 then 0 else 0x1280, fun _ => 0, fun _ _ => 0⟩ =
      some ⟨128, 0⟩ ∧
    (Word.value 1).eval ⟨fun i => if i = 0 then 0 else 0x1280, fun _ => 0, fun _ _ => 0⟩ =
      some ⟨128, 0x1280⟩ ∧
    ∃ r, (signextendValue (Word.value 0) (Word.value 1)).eval
        ⟨fun i => if i = 0 then 0 else 0x1280, fun _ => 0, fun _ _ => 0⟩ = some ⟨128, r⟩ ∧
      r < 2 ^ 128 ∧
      (0 ≤ 14 → ∀ i, i < 128 →
        r.testBit i =
          if i ≤ 8 * 0 + 7 then (0x1280 : Nat).testBit i else (0x1280 : Nat).testBit (8 * 0 + 7)) ∧
      (14 < 0 → r = 0x1280) :=
  ⟨by decide, by decide,
    (signextend_spec ⟨fun i => if i = 0 then 0 else 0x1280, fun _ => 0, fun _ _ => 0⟩
      LocalStack.fresh (Word.value 0) (Word.value 1) 0 0x1280 (by decide) (by decide)).2⟩
/-! ## Values of 256 bits on the stack -/

/-- The two halves that `pushWord256` pushes. -/
theorem eval_halves (env : EvalEnv) {word : Word} {x : Nat}
    (hx : word.eval env = some ⟨256, x⟩) :
    (CreateTrunc word 128).eval env = some ⟨128, x % 2 ^ 128⟩ ∧
    (CreateTrunc (CreateLShr word (Word.const word.ty 128)) 128).eval env =
      some ⟨128, x / 2 ^ 128⟩ := by
  have hlt : x < 2 ^ 256 := Word.eval_lt hx
  have hty : word.ty = 256 := Word.eval_ty hx
  have h128 : (Word.const 256 128).eval env = some ⟨256, 128⟩ := by simp [Word.eval]
  have hdiv : x / 2 ^ 128 < 2 ^ 128 := by
    have h1 : (2 : Nat) ^ 256 = 2 ^ 128 * 2 ^ 128 := by norm_num
    rw [h1] at hlt
    exact Nat.div_lt_of_lt_mul hlt
  have hdiv2 : x / 2 ^ 128 < 2 ^ 256 := lt_of_le_of_lt (Nat.div_le_self _ _) hlt
  have hshr : (CreateLShr word (Word.const word.ty 128)).eval env = some ⟨256, x / 2 ^ 128⟩ := by
    rw [hty, eval_CreateLShr, hx, h128, Word.binop_some]
    simp only [Word.lshrOp, if_pos (by decide : 128 < 256), Option.getD_some,
      Nat.shiftRight_eq_div_pow, Nat.mod_eq_of_lt hdiv2]
  refine ⟨eval_trunc_some env 128 hx (by decide), ?_⟩
  rw [eval_trunc_some env 128 hshr (by decide), Nat.mod_eq_of_lt hdiv]

/-- The value that `popWord256` builds from the two halves. -/
theorem eval_join (env : EvalEnv) {hi lo : Word} {x : Nat}
    (hhi : hi.eval env = some ⟨128, x / 2 ^ 128⟩) (hlo : lo.eval env = some ⟨128, x % 2 ^ 128⟩)
    (hlt : x < 2 ^ 256) :
    (CreateOr (CreateShl (CreateZExt hi 256) (Word.const 256 128)) (CreateZExt lo 256)).eval env =
      some ⟨256, x⟩ := by
  have h128 : (Word.const 256 128).eval env = some ⟨256, 128⟩ := by simp [Word.eval]
  have hmod : x % 2 ^ 128 < 2 ^ 128 := Nat.mod_lt _ (Nat.two_pow_pos _)
  have hsplit : 2 ^ 128 * (x / 2 ^ 128) + x % 2 ^ 128 = x := Nat.div_add_mod x (2 ^ 128)
  have hmul : 2 ^ 128 * (x / 2 ^ 128) < 2 ^ 256 := by omega
  have hshl : (CreateShl (CreateZExt hi 256) (Word.const 256 128)).eval env =
      some ⟨256, 2 ^ 128 * (x / 2 ^ 128)⟩ := by
    rw [eval_CreateShl, eval_zext_some env 256 hhi (by decide), h128, Word.binop_some]
    simp only [Word.shlOp, if_pos (by decide : 128 < 256), Option.getD_some, Nat.shiftLeft_eq]
    rw [Nat.mul_comm (x / 2 ^ 128) (2 ^ 128), Nat.mod_eq_of_lt hmul]
  rw [eval_CreateOr, hshl, eval_zext_some env 256 hlo (by decide), Word.binop_some]
  simp only [Word.orOp, Option.getD_some, ← Nat.mul_add_lt_is_or hmod, hsplit,
    Nat.mod_eq_of_lt hlt]

/-- C17: for every value `word` of 256 bits, with the value `x`, and every
local stack `s`: after `pushWord256(word)` the top of the stack (`get(0)`) is
the high half `x / 2^128` and the item below it (`get(1)`) is the low half
`x mod 2^128`; and `popWord256` right after it returns a value equal to `x` and
leaves `local`, `input` and `global_pops` as they were before the push. -/
theorem pushWord256_spec (env : EvalEnv) (s : LocalStack) (word : Word) (x : Nat)
    (hx : word.eval env = some ⟨256, x⟩) :
    (∃ hi lo, (pushWord256 s word).get 0 = some (hi, pushWord256 s word) ∧
      hi.eval env = some ⟨128, x / 2 ^ 128⟩ ∧
      (pushWord256 s word).get 1 = some (lo, pushWord256 s word) ∧
      lo.eval env = some ⟨128, x % 2 ^ 128⟩) ∧
    ∃ r t, popWord256 (pushWord256 s word) = some (r, t) ∧ r.eval env = some ⟨256, x⟩ ∧
      t.m_local = s.m_local ∧ t.m_input = s.m_input ∧ t.m_globalPops = s.m_globalPops := by
  obtain ⟨hlo, hhi⟩ := eval_halves env hx
  have hlocal : (pushWord256 s word).m_local =
      s.m_local ++ [CreateTrunc word 128] ++
        [CreateTrunc (CreateLShr word (Word.const word.ty 128)) 128] := rfl
  constructor
  · have e0 : ∀ (l : List Word) (a b : Word),
        (l ++ [a] ++ [b])[(l ++ [a] ++ [b]).length - 1 - 0]? = some b := by
      intro l a b
      have h1 : (l ++ [a] ++ [b]).length - 1 - 0 = (l ++ [a]).length := by simp
      rw [h1]
      exact List.getElem?_concat_length (l ++ [a]) b
    have e1 : ∀ (l : List Word) (a b : Word),
        (l ++ [a] ++ [b])[(l ++ [a] ++ [b]).length - 1 - 1]? = some a := by
      intro l a b
      have h1 : (l ++ [a] ++ [b]).length - 1 - 1 = l.length := by simp
      have h2 : l.length < (l ++ [a]).length := by simp
      rw [h1, List.getElem?_append_left h2]
      exact List.getElem?_concat_length l a
    have l0 : 0 < (pushWord256 s word).m_local.length := by rw [hlocal]; simp
    have l1 : 1 < (pushWord256 s word).m_local.length := by rw [hlocal]; simp
    refine ⟨_, _, ?_, hhi, ?_, hlo⟩
    · unfold LocalStack.get
      rw [if_pos l0, hlocal, e0]
    · unfold LocalStack.get
      rw [if_pos l1, hlocal, e1]
  · obtain ⟨t, u, ht, hu, h1, h2, h3⟩ := LocalStack.pop_pop_push s
      (CreateTrunc (CreateLShr word (Word.const word.ty 128)) 128) (CreateTrunc word 128)
    refine ⟨_, u, ?_, eval_join env hhi hlo (Word.eval_lt hx), h1, h2, h3⟩
    have hp : pushWord256 s word = (s.push (CreateTrunc word 128)).push
        (CreateTrunc (CreateLShr word (Word.const word.ty 128)) 128) := rfl
    rw [hp]
    simp only [popWord256, ht, hu, Option.bind_eq_bind, Option.some_bind]

/-- Witness for C17: the constant `2^200 + 5` of 256 bits. -/
theorem pushWord256_spec_witness :
    (Word.const 256 (2 ^ 200 + 5)).eval ⟨fun _ => 0, fun _ => 0, fun _ _ => 0⟩ =
      some ⟨256, 2 ^ 200 + 5⟩ ∧
    ∃ r t, popWord256 (pushWord256 LocalStack.fresh (Word.const 256 (2 ^ 200 + 5))) =
        some (r, t) ∧
      r.eval ⟨fun _ => 0, fun _ => 0, fun _ _ => 0⟩ = some ⟨256, 2 ^ 200 + 5⟩ ∧
      t.m_local = LocalStack.fresh.m_local ∧ t.m_input = LocalStack.fresh.m_input ∧
      t.m_globalPops = LocalStack.fresh.m_globalPops :=
  ⟨by decide,
    (pushWord256_spec ⟨fun _ => 0, fun _ => 0, fun _ _ => 0⟩ LocalStack.fresh
      (Word.const 256 (2 ^ 200 + 5)) (2 ^ 200 + 5) (by decide)).2⟩

/-! ## The value transfer of a CALL in static mode -/

theorem IRBuilder.ty_CreateSelect (c a b : Word) (n : Nat) (ha : a.ty = n) (hb : b.ty = n) :
    (CreateSelect c a b).ty = n := by
  unfold CreateSelect
  split
  · split
    · split
      · exact ha
      · exact hb
    · exact ha
  · exact ha

/-- C20 (as stated) fails: for the bytecode `60 05 60 00 56 5B 00` the JUMP pops
the constant 0 that PUSH1 0 left on top of the stack; the jump table has no
case 0, and after `resolveJumps` successor 0 of the branch of the JUMP is the
block `Abort`, not the block of the JUMPDEST. -/
theorem resolveJumps_counterexample :
    ∃ f, (compileMain [0x60, 0x05, 0x60, 0x00, 0x56, 0x5b, 0x00] EVM_AION false).bind
        resolveJumps = some f ∧
      (f.blocks.map (fun b => b.term)).head? =
        some (some (BlockTerm.br BlockHandle.abort (some (Word.const 128 0)))) ∧
      BlockHandle.abort ≠ BlockHandle.code 5 := by
  refine ⟨_, rfl, ?_, by decide⟩
  decide

/-- C20 (amended): for the bytecode `60 05 60 00 56 5B 00` (PUSH1 5, PUSH1 0,
JUMP, JUMPDEST, STOP), every revision and call mode, the splitter returns the
two blocks `[0, 5)` and `[5, 7)`; the jump table has the one case 5, the block
of the JUMPDEST; the destination index of the JUMP is the constant 0, the top
of the stack; and after `resolveJumps` successor 0 of the branch of the JUMP is
the block `Abort` (the default of the switch, since no case is 0), the second
block ends with the exit `Stop`, and the PHI node of the jump table has no
incoming value. -/
theorem resolveJumps_push_jump :
    createBasicBlocks [0x60, 0x05, 0x60, 0x00, 0x56, 0x5b, 0x00] =
        [{ m_firstInstrIdx := 0, m_begin := 0, m_end := 5 },
         { m_firstInstrIdx := 5, m_begin := 5, m_end := 7 }] ∧
    ∀ rev staticCall,
      ∃ f, (compileMain [0x60, 0x05, 0x60, 0x00, 0x56, 0x5b, 0x00] rev staticCall).bind
          resolveJumps = some f ∧
        f.jumpTable = [(5, BlockHandle.code 5)] ∧
        f.blocks.map (fun b => (b.llvm, b.term)) =
          [(BlockHandle.code 0, some (BlockTerm.br BlockHandle.abort (some (Word.const 128 0)))),
           (BlockHandle.code 5, some (BlockTerm.exit ReturnCode.Stop))] ∧
        f.jumpTableInput = [] := by
  refine ⟨by decide, ?_⟩
  intro rev staticCall
  cases rev <;> cases staticCall <;> exact ⟨_, rfl, by decide, by decide, by decide⟩

/-! ## The cursor and the termination of the splitter -/

/-- With the whole code as fuel or more, the splitting loop gives the result of
`createBasicBlocks` and ends at `_codeEnd`. -/
theorem createBasicBlocksLoop_enough (code : Bytecode) (k : Nat) :
    createBasicBlocksLoop code (code.length + k)
        { curr := 0, begin := 0, isDead := false, blocks := [] } =
      createBasicBlocksLoop code code.length
        { curr := 0, begin := 0, isDead := false, blocks := [] } := by
  induction k with
  | zero => rfl
  | succ n ih =>
    rw [← ih]
    exact createBasicBlocksLoop_fuel code (code.length + n) _ (Nat.zero_le _) (by simp)

/-- C23: for every bytecode and every cursor `curr < code_end`, the next cursor
of the splitter is `curr + 1 + min(n, remaining - 1)` when the byte at `curr`
is PUSHn (`n = byte - PUSH1 + 1`, `remaining = code_end - curr`) and `curr + 1`
otherwise; so `curr < next <= code_end` (the assertion `next <= _codeEnd`
holds), and a PUSH whose immediate reaches or passes the end of the code gives
`next = code_end`.  The body of the loop moves `curr` to this `next`, and the
loop ends: with the length of the code as fuel, or any more, it stops at
`curr = code_end` with the same result. -/
theorem skipPushDataAndGetNext_spec (code : Bytecode) (curr : Nat) (h : curr < code.length) :
    (PUSH1 ≤ byteAt code curr ∧ byteAt code curr ≤ PUSH32 →
      skipPushDataAndGetNext code curr =
        curr + 1 + min (byteAt code curr - PUSH1 + 1) (code.length - curr - 1)) ∧
    (¬ (PUSH1 ≤ byteAt code curr ∧ byteAt code curr ≤ PUSH32) →
      skipPushDataAndGetNext code curr = curr + 1) ∧
    curr < skipPushDataAndGetNext code curr ∧
    skipPushDataAndGetNext code curr ≤ code.length ∧
    (PUSH1 ≤ byteAt code curr ∧ byteAt code curr ≤ PUSH32 →
      code.length - curr - 1 ≤ byteAt code curr - PUSH1 + 1 →
      skipPushDataAndGetNext code curr = code.length) ∧
    (∀ s : SplitState, s.curr = curr →
      (createBasicBlocksBody code s).curr = skipPushDataAndGetNext code curr) ∧
    (∀ k,
      (createBasicBlocksLoop code (code.length + k)
          { curr := 0, begin := 0, isDead := false, blocks := [] }).curr = code.length ∧
      (createBasicBlocksLoop code (code.length + k)
          { curr := 0, begin := 0, isDead := false, blocks := [] }).blocks =
        createBasicBlocks code) := by
  refine ⟨?_, skipPushDataAndGetNext_of_not_push code curr, skipPushDataAndGetNext_gt code curr,
    skipPushDataAndGetNext_le code curr h, ?_, ?_, ?_⟩
  · intro hp
    simp only [skipPushDataAndGetNext]
    rw [if_pos hp]
    omega
  · intro hp ht
    simp only [skipPushDataAndGetNext]
    rw [if_pos hp]
    omega
  · intro s hs
    rw [createBasicBlocksBody_curr, hs]
  · intro k
    rw [createBasicBlocksLoop_enough]
    refine ⟨?_, rfl⟩
    exact (createBasicBlocksLoop_inv code (fun _ => True) (fun _ _ _ => trivial) code.length
      { curr := 0, begin := 0, isDead := false, blocks := [] } (Nat.zero_le _) (by simp)
      trivial).2

/-- Witness for C23: a PUSH2 with one byte of immediate left, at offset 1 of
`00 61 AA`. -/
theorem skipPushDataAndGetNext_spec_witness :
    1 < ([0x00, 0x61, 0xaa] : Bytecode).length ∧
    skipPushDataAndGetNext [0x00, 0x61, 0xaa] 1 = ([0x00, 0x61, 0xaa] : Bytecode).length :=
  ⟨by decide,
    (skipPushDataAndGetNext_spec [0x00, 0x61, 0xaa] 1 (by decide)).2.2.2.2.1
      (by decide) (by decide)⟩

/-! ## JUMPDEST is the first instruction of its block -/

/-- The compilation of the blocks of `createBasicBlocks` passes the assertion of
the JUMPDEST case in every block. -/
theorem compile_isSome (code : Bytecode) (rev : evm_revision) (staticCall : Bool) :
    compile code rev staticCall = some (blocksCases code (createBasicBlocks code)) := by
  unfold compile
  rw [compileBlocks_eq code rev staticCall _ [] (createBasicBlocks_blockOK code)]
  rfl

/-- C24: for every bytecode, in every block of `createBasicBlocks` a JUMPDEST
at an instruction boundary of the block is the first instruction of the block;
and for every revision and call mode the compilation of every block, and of
all blocks in order, ends without a failure of the assertion `JUMPDEST must be
the first instruction of a basic block`. -/
theorem jumpdest_first (code : Bytecode) :
    (∀ b ∈ createBasicBlocks code, ∀ q ∈ instrStarts code,
      b.m_begin ≤ q → q < b.m_end → byteAt code q = JUMPDEST → q = b.m_begin) ∧
    (∀ rev staticCall, ∀ b ∈ createBasicBlocks code, ∀ jumpTable,
      (compileBasicBlock code rev staticCall b jumpTable).isSome = true) ∧
    (∀ rev staticCall, (compile code rev staticCall).isSome = true) := by
  refine ⟨?_, ?_, ?_⟩
  · intro b hb q hq h1 h2 hjd
    by_contra hne
    exact (createBasicBlocks_blockOK code b hb).no_jd q hq (by omega) h2 hjd
  · intro rev staticCall b hb jt
    rw [compileBasicBlock_eq code rev staticCall b (createBasicBlocks_blockOK code b hb) jt]
    rfl
  · intro rev staticCall
    rw [compile_isSome]
    rfl

/-! ## The commit of the cost block -/

/-- C25: `commitCostBlock` with a pending placeholder (the call at position `i`
of the emitted calls): if the accumulated block cost is 0 the placeholder is
removed from the IR and no placeholder is pending; if it is `c /= 0` the cost
argument of the placeholder becomes `c`, the accumulator is reset to 0 and no
placeholder is pending.  With no pending placeholder (and the accumulated cost
0, as the assertion demands) it changes nothing.  When the placeholder was
created by counting the opcodes `a :: l` on a committed meter, `c` is the sum
of `getStepCost` over these opcodes: the emitted calls end with the one call of
cost `c`, or are the ones before when `c = 0`. -/
theorem commitCostBlock_spec (sched : JITSchedule) (rev : evm_revision) :
    (∀ (g : GasMeter) (i : Nat), g.m_checkCall = some i → g.m_blockCost = 0 →
      g.commitCostBlock =
        some { m_checkCall := none, m_blockCost := 0, ir := g.ir.eraseIdx i }) ∧
    (∀ (g : GasMeter) (i : Nat), g.m_checkCall = some i → g.m_blockCost ≠ 0 →
      g.commitCostBlock =
        some { m_checkCall := none, m_blockCost := 0,
               ir := g.ir.set i (CostArg.int64 g.m_blockCost) }) ∧
    (∀ g : GasMeter, g.m_checkCall = none → g.m_blockCost = 0 → g.commitCostBlock = some g) ∧
    (∀ (g : GasMeter) (a : Instruction) (l : List Instruction),
      g.m_checkCall = none → g.m_blockCost = 0 →
      ((a :: l).foldl (fun g1 inst => g1.count sched rev inst) g).m_checkCall =
          some g.ir.length ∧
      ((a :: l).foldl (fun g1 inst => g1.count sched rev inst) g).m_blockCost =
          ((a :: l).map (getStepCost sched rev)).sum ∧
      ((a :: l).foldl (fun g1 inst => g1.count sched rev inst) g).ir =
          g.ir ++ [CostArg.undef] ∧
      ((a :: l).foldl (fun g1 inst => g1.count sched rev inst) g).commitCostBlock =
        some { m_checkCall := none, m_blockCost := 0,
               ir := g.ir ++
                 (if ((a :: l).map (getStepCost sched rev)).sum = 0 then []
                  else [CostArg.int64 (((a :: l).map (getStepCost sched rev)).sum)]) }) := by
  refine ⟨?_, ?_, ?_, ?_⟩
  · intro g i h1 h2
    cases g
    simp_all [GasMeter.commitCostBlock]
  · intro g i h1 h2
    simp [GasMeter.commitCostBlock, h1, h2]
  · intro g h1 h2
    simp [GasMeter.commitCostBlock, h1, h2]
  · intro g a l h1 h2
    have hf := GasMeter.foldl_count sched rev a l g h1 h2
    have hc := GasMeter.foldl_count_commit sched rev (a :: l) g h1 h2
    rw [hf] at hc ⊢
    exact ⟨rfl, rfl, rfl, hc⟩

/-! ## The end-to-end scenarios of the gas pre-check and of the stack check -/

/-- C21 (as stated) fails: with the schedule value `stepGas0 = 0` the block
PUSH1 1, PUSH1 2, ADD, STOP costs 3 on the AION revision (STOP is of tier 0,
which the revision does not re-price), and the pre-check succeeds with the
initial gas 3. -/
theorem aion_block_gas_counterexample :
    ¬ (∀ g, compileBlocksGas [0x60, 0x01, 0x60, 0x02, 0x01, 0x00] evmSchedule EVM_AION false
          (createBasicBlocks [0x60, 0x01, 0x60, 0x02, 0x01, 0x00]) GasMeter.fresh = some g →
        ∀ gas : Int, 0 ≤ gas → gas < 2 ^ 63 →
          ((∃ mem1, runGasChecks 0 0 g.ir ⟨fun _ => gas, fun _ => false⟩ = some (false, mem1)) ↔
            4 ≤ gas)) := by
  intro h
  have h1 := (h { m_checkCall := none, m_blockCost := 0, ir := [CostArg.int64 3] } (by decide) 3
    (by decide) (by decide)).mp
  have h2 : (4 : Int) ≤ 3 := by
    apply h1
    refine ⟨(⟨fun _ => 3, fun _ => false⟩ : IR.Memory).setCell 0 0, ?_⟩
    unfold runGasChecks
    rw [gasCheck_call]
    rfl
  exact absurd h2 (by decide)

/-- C21 (amended): for the bytecode `60 01 60 02 01 00` (PUSH1 1, PUSH1 2, ADD,
STOP) on the AION revision, every schedule and call mode: the splitter returns
the single block `[0, 6)`; the gas meter ends committed with a single
`gas.check`, of cost `3 + stepGas0` (1 for each of PUSH1, PUSH1 and ADD, the
schedule value of tier 0 for STOP); and with an initial gas `0 <= g < 2^63` the
check succeeds exactly when `g >= 3 + stepGas0`, leaving the gas
`g - (3 + stepGas0)` and `gas_out` untouched, and otherwise sets `gas_out` and
leaves the gas unchanged. -/
theorem aion_block_gas (sched : JITSchedule) (staticCall : Bool) (mem : IR.Memory)
    (gasPtr jmpBuf : Nat) (hg0 : 0 ≤ mem.cells gasPtr) (hg1 : mem.cells gasPtr < 2 ^ 63)
    (hc : (3 : Int) + sched.stepGas0 < 2 ^ 63) :
    createBasicBlocks [0x60, 0x01, 0x60, 0x02, 0x01, 0x00] =
        [{ m_firstInstrIdx := 0, m_begin := 0, m_end := 6 }] ∧
    compileBlocksGas [0x60, 0x01, 0x60, 0x02, 0x01, 0x00] sched EVM_AION staticCall
        (createBasicBlocks [0x60, 0x01, 0x60, 0x02, 0x01, 0x00]) GasMeter.fresh =
      some { m_checkCall := none, m_blockCost := 0, ir := [CostArg.int64 (3 + sched.stepGas0)] } ∧
    ∃ out mem1,
      runGasChecks gasPtr jmpBuf [CostArg.int64 (3 + sched.stepGas0)] mem = some (out, mem1) ∧
      (out = false ↔ 3 + (sched.stepGas0 : Int) ≤ mem.cells gasPtr) ∧
      (3 + (sched.stepGas0 : Int) ≤ mem.cells gasPtr →
        mem1.cells gasPtr = mem.cells gasPtr - (3 + sched.stepGas0) ∧
          mem1.globals = mem.globals) ∧
      (mem.cells gasPtr < 3 + (sched.stepGas0 : Int) →
        mem1.globals gas_out = true ∧ mem1.cells = mem.cells) := by
  have hb : createBasicBlocks [0x60, 0x01, 0x60, 0x02, 0x01, 0x00] =
      [{ m_firstInstrIdx := 0, m_begin := 0, m_end := 6 }] := by decide
  have hpush : getStepCost sched EVM_AION 0x60 = 1 := rfl
  have hadd : getStepCost sched EVM_AION 0x01 = 1 := rfl
  have hstop : getStepCost sched EVM_AION 0x00 = sched.stepGas0 := rfl
  have hne : (3 : Int) + sched.stepGas0 ≠ 0 := by omega
  refine ⟨hb, ?_, ?_⟩
  · rw [hb]
    have hloop : compileGasLoop [0x60, 0x01, 0x60, 0x02, 0x01, 0x00] sched EVM_AION staticCall
        { m_firstInstrIdx := 0, m_begin := 0, m_end := 6 } 6 0 GasMeter.fresh =
        some { m_checkCall := some 0, m_blockCost := 0 + 1 + 1 + 1 + sched.stepGas0,
               ir := [CostArg.undef] } := by
      cases staticCall <;> rfl
    have hsum : (0 : Int) + 1 + 1 + 1 + sched.stepGas0 = 3 + sched.stepGas0 := by omega
    unfold compileBlocksGas compileBasicBlockGas
    rw [show (6 : Nat) - 0 = 6 from rfl, hloop, hsum]
    simp only [Option.some_bind, GasMeter.commitCostBlock, if_neg hne, compileBlocksGas,
      List.set_cons_zero]
  · unfold runGasChecks
    rw [wrapI64_of_range (by omega) hc, gasCheck_call,
      wrapI64_of_range (by omega) (by omega)]
    by_cases hle : 3 + (sched.stepGas0 : Int) ≤ mem.cells gasPtr
    · rw [if_pos (by omega)]
      refine ⟨false, _, rfl, ?_, ?_, ?_⟩
      · simp only [true_iff]; exact hle
      · intro _; exact ⟨by simp [Memory.setCell], rfl⟩
      · intro h; omega
    · rw [if_neg (by omega)]
      refine ⟨true, _, rfl, ?_, ?_, ?_⟩
      · simp only [Bool.true_eq_false, false_iff]; exact hle
      · intro h; exact absurd h hle
      · intro _; exact ⟨by simp [Memory.setGlobal], rfl⟩

/-- Witness for C21: the schedule of the EVM, the gas 3 at cell 0. -/
theorem aion_block_gas_witness :
    createBasicBlocks [0x60, 0x01, 0x60, 0x02, 0x01, 0x00] =
        [{ m_firstInstrIdx := 0, m_begin := 0, m_end := 6 }] ∧
    compileBlocksGas [0x60, 0x01, 0x60, 0x02, 0x01, 0x00] evmSchedule EVM_AION false
        (createBasicBlocks [0x60, 0x01, 0x60, 0x02, 0x01, 0x00]) GasMeter.fresh =
      some { m_checkCall := none, m_blockCost := 0,
             ir := [CostArg.int64 (3 + evmSchedule.stepGas0)] } ∧
    ∃ out mem1,
      runGasChecks 0 0 [CostArg.int64 (3 + evmSchedule.stepGas0)] ⟨fun _ => 3, fun _ => false⟩ =
        some (out, mem1) ∧
      (out = false ↔ 3 + (evmSchedule.stepGas0 : Int) ≤ 3) ∧
      (3 + (evmSchedule.stepGas0 : Int) ≤ 3 →
        mem1.cells 0 = 3 - (3 + evmSchedule.stepGas0) ∧ mem1.globals = fun _ => false) ∧
      ((3 : Int) < 3 + (evmSchedule.stepGas0 : Int) →
        mem1.globals gas_out = true ∧ mem1.cells = fun _ => 3) :=
  aion_block_gas evmSchedule false ⟨fun _ => 3, fun _ => false⟩ 0 0 (by decide) (by decide)
    (by decide)

/-- C22: for the bytecode `60 01 57` (PUSH1 1, JUMPI), every revision and call
mode, the splitter returns the single block `[0, 3)` and the block compiles;
its local stack pushed one item and popped two, the second from the stack of
the caller (`m_local` is empty, `m_globalPops = 1`, the size is -1), so
`finalize` passes `min_size = -1`, `max_size = 1` and the size -1 to
`stack.prepare`; and the call of `stack.prepare` with these arguments on a
global stack of size 0 runs `Check` and then `OutOfStack`, and returns with
`gas_out` set. -/
theorem jumpi_outOfStack :
    createBasicBlocks [0x60, 0x01, 0x57] = [{ m_firstInstrIdx := 0, m_begin := 0, m_end := 3 }] ∧
    ∀ rev staticCall,
      ∃ f b, compileMain [0x60, 0x01, 0x57] rev staticCall = some f ∧ f.blocks = [b] ∧
        b.stack.m_local = [] ∧ b.stack.m_globalPops = 1 ∧ b.stack.size = -1 ∧
        b.stack.m_maxSize = 1 ∧ b.stack.m_minSize < 0 ∧
        b.stack.finalizeArgs = (-1, 1, -1) ∧
        ∀ (mem : IR.Memory) (base : Int) (sizePtr jmpBuf : Nat),
          IR.callPath getStackPrepareFunc
              [.wordPtr base, .ptr sizePtr, .i64 b.stack.finalizeArgs.1,
                .i64 b.stack.finalizeArgs.2.1, .i64 b.stack.finalizeArgs.2.2, .bytePtr jmpBuf]
              (mem.setCell sizePtr 0) = some ["Check", "OutOfStack"] ∧
          ∃ r mem1,
            IR.call getStackPrepareFunc
              [.wordPtr base, .ptr sizePtr, .i64 b.stack.finalizeArgs.1,
                .i64 b.stack.finalizeArgs.2.1, .i64 b.stack.finalizeArgs.2.2, .bytePtr jmpBuf]
              (mem.setCell sizePtr 0) = some (r, mem1) ∧
            mem1.globals gas_out = true := by
  refine ⟨by decide, ?_⟩
  intro rev staticCall
  have hm : compileMain [0x60, 0x01, 0x57] rev staticCall =
      some { blocks :=
               [{ llvm := BlockHandle.code 0,
                  stack := { m_local := [], m_input := [some (Word.load (-1))], m_globalPops := 1,
                             m_minSize := -1, m_maxSize := 1 },
                  term := some (BlockTerm.condBr
                    (CreateICmpNE (Word.load (-1)) (Constant.get 0))
                    BlockHandle.jumpTable none (some (Word.const 128 1))) }],
             jumpTable := [],
             jumpTableInput := [] } := by
    cases rev <;> cases staticCall <;> rfl
  refine ⟨_, _, hm, rfl, rfl, rfl, by decide, rfl, by decide, rfl, ?_⟩
  intro mem base sizePtr jmpBuf
  have h0 : (mem.setCell sizePtr 0).cells sizePtr = 0 := by simp [Memory.setCell]
  have hargs : LocalStack.finalizeArgs ⟨[], [some (Word.load (-1))], 1, -1, 1⟩ = (-1, 1, -1) :=
    rfl
  have hw : ¬ (0 ≤ wrapI64 (0 + -1) ∧
      toU64 (wrapI64 (0 + 1)) ≤ toU64 (wrapI64 stackSizeLimit)) := by decide
  dsimp only
  rw [hargs]
  dsimp only
  rw [stackPrepare_path, stackPrepare_call, h0, if_neg hw, if_neg hw]
  refine ⟨rfl, _, _, rfl, ?_⟩
  simp [Memory.setCell, Memory.setGlobal]

/-! ## The write-back of the local stack -/

/-- The method `set` changes no length and not `m_globalPops`. -/
theorem LocalStack.set_some (s s1 : LocalStack) (index : Nat) (w : Word)
    (h : s.set index w = some s1) :
    s1.m_globalPops = s.m_globalPops ∧ s1.m_input.length = s.m_input.length ∧
      s1.m_local.length = s.m_local.length := by
  unfold LocalStack.set at h
  by_cases h1 : index < s.m_local.length
  · rw [if_pos h1] at h
    cases h
    simp
  · rw [if_neg h1] at h
    dsimp only at h
    by_cases h2 : index - s.m_local.length + s.m_globalPops < s.m_input.length
    · rw [if_pos h2] at h
      cases h
      simp
    · rw [if_neg h2] at h
      cases h

/-- Every operation keeps `m_globalPops` within the length of `m_input`: an
item popped from the stack of the caller has an entry in `m_input`. -/
theorem LocalStack.globalPops_le_step (s s1 : LocalStack) (op : LocalStack.Op)
    (h : s.step op = some s1) (hinv : s.m_globalPops ≤ s.m_input.length) :
    s1.m_globalPops ≤ s1.m_input.length := by
  cases op with
  | push v =>
    simp only [LocalStack.step, Option.some.injEq] at h
    subst h
    exact hinv
  | pop =>
    obtain ⟨w, s2, hget, hl, hp, _, _, hlen, hidx⟩ := LocalStack.get_spec s 0
    simp only [LocalStack.step, LocalStack.pop, hget] at h
    by_cases hc : (s2.m_local.isEmpty && s2.m_input.isEmpty) = true
    · rw [if_pos hc] at h
      cases h
    · rw [if_neg hc] at h
      simp only [Option.map_some', Option.some.injEq] at h
      subst h
      by_cases hpos : s2.m_local.length > 0
      · rw [if_pos hpos]
        dsimp only
        omega
      · rw [if_neg hpos]
        dsimp only
        have := hidx (by rw [← hl]; omega)
        omega
  | get i =>
    obtain ⟨w, s2, hget, hl, hp, _, _, hlen, hidx⟩ := LocalStack.get_spec s i
    simp only [LocalStack.step, hget, Option.map_some', Option.some.injEq] at h
    subst h
    omega
  | dup i =>
    obtain ⟨w, s2, hget, hl, hp, _, _, hlen, hidx⟩ := LocalStack.get_spec s i
    simp only [LocalStack.step, LocalStack.dup, hget, Option.some.injEq] at h
    subst h
    simp only [LocalStack.push]
    omega
  | swap i =>
    obtain ⟨w, s2, hget, hl, hp, _, _, hlen, hidx⟩ := LocalStack.get_spec s i
    obtain ⟨w3, s3, hget3, hl3, hp3, _, _, hlen3, hidx3⟩ := LocalStack.get_spec s2 0
    simp only [LocalStack.step, LocalStack.swap] at h
    by_cases hi : i > 0
    · rw [if_pos hi] at h
      simp only [hget, hget3] at h
      cases h4 : s3.set i w3 with
      | none => rw [h4] at h; cases h
      | some s4 =>
        rw [h4] at h
        have h5 := LocalStack.set_some _ _ _ _ h4
        have h6 := LocalStack.set_some _ _ _ _ h
        omega
    · rw [if_neg hi] at h
      cases h

/-- A state reached from the new stack has `m_globalPops` within the length of
`m_input`. -/
theorem LocalStack.globalPops_le_run (ops : List LocalStack.Op) :
    ∀ (s s1 : LocalStack), LocalStack.run ops s = some s1 →
      s.m_globalPops ≤ s.m_input.length → s1.m_globalPops ≤ s1.m_input.length := by
  induction ops with
  | nil =>
    intro s s1 h hinv
    simp only [LocalStack.run, Option.some.injEq] at h
    subst h
    exact hinv
  | cons op ops ih =>
    intro s s1 h hinv
    simp only [LocalStack.run] at h
    cases h2 : s.step op with
    | none => rw [h2] at h; cases h
    | some s2 =>
      rw [h2] at h
      exact ih s2 s1 h (LocalStack.globalPops_le_step s s2 op h2 hinv)

/-- The loop of `finalize` ends when `globalIdx` has reached `size()`. -/
theorem LocalStack.finalizeLoop_done (s : LocalStack) (fuel : Nat) (globalIdx : Int)
    (inputIt localIt : Nat) (stores : List (Int × Word)) (h : ¬ globalIdx < s.size) :
    s.finalizeLoop fuel globalIdx inputIt localIt stores = some stores := by
  cases fuel with
  | zero => rw [LocalStack.finalizeLoop, if_neg h]
  | succ n => rw [LocalStack.finalizeLoop, if_neg h]

/-- The first phase of the loop of `finalize`: the entries of `m_input` from the
back, down to the popped ones; the null entries are skipped. -/
theorem LocalStack.finalizeLoop_input (s : LocalStack)
    (hinv : s.m_globalPops ≤ s.m_input.length) (fuel : Nat) :
    ∀ (k j : Nat) (stores : List (Int × Word)), j + k = s.m_input.length - s.m_globalPops →
      s.finalizeLoop (fuel + k) (-(s.m_input.length : Int) + j) j 0 stores =
        s.finalizeLoop fuel (-(s.m_globalPops : Int)) (s.m_input.length - s.m_globalPops) 0
          (stores ++ (List.range' j k).filterMap (fun (i : Nat) =>
            (s.m_input.reverse[i]?).join.map (fun w => (-(s.m_input.length : Int) + (i : Int), w)))) := by
  intro k
  induction k with
  | zero =>
    intro j stores hj
    have h1 : (-(s.m_input.length : Int) + j) = -(s.m_globalPops : Int) := by omega
    have h2 : j = s.m_input.length - s.m_globalPops := by omega
    simp [h1, ← h2]
  | succ k ih =>
    intro j stores hj
    have hlt : j < s.m_input.reverse.length := by rw [List.length_reverse]; omega
    have h1 : -(s.m_input.length : Int) + j < s.size := by unfold LocalStack.size; omega
    have h2 : -(s.m_input.length : Int) + j < -(s.m_globalPops : Int) := by omega
    have h3 : -(s.m_input.length : Int) + j + 1 = -(s.m_input.length : Int) + (j + 1 : Nat) := by
      push_cast; omega
    show s.finalizeLoop ((fuel + k) + 1) _ _ _ _ = _
    rw [LocalStack.finalizeLoop, if_pos h1, if_pos h2, List.getElem?_eq_getElem hlt]
    cases hitem : s.m_input.reverse[j] with
    | none =>
      dsimp only
      rw [h3, ih (j + 1) stores (by omega)]
      simp [List.range'_succ, List.getElem?_eq_getElem hlt, hitem]
    | some item =>
      dsimp only
      rw [h3, ih (j + 1) _ (by omega)]
      simp [List.range'_succ, List.getElem?_eq_getElem hlt, hitem]

/-- The second phase of the loop of `finalize`: the items of `m_local` from the
front. -/
theorem LocalStack.finalizeLoop_local (s : LocalStack) (fuel inputIt : Nat) :
    ∀ (k i : Nat) (stores : List (Int × Word)), i + k = s.m_local.length →
      s.finalizeLoop (fuel + k) (-(s.m_globalPops : Int) + i) inputIt i stores =
        some (stores ++ (List.range' i k).filterMap (fun (t : Nat) =>
          (s.m_local[t]?).map (fun w => (-(s.m_globalPops : Int) + (t : Int), w)))) := by
  intro k
  induction k with
  | zero =>
    intro i stores hi
    rw [LocalStack.finalizeLoop_done]
    · simp
    · unfold LocalStack.size; omega
  | succ k ih =>
    intro i stores hi
    have hlt : i < s.m_local.length := by omega
    have h1 : -(s.m_globalPops : Int) + i < s.size := by unfold LocalStack.size; omega
    have h2 : ¬ -(s.m_globalPops : Int) + i < -(s.m_globalPops : Int) := by omega
    have h3 : -(s.m_globalPops : Int) + i + 1 = -(s.m_globalPops : Int) + (i + 1 : Nat) := by
      push_cast; omega
    show s.finalizeLoop ((fuel + k) + 1) _ _ _ _ = _
    rw [LocalStack.finalizeLoop, if_pos h1, if_neg h2, List.getElem?_eq_getElem hlt]
    dsimp only
    rw [h3, ih (i + 1) _ (by omega)]
    simp [List.range'_succ, List.getElem?_eq_getElem hlt]

/-- The stores of `finalize`, in order: the set entries of `m_input` that were
not popped, from the deepest slot up, then the items of `m_local`. -/
theorem LocalStack.finalizeStores_eq (s : LocalStack)
    (hinv : s.m_globalPops ≤ s.m_input.length) :
    s.finalizeStores = some
      ((List.range' 0 (s.m_input.length - s.m_globalPops)).filterMap (fun (i : Nat) =>
          (s.m_input.reverse[i]?).join.map (fun w => (-(s.m_input.length : Int) + (i : Int), w))) ++
        (List.range' 0 s.m_local.length).filterMap (fun (t : Nat) =>
          (s.m_local[t]?).map (fun w => (-(s.m_globalPops : Int) + (t : Int), w)))) := by
  unfold LocalStack.finalizeStores
  have hf : s.m_input.length + s.m_local.length =
      (s.m_globalPops + s.m_local.length) + (s.m_input.length - s.m_globalPops) := by omega
  have h0 : -(s.m_input.length : Int) = -(s.m_input.length : Int) + (0 : Nat) := by simp
  rw [hf, h0, LocalStack.finalizeLoop_input s hinv _ _ 0 [] (by omega)]
  have h1 : -(s.m_globalPops : Int) = -(s.m_globalPops : Int) + (0 : Nat) := by simp
  rw [h1, LocalStack.finalizeLoop_local s _ _ _ 0 _ (by omega)]
  simp
/-- The stores of `finalize`, slot by slot. -/
theorem LocalStack.mem_finalizeStores (s : LocalStack)
    (hinv : s.m_globalPops ≤ s.m_input.length) (stores : List (Int × Word))
    (h : s.finalizeStores = some stores) (g : Int) (w : Word) :
    (g, w) ∈ stores ↔
      (-(s.m_input.length : Int) ≤ g ∧ g < -(s.m_globalPops : Int) ∧
        s.m_input[(-g - 1).toNat]? = some (some w)) ∨
      (-(s.m_globalPops : Int) ≤ g ∧ g < s.size ∧
        s.m_local[(g + s.m_globalPops).toNat]? = some w) := by
  rw [LocalStack.finalizeStores_eq s hinv] at h
  cases h
  rw [List.mem_append, List.mem_filterMap, List.mem_filterMap]
  unfold LocalStack.size
  constructor
  · rintro (⟨i, hi, hmap⟩ | ⟨t, ht, hmap⟩)
    · rw [List.mem_range'_1] at hi
      rw [List.getElem?_reverse (by omega)] at hmap
      cases hx : s.m_input[s.m_input.length - 1 - i]? with
      | none => rw [hx] at hmap; cases hmap
      | some o =>
        rw [hx] at hmap
        cases o with
        | none => cases hmap
        | some item =>
          simp only [Option.join, Option.some_bind, id_eq, Option.map_some', Option.some.injEq,
            Prod.mk.injEq] at hmap
          left
          obtain ⟨h1, h2⟩ := hmap
          have h3 : (-g - 1).toNat = s.m_input.length - 1 - i := by omega
          rw [h3, hx, ← h2]
          exact ⟨by omega, by omega, rfl⟩
    · rw [List.mem_range'_1] at ht
      cases hx : s.m_local[t]? with
      | none => rw [hx] at hmap; cases hmap
      | some item =>
        rw [hx] at hmap
        simp only [Option.map_some', Option.some.injEq, Prod.mk.injEq] at hmap
        right
        obtain ⟨h1, h2⟩ := hmap
        have h3 : (g + s.m_globalPops).toNat = t := by omega
        rw [h3, hx, ← h2]
        exact ⟨by omega, by omega, rfl⟩
  · rintro (⟨h1, h2, h3⟩ | ⟨h1, h2, h3⟩)
    · left
      refine ⟨(g + s.m_input.length).toNat, ?_, ?_⟩
      · rw [List.mem_range'_1]; omega
      · rw [List.getElem?_reverse (by omega)]
        have h4 : s.m_input.length - 1 - (g + s.m_input.length).toNat = (-g - 1).toNat := by omega
        rw [h4, h3]
        simp only [Option.join, Option.some_bind, id_eq, Option.map_some', Option.some.injEq,
          Prod.mk.injEq, and_true]
        omega
    · right
      refine ⟨(g + s.m_globalPops).toNat, ?_, ?_⟩
      · rw [List.mem_range'_1]; omega
      · rw [h3]
        simp only [Option.map_some', Option.some.injEq, Prod.mk.injEq, and_true]
        omega

/-- The slots of stores made from an ascending range of indices ascend. -/
theorem pairwise_slots_range' (c : Int) (f : Nat → Option (Int × Word))
    (hf : ∀ i x, f i = some x → x.1 = c + i) (a k : Nat) :
    (((List.range' a k).filterMap f).map Prod.fst).Pairwise (fun x y => x < y) ∧
      ∀ g ∈ ((List.range' a k).filterMap f).map Prod.fst, c + a ≤ g ∧ g < c + a + k := by
  constructor
  · rw [List.pairwise_map]
    refine List.Pairwise.filterMap f ?_ (List.pairwise_lt_range' a k)
    intro i j hij x hx y hy
    rw [hf i x hx, hf j y hy]
    omega
  · intro g hg
    rw [List.mem_map] at hg
    obtain ⟨x, hx, rfl⟩ := hg
    rw [List.mem_filterMap] at hx
    obtain ⟨i, hi, hfi⟩ := hx
    rw [List.mem_range'_1] at hi
    rw [hf i x hfi]
    omega

/-- The stores of `finalize` go to ascending slots: no slot is stored twice. -/
theorem LocalStack.finalizeStores_sorted (s : LocalStack)
    (hinv : s.m_globalPops ≤ s.m_input.length) (stores : List (Int × Word))
    (h : s.finalizeStores = some stores) :
    (stores.map Prod.fst).Pairwise (fun x y => x < y) := by
  rw [LocalStack.finalizeStores_eq s hinv] at h
  cases h
  rw [List.map_append, List.pairwise_append]
  have hA := pairwise_slots_range' (-(s.m_input.length : Int))
    (fun (i : Nat) =>
      (s.m_input.reverse[i]?).join.map (fun w => (-(s.m_input.length : Int) + (i : Int), w)))
    (by
      intro i x hx
      dsimp only at hx
      cases hy : (s.m_input.reverse[i]?).join with
      | none => rw [hy] at hx; cases hx
      | some w => rw [hy] at hx; cases hx; rfl)
    0 (s.m_input.length - s.m_globalPops)
  have hB := pairwise_slots_range' (-(s.m_globalPops : Int))
    (fun (t : Nat) => (s.m_local[t]?).map (fun w => (-(s.m_globalPops : Int) + (t : Int), w)))
    (by
      intro i x hx
      dsimp only at hx
      cases hy : s.m_local[i]? with
      | none => rw [hy] at hx; cases hx
      | some w => rw [hy] at hx; cases hx; rfl)
    0 s.m_local.length
  refine ⟨hA.1, hB.1, ?_⟩
  intro x hx y hy
  have h1 := hA.2 x hx
  have h2 := hB.2 y hy
  omega

/-- The size of the stack and the length of `m_local`. -/
theorem LocalStack.size_add_globalPops (s : LocalStack) :
    s.size + s.m_globalPops = s.m_local.length := by
  unfold LocalStack.size
  omega

/-- C29: for every state of the local stack reached from the new stack by
push, pop, get, dup and swap, `m_globalPops` is at most the length of `m_input`
and `size() + m_globalPops` is the length of `m_local`; the loop of `finalize`
ends without reading an iterator at or past its end, and the stores that it
emits are exactly these, each slot once and in ascending order: for each slot `g`
with `-len(input) <= g < -global_pops` whose entry `input[-g-1]` is set, the
store of that entry to `sp + g`, and for each slot `g` with
`-global_pops <= g < size()` the store of `local[g + global_pops]` to
`sp + g`. -/
theorem finalize_stores (ops : List LocalStack.Op) (s : LocalStack)
    (h : LocalStack.run ops LocalStack.fresh = some s) :
    s.m_globalPops ≤ s.m_input.length ∧ s.size + s.m_globalPops = s.m_local.length ∧
    ∃ stores, s.finalizeStores = some stores ∧
      (∀ g w, (g, w) ∈ stores ↔
        (-(s.m_input.length : Int) ≤ g ∧ g < -(s.m_globalPops : Int) ∧
          s.m_input[(-g - 1).toNat]? = some (some w)) ∨
        (-(s.m_globalPops : Int) ≤ g ∧ g < s.size ∧
          s.m_local[(g + s.m_globalPops).toNat]? = some w)) ∧
      (stores.map Prod.fst).Pairwise (fun x y => x < y) := by
  have hinv := LocalStack.globalPops_le_run ops _ s h (Nat.le_refl _)
  refine ⟨hinv, LocalStack.size_add_globalPops s, _, LocalStack.finalizeStores_eq s hinv, ?_, ?_⟩
  · exact LocalStack.mem_finalizeStores s hinv _ (LocalStack.finalizeStores_eq s hinv)
  · exact LocalStack.finalizeStores_sorted s hinv _ (LocalStack.finalizeStores_eq s hinv)

/-- Witness for C29: a block that pushes, pops twice, swaps, duplicates and
reads; `finalize` stores five items, to the slots -8, -7, -4, -2 and -1. -/
theorem finalize_stores_witness :
    ∃ s, LocalStack.run
        [LocalStack.Op.push (Word.value 1), LocalStack.Op.pop, LocalStack.Op.pop,
          LocalStack.Op.swap 2, LocalStack.Op.dup 5, LocalStack.Op.get 7] LocalStack.fresh =
        some s ∧
      s.finalizeStores = some
        [(-8, Word.load (-8)), (-7, Word.load (-7)), (-4, Word.load (-2)),
          (-2, Word.load (-4)), (-1, Word.load (-7))] ∧
      s.m_globalPops ≤ s.m_input.length ∧ s.size + s.m_globalPops = s.m_local.length ∧
      ∃ stores, s.finalizeStores = some stores ∧
        (∀ g w, (g, w) ∈ stores ↔
          (-(s.m_input.length : Int) ≤ g ∧ g < -(s.m_globalPops : Int) ∧
            s.m_input[(-g - 1).toNat]? = some (some w)) ∨
          (-(s.m_globalPops : Int) ≤ g ∧ g < s.size ∧
            s.m_local[(g + s.m_globalPops).toNat]? = some w)) ∧
        (stores.map Prod.fst).Pairwise (fun x y => x < y) :=
  ⟨⟨[Word.load (-7)],
      [some (Word.load (-1)), some (Word.load (-4)), none, some (Word.load (-2)), none, none,
        some (Word.load (-7)), some (Word.load (-8))], 1, -8, 1⟩,
    by decide, by decide,
    finalize_stores
      [LocalStack.Op.push (Word.value 1), LocalStack.Op.pop, LocalStack.Op.pop,
        LocalStack.Op.swap 2, LocalStack.Op.dup 5, LocalStack.Op.get 7] _ (by decide)⟩

/-- The entry that `resize` adds at the new last index is null. -/
theorem LocalStack.resize_last (input : List (Option Word)) (idx : Nat)
    (h : input.length ≤ idx) : (LocalStack.resize input (idx + 1))[idx]? = some none := by
  unfold LocalStack.resize
  rw [List.getElem?_take, if_pos (by omega), List.getElem?_append_right h,
    List.getElem?_replicate, if_pos (by omega)]

/-- The method `get` on an item of the stack of the caller: the entry of the
item in `m_input` is set afterwards, to the load of its slot when it was not
set before; nothing else changes but `m_minSize`. -/
theorem LocalStack.get_input (s : LocalStack) (index : Nat) (h : s.m_local.length ≤ index) :
    ∃ w s1, s.get index = some (w, s1) ∧ s1.m_local = s.m_local ∧
      s1.m_globalPops = s.m_globalPops ∧
      s1.m_input[index - s.m_local.length + s.m_globalPops]? = some (some w) ∧
      ((s.m_input[index - s.m_local.length + s.m_globalPops]?).join = none →
        w = Word.load (-((index - s.m_local.length + s.m_globalPops : Nat) : Int) - 1)) ∧
      (∀ w0, s.m_input[index - s.m_local.length + s.m_globalPops]? = some (some w0) →
        w = w0 ∧ s1 = s) := by
  unfold LocalStack.get
  rw [if_neg (by omega)]
  dsimp only
  generalize index - s.m_local.length + s.m_globalPops = idx
  by_cases hge : idx ≥ s.m_input.length
  · rw [if_pos hge, LocalStack.resize_last _ _ hge]
    dsimp only
    refine ⟨_, _, rfl, rfl, rfl, ?_, fun _ => rfl, ?_⟩
    · rw [List.getElem?_set_self (by rw [LocalStack.length_resize]; omega)]
    · intro w0 hw0
      rw [List.getElem?_eq_none (by omega)] at hw0
      cases hw0
  · rw [if_neg hge]
    have hlt : idx < s.m_input.length := by omega
    cases hx : s.m_input[idx]? with
    | none =>
      rw [List.getElem?_eq_getElem hlt] at hx
      cases hx
    | some o =>
      cases o with
      | some item =>
        dsimp only
        refine ⟨_, _, rfl, rfl, rfl, hx, ?_, ?_⟩
        · intro hj; cases hj
        · intro w0 hw0
          cases hw0
          exact ⟨rfl, rfl⟩
      | none =>
        dsimp only
        refine ⟨_, _, rfl, rfl, rfl, ?_, fun _ => rfl, ?_⟩
        · rw [List.getElem?_set_self hlt]
        · intro w0 hw0
          cases hw0

/-- C30 (as stated) fails: a block whose only stack operation reads the top
item of the stack of the caller (`get(0)`, as DUP1 does before its push) pops
nothing and sets nothing, and `finalize` emits a store to the slot `sp - 1`, of
the value loaded from that slot. -/
theorem finalize_observed_counterexample :
    ∃ s, LocalStack.run [LocalStack.Op.get 0] LocalStack.fresh = some s ∧
      s.m_local = [] ∧ s.m_globalPops = 0 ∧
      s.finalizeStores = some [(-1, Word.load (-1))] ∧
    ∃ s1, LocalStack.run [LocalStack.Op.dup 0] LocalStack.fresh = some s1 ∧
      s1.m_globalPops = 0 ∧
      s1.finalizeStores = some [(-1, Word.load (-1)), (0, Word.load (-1))] :=
  ⟨⟨[], [some (Word.load (-1))], 0, -1, 0⟩, by decide, rfl, rfl, by decide,
    ⟨[Word.load (-1)], [some (Word.load (-1))], 0, -1, 1⟩, by decide, rfl, by decide⟩

/-- C30 (amended): in every state of the local stack reached from the new stack
by push, pop, get, dup and swap, `get(i)` of an item of the stack of the caller
(`i >= len(local)`, entry `idx = i - len(local) + global_pops` of `m_input`)
returns a value `w` and leaves that entry set to `w`: the load of the slot
`-idx-1` when the entry was not set before, the entry itself, with the stack
unchanged, when it was.  `finalize` after the `get` emits the store of `w` to
`sp - idx - 1`: an observed slot is written back, with the value loaded from
it when nothing has overwritten it.  The slots that `finalize` skips are those
below the popped ones whose entry is null, which no `get` has read. -/
theorem finalize_observed (ops : List LocalStack.Op) (s : LocalStack)
    (h : LocalStack.run ops LocalStack.fresh = some s) (i : Nat) (hi : s.m_local.length ≤ i) :
    ∃ w s1 stores, s.get i = some (w, s1) ∧ s1.finalizeStores = some stores ∧
      s1.m_local = s.m_local ∧ s1.m_globalPops = s.m_globalPops ∧
      s1.m_input[i - s.m_local.length + s.m_globalPops]? = some (some w) ∧
      ((s.m_input[i - s.m_local.length + s.m_globalPops]?).join = none →
        w = Word.load (-((i - s.m_local.length + s.m_globalPops : Nat) : Int) - 1)) ∧
      (∀ w0, s.m_input[i - s.m_local.length + s.m_globalPops]? = some (some w0) →
        w = w0 ∧ s1 = s) ∧
      (-((i - s.m_local.length + s.m_globalPops : Nat) : Int) - 1, w) ∈ stores ∧
      (∀ g : Int, g < -(s1.m_globalPops : Int) → s1.m_input[(-g - 1).toNat]? = some none →
        ∀ w1, (g, w1) ∉ stores) := by
  have hinv := LocalStack.globalPops_le_run ops _ s h (Nat.le_refl _)
  obtain ⟨w, s1, hget, hl, hp, hset, hload, hsame⟩ := LocalStack.get_input s i hi
  have hlen : i - s.m_local.length + s.m_globalPops < s1.m_input.length := by
    by_contra hc
    rw [List.getElem?_eq_none (by omega)] at hset
    cases hset
  have hinv1 : s1.m_globalPops ≤ s1.m_input.length := by omega
  have hmem := LocalStack.mem_finalizeStores s1 hinv1 _ (LocalStack.finalizeStores_eq s1 hinv1)
  refine ⟨w, s1, _, hget, LocalStack.finalizeStores_eq s1 hinv1, hl, hp, hset, hload, hsame,
    ?_, ?_⟩
  · rw [hmem]
    left
    refine ⟨by omega, by omega, ?_⟩
    have h3 : (-(-((i - s.m_local.length + s.m_globalPops : Nat) : Int) - 1) - 1).toNat =
        i - s.m_local.length + s.m_globalPops := by omega
    rw [h3]
    exact hset
  · intro g hg hnull w1 hin
    rw [hmem] at hin
    rcases hin with ⟨_, _, h3⟩ | ⟨h1, _, _⟩
    · rw [hnull] at h3
      cases h3
    · omega

/-- Witness for C30: after PUSH and two POPs, DUP6 reads the entry 6 of
`m_input`. -/
theorem finalize_observed_witness :
    ∃ s, LocalStack.run [LocalStack.Op.push (Word.value 1), LocalStack.Op.pop, LocalStack.Op.pop]
        LocalStack.fresh = some s ∧ s.m_local.length ≤ 5 ∧
    ∃ w s1 stores, s.get 5 = some (w, s1) ∧ s1.finalizeStores = some stores ∧
      s1.m_local = s.m_local ∧ s1.m_globalPops = s.m_globalPops ∧
      s1.m_input[5 - s.m_local.length + s.m_globalPops]? = some (some w) ∧
      ((s.m_input[5 - s.m_local.length + s.m_globalPops]?).join = none →
        w = Word.load (-((5 - s.m_local.length + s.m_globalPops : Nat) : Int) - 1)) ∧
      (∀ w0, s.m_input[5 - s.m_local.length + s.m_globalPops]? = some (some w0) →
        w = w0 ∧ s1 = s) ∧
      (-((5 - s.m_local.length + s.m_globalPops : Nat) : Int) - 1, w) ∈ stores ∧
      (∀ g : Int, g < -(s1.m_globalPops : Int) → s1.m_input[(-g - 1).toNat]? = some none →
        ∀ w1, (g, w1) ∉ stores) :=
  ⟨⟨[], [some (Word.load (-1))], 1, -1, 1⟩, by decide, by decide,
    finalize_observed
      [LocalStack.Op.push (Word.value 1), LocalStack.Op.pop, LocalStack.Op.pop] _ (by decide) 5
      (by decide)⟩

/-! ## The dynamic cost points -/

/-- The type of a folded binary instruction is that of its first operand. -/
theorem IRBuilder.ty_foldBin (f : Nat → Nat → Nat → Option Nat) (a b inst : Word)
    (h : inst.ty = a.ty) : (foldBin f a b inst).ty = a.ty := by
  unfold foldBin
  cases a with
  | const bits v =>
    cases b with
    | const bits2 v2 =>
      simp only [Word.constOf]
      split
      · split
        · rfl
        · exact h
      · exact h
    | _ => exact h
  | _ => exact h

theorem IRBuilder.ty_CreateAdd (a b : Word) : (CreateAdd a b).ty = a.ty :=
  ty_foldBin _ a b (Word.add a b false) rfl

theorem IRBuilder.ty_CreateNUWAdd (a b : Word) : (CreateNUWAdd a b).ty = a.ty :=
  ty_foldBin _ a b (Word.add a b true) rfl

theorem IRBuilder.ty_CreateSub (a b : Word) : (CreateSub a b).ty = a.ty :=
  ty_foldBin _ a b (Word.sub a b) rfl

theorem IRBuilder.ty_CreateNUWMul (a b : Word) : (CreateNUWMul a b).ty = a.ty :=
  ty_foldBin _ a b (Word.mul a b true) rfl

/-- The type of a folded division is that of its first operand. -/
theorem IRBuilder.ty_foldDiv (f : Nat → Nat → Nat → Option Nat) (a b inst : Word)
    (h : inst.ty = a.ty) : (foldDiv f a b inst).ty = a.ty := by
  unfold foldDiv
  cases a with
  | const bits v =>
    cases b with
    | const bits2 v2 =>
      simp only [Word.constOf]
      split
      · split
        · rfl
        · rfl
      · exact h
    | _ => exact h
  | _ => exact h

theorem IRBuilder.ty_CreateUDiv (a b : Word) : (CreateUDiv a b).ty = a.ty :=
  ty_foldDiv _ a b (Word.udiv a b) rfl

/-- The type of a cast to `iN` is `iN`. -/
theorem IRBuilder.ty_CreateTrunc (a : Word) (bits : Nat) : (CreateTrunc a bits).ty = bits := by
  unfold CreateTrunc
  split
  · assumption
  · split
    · split <;> rfl
    · split
      · split <;> rfl
      · rfl

/-- A cost of type `Gas` is passed on to `gas.check` as it is, and the meter is
left as it is. -/
theorem GasMeter.countValue_gas (g : GasMeter) (cost : Word) (h : cost.ty = 64) :
    g.countValue cost = some (g, cost) := by
  unfold GasMeter.countValue
  have hne : ¬ cost.ty = 128 := by rw [h]; decide
  simp only [if_neg hne, if_pos h]

/-- A cost of type `Word` is clamped and truncated, and the meter is left as it
is. -/
theorem GasMeter.countValue_word (g : GasMeter) (cost : Word) (h : cost.ty = 128) :
    ∃ cost64, g.countValue cost = some (g, cost64) ∧ cost64.ty = 64 := by
  unfold GasMeter.countValue
  have hty : (CreateSelect (CreateICmpUGT cost (CreateZExt Constant.gasMax 128)) Constant.gasMax
      (CreateTrunc cost 64)).ty = 64 :=
    ty_CreateSelect _ _ _ 64 rfl (ty_CreateTrunc _ _)
  simp only [if_pos h, if_pos hty]
  exact ⟨_, rfl, hty⟩

/-- The cost that `countExp` computes is of type `Gas`. -/
theorem GasMeter.countExp_eq (g : GasMeter) (sched : JITSchedule) (rev : evm_revision)
    (exponent : Word) :
    g.countExp sched rev exponent = some (g,
      CreateNUWMul
        (CreateUDiv (CreateAdd (CreateSub (getInt64 128) (CreateTrunc (Word.ctlz exponent) 64))
          (getInt64 7)) (getInt64 8))
        (getInt64 (if rev ≥ EVM_AION then 1
          else if rev ≥ EVM_SPURIOUS_DRAGON then 50 else sched.expByteGas))) := by
  unfold GasMeter.countExp
  apply GasMeter.countValue_gas
  rw [ty_CreateNUWMul, ty_CreateUDiv, ty_CreateAdd, ty_CreateSub]
  rfl

/-- The cost that `countSStore` computes is of type `Gas`. -/
theorem GasMeter.countSStore_eq (g : GasMeter) (sched : JITSchedule) (rev : evm_revision)
    (oldValue newValue : Word) (h : sched.sstoreResetGas = sched.sstoreClearGas) :
    g.countSStore sched rev oldValue newValue = some (g,
      CreateSelect
        (CreateAnd (CreateICmpEQ oldValue (Constant.get 0)) (CreateICmpNE newValue (Constant.get 0)))
        (getInt64 sched.sstoreSetGas)
        (getInt64 (if rev ≥ EVM_AION then 8000 else sched.sstoreResetGas))) := by
  unfold GasMeter.countSStore
  simp only [if_pos h]
  exact GasMeter.countValue_gas _ _ (ty_CreateSelect _ _ _ 64 rfl rfl)

/-- The cost that `countSha3Data` computes is of type `Gas`. -/
theorem GasMeter.countSha3Data_eq (g : GasMeter) (sched : JITSchedule) (dataLength : Word)
    (h : g.m_checkCall.isSome ∧ g.m_blockCost > 0 ∧ sched.sha3WordGas ≠ 1) :
    g.countSha3Data sched dataLength = some (g,
      CreateNUWMul (getInt64 sched.sha3WordGas)
        (CreateUDiv (CreateNUWAdd (CreateTrunc dataLength 64) (getInt64 31)) (getInt64 32))) := by
  unfold GasMeter.countSha3Data
  simp only [if_pos h]
  apply GasMeter.countValue_gas
  rw [ty_CreateNUWMul]
  rfl

/-- The method `countLogData` with a length of type `Word` emits its check and
leaves the meter as it is. -/
theorem GasMeter.countLogData_eq (g : GasMeter) (sched : JITSchedule) (rev : evm_revision)
    (dataLength : Word) (hty : dataLength.ty = 128)
    (h : g.m_checkCall.isSome ∧ g.m_blockCost > 0 ∧ sched.logDataGas ≠ 1) :
    ∃ cost, g.countLogData sched rev dataLength = some (g, cost) ∧ cost.ty = 64 := by
  unfold GasMeter.countLogData
  simp only [if_pos h]
  apply GasMeter.countValue_word
  rw [ty_CreateNUWMul]
  exact hty

/-- The method `pop` passes its assertion after `get(0)`. -/
theorem LocalStack.pop_some (s : LocalStack) : ∃ w s1, s.pop = some (w, s1) := by
  obtain ⟨w, s1, hg, hl, hp, _, _, _, hin⟩ := s.get_spec 0
  unfold LocalStack.pop
  rw [hg]
  dsimp only
  by_cases hc : (s1.m_local.isEmpty && s1.m_input.isEmpty) = true
  · exfalso
    simp only [Bool.and_eq_true, List.isEmpty_iff] at hc
    have h1 := hin (by rw [← hl, hc.1]; simp)
    rw [hc.2] at h1
    simp at h1
  · rw [if_neg hc]
    exact ⟨_, _, rfl⟩

/-- C26 (as stated) fails on the states that the compiler passes.  In the
block `60 01 55` (PUSH1 1, SSTORE) the case SSTORE, with the pushed word on the
local stack and the meter after `count(PUSH1)`, `count(SSTORE)`; in a block
that starts with EXP the method `countExp` after `count(EXP)`; and in a block
that starts with SHA3 the method `countSha3Data` after `count(SHA3)`: each
returns the meter with the placeholder still pending and unpatched and the
block cost (3, 10 and 30) as it is: none has committed the cost block. -/
theorem dynamicCost_counterexample :
    (∃ stack g cost,
      compileSSTORE evmSchedule EVM_FRONTIER false (fun _ => Word.value 2)
          (LocalStack.fresh.push (Word.const 128 1))
          ((GasMeter.fresh.count evmSchedule EVM_FRONTIER PUSH1).count evmSchedule EVM_FRONTIER
            SSTORE) = some (stack, g, cost) ∧
        g.m_checkCall = some 0 ∧ g.m_blockCost = 3 ∧ g.ir = [CostArg.undef]) ∧
    (∃ g cost,
      (GasMeter.fresh.count evmSchedule EVM_FRONTIER EXP).countExp evmSchedule EVM_FRONTIER
          (Word.value 0) = some (g, cost) ∧
        g.m_checkCall = some 0 ∧ g.m_blockCost = 10 ∧ g.ir = [CostArg.undef]) ∧
    (∃ g cost,
      (GasMeter.fresh.count evmSchedule EVM_FRONTIER SHA3).countSha3Data evmSchedule
          (Word.value 0) = some (g, cost) ∧
        g.m_checkCall = some 0 ∧ g.m_blockCost = 30 ∧ g.ir = [CostArg.undef]) := by
  refine ⟨⟨_, _, _, rfl, rfl, by decide, rfl⟩, ⟨_, _, GasMeter.countExp_eq _ _ _ _, rfl, by decide,
    rfl⟩, ⟨_, _, GasMeter.countSha3Data_eq _ _ _ (by decide), rfl, by decide, rfl⟩⟩

/-- C26 (amended): the dynamic cost points `countExp`, `countSStore` and
`countSha3Data` and the case SSTORE do not commit the deferred cost block.
`countExp`, `countSStore` (with `sstoreResetGas = sstoreClearGas`) and
`countSha3Data` emit their `gas.check`, with a cost of type `Gas`, and leave
`m_checkCall`, `m_blockCost` and the pending placeholder as they are;
`countSha3Data` does so exactly when a placeholder is pending with a positive
block cost (and the schedule constant is not 1), its assertions fail otherwise;
the case SSTORE outside static mode pops twice and returns the meter that it
got, and so do the cases EXP and SHA3 of the loop.  The cases GAS, CREATE and
the calls commit the deferred block. -/
theorem dynamicCost_pending (sched : JITSchedule) (rev : evm_revision) (g : GasMeter) :
    (∀ exponent, ∃ cost, g.countExp sched rev exponent = some (g, cost) ∧ cost.ty = 64) ∧
    (∀ oldValue newValue,
      (sched.sstoreResetGas = sched.sstoreClearGas →
        ∃ cost, g.countSStore sched rev oldValue newValue = some (g, cost) ∧ cost.ty = 64) ∧
      (sched.sstoreResetGas ≠ sched.sstoreClearGas →
        g.countSStore sched rev oldValue newValue = none)) ∧
    (∀ dataLength,
      ((g.m_checkCall.isSome ∧ g.m_blockCost > 0 ∧ sched.sha3WordGas ≠ 1) →
        ∃ cost, g.countSha3Data sched dataLength = some (g, cost) ∧ cost.ty = 64) ∧
      (¬ (g.m_checkCall.isSome ∧ g.m_blockCost > 0 ∧ sched.sha3WordGas ≠ 1) →
        g.countSha3Data sched dataLength = none)) ∧
    (∀ oldValue stack, sched.sstoreResetGas = sched.sstoreClearGas →
      ∃ index stack1 value stack2 cost,
        stack.pop = some (index, stack1) ∧ stack1.pop = some (value, stack2) ∧
        compileSSTORE sched rev false oldValue stack g = some (stack2, g, cost) ∧
        g.countSStore sched rev (oldValue index) value = some (g, cost)) ∧
    (∀ inst, (inst = GAS ∨ inst = CREATE ∨
        [CALL, CALLCODE, DELEGATECALL, STATICCALL].contains inst) →
      gasCase sched inst g = g.commitCostBlock) ∧
    (∀ inst g1, inst = EXP ∨ inst = SHA3 ∨ inst = SSTORE →
      gasCase sched inst g = some g1 → g1 = g) := by
  refine ⟨?_, ?_, ?_, ?_, ?_, ?_⟩
  · intro exponent
    refine ⟨_, GasMeter.countExp_eq g sched rev exponent, ?_⟩
    rw [ty_CreateNUWMul, ty_CreateUDiv, ty_CreateAdd, ty_CreateSub]
    rfl
  · intro oldValue newValue
    constructor
    · intro h
      exact ⟨_, GasMeter.countSStore_eq g sched rev oldValue newValue h,
        ty_CreateSelect _ _ _ 64 rfl rfl⟩
    · intro h
      unfold GasMeter.countSStore
      simp only [if_neg h]
  · intro dataLength
    constructor
    · intro h
      refine ⟨_, GasMeter.countSha3Data_eq g sched dataLength h, ?_⟩
      rw [ty_CreateNUWMul]
      rfl
    · intro h
      unfold GasMeter.countSha3Data
      simp only [if_neg h]
  · intro oldValue stack h
    obtain ⟨index, stack1, h1⟩ := stack.pop_some
    obtain ⟨value, stack2, h2⟩ := stack1.pop_some
    refine ⟨index, stack1, value, stack2, _, h1, h2, ?_,
      GasMeter.countSStore_eq g sched rev (oldValue index) value h⟩
    unfold compileSSTORE
    simp only [Bool.false_eq_true, if_false, h1, h2, Option.some_bind,
      GasMeter.countSStore_eq g sched rev (oldValue index) value h, Option.map_some']
  · intro inst h
    unfold gasCase
    rw [if_pos h]
  · intro inst g1 h hg
    unfold gasCase at hg
    rcases h with h | h | h
    · subst h
      exact (Option.some.inj hg).symm
    · subst h
      rw [if_neg (by decide), if_pos rfl] at hg
      split at hg
      · exact (Option.some.inj hg).symm
      · cases hg
    · subst h
      rw [if_neg (by decide), if_neg (by decide), if_neg (by decide), if_pos rfl] at hg
      split at hg
      · exact (Option.some.inj hg).symm
      · cases hg

/-- The constant `getInt64(n)` of a natural number. -/
theorem IRBuilder.eval_getInt64_nat (env : EvalEnv) (n : Nat) :
    (getInt64 (n : Int)).eval env = some ⟨64, n % 2 ^ 64⟩ := by
  have h : ((n : Int) % 2 ^ 64).toNat = n % 2 ^ 64 := by
    have h1 : (n : Int) % 2 ^ 64 = ((n % 2 ^ 64 : Nat) : Int) := by push_cast; rfl
    rw [h1, Int.toNat_ofNat]
  simp only [getInt64, Word.eval, h, Nat.mod_mod]

/-- The number of significant bytes that `countExp` computes from the
exponent. -/
theorem eval_sigBytes (env : EvalEnv) {e : Word} {v : Nat} (he : e.eval env = some ⟨128, v⟩) :
    (Word.ctlz e).eval env = some ⟨128, 128 - Nat.size v⟩ ∧
    (CreateUDiv (CreateAdd (CreateSub (getInt64 128) (CreateTrunc (Word.ctlz e) 64)) (getInt64 7))
      (getInt64 8)).eval env = some ⟨64, (Nat.size v + 7) / 8⟩ := by
  have hv : v < 2 ^ 128 := Word.eval_lt he
  have hsz : Nat.size v ≤ 128 := Nat.size_le.mpr hv
  have h1 : (Word.ctlz e).eval env = some ⟨128, 128 - Nat.size v⟩ := by
    have hm : (128 - Nat.size v) % 2 ^ 128 = 128 - Nat.size v :=
      Nat.mod_eq_of_lt (lt_of_le_of_lt (Nat.sub_le _ _) (by decide))
    simp only [Word.eval, he, hm]
  have h2 : (CreateTrunc (Word.ctlz e) 64).eval env = some ⟨64, 128 - Nat.size v⟩ := by
    rw [eval_trunc_some env 64 h1 (by decide)]
    have hm : (128 - Nat.size v) % 2 ^ 64 = 128 - Nat.size v :=
      Nat.mod_eq_of_lt (lt_of_le_of_lt (Nat.sub_le _ _) (by decide))
    rw [hm]
  have h3 : (getInt64 128).eval env = some ⟨64, 128⟩ := eval_getInt64_nat env 128
  have h4 : (CreateSub (getInt64 128) (CreateTrunc (Word.ctlz e) 64)).eval env =
      some ⟨64, Nat.size v⟩ := by
    rw [eval_CreateSub, h3, h2, Word.binop_some]
    have hm : (128 + 2 ^ 64 - (128 - Nat.size v)) % 2 ^ 64 = Nat.size v := by omega
    simp only [Word.subOp, Option.getD_some, hm]
  have h5 : (CreateAdd (CreateSub (getInt64 128) (CreateTrunc (Word.ctlz e) 64))
      (getInt64 7)).eval env = some ⟨64, Nat.size v + 7⟩ := by
    rw [eval_CreateAdd, h4, eval_getInt64_seven, Word.binop_some]
    have hm : (Nat.size v + 7) % 2 ^ 64 = Nat.size v + 7 := by omega
    simp only [Word.addOp, Option.getD_some, hm]
  refine ⟨h1, ?_⟩
  have hm : (Nat.size v + 7) / 8 % 2 ^ 64 = (Nat.size v + 7) / 8 := by omega
  rw [eval_CreateUDiv env h5 (eval_getInt64_eight env) (by decide), hm]

/-- The number of significant bytes of a value: the least `k` with
`v < 256^k`. -/
theorem sigBytes_least (v k : Nat) : v < 256 ^ k ↔ (Nat.size v + 7) / 8 ≤ k := by
  have h : (256 : Nat) ^ k = 2 ^ (8 * k) := by
    rw [pow_mul]
    rfl
  rw [h, ← Nat.size_le]
  omega

/-- C27: for every exponent of type `Word` with the value `e`, `countExp` emits
its `gas.check` and leaves the meter as it is, and the cost of the check is
`p * k`: `k = (size(e) + 7) / 8` with `size(e)` the number of significant bits
of `e`, that is 128 minus the count of leading zeros that `llvm.ctlz` returns,
so `k` is the least number with `128 - clz(e) <= 8 k` and the least with
`e < 256^k` (0 for `e = 0`, 16 for `e >= 2^120`); `p` is 1 for a revision from
AION on, 50 from SPURIOUS_DRAGON up to AION, and the schedule value
`expByteGas` (10) below; the product does not wrap when 16 times the schedule
value is below `2^64`. -/
theorem countExp_spec (sched : JITSchedule) (rev : evm_revision) (g : GasMeter) (env : EvalEnv)
    (e : Word) (v : Nat) (he : e.eval env = some ⟨128, v⟩)
    (hs : sched.expByteGas * 16 < 2 ^ 64) :
    ∃ cost, g.countExp sched rev e = some (g, cost) ∧
      cost.eval env = some ⟨64,
        (if rev ≥ EVM_AION then 1
         else if rev ≥ EVM_SPURIOUS_DRAGON then 50 else sched.expByteGas) *
          ((Nat.size v + 7) / 8)⟩ ∧
      (Word.ctlz e).eval env = some ⟨128, 128 - Nat.size v⟩ ∧
      (∀ n, v < 2 ^ n ↔ Nat.size v ≤ n) ∧
      (∀ k, (Nat.size v + 7) / 8 ≤ k ↔ 128 - (128 - Nat.size v) ≤ 8 * k) ∧
      (∀ k, (Nat.size v + 7) / 8 ≤ k ↔ v < 256 ^ k) ∧
      (v = 0 → (Nat.size v + 7) / 8 = 0) ∧
      (2 ^ 120 ≤ v → (Nat.size v + 7) / 8 = 16) ∧
      evmSchedule.expByteGas = 10 := by
  have hv : v < 2 ^ 128 := Word.eval_lt he
  have hsz : Nat.size v ≤ 128 := Nat.size_le.mpr hv
  obtain ⟨h1, h2⟩ := eval_sigBytes env he
  refine ⟨_, GasMeter.countExp_eq g sched rev e, ?_, h1, fun n => Nat.size_le.symm, ?_,
    fun k => (sigBytes_least v k).symm, ?_, ?_, rfl⟩
  · have hp : (if rev ≥ EVM_AION then (1 : Int)
        else if rev ≥ EVM_SPURIOUS_DRAGON then 50 else (sched.expByteGas : Int)) =
        ((if rev ≥ EVM_AION then 1
          else if rev ≥ EVM_SPURIOUS_DRAGON then 50 else sched.expByteGas : Nat) : Int) := by
      split
      · rfl
      · split <;> rfl
    rw [hp, eval_CreateNUWMul, h2, eval_getInt64_nat, Word.binop_some]
    have hk : (Nat.size v + 7) / 8 ≤ 16 := by omega
    have hpb : (if rev ≥ EVM_AION then 1
        else if rev ≥ EVM_SPURIOUS_DRAGON then 50 else sched.expByteGas) * 16 < 2 ^ 64 := by
      split
      · decide
      · split
        · decide
        · exact hs
    generalize (if rev ≥ EVM_AION then 1
        else if rev ≥ EVM_SPURIOUS_DRAGON then 50 else sched.expByteGas) = p at hpb ⊢
    have hlt : p * ((Nat.size v + 7) / 8) < 2 ^ 64 :=
      lt_of_le_of_lt (Nat.mul_le_mul_left p hk) hpb
    have hp64 : p % 2 ^ 64 = p := Nat.mod_eq_of_lt (by omega)
    have hm : ((Nat.size v + 7) / 8 * p) % 2 ^ 64 = p * ((Nat.size v + 7) / 8) := by
      rw [Nat.mul_comm]
      exact Nat.mod_eq_of_lt hlt
    simp only [Word.mulOp, Option.getD_some, hp64, hm]
  · intro k
    omega
  · intro h0
    rw [h0, Nat.size_zero]
  · intro h120
    have h3 : ¬ Nat.size v ≤ 120 := by
      rw [Nat.size_le]
      omega
    omega

/-- Witness for C27: the exponent 256 (two significant bytes) before
SPURIOUS_DRAGON. -/
theorem countExp_spec_witness :
    ∃ cost, GasMeter.fresh.countExp evmSchedule EVM_FRONTIER (Word.const 128 256) =
        some (GasMeter.fresh, cost) ∧
      cost.eval ⟨fun _ => 0, fun _ => 0, fun _ _ => 0⟩ = some ⟨64,
        (if EVM_FRONTIER ≥ EVM_AION then 1
         else if EVM_FRONTIER ≥ EVM_SPURIOUS_DRAGON then 50 else evmSchedule.expByteGas) *
          ((Nat.size 256 + 7) / 8)⟩ ∧
      (Word.ctlz (Word.const 128 256)).eval ⟨fun _ => 0, fun _ => 0, fun _ _ => 0⟩ =
        some ⟨128, 128 - Nat.size 256⟩ ∧
      (∀ n, 256 < 2 ^ n ↔ Nat.size 256 ≤ n) ∧
      (∀ k, (Nat.size 256 + 7) / 8 ≤ k ↔ 128 - (128 - Nat.size 256) ≤ 8 * k) ∧
      (∀ k, (Nat.size 256 + 7) / 8 ≤ k ↔ 256 < 256 ^ k) ∧
      ((256 : Nat) = 0 → (Nat.size 256 + 7) / 8 = 0) ∧
      (2 ^ 120 ≤ 256 → (Nat.size 256 + 7) / 8 = 16) ∧
      evmSchedule.expByteGas = 10 :=
  countExp_spec evmSchedule EVM_FRONTIER GasMeter.fresh ⟨fun _ => 0, fun _ => 0, fun _ _ => 0⟩
    (Word.const 128 256) 256 (by decide) (by decide)

/-- The cost that `countSha3Data` computes, for every length of type `Word`:
the length is truncated to 64 bits, and the sum and the product wrap at
`2^64`. -/
theorem eval_sha3Cost (env : EvalEnv) (sha3WordGas : Nat) {len : Word} {v : Nat}
    (hl : len.eval env = some ⟨128, v⟩) :
    (CreateNUWMul (getInt64 sha3WordGas)
      (CreateUDiv (CreateNUWAdd (CreateTrunc len 64) (getInt64 31)) (getInt64 32))).eval env =
      some ⟨64, (sha3WordGas % 2 ^ 64 * ((v % 2 ^ 64 + 31) % 2 ^ 64 / 32)) % 2 ^ 64⟩ := by
  have h1 : (CreateTrunc len 64).eval env = some ⟨64, v % 2 ^ 64⟩ :=
    eval_trunc_some env 64 hl (by decide)
  have h31 : (getInt64 31).eval env = some ⟨64, 31⟩ := eval_getInt64_nat env 31
  have h32 : (getInt64 32).eval env = some ⟨64, 32⟩ := eval_getInt64_nat env 32
  have h2 : (CreateNUWAdd (CreateTrunc len 64) (getInt64 31)).eval env =
      some ⟨64, (v % 2 ^ 64 + 31) % 2 ^ 64⟩ := by
    rw [eval_CreateNUWAdd, h1, h31, Word.binop_some]
    simp only [Word.addOp, Option.getD_some]
  have h3 : (CreateUDiv (CreateNUWAdd (CreateTrunc len 64) (getInt64 31)) (getInt64 32)).eval env =
      some ⟨64, (v % 2 ^ 64 + 31) % 2 ^ 64 / 32⟩ := by
    have hm : (v % 2 ^ 64 + 31) % 2 ^ 64 / 32 % 2 ^ 64 = (v % 2 ^ 64 + 31) % 2 ^ 64 / 32 := by
      omega
    rw [eval_CreateUDiv env h2 h32 (by decide), hm]
  rw [eval_CreateNUWMul, eval_getInt64_nat, h3, Word.binop_some]
  simp only [Word.mulOp, Option.getD_some]

/-- C28 (as stated) fails for the length `2^64`: the truncation to 64 bits
gives 0, and the cost is 0, not `ceil(2^64 / 32) * sha3WordGas = 2^59 * 6`. -/
theorem countSha3Data_counterexample :
    (Word.value 0).eval ⟨fun _ => 2 ^ 64, fun _ => 0, fun _ _ => 0⟩ = some ⟨128, 2 ^ 64⟩ ∧
    (∃ cost,
      (GasMeter.fresh.count evmSchedule EVM_FRONTIER SHA3).countSha3Data evmSchedule
          (Word.value 0) = some (GasMeter.fresh.count evmSchedule EVM_FRONTIER SHA3, cost) ∧
        cost.eval ⟨fun _ => 2 ^ 64, fun _ => 0, fun _ _ => 0⟩ = some ⟨64, 0⟩) ∧
    (2 ^ 64 + 31) / 32 * evmSchedule.sha3WordGas = 2 ^ 59 * 6 := by
  refine ⟨by decide, ⟨_, GasMeter.countSha3Data_eq _ _ _ (by decide), ?_⟩, by decide⟩
  rw [eval_sha3Cost _ _ (by decide : (Word.value 0).eval _ = some ⟨128, 2 ^ 64⟩)]
  decide

/-- C28 (amended): for every data length of type `Word` with a value `len` such
that `len + 31 < 2^64` and the product below is less than `2^64`, on a meter
with a placeholder pending and a positive block cost (and `sha3WordGas` not 1,
the assertions of the method), `countSha3Data` leaves the meter as it is and
passes to `gas.check` the cost `sha3WordGas * ceil(len / 32)`, where
`ceil(len / 32) = (len + 31) / 32` is the least `k` with `len <= 32 k`.  For
other lengths the cost is computed from `len mod 2^64`, with the sum and the
product taken modulo `2^64`. -/
theorem countSha3Data_spec (sched : JITSchedule) (g : GasMeter) (env : EvalEnv) (len : Word)
    (v : Nat) (hl : len.eval env = some ⟨128, v⟩)
    (hg : g.m_checkCall.isSome ∧ g.m_blockCost > 0 ∧ sched.sha3WordGas ≠ 1)
    (hv : v + 31 < 2 ^ 64) (hp : sched.sha3WordGas * ((v + 31) / 32) < 2 ^ 64) :
    ∃ cost, g.countSha3Data sched len = some (g, cost) ∧
      cost.eval env = some ⟨64, sched.sha3WordGas * ((v + 31) / 32)⟩ ∧
      (∀ k, (v + 31) / 32 ≤ k ↔ v ≤ 32 * k) := by
  refine ⟨_, GasMeter.countSha3Data_eq g sched len hg, ?_, fun k => by omega⟩
  rw [eval_sha3Cost env _ hl]
  have h1 : v % 2 ^ 64 = v := Nat.mod_eq_of_lt (by omega)
  have h2 : (v + 31) % 2 ^ 64 = v + 31 := Nat.mod_eq_of_lt hv
  rw [h1, h2, Nat.mod_mul_mod, Nat.mod_eq_of_lt hp]

/-- Witness for C28: the length 33 (two words) after `count(SHA3)`. -/
theorem countSha3Data_spec_witness :
    ∃ cost,
      (GasMeter.fresh.count evmSchedule EVM_FRONTIER SHA3).countSha3Data evmSchedule
          (Word.const 128 33) = some (GasMeter.fresh.count evmSchedule EVM_FRONTIER SHA3, cost) ∧
      cost.eval ⟨fun _ => 0, fun _ => 0, fun _ _ => 0⟩ =
        some ⟨64, evmSchedule.sha3WordGas * ((33 + 31) / 32)⟩ ∧
      (∀ k, (33 + 31) / 32 ≤ k ↔ 33 ≤ 32 * k) :=
  countSha3Data_spec evmSchedule (GasMeter.fresh.count evmSchedule EVM_FRONTIER SHA3)
    ⟨fun _ => 0, fun _ => 0, fun _ _ => 0⟩ (Word.const 128 33) 33 (by decide) (by decide)
    (by decide) (by decide)

/-! ## The terminators of a block -/

theorem SplitTermInv.term_init (code : Bytecode) :
    SplitTermInv code { curr := 0, begin := 0, isDead := false, blocks := [] } := by
  refine ⟨?_, ?_⟩
  · intro _ q _ _ h2
    exact absurd h2 (Nat.not_lt_zero _)
  · intro b hb; simp at hb

theorem SplitTermInv.term_step (code : Bytecode) (s : SplitState) (hlt : s.curr < code.length)
    (hs : SplitInv code s) (h : SplitTermInv code s) :
    SplitTermInv code (createBasicBlocksBody code s) := by
  have hgt := skipPushDataAndGetNext_gt code s.curr
  have hc := hs.curr_mem hlt
  have hbb := hs.blockBegin_le
  -- a decoded instruction before `next` is at or before `curr`
  have hbefore : ∀ q ∈ instrStarts code, q < skipPushDataAndGetNext code s.curr → q ≤ s.curr := by
    intro q hq h1
    by_cases h2 : s.curr < q
    · have := instrStarts_skip_le hc hq h2
      omega
    · omega
  -- the instructions of the current block before `curr` end no block
  have hinside : ∀ q ∈ instrStarts code, blockBegin s ≤ q → q < s.curr →
      setsDead (byteAt code q) = false ∧ byteAt code q ≠ JUMPI := by
    intro q hq h1 h2
    by_cases hd : s.isDead = true
    · unfold blockBegin at h1
      rw [if_pos hd] at h1
      omega
    · have hd : s.isDead = false := by simpa using hd
      unfold blockBegin at h1
      rw [hd] at h1
      exact h.live_no_term hd q hq h1 h2
  rcases createBasicBlocksBody_cases code s with
    ⟨hd, _, he⟩ | ⟨_, _, he⟩ | ⟨_, h1, h2, _, _, he⟩ <;> rw [he]
  · refine ⟨?_, h.blk_term_last⟩
    intro hf
    dsimp only at hf
    rw [hd] at hf
    exact absurd hf (by decide)
  · refine ⟨?_, ?_⟩
    · intro _ q _ h1 h2
      dsimp only at h1 h2
      omega
    · intro b hb q hq h1 h2 h3
      dsimp only at hb
      rcases List.mem_append.mp hb with hb | hb
      · exact h.blk_term_last b hb q hq h1 h2 h3
      · obtain rfl := List.mem_singleton.mp hb
        dsimp only at h1 h2 ⊢
        have hle := hbefore q hq h2
        by_cases hqc : q = s.curr
        · rw [hqc]
        · have h4 := hinside q hq h1 (by omega)
          rcases h3 with h3 | h3
          · rw [h4.1] at h3; exact absurd h3 (by decide)
          · exact absurd h3 h4.2
  · refine ⟨?_, h.blk_term_last⟩
    intro _ q hq h3 h4
    dsimp only at h3 h4
    have hle := hbefore q hq h4
    by_cases hqc : q = s.curr
    · rw [hqc]; exact ⟨h1, h2⟩
    · exact hinside q hq h3 (by omega)

/-- In a block of `createBasicBlocks` an instruction that sets `isDead` or is
JUMPI is the last instruction. -/
theorem createBasicBlocks_term_last (code : Bytecode) :
    ∀ b ∈ createBasicBlocks code, ∀ q ∈ instrStarts code, b.m_begin ≤ q → q < b.m_end →
      (setsDead (byteAt code q) = true ∨ byteAt code q = JUMPI) →
      skipPushDataAndGetNext code q = b.m_end := by
  obtain ⟨s, _, ⟨_, ht⟩, he⟩ := createBasicBlocks_inv code
    (fun s => SplitInv code s ∧ SplitTermInv code s)
    ⟨SplitInv.shape_init code, SplitTermInv.term_init code⟩
    (fun s hlt h => ⟨SplitInv.shape_step code s hlt h.1,
      SplitTermInv.term_step code s hlt h.1 h.2⟩)
  rw [he]
  exact ht.blk_term_last

/-- At the end of the block the loop of `compileBasicBlock` stops. -/
theorem compileTermLoop_end (code : Bytecode) (rev : evm_revision) (staticCall : Bool)
    (b : BasicBlock) (fuel : Nat) (terms : List EmittedTerm) :
    compileTermLoop code rev staticCall b fuel b.m_end terms = some terms := by
  cases fuel with
  | zero => rw [compileTermLoop, if_pos rfl]
  | succ n => rw [compileTermLoop, if_pos rfl]

/-- While no terminator is emitted, the loop of `compileBasicBlock` goes on to
the end of the block and emits at most one. -/
theorem compileTermLoop_le_one (code : Bytecode) (rev : evm_revision) (staticCall : Bool)
    (b : BasicBlock) (hb : BlockOK code b)
    (hterm : ∀ q ∈ instrStarts code, b.m_begin ≤ q → q < b.m_end →
      (setsDead (byteAt code q) = true ∨ byteAt code q = JUMPI) →
      skipPushDataAndGetNext code q = b.m_end) :
    ∀ (fuel it : Nat), (it ∈ instrStarts code ∨ it = b.m_end) →
      b.m_begin ≤ it → it ≤ b.m_end → b.m_end - it ≤ fuel →
      ∃ terms, compileTermLoop code rev staticCall b fuel it [] = some terms ∧
        terms.length ≤ 1 := by
  intro fuel
  induction fuel with
  | zero =>
    intro it _ _ h3 h4
    have : it = b.m_end := by omega
    rw [this]
    exact ⟨[], compileTermLoop_end code rev staticCall b 0 [], by simp⟩
  | succ n ih =>
    intro it h1 h2 h3 h4
    by_cases he : it = b.m_end
    · rw [he]
      exact ⟨[], compileTermLoop_end code rev staticCall b _ [], by simp⟩
    · have hit : it ∈ instrStarts code := by
        rcases h1 with h | h
        · exact h
        · exact absurd h he
      have hlt : it < b.m_end := by omega
      have hgt := skipPushDataAndGetNext_gt code it
      obtain ⟨hsk1, hsk2⟩ := hb.skip hit hlt
      have hend : b.m_end - 1 + 1 = b.m_end := by omega
      unfold compileTermLoop
      rw [if_neg he]
      dsimp only
      by_cases hp : isAnyPush (byteAt code it) = true
      · rw [if_pos hp, readPushData_succ code it b.m_end hp hsk1 hb.end_le]
        exact ih _ hsk2 (by omega) hsk1 (by omega)
      · rw [if_neg hp]
        have hnp : ¬ (PUSH1 ≤ byteAt code it ∧ byteAt code it ≤ PUSH32) := by
          simpa [isAnyPush] using hp
        have hsk := skipPushDataAndGetNext_of_not_push code it hnp
        have hlast : (setsDead (byteAt code it) = true ∨ byteAt code it = JUMPI) →
            it + 1 = b.m_end := by
          intro ht
          rw [← hsk]
          exact hterm it hit h2 hlt ht
        by_cases hinv : reachesInvalidInstruction rev staticCall (byteAt code it) = true
        · rw [if_pos hinv, hend, compileTermLoop_end]
          exact ⟨_, rfl, by simp⟩
        · rw [if_neg hinv]
          by_cases hj : byteAt code it = JUMP
          · rw [if_pos hj, hlast (Or.inl (by rw [hj]; decide)), compileTermLoop_end]
            exact ⟨_, rfl, by simp⟩
          · rw [if_neg hj]
            by_cases hji : byteAt code it = JUMPI
            · rw [if_pos hji, hlast (Or.inr hji), compileTermLoop_end]
              exact ⟨_, rfl, by simp⟩
            · rw [if_neg hji]
              by_cases hjd : byteAt code it = JUMPDEST
              · rw [if_pos hjd]
                have hbeg : it = b.m_begin := by
                  by_contra hne
                  exact hb.no_jd it hit (by omega) hlt hjd
                rw [if_pos hbeg, ← hsk]
                exact ih _ hsk2 (by omega) hsk1 (by omega)
              · rw [if_neg hjd]
                by_cases hr : byteAt code it = RETURN
                · rw [if_pos hr, hlast (Or.inl (by rw [hr]; decide)), compileTermLoop_end]
                  exact ⟨_, rfl, by simp⟩
                · rw [if_neg hr]
                  by_cases hrv : byteAt code it = REVERT
                  · rw [if_pos hrv, hlast (Or.inl (by rw [hrv]; decide)), compileTermLoop_end]
                    exact ⟨_, rfl, by simp⟩
                  · rw [if_neg hrv]
                    by_cases hs : byteAt code it = SELFDESTRUCT ∨ byteAt code it = STOP
                    · have hd : setsDead (byteAt code it) = true := by
                        rcases hs with hs | hs <;> rw [hs] <;> decide
                      rw [if_pos hs, hlast (Or.inl hd), compileTermLoop_end]
                      exact ⟨_, rfl, by simp⟩
                    · rw [if_neg hs, ← hsk]
                      exact ih _ hsk2 (by omega) hsk1 (by omega)

/-- C36: for every bytecode and every block of `createBasicBlocks`, a JUMP,
JUMPI, RETURN, REVERT, STOP or SELFDESTRUCT at an instruction boundary of the
block is the last instruction of the block (the next boundary, one byte on, is
the end of the block); and for every revision and call mode the loop of
`compileBasicBlock` over the block ends, having emitted at most one terminator
(a branch, a conditional branch, or the exit of a return code, that of
`invalidInstruction` included). -/
theorem terminator_last (code : Bytecode) :
    (∀ b ∈ createBasicBlocks code, ∀ q ∈ instrStarts code, b.m_begin ≤ q → q < b.m_end →
      (byteAt code q = JUMP ∨ byteAt code q = JUMPI ∨ byteAt code q = RETURN ∨
        byteAt code q = REVERT ∨ byteAt code q = STOP ∨ byteAt code q = SELFDESTRUCT) →
      skipPushDataAndGetNext code q = b.m_end ∧ q + 1 = b.m_end) ∧
    (∀ rev staticCall, ∀ b ∈ createBasicBlocks code,
      ∃ terms, compileBasicBlockTerm code rev staticCall b = some terms ∧ terms.length ≤ 1) := by
  refine ⟨?_, ?_⟩
  · intro b hb q hq h1 h2 h3
    have h4 : setsDead (byteAt code q) = true ∨ byteAt code q = JUMPI := by
      rcases h3 with h | h | h | h | h | h
      · left; rw [h]; decide
      · right; exact h
      · left; rw [h]; decide
      · left; rw [h]; decide
      · left; rw [h]; decide
      · left; rw [h]; decide
    have h5 := createBasicBlocks_term_last code b hb q hq h1 h2 h4
    refine ⟨h5, ?_⟩
    have hnp : ¬ (PUSH1 ≤ byteAt code q ∧ byteAt code q ≤ PUSH32) := by
      rcases h3 with h | h | h | h | h | h <;> rw [h] <;> decide
    rw [← h5, skipPushDataAndGetNext_of_not_push code q hnp]
  · intro rev staticCall b hb
    have hok := createBasicBlocks_blockOK code b hb
    unfold compileBasicBlockTerm
    exact compileTermLoop_le_one code rev staticCall b hok
      (createBasicBlocks_term_last code b hb) _ _ (Or.inl hok.begin_start) (Nat.le_refl _)
      (Nat.le_of_lt hok.nonempty) (Nat.le_refl _)

/-! ## The swap of the local stack -/

/-- The entries that `resize` adds are null: the set entries stay the same. -/
theorem LocalStack.join_resize (input : List (Option Word)) (n k : Nat)
    (h : input.length ≤ n) :
    ((LocalStack.resize input n)[k]?).join = (input[k]?).join := by
  unfold LocalStack.resize
  rw [List.getElem?_take]
  by_cases hk : k < input.length
  · rw [if_pos (by omega), List.getElem?_append_left hk]
  · rw [List.getElem?_eq_none (l := input) (by omega)]
    split
    · rw [List.getElem?_append_right (by omega), List.getElem?_replicate]
      split <;> rfl
    · rfl

/-- The set entries after one entry is set. -/
theorem LocalStack.join_set (input : List (Option Word)) (i k : Nat) (w : Word)
    (h : i < input.length) :
    ((input.set i (some w))[k]?).join = if k = i then some w else (input[k]?).join := by
  rw [List.getElem?_set]
  by_cases hk : k = i
  · rw [if_pos hk.symm, if_pos h, if_pos hk]
    rfl
  · rw [if_neg (fun h1 => hk h1.symm), if_neg hk]

/-- The method `get` returns the value `peek`, and changes no value that a
later `get` returns. -/
theorem LocalStack.get_peek (s : LocalStack) (index : Nat) :
    ∃ s1, s.get index = some (s.peek index, s1) ∧ s1.m_local = s.m_local ∧
      s1.m_globalPops = s.m_globalPops ∧ (∀ k, s1.peek k = s.peek k) ∧
      (s.m_local.length ≤ index →
        index - s.m_local.length + s.m_globalPops < s1.m_input.length) := by
  unfold LocalStack.get
  by_cases h : index < s.m_local.length
  · rw [if_pos h]
    have hlt : s.m_local.length - 1 - index < s.m_local.length := by omega
    have hp : s.peek index = s.m_local[s.m_local.length - 1 - index] := by
      unfold LocalStack.peek
      rw [if_pos h, List.getElem?_eq_getElem hlt]
      rfl
    rw [List.getElem?_eq_getElem hlt, hp]
    exact ⟨s, rfl, rfl, rfl, fun _ => rfl, fun h1 => by omega⟩
  · rw [if_neg h]
    dsimp only
    have hp : s.peek index =
        ((s.m_input[index - s.m_local.length + s.m_globalPops]?).join).getD
          (Word.load (-((index - s.m_local.length + s.m_globalPops : Nat) : Int) - 1)) := by
      unfold LocalStack.peek
      rw [if_neg h]
    rw [hp]
    generalize hidx : index - s.m_local.length + s.m_globalPops = idx
    generalize hin : (if idx ≥ s.m_input.length then LocalStack.resize s.m_input (idx + 1)
      else s.m_input) = input
    have hlen : idx < input.length := by
      rw [← hin]
      split
      · rw [LocalStack.length_resize]; omega
      · omega
    have hjoin : ∀ k : Nat, (input[k]?).join = (s.m_input[k]?).join := by
      intro k
      rw [← hin]
      split
      · exact LocalStack.join_resize _ _ _ (by omega)
      · rfl
    -- the values of `peek` in a state that differs in `m_input` only
    have hpeek : ∀ (input1 : List (Option Word)) (m : Int) (k : Nat),
        (∀ j : Nat, (input1[j]?).join.getD (Word.load (-(j : Int) - 1)) =
          (s.m_input[j]?).join.getD (Word.load (-(j : Int) - 1))) →
        LocalStack.peek { s with m_input := input1, m_minSize := m } k = s.peek k := by
      intro input1 m k hj
      unfold LocalStack.peek
      dsimp only
      split
      · rfl
      · exact hj _
    rw [List.getElem?_eq_getElem hlen]
    cases hitem : input[idx] with
    | some item =>
      have h1 : (s.m_input[idx]?).join = some item := by
        rw [← hjoin, List.getElem?_eq_getElem hlen, hitem]
        rfl
      rw [h1]
      refine ⟨_, rfl, rfl, rfl, ?_, fun _ => hlen⟩
      intro k
      exact hpeek input s.m_minSize k (fun j => by rw [hjoin])
    | none =>
      have h1 : (s.m_input[idx]?).join = none := by
        rw [← hjoin, List.getElem?_eq_getElem hlen, hitem]
        rfl
      rw [h1]
      refine ⟨_, rfl, rfl, rfl, ?_, fun _ => by rw [List.length_set]; exact hlen⟩
      intro k
      refine hpeek _ _ k (fun j => ?_)
      rw [LocalStack.join_set _ _ _ _ hlen]
      by_cases hj : j = idx
      · rw [if_pos hj, hj, h1]
        rfl
      · rw [if_neg hj, hjoin]

/-- The method `set` passes its assertion when the entry exists, and changes the
value that `get` returns for its index only. -/
theorem LocalStack.set_peek (s : LocalStack) (index : Nat) (w : Word)
    (h : s.m_local.length ≤ index →
      index - s.m_local.length + s.m_globalPops < s.m_input.length) :
    ∃ s1, s.set index w = some s1 ∧ s1.m_local.length = s.m_local.length ∧
      s1.m_globalPops = s.m_globalPops ∧ s1.m_input.length = s.m_input.length ∧
      ∀ k, s1.peek k = if k = index then w else s.peek k := by
  unfold LocalStack.set
  by_cases h1 : index < s.m_local.length
  · rw [if_pos h1]
    refine ⟨_, rfl, by simp, rfl, rfl, ?_⟩
    intro k
    unfold LocalStack.peek
    simp only [List.length_set]
    by_cases hk : k < s.m_local.length
    · rw [if_pos hk, if_pos hk, List.getElem?_set]
      by_cases hki : k = index
      · rw [if_pos (by omega), if_pos (by omega), if_pos hki]
        rfl
      · rw [if_neg (by omega), if_neg hki]
    · rw [if_neg hk, if_neg hk, if_neg (by omega)]
  · rw [if_neg h1]
    dsimp only
    have h2 := h (by omega)
    rw [if_pos h2]
    refine ⟨_, rfl, rfl, rfl, by simp, ?_⟩
    intro k
    unfold LocalStack.peek
    dsimp only
    by_cases hk : k < s.m_local.length
    · rw [if_pos hk, if_neg (by omega), if_pos hk]
    · rw [if_neg hk, LocalStack.join_set _ _ _ _ h2]
      by_cases hki : k = index
      · rw [if_pos (by omega), if_pos hki]
        rfl
      · rw [if_neg (by omega), if_neg hki, if_neg hk]

/-- The value that `get` returns, as `peek`. -/
theorem LocalStack.get_fst (s : LocalStack) (index : Nat) :
    (s.get index).map Prod.fst = some (s.peek index) := by
  obtain ⟨s1, h, _⟩ := s.get_peek index
  rw [h]
  rfl

/-- C31: for every state of the local stack and every `i >= 1`, `swap(i)`
passes all its assertions (the two `set` find their entry, which the `get`
before has filled), and afterwards `get(0)` returns the value that `get(i)`
returned before, `get(i)` the value that `get(0)` returned before, `get(j)`
the same value as before for every other `j`; the length of `m_local` and
`m_globalPops` are unchanged. -/
theorem swap_spec (s : LocalStack) (i : Nat) (hi : 1 ≤ i) :
    ∃ a b t1 t2 t3 s1,
      s.get i = some (a, t1) ∧ t1.get 0 = some (b, t2) ∧ t2.set i b = some t3 ∧
      t3.set 0 a = some s1 ∧ s.swap i = some s1 ∧
      (s.get 0).map Prod.fst = some b ∧
      (s1.get 0).map Prod.fst = some a ∧ (s1.get i).map Prod.fst = some b ∧
      (∀ j, j ≠ 0 → j ≠ i → (s1.get j).map Prod.fst = (s.get j).map Prod.fst) ∧
      s1.m_local.length = s.m_local.length ∧ s1.m_globalPops = s.m_globalPops ∧
      (t2.m_local.length ≤ i → i - t2.m_local.length + t2.m_globalPops < t2.m_input.length) ∧
      (t3.m_local.length ≤ 0 → 0 - t3.m_local.length + t3.m_globalPops < t3.m_input.length) := by
  obtain ⟨t1, hg1, hl1, hp1, hk1, hin1⟩ := s.get_peek i
  obtain ⟨t2, hg2, hl2, hp2, hk2, hin2⟩ := t1.get_peek 0
  have hlen12 : t1.m_input.length ≤ t2.m_input.length := by
    obtain ⟨w, u, hu, _, _, _, _, hle, _⟩ := t1.get_spec 0
    rw [hg2] at hu
    cases hu
    exact hle
  have hset1 : t2.m_local.length ≤ i →
      i - t2.m_local.length + t2.m_globalPops < t2.m_input.length := by
    intro hle
    rw [hl2, hp2, hl1, hp1]
    have := hin1 (by rw [← hl1, ← hl2]; exact hle)
    omega
  obtain ⟨t3, hs3, hl3, hp3, hlen3, hk3⟩ := t2.set_peek i (t1.peek 0) hset1
  have hset2 : t3.m_local.length ≤ 0 →
      0 - t3.m_local.length + t3.m_globalPops < t3.m_input.length := by
    intro hle
    rw [hl3, hp3, hlen3, hl2, hp2]
    exact hin2 (by rw [← hl2, ← hl3]; exact hle)
  obtain ⟨s1, hs4, hl4, hp4, _, hk4⟩ := t3.set_peek 0 (s.peek i) hset2
  have hswap : s.swap i = some s1 := by
    unfold LocalStack.swap
    rw [if_pos (by omega), hg1]
    dsimp only
    rw [hg2]
    dsimp only
    rw [hs3]
    exact hs4
  refine ⟨s.peek i, t1.peek 0, t1, t2, t3, s1, hg1, hg2, hs3, hs4, hswap, ?_, ?_, ?_, ?_, ?_, ?_,
    hset1, hset2⟩
  · rw [LocalStack.get_fst, hk1]
  · rw [LocalStack.get_fst, hk4, if_pos rfl]
  · rw [LocalStack.get_fst, hk4, if_neg (by omega), hk3, if_pos rfl]
  · intro j hj0 hji
    rw [LocalStack.get_fst, LocalStack.get_fst, hk4, if_neg hj0, hk3, if_neg hji, hk2, hk1]
  · rw [hl4, hl3, hl2, hl1]
  · rw [hp4, hp3, hp2, hp1]

/-- Witness for C31: SWAP2 on a stack with one local item, after one item was
popped from the stack of the caller. -/
theorem swap_spec_witness :
    ∃ a b t1 t2 t3 s1,
      LocalStack.get ⟨[Word.value 7], [some (Word.load (-1))], 1, -1, 1⟩ 2 = some (a, t1) ∧
      t1.get 0 = some (b, t2) ∧ t2.set 2 b = some t3 ∧
      t3.set 0 a = some s1 ∧
      LocalStack.swap ⟨[Word.value 7], [some (Word.load (-1))], 1, -1, 1⟩ 2 = some s1 ∧
      (LocalStack.get ⟨[Word.value 7], [some (Word.load (-1))], 1, -1, 1⟩ 0).map Prod.fst =
        some b ∧
      (s1.get 0).map Prod.fst = some a ∧ (s1.get 2).map Prod.fst = some b ∧
      (∀ j, j ≠ 0 → j ≠ 2 → (s1.get j).map Prod.fst =
        (LocalStack.get ⟨[Word.value 7], [some (Word.load (-1))], 1, -1, 1⟩ j).map Prod.fst) ∧
      s1.m_local.length = (⟨[Word.value 7], [some (Word.load (-1))], 1, -1, 1⟩ :
        LocalStack).m_local.length ∧
      s1.m_globalPops = (⟨[Word.value 7], [some (Word.load (-1))], 1, -1, 1⟩ :
        LocalStack).m_globalPops ∧
      (t2.m_local.length ≤ 2 → 2 - t2.m_local.length + t2.m_globalPops < t2.m_input.length) ∧
      (t3.m_local.length ≤ 0 → 0 - t3.m_local.length + t3.m_globalPops < t3.m_input.length) :=
  swap_spec ⟨[Word.value 7], [some (Word.load (-1))], 1, -1, 1⟩ 2 (by decide)

/-! ## The least size of the local stack -/

/-- The method `set` does not change `m_minSize`. -/
theorem LocalStack.set_minSize (s s1 : LocalStack) (index : Nat) (w : Word)
    (h : s.set index w = some s1) : s1.m_minSize = s.m_minSize := by
  unfold LocalStack.set at h
  by_cases h1 : index < s.m_local.length
  · rw [if_pos h1] at h
    cases h
    rfl
  · rw [if_neg h1] at h
    dsimp only at h
    by_cases h2 : index - s.m_local.length + s.m_globalPops < s.m_input.length
    · rw [if_pos h2] at h
      cases h
      rfl
    · rw [if_neg h2] at h
      cases h

/-- The method `get` keeps `m_minSize` at minus the length of `m_input`: a
first read of a slot lowers it to the slot when `m_input` grows. -/
theorem LocalStack.get_minSize (s : LocalStack) (index : Nat)
    (hmin : s.m_minSize = -(s.m_input.length : Int)) (w : Word) (s1 : LocalStack)
    (h : s.get index = some (w, s1)) : s1.m_minSize = -(s1.m_input.length : Int) := by
  unfold LocalStack.get at h
  by_cases hl : index < s.m_local.length
  · rw [if_pos hl] at h
    cases hx : s.m_local[s.m_local.length - 1 - index]? with
    | none => rw [hx] at h; cases h
    | some item =>
      rw [hx] at h
      cases h
      exact hmin
  · rw [if_neg hl] at h
    dsimp only at h
    generalize index - s.m_local.length + s.m_globalPops = idx at h
    by_cases hge : idx ≥ s.m_input.length
    · rw [if_pos hge, LocalStack.resize_last _ _ hge] at h
      dsimp only at h
      cases h
      dsimp only
      rw [List.length_set, LocalStack.length_resize, hmin]
      push_cast
      omega
    · rw [if_neg hge] at h
      have hlt : idx < s.m_input.length := by omega
      cases hx : s.m_input[idx]? with
      | none =>
        rw [List.getElem?_eq_getElem hlt] at hx
        cases hx
      | some o =>
        rw [hx] at h
        cases o with
        | some item =>
          dsimp only at h
          cases h
          exact hmin
        | none =>
          dsimp only at h
          cases h
          dsimp only
          rw [List.length_set, hmin]
          omega

/-- Every operation keeps `m_minSize` at minus the length of `m_input`. -/
theorem LocalStack.minSize_step (s s1 : LocalStack) (op : LocalStack.Op)
    (h : s.step op = some s1) (hinv : s.m_globalPops ≤ s.m_input.length)
    (hmin : s.m_minSize = -(s.m_input.length : Int)) :
    s1.m_minSize = -(s1.m_input.length : Int) := by
  cases op with
  | push v =>
    simp only [LocalStack.step, Option.some.injEq] at h
    subst h
    exact hmin
  | pop =>
    obtain ⟨w, s2, hget, hl, hp, _, _, hlen, hidx⟩ := LocalStack.get_spec s 0
    have hmin2 := LocalStack.get_minSize s 0 hmin w s2 hget
    simp only [LocalStack.step, LocalStack.pop, hget] at h
    by_cases hc : (s2.m_local.isEmpty && s2.m_input.isEmpty) = true
    · rw [if_pos hc] at h
      cases h
    · rw [if_neg hc] at h
      simp only [Option.map_some', Option.some.injEq] at h
      subst h
      by_cases hpos : s2.m_local.length > 0
      · rw [if_pos hpos]
        simp only [LocalStack.size, List.length_dropLast]
        omega
      · rw [if_neg hpos]
        simp only [LocalStack.size]
        have := hidx (by rw [← hl]; omega)
        push_cast
        omega
  | get i =>
    obtain ⟨w, s2, hget, _⟩ := LocalStack.get_spec s i
    simp only [LocalStack.step, hget, Option.map_some', Option.some.injEq] at h
    subst h
    exact LocalStack.get_minSize s i hmin w _ hget
  | dup i =>
    obtain ⟨w, s2, hget, _⟩ := LocalStack.get_spec s i
    simp only [LocalStack.step, LocalStack.dup, hget, Option.some.injEq] at h
    subst h
    exact LocalStack.get_minSize s i hmin w s2 hget
  | swap i =>
    obtain ⟨w, s2, hget, _⟩ := LocalStack.get_spec s i
    obtain ⟨w3, s3, hget3, _⟩ := LocalStack.get_spec s2 0
    have hmin2 := LocalStack.get_minSize s i hmin w s2 hget
    have hmin3 := LocalStack.get_minSize s2 0 hmin2 w3 s3 hget3
    simp only [LocalStack.step, LocalStack.swap] at h
    by_cases hi : i > 0
    · rw [if_pos hi] at h
      simp only [hget, hget3] at h
      cases h4 : s3.set i w3 with
      | none => rw [h4] at h; cases h
      | some s4 =>
        rw [h4] at h
        have h5 := LocalStack.set_some _ _ _ _ h4
        have h6 := LocalStack.set_some _ _ _ _ h
        rw [LocalStack.set_minSize _ _ _ _ h, LocalStack.set_minSize _ _ _ _ h4, h6.2.1, h5.2.1]
        exact hmin3
    · rw [if_neg hi] at h
      cases h

/-- A state reached from the new stack has `m_minSize` at minus the length of
`m_input`. -/
theorem LocalStack.minSize_run (ops : List LocalStack.Op) :
    ∀ (s s1 : LocalStack), LocalStack.run ops s = some s1 →
      s.m_globalPops ≤ s.m_input.length → s.m_minSize = -(s.m_input.length : Int) →
      s1.m_minSize = -(s1.m_input.length : Int) := by
  induction ops with
  | nil =>
    intro s s1 h _ hmin
    simp only [LocalStack.run, Option.some.injEq] at h
    subst h
    exact hmin
  | cons op ops ih =>
    intro s s1 h hinv hmin
    simp only [LocalStack.run] at h
    cases h2 : s.step op with
    | none => rw [h2] at h; cases h
    | some s2 =>
      rw [h2] at h
      exact ih s2 s1 h (LocalStack.globalPops_le_step s s2 op h2 hinv)
        (LocalStack.minSize_step s s2 op h2 hinv hmin)

/-- C34: for a new local stack and every sequence of `push`, `pop`, `get`,
`dup` and `swap` calls (`swap` with its index above 0, as its assertion
demands), no assertion fails, and after every operation (every prefix of the
sequence) `min_size = -len(input)` and `len(input) >= global_pops` hold; so the
first argument that `finalize` writes into `stack.prepare` is `-len(input)`,
and the write-back loop of `finalize`, which starts at the slot `-len(input)`,
starts at the slot `min_size`. -/
theorem localStack_minSize (ops : List LocalStack.Op)
    (hops : ∀ i, LocalStack.Op.swap i ∈ ops → 0 < i) (n : Nat) :
    ∃ s, LocalStack.run (ops.take n) LocalStack.fresh = some s ∧
      s.m_minSize = -(s.m_input.length : Int) ∧ s.m_input.length ≥ s.m_globalPops ∧
      s.finalizeArgs.1 = -(s.m_input.length : Int) ∧
      s.finalizeStores =
        s.finalizeLoop (s.m_input.length + s.m_local.length) s.m_minSize 0 0 [] := by
  obtain ⟨s, h1, _⟩ := LocalStack.inv_run (ops.take n) LocalStack.fresh
    (fun i hi => hops i (List.mem_of_mem_take hi)) LocalStack.inv_new
  have h2 := LocalStack.globalPops_le_run (ops.take n) _ s h1 (Nat.le_refl _)
  have h3 := LocalStack.minSize_run (ops.take n) _ s h1 (Nat.le_refl _) rfl
  refine ⟨s, h1, h3, h2, h3, ?_⟩
  unfold LocalStack.finalizeStores
  rw [h3]

/-- Witness for C34: `push, pop, pop, swap 2, dup 5, get 7`, whole sequence. -/
theorem localStack_minSize_witness :
    ∃ s, LocalStack.run
        ([LocalStack.Op.push (Word.value 1), LocalStack.Op.pop, LocalStack.Op.pop,
          LocalStack.Op.swap 2, LocalStack.Op.dup 5, LocalStack.Op.get 7].take 6)
        LocalStack.fresh = some s ∧
      s.m_minSize = -(s.m_input.length : Int) ∧ s.m_input.length ≥ s.m_globalPops ∧
      s.finalizeArgs.1 = -(s.m_input.length : Int) ∧
      s.finalizeStores =
        s.finalizeLoop (s.m_input.length + s.m_local.length) s.m_minSize 0 0 [] :=
  localStack_minSize
    [LocalStack.Op.push (Word.value 1), LocalStack.Op.pop, LocalStack.Op.pop,
      LocalStack.Op.swap 2, LocalStack.Op.dup 5, LocalStack.Op.get 7]
    (by intro i hi; simp at hi; omega) 6

/-! ## The size of the global stack after `stack.prepare` -/

/-- The block `Check` of `stack.prepare`: the values of `ok.min`, `ok.max` and
`ok`. -/
theorem stackPrepare_check (mem : IR.Memory) (base : Int) (sizePtr : Nat) (min max diff : Int)
    (jmpBuf : Nat) :
    ∃ b env, getStackPrepareFunc.blocks.head? = some b ∧ b.name = "Check" ∧
      IR.execInsts b.insts
        (getStackPrepareFunc.params.zip
          [.wordPtr base, .ptr sizePtr, .i64 min, .i64 max, .i64 diff, .bytePtr jmpBuf]) mem =
        some (env, mem) ∧
      env.lookup "ok.min" = some (.i1 (decide (0 ≤ wrapI64 (mem.cells sizePtr + min)))) ∧
      env.lookup "ok.max" = some (.i1 (decide
        (toU64 (wrapI64 (mem.cells sizePtr + max)) ≤ toU64 (wrapI64 stackSizeLimit)))) ∧
      env.lookup "ok" = some (.i1 (decide (0 ≤ wrapI64 (mem.cells sizePtr + min)) &&
        decide (toU64 (wrapI64 (mem.cells sizePtr + max)) ≤ toU64 (wrapI64 stackSizeLimit)))) := by
  refine ⟨_,
    [("ok", .i1 (decide (0 ≤ wrapI64 (mem.cells sizePtr + min)) &&
        decide (toU64 (wrapI64 (mem.cells sizePtr + max)) ≤ toU64 (wrapI64 stackSizeLimit)))),
      ("ok.max", .i1 (decide
        (toU64 (wrapI64 (mem.cells sizePtr + max)) ≤ toU64 (wrapI64 stackSizeLimit)))),
      ("ok.min", .i1 (decide (0 ≤ wrapI64 (mem.cells sizePtr + min)))),
      ("size.max", .i64 (wrapI64 (mem.cells sizePtr + max))),
      ("size.min", .i64 (wrapI64 (mem.cells sizePtr + min))),
      ("size", .i64 (mem.cells sizePtr)),
      ("base", .wordPtr base), ("size.ptr", .ptr sizePtr), ("min", .i64 min), ("max", .i64 max),
      ("diff", .i64 diff), ("jmpBuf", .bytePtr jmpBuf)],
    rfl, rfl, ?_, ?_, ?_, ?_⟩
  · simp [getStackPrepareFunc, execInsts, execInst, evalOperand, List.lookup, wrapI64_zero]
  · simp [List.lookup]
  · simp [List.lookup]
  · simp [List.lookup]

/-- The unsigned comparison of `stack.prepare` for a size within the limit and
a 64-bit `max`: it holds when the sum is between 0 and the limit. -/
theorem stackPrepare_okMax_size {s max : Int} (hs0 : 0 ≤ s) (hs1 : s ≤ 1024)
    (h1 : -2 ^ 63 ≤ max) (h2 : max < 2 ^ 63) :
    toU64 (wrapI64 (s + max)) ≤ toU64 (wrapI64 stackSizeLimit) ↔ 0 ≤ s + max ∧ s + max ≤ 1024 := by
  have h3 : wrapI64 stackSizeLimit = 1024 := by decide
  rw [h3]
  unfold toU64 wrapI64
  omega

/-- C35: a call of the emitted `stack.prepare` with the size `s` of the global
stack in `[0, 1024]` and a triple of 64-bit arguments as every finalized local
stack provides it, `min <= diff <= max` and `0 <= max` (the local stack after
any sequence of its operations has `min_size <= size <= max_size` and
`0 <= max_size`, and `finalize` passes these three).  The call runs `Check` and
then `Update` or `OutOfStack`; it takes `Update` exactly when `0 <= s + min` and
`s + max <= 1024`, and then the new size that it stores is `s + diff`, with
`0 <= s + diff <= 1024`.  The unsigned comparison `ok.max` of the block `Check`
has the value of the signed comparison `s + max <= 1024`: the sum is not
negative, and where it does not overflow the 64 bits it is the value that the
block computes. -/
theorem stackPrepare_size (mem : IR.Memory) (base : Int) (sizePtr : Nat) (min max diff : Int)
    (jmpBuf : Nat) (hs0 : 0 ≤ mem.cells sizePtr) (hs1 : mem.cells sizePtr ≤ 1024)
    (hmd : min ≤ diff) (hdm : diff ≤ max) (hmax0 : 0 ≤ max)
    (hmin : -2 ^ 63 ≤ min) (hmax : max < 2 ^ 63) :
    (∀ ops : List LocalStack.Op, (∀ i, LocalStack.Op.swap i ∈ ops → 0 < i) →
      ∃ st, LocalStack.run ops LocalStack.fresh = some st ∧
        st.finalizeArgs = (st.m_minSize, st.m_maxSize, st.size) ∧
        st.m_minSize ≤ st.size ∧ st.size ≤ st.m_maxSize ∧ 0 ≤ st.m_maxSize) ∧
    ∃ r mem1 path,
      IR.call getStackPrepareFunc
          [.wordPtr base, .ptr sizePtr, .i64 min, .i64 max, .i64 diff, .bytePtr jmpBuf] mem =
        some (r, mem1) ∧
      IR.callPath getStackPrepareFunc
          [.wordPtr base, .ptr sizePtr, .i64 min, .i64 max, .i64 diff, .bytePtr jmpBuf] mem =
        some path ∧
      (path = ["Check", "Update"] ∨ path = ["Check", "OutOfStack"]) ∧
      (path = ["Check", "Update"] ↔
        0 ≤ mem.cells sizePtr + min ∧ mem.cells sizePtr + max ≤ 1024) ∧
      (path = ["Check", "Update"] →
        mem1.cells sizePtr = mem.cells sizePtr + diff ∧ 0 ≤ mem1.cells sizePtr ∧
          mem1.cells sizePtr ≤ 1024) ∧
      (∃ b env, getStackPrepareFunc.blocks.head? = some b ∧ b.name = "Check" ∧
        IR.execInsts b.insts
          (getStackPrepareFunc.params.zip
            [.wordPtr base, .ptr sizePtr, .i64 min, .i64 max, .i64 diff, .bytePtr jmpBuf]) mem =
          some (env, mem) ∧
        env.lookup "ok.max" = some (.i1 (decide
          (toU64 (wrapI64 (mem.cells sizePtr + max)) ≤ toU64 (wrapI64 stackSizeLimit)))) ∧
        env.lookup "ok.max" = some (.i1 (decide (mem.cells sizePtr + max ≤ 1024)))) ∧
      0 ≤ mem.cells sizePtr + max ∧
      (mem.cells sizePtr + max < 2 ^ 63 →
        wrapI64 (mem.cells sizePtr + max) = mem.cells sizePtr + max) := by
  have hmax1 : -2 ^ 63 ≤ max := by omega
  have hokmax := stackPrepare_okMax_size hs0 hs1 hmax1 hmax
  have hsum : 0 ≤ mem.cells sizePtr + max := by omega
  have hokmax2 : toU64 (wrapI64 (mem.cells sizePtr + max)) ≤ toU64 (wrapI64 stackSizeLimit) ↔
      mem.cells sizePtr + max ≤ 1024 := by
    rw [hokmax]
    exact ⟨fun h => h.2, fun h => ⟨hsum, h⟩⟩
  have hmin1 : min < 2 ^ 63 := by omega
  have hc : (0 ≤ wrapI64 (mem.cells sizePtr + min) ∧
      toU64 (wrapI64 (mem.cells sizePtr + max)) ≤ toU64 (wrapI64 stackSizeLimit)) ↔
      (0 ≤ mem.cells sizePtr + min ∧ mem.cells sizePtr + max ≤ 1024) := by
    rw [hokmax2]
    constructor
    · rintro ⟨h1, h2⟩
      have h4 : mem.cells sizePtr + min < 2 ^ 63 := by omega
      rw [wrapI64_of_range (by omega) h4] at h1
      exact ⟨h1, h2⟩
    · rintro ⟨h1, h2⟩
      rw [wrapI64_of_range (by omega) (by omega)]
      exact ⟨h1, h2⟩
  obtain ⟨b, env, hb1, hb2, hb3, _, hb5, _⟩ :=
    stackPrepare_check mem base sizePtr min max diff jmpBuf
  have hcheck : ∃ b env, getStackPrepareFunc.blocks.head? = some b ∧ b.name = "Check" ∧
      IR.execInsts b.insts
        (getStackPrepareFunc.params.zip
          [.wordPtr base, .ptr sizePtr, .i64 min, .i64 max, .i64 diff, .bytePtr jmpBuf]) mem =
        some (env, mem) ∧
      env.lookup "ok.max" = some (.i1 (decide
        (toU64 (wrapI64 (mem.cells sizePtr + max)) ≤ toU64 (wrapI64 stackSizeLimit)))) ∧
      env.lookup "ok.max" = some (.i1 (decide (mem.cells sizePtr + max ≤ 1024))) := by
    refine ⟨b, env, hb1, hb2, hb3, hb5, ?_⟩
    rw [hb5]
    simp only [hokmax2]
  have hwrap : mem.cells sizePtr + max < 2 ^ 63 →
      wrapI64 (mem.cells sizePtr + max) = mem.cells sizePtr + max :=
    fun h => wrapI64_of_range (by omega) h
  constructor
  · intro ops hops
    obtain ⟨st, h1, h2, h3, _, h5⟩ := LocalStack.inv_run ops LocalStack.fresh hops
      LocalStack.inv_new
    exact ⟨st, h1, rfl, h2, h3, h5⟩
  rw [stackPrepare_call, stackPrepare_path]
  by_cases h : 0 ≤ wrapI64 (mem.cells sizePtr + min) ∧
      toU64 (wrapI64 (mem.cells sizePtr + max)) ≤ toU64 (wrapI64 stackSizeLimit)
  · rw [if_pos h, if_pos h]
    have h1 := hc.mp h
    have hd : wrapI64 (mem.cells sizePtr + diff) = mem.cells sizePtr + diff :=
      wrapI64_of_range (by omega) (by omega)
    refine ⟨_, _, _, rfl, rfl, Or.inl rfl, ⟨fun _ => h1, fun _ => rfl⟩, ?_, hcheck, hsum, hwrap⟩
    intro _
    have hcell : (mem.setCell sizePtr (wrapI64 (mem.cells sizePtr + diff))).cells sizePtr =
        mem.cells sizePtr + diff := by
      simp [Memory.setCell, hd]
    rw [hcell]
    omega
  · rw [if_neg h, if_neg h]
    refine ⟨_, _, _, rfl, rfl, Or.inr rfl,
      ⟨fun h1 => absurd h1 (by decide), fun h1 => absurd (hc.mpr h1) h⟩, ?_, hcheck, hsum, hwrap⟩
    intro h1
    exact absurd h1 (by decide)

/-- Witness for C35: a stack of 3 items and a block that pops two and pushes
one, the triple `(-2, 0, -1)`. -/
theorem stackPrepare_size_witness :
    (LocalStack.run [LocalStack.Op.pop, LocalStack.Op.pop, LocalStack.Op.push (Word.value 0)]
        LocalStack.fresh).map LocalStack.finalizeArgs = some (-2, 0, -1) ∧
    ∃ r mem1 path,
      IR.call getStackPrepareFunc
          [.wordPtr 0, .ptr 0, .i64 (-2), .i64 0, .i64 (-1), .bytePtr 0]
          ⟨fun _ => 3, fun _ => false⟩ = some (r, mem1) ∧
      IR.callPath getStackPrepareFunc
          [.wordPtr 0, .ptr 0, .i64 (-2), .i64 0, .i64 (-1), .bytePtr 0]
          ⟨fun _ => 3, fun _ => false⟩ = some path ∧
      (path = ["Check", "Update"] ∨ path = ["Check", "OutOfStack"]) ∧
      (path = ["Check", "Update"] ↔
        0 ≤ (⟨fun _ => 3, fun _ => false⟩ : IR.Memory).cells 0 + (-2) ∧
          (⟨fun _ => 3, fun _ => false⟩ : IR.Memory).cells 0 + 0 ≤ 1024) ∧
      (path = ["Check", "Update"] →
        mem1.cells 0 = (⟨fun _ => 3, fun _ => false⟩ : IR.Memory).cells 0 + (-1) ∧
          0 ≤ mem1.cells 0 ∧ mem1.cells 0 ≤ 1024) ∧
      (∃ b env, getStackPrepareFunc.blocks.head? = some b ∧ b.name = "Check" ∧
        IR.execInsts b.insts
          (getStackPrepareFunc.params.zip
            [.wordPtr 0, .ptr 0, .i64 (-2), .i64 0, .i64 (-1), .bytePtr 0])
          ⟨fun _ => 3, fun _ => false⟩ = some (env, ⟨fun _ => 3, fun _ => false⟩) ∧
        env.lookup "ok.max" = some (.i1 (decide
          (toU64 (wrapI64 ((⟨fun _ => 3, fun _ => false⟩ : IR.Memory).cells 0 + 0)) ≤
            toU64 (wrapI64 stackSizeLimit)))) ∧
        env.lookup "ok.max" = some (.i1 (decide
          ((⟨fun _ => 3, fun _ => false⟩ : IR.Memory).cells 0 + 0 ≤ 1024)))) ∧
      0 ≤ (⟨fun _ => 3, fun _ => false⟩ : IR.Memory).cells 0 + 0 ∧
      ((⟨fun _ => 3, fun _ => false⟩ : IR.Memory).cells 0 + 0 < 2 ^ 63 →
        wrapI64 ((⟨fun _ => 3, fun _ => false⟩ : IR.Memory).cells 0 + 0) =
          (⟨fun _ => 3, fun _ => false⟩ : IR.Memory).cells 0 + 0) :=
  ⟨by decide,
    (stackPrepare_size ⟨fun _ => 3, fun _ => false⟩ 0 0 (-2) 0 (-1) 0 (by decide) (by decide)
      (by decide) (by decide) (by decide) (by decide) (by decide)).2⟩

/-! ## The resolution of the jumps -/

/-- The loop of `resolveJumps` at a block: the body with the following block,
then the rest of the blocks. -/
theorem resolveJumpsLoop_cons (jumpTable : JumpTable) (b : BlockCode) (rest : List BlockCode)
    (jumpTableInput : List (Word × BlockHandle)) :
    resolveJumpsLoop jumpTable (b :: rest) jumpTableInput =
      match resolveJump jumpTable (nextBlock rest) b jumpTableInput with
      | some (b1, jumpTableInput1) =>
        (resolveJumpsLoop jumpTable rest jumpTableInput1).map (fun r => (b1 :: r.1, r.2))
      | none => none := by
  cases rest <;> rfl

/-- The loop of `resolveJumps` applies its body to every block, with the block
that follows it in the function as the next block. -/
theorem resolveJumpsLoop_split (jumpTable : JumpTable) (b : BlockCode) (post : List BlockCode) :
    ∀ (pre : List BlockCode) (input : List (Word × BlockHandle)) (blocks : List BlockCode)
      (out : List (Word × BlockHandle)),
      resolveJumpsLoop jumpTable (pre ++ b :: post) input = some (blocks, out) →
      ∃ pre1 b1 post1 input1 input2, blocks = pre1 ++ b1 :: post1 ∧ pre1.length = pre.length ∧
        resolveJump jumpTable (nextBlock post) b input1 = some (b1, input2) ∧
        resolveJumpsLoop jumpTable post input2 = some (post1, out) := by
  intro pre
  induction pre with
  | nil =>
    intro input blocks out h
    rw [List.nil_append, resolveJumpsLoop_cons] at h
    cases hb : resolveJump jumpTable (nextBlock post) b input with
    | none => rw [hb] at h; cases h
    | some r =>
      obtain ⟨b1, input2⟩ := r
      rw [hb] at h
      dsimp only at h
      cases hr : resolveJumpsLoop jumpTable post input2 with
      | none => rw [hr] at h; cases h
      | some q =>
        rw [hr] at h
        cases h
        exact ⟨[], b1, q.1, input, input2, rfl, rfl, hb, hr⟩
  | cons a pre ih =>
    intro input blocks out h
    rw [List.cons_append, resolveJumpsLoop_cons] at h
    cases ha : resolveJump jumpTable (nextBlock (pre ++ b :: post)) a input with
    | none => rw [ha] at h; cases h
    | some r =>
      obtain ⟨a1, inputA⟩ := r
      rw [ha] at h
      dsimp only at h
      cases hr : resolveJumpsLoop jumpTable (pre ++ b :: post) inputA with
      | none => rw [hr] at h; cases h
      | some q =>
        obtain ⟨q1, q2⟩ := q
        rw [hr] at h
        cases h
        obtain ⟨pre1, b1, post1, input1, input2, h1, h2, h3, h4⟩ := ih inputA q1 q2 hr
        refine ⟨a1 :: pre1, b1, post1, input1, input2, ?_, ?_, h3, h4⟩
        · dsimp only
          rw [h1]
          rfl
        · simp [h2]

/-- The successor of a constant that is the value of a case, in a switch whose
case values are distinct: the successor of that case. -/
theorem findCaseSuccessor_mem (jumpTable : JumpTable) (v : Nat) (target : BlockHandle)
    (h : (v, target) ∈ jumpTable) (hu : (jumpTable.map Prod.fst).Nodup) :
    findCaseSuccessor jumpTable ⟨128, v⟩ = target := by
  unfold findCaseSuccessor
  induction jumpTable with
  | nil => simp at h
  | cons c rest ih =>
    rw [List.map_cons, List.nodup_cons] at hu
    rcases List.mem_cons.mp h with h1 | h1
    · rw [← h1]
      simp [List.find?]
    · have hne : c.1 ≠ v := by
        intro he
        apply hu.1
        rw [he]
        exact List.mem_map.mpr ⟨(v, target), h1, rfl⟩
      have hb : (decide ((128 : Nat) = 128) && c.1 == v) = false := by simp [hne]
      rw [List.find?_cons, hb]
      exact ih h1 hu.2

/-- The successor of a constant that is the value of no case: the default
destination of the switch, `Abort`. -/
theorem findCaseSuccessor_default (jumpTable : JumpTable) (constant : BV)
    (h : ∀ c ∈ jumpTable, constant.bits = 128 → c.1 ≠ constant.val) :
    findCaseSuccessor jumpTable constant = BlockHandle.abort := by
  unfold findCaseSuccessor
  have hn : jumpTable.find? (fun c => decide (constant.bits = 128) && c.1 == constant.val) =
      none := by
    rw [List.find?_eq_none]
    intro c hc
    by_cases hb : constant.bits = 128
    · have := h c hc hb
      simp [this]
    · simp [hb]
  rw [hn]

/-- C32: in `resolveJumps`, for a block whose terminator branches to
`JumpTable` with a destination index that is a constant, the value of one of
the cases of the switch (whose case values are distinct): the body of the loop
rewrites successor 0 of the branch to the successor of that case and adds
nothing to the PHI node of the jump table; for a conditional branch (JUMPI) it
also sets successor 1 to the block that follows in the function.  The loop
over the blocks applies this body to the block, with the following block (the
block `Stop` after the last) as the next block. -/
theorem resolveJumps_direct (jumpTable : JumpTable) (b : BlockCode) (destIdx : Word) (v : Nat)
    (target : BlockHandle) (hc : destIdx.constOf = some ⟨128, v⟩)
    (hcase : (v, target) ∈ jumpTable) (hu : (jumpTable.map Prod.fst).Nodup) :
    (b.term = some (BlockTerm.br BlockHandle.jumpTable (some destIdx)) →
      ∀ next input, resolveJump jumpTable next b input =
        some ({ b with term := some (BlockTerm.br target (some destIdx)) }, input)) ∧
    (∀ cond succ1, b.term = some (BlockTerm.condBr cond BlockHandle.jumpTable succ1
        (some destIdx)) →
      ∀ next input, resolveJump jumpTable next b input =
        some ({ b with term := some (BlockTerm.condBr cond target (some next) (some destIdx)) },
          input)) ∧
    (∀ pre post input blocks out,
      resolveJumpsLoop jumpTable (pre ++ b :: post) input = some (blocks, out) →
      ∃ pre1 b1 post1 input1, blocks = pre1 ++ b1 :: post1 ∧ pre1.length = pre.length ∧
        resolveJumpsLoop jumpTable post input1 = some (post1, out) ∧
        (b.term = some (BlockTerm.br BlockHandle.jumpTable (some destIdx)) →
          resolveJump jumpTable (nextBlock post) b input1 = some (b1, input1) ∧
          b1 = { b with term := some (BlockTerm.br target (some destIdx)) }) ∧
        (∀ cond succ1, b.term = some (BlockTerm.condBr cond BlockHandle.jumpTable succ1
            (some destIdx)) →
          resolveJump jumpTable (nextBlock post) b input1 = some (b1, input1) ∧
          b1 = { b with term := some (BlockTerm.condBr cond target (some (nextBlock post))
            (some destIdx)) })) := by
  have hf := findCaseSuccessor_mem jumpTable v target hcase hu
  have h1 : b.term = some (BlockTerm.br BlockHandle.jumpTable (some destIdx)) →
      ∀ next input, resolveJump jumpTable next b input =
        some ({ b with term := some (BlockTerm.br target (some destIdx)) }, input) := by
    intro ht next input
    unfold resolveJump
    rw [ht]
    simp only [if_true, hc, hf]
  have h2 : ∀ cond succ1, b.term = some (BlockTerm.condBr cond BlockHandle.jumpTable succ1
        (some destIdx)) →
      ∀ next input, resolveJump jumpTable next b input =
        some ({ b with term := some (BlockTerm.condBr cond target (some next) (some destIdx)) },
          input) := by
    intro cond succ1 ht next input
    unfold resolveJump
    rw [ht]
    simp only [if_true, hc, hf]
  refine ⟨h1, h2, ?_⟩
  intro pre post input blocks out h
  obtain ⟨pre1, b1, post1, input1, input2, h3, h4, h5, h6⟩ :=
    resolveJumpsLoop_split jumpTable b post pre input blocks out h
  by_cases hbr : b.term = some (BlockTerm.br BlockHandle.jumpTable (some destIdx))
  · have h7 := h1 hbr (nextBlock post) input1
    rw [h7] at h5
    cases h5
    refine ⟨pre1, _, post1, input1, h3, h4, h6, fun _ => ⟨h7, rfl⟩, ?_⟩
    intro cond succ1 ht
    rw [hbr] at ht
    cases ht
  · by_cases hcb : ∃ cond succ1, b.term = some (BlockTerm.condBr cond BlockHandle.jumpTable succ1
        (some destIdx))
    · obtain ⟨cond, succ1, ht⟩ := hcb
      have h7 := h2 cond succ1 ht (nextBlock post) input1
      rw [h7] at h5
      cases h5
      refine ⟨pre1, _, post1, input1, h3, h4, h6, fun h8 => absurd h8 hbr, ?_⟩
      intro cond2 succ2 ht2
      rw [ht] at ht2
      cases ht2
      exact ⟨h7, rfl⟩
    · refine ⟨pre1, b1, post1, input2, h3, h4, h6, fun h8 => absurd h8 hbr, ?_⟩
      intro cond succ1 ht
      exact absurd ⟨cond, succ1, ht⟩ hcb

/-- Witness for C32: the block of `PUSH1 3, JUMP` before the block of the
JUMPDEST at offset 3, which has the case 3 of the switch. -/
theorem resolveJumps_direct_witness :
    (Word.const 128 3).constOf = some ⟨128, 3⟩ ∧
    (3, BlockHandle.code 3) ∈ ([(3, BlockHandle.code 3)] : JumpTable) ∧
    ∀ next input,
      resolveJump [(3, BlockHandle.code 3)] next
          ⟨BlockHandle.code 0, LocalStack.fresh,
            some (BlockTerm.br BlockHandle.jumpTable (some (Word.const 128 3)))⟩ input =
        some (⟨BlockHandle.code 0, LocalStack.fresh,
          some (BlockTerm.br (BlockHandle.code 3) (some (Word.const 128 3)))⟩, input) :=
  ⟨rfl, by decide,
    (resolveJumps_direct [(3, BlockHandle.code 3)]
      ⟨BlockHandle.code 0, LocalStack.fresh,
        some (BlockTerm.br BlockHandle.jumpTable (some (Word.const 128 3)))⟩
      (Word.const 128 3) 3 (BlockHandle.code 3) rfl (by decide) (by decide)).1 rfl⟩

/-- C33 (as stated) fails for a constant destination that is the value of no
case: for the bytecode `60 00 56` (PUSH1 0, JUMP) the switch has no case, the
branch of the block goes to `JumpTable` with the constant 0 as its destination
index, and `resolveJumps` rewrites successor 0 to the block `Abort` (the
default destination of the switch) and adds nothing to the PHI node. -/
theorem resolveJumps_abort_counterexample :
    ∃ f g, compileMain [0x60, 0x00, 0x56] EVM_AION false = some f ∧
      f.jumpTable = [] ∧
      f.blocks.map (fun b => b.term) =
        [some (BlockTerm.br BlockHandle.jumpTable (some (Word.const 128 0)))] ∧
      (Word.const 128 0).constOf = some ⟨128, 0⟩ ∧
      resolveJumps f = some g ∧
      g.blocks.map (fun b => b.term) =
        [some (BlockTerm.br BlockHandle.abort (some (Word.const 128 0)))] ∧
      g.jumpTableInput = [] :=
  ⟨_, _, rfl, rfl, rfl, rfl, rfl, rfl, rfl⟩

/-- C33 (amended): in `resolveJumps`, for a block whose terminator branches to
`JumpTable`: when the destination index is not a constant, successor 0 stays
`JumpTable` and the pair of the destination index and the block is added as an
incoming value of the PHI node of the jump table; when it is a constant that
is the value of no case of the switch, successor 0 is rewritten to the default
destination of the switch, the block `Abort`, and nothing is added to the PHI
node.  In both cases successor 1 of a conditional branch is set to the block
that follows in the function, and the loop over the blocks applies this body
to the block. -/
theorem resolveJumps_indirect (jumpTable : JumpTable) (b : BlockCode) (destIdx : Word) :
    (destIdx.constOf = none →
      (b.term = some (BlockTerm.br BlockHandle.jumpTable (some destIdx)) →
        ∀ next input, resolveJump jumpTable next b input =
          some (b, input ++ [(destIdx, b.llvm)])) ∧
      (∀ cond succ1, b.term = some (BlockTerm.condBr cond BlockHandle.jumpTable succ1
          (some destIdx)) →
        ∀ next input, resolveJump jumpTable next b input =
          some ({ b with term := some (BlockTerm.condBr cond BlockHandle.jumpTable (some next)
            (some destIdx)) }, input ++ [(destIdx, b.llvm)]))) ∧
    (∀ constant, destIdx.constOf = some constant →
      (∀ c ∈ jumpTable, constant.bits = 128 → c.1 ≠ constant.val) →
      (b.term = some (BlockTerm.br BlockHandle.jumpTable (some destIdx)) →
        ∀ next input, resolveJump jumpTable next b input =
          some ({ b with term := some (BlockTerm.br BlockHandle.abort (some destIdx)) }, input)) ∧
      (∀ cond succ1, b.term = some (BlockTerm.condBr cond BlockHandle.jumpTable succ1
          (some destIdx)) →
        ∀ next input, resolveJump jumpTable next b input =
          some ({ b with term := some (BlockTerm.condBr cond BlockHandle.abort (some next)
            (some destIdx)) }, input))) ∧
    (∀ pre post input blocks out,
      resolveJumpsLoop jumpTable (pre ++ b :: post) input = some (blocks, out) →
      ∃ pre1 b1 post1 input1 input2, blocks = pre1 ++ b1 :: post1 ∧ pre1.length = pre.length ∧
        resolveJump jumpTable (nextBlock post) b input1 = some (b1, input2) ∧
        resolveJumpsLoop jumpTable post input2 = some (post1, out)) := by
  refine ⟨?_, ?_, ?_⟩
  · intro hc
    constructor
    · intro ht next input
      unfold resolveJump
      rw [ht]
      simp only [if_true, hc]
    · intro cond succ1 ht next input
      unfold resolveJump
      rw [ht]
      simp only [if_true, hc]
  · intro constant hc hno
    have hf := findCaseSuccessor_default jumpTable constant hno
    constructor
    · intro ht next input
      unfold resolveJump
      rw [ht]
      simp only [if_true, hc, hf]
    · intro cond succ1 ht next input
      unfold resolveJump
      rw [ht]
      simp only [if_true, hc, hf]
  · intro pre post input blocks out h
    exact resolveJumpsLoop_split jumpTable b post pre input blocks out h

end evmjit
